import Mathlib

/-!
# MyMalloc (`mm.c`): explicit free list allocator

A shallow embedding of `src/mm.c`.  Memory is a map from byte addresses to
bytes; a word is `W = sizeof(void *)` bytes, little endian.  `size_t`,
`uintptr_t` and pointer arithmetic are natural numbers reduced modulo
`2 ^ (8 * W)`.  The static `debug` flag of the source is `0` and never
assigned, so the `if (debug)` blocks are not embedded.
-/

namespace MyMalloc

/-! ## Machine words and memory -/

/-- Byte-addressed memory: address to byte value.  The map is total: a load or
store is defined at every address, also outside the memory obtained from
memlib, where the compiled code faults.  The accesses of each routine are
listed in the section "Memory accesses and faults"; a result computed here is
the result of the compiled code when none of the accesses of the call faults
(`Faults`). -/
abbrev Mem := Nat → Nat

/-- Number of values of a `W`-byte word (`size_t`, `uintptr_t`, pointers). -/
def WMOD (W : Nat) : Nat := 2 ^ (8 * W)

/-- Unsigned addition of the word type. -/
def wadd (W a b : Nat) : Nat := (a + b) % WMOD W

/-- Unsigned subtraction of the word type. -/
def wsub (W a b : Nat) : Nat := (a + (WMOD W - b % WMOD W)) % WMOD W

/-- Unsigned multiplication of the word type. -/
def wmul (W a b : Nat) : Nat := (a * b) % WMOD W

/-- Little-endian value of the `n` bytes at `p`. -/
def getBytes (m : Mem) : Nat → Nat → Nat
  | _, 0 => 0
  | p, n + 1 => m p % 256 + 256 * getBytes m (p + 1) n

/-- Store the `n` low bytes of `v` at `p`, little endian. -/
def putBytes (m : Mem) : Nat → Nat → Nat → Mem
  | _, _, 0 => m
  | p, v, n + 1 => putBytes (fun a => if a = p then v % 256 else m a) (p + 1) (v / 256) n

/-- The null pointer. -/
def NULL : Nat := 0

/-! ## Constants and macros of `mm.c` -/

/-- `#define WSIZE sizeof(void *)`; the word size is the parameter `W`. -/
def WSIZE (W : Nat) : Nat := W

/-- `#define DSIZE (2 * WSIZE)`. -/
def DSIZE (W : Nat) : Nat := 2 * WSIZE W

/-- `#define CHUNKSIZE (1 << 15)`. -/
def CHUNKSIZE : Nat := 2 ^ 15

/-- `#define MAX(x, y) ((x) > (y) ? (x) : (y))`. -/
def MAX (x y : Nat) : Nat := if x > y then x else y

/-- `#define PACK(size, alloc) ((size) | (alloc))`. -/
def PACK (size alloc : Nat) : Nat := size ||| alloc

/-- `#define GET(p) (*(uintptr_t *)(p))`. -/
def GET (W : Nat) (m : Mem) (p : Nat) : Nat := getBytes m p W

/-- `#define PUT(p, val) (*(uintptr_t *)(p) = (val))`. -/
def PUT (W : Nat) (m : Mem) (p val : Nat) : Mem := putBytes m p val W

/-- `#define GET_SIZE(p) (GET(p) & ~(WSIZE - 1))`. -/
def GET_SIZE (W : Nat) (m : Mem) (p : Nat) : Nat := GET W m p &&& (WMOD W - 1 - (WSIZE W - 1))

/-- `#define GET_ALLOC(p) (GET(p) & 0x1)`. -/
def GET_ALLOC (W : Nat) (m : Mem) (p : Nat) : Nat := GET W m p &&& 1

/-- `#define HDRP(bp) ((char *)(bp) - WSIZE)`. -/
def HDRP (W bp : Nat) : Nat := wsub W bp (WSIZE W)

/-- `#define FTRP(bp) ((char *)(bp) + GET_SIZE(HDRP(bp)) - DSIZE)`. -/
def FTRP (W : Nat) (m : Mem) (bp : Nat) : Nat :=
  wsub W (wadd W bp (GET_SIZE W m (HDRP W bp))) (DSIZE W)

/-- `#define NEXT_BLKP(bp) ((char *)(bp) + GET_SIZE(((char *)(bp) - WSIZE)))`. -/
def NEXT_BLKP (W : Nat) (m : Mem) (bp : Nat) : Nat :=
  wadd W bp (GET_SIZE W m (wsub W bp (WSIZE W)))

/-- `#define PREV_BLKP(bp) ((char *)(bp) - GET_SIZE(((char *)(bp) - DSIZE)))`. -/
def PREV_BLKP (W : Nat) (m : Mem) (bp : Nat) : Nat :=
  wsub W bp (GET_SIZE W m (wsub W bp (DSIZE W)))

/-- `#define EFL_PBP(bp) (*((void **)bp))`: predecessor link of a free block. -/
def EFL_PBP (W : Nat) (m : Mem) (bp : Nat) : Nat := GET W m bp

/-- `#define EFL_SBP(bp) (*((void **)((char*)bp + WSIZE)))`: successor link. -/
def EFL_SBP (W : Nat) (m : Mem) (bp : Nat) : Nat := GET W m (wadd W bp (WSIZE W))

/-- `#define SET_EFL_PBP(bp, ptr) ((EFL_PBP(bp)) = (ptr))`. -/
def SET_EFL_PBP (W : Nat) (m : Mem) (bp ptr : Nat) : Mem := PUT W m bp ptr

/-- `#define SET_EFL_SBP(bp, ptr) ((EFL_SBP(bp)) = (ptr))`. -/
def SET_EFL_SBP (W : Nat) (m : Mem) (bp ptr : Nat) : Mem := PUT W m (wadd W bp (WSIZE W)) ptr

/-! ## Allocator state -/

/-- The globals of `mm.c` together with the state of the heap-growth
primitive (`memlib`): memory contents, current break and the limit. -/
structure State where
  /-- Bytes of the address space. -/
  mem : Mem
  /-- Current end of the heap region (`mem_brk` of memlib). -/
  mem_brk : Nat
  /-- Largest end address the heap may reach (`mem_max_addr` of memlib). -/
  mem_max_addr : Nat
  /-- Number of invocations of `mem_sbrk` so far (observation only). -/
  sbrk_calls : Nat
  /-- Number of failed invocations of `mem_sbrk` so far (observation only). -/
  sbrk_fails : Nat
  /-- `static char *heap_listp`. -/
  heap_listp : Nat
  /-- `static void *ef_listp`. -/
  ef_listp : Nat
  /-- `static int extendorfree`. -/
  extendorfree : Nat
  /-- `static size_t lastfailedsize`. -/
  lastfailedsize : Nat

/-- Modelled from the spec: the heap-growth primitive `mem_sbrk` of
`memlib.c`, which is not part of the sources.  It "extends the heap's managed
region by exactly n_bytes and returns the address that was the previous end of
the region; fails when the underlying resource limit is reached".  Failure is
the pointer `(void *)-1`, as `mm.c` tests for it, and leaves the region as it
was. -/
def mem_sbrk (W : Nat) (st : State) (incr : Nat) : State × Nat :=
  if st.mem_brk + incr > st.mem_max_addr then
    ({ st with sbrk_calls := st.sbrk_calls + 1, sbrk_fails := st.sbrk_fails + 1 }, WMOD W - 1)
  else
    ({ st with mem_brk := st.mem_brk + incr, sbrk_calls := st.sbrk_calls + 1 }, st.mem_brk)

/-! ## Free-list fragments

`mm.c` repeats two statement sequences verbatim: the excision of a block from
the explicit free list ("slice out", in `mm_realloc`, `coalesce` cases 2-4 and
`place`) and the insertion of a block at the head of the list (`coalesce`,
`place`).  Each is embedded once. -/

/-- The "slice out of list" sequence for the block `b`:
`pptr = EFL_PBP(b); sptr = EFL_SBP(b);`
`if (pptr != NULL) SET_EFL_SBP(pptr, sptr); else ef_listp = sptr;`
`if (sptr != NULL) SET_EFL_PBP(sptr, pptr);`. -/
def efl_slice (W : Nat) (st : State) (b : Nat) : State :=
  let pptr := EFL_PBP W st.mem b
  let sptr := EFL_SBP W st.mem b
  let st1 : State :=
    if pptr ≠ NULL then { st with mem := SET_EFL_SBP W st.mem pptr sptr }
    else { st with ef_listp := sptr }
  if sptr ≠ NULL then { st1 with mem := SET_EFL_PBP W st1.mem sptr pptr } else st1

/-- The "insert into free list" sequence for the block `bp`:
`SET_EFL_PBP(bp, NULL); SET_EFL_SBP(bp, ef_listp);`
`if (ef_listp != NULL) SET_EFL_PBP(ef_listp, bp);  ef_listp = bp;`. -/
def efl_insert (W : Nat) (st : State) (bp : Nat) : State :=
  let m1 := SET_EFL_PBP W st.mem bp NULL
  let m2 := SET_EFL_SBP W m1 bp st.ef_listp
  let m3 := if st.ef_listp ≠ NULL then SET_EFL_PBP W m2 st.ef_listp bp else m2
  { st with mem := m3, ef_listp := bp }

/-! ## Internal helper routines -/

/-- `static void *coalesce(void *bp)`: boundary tag coalescing; the coalesced
block goes to the start of the free list.  Returns the new state and the
address of the coalesced block. -/
def coalesce (W : Nat) (st : State) (bp : Nat) : State × Nat :=
  let prev_alloc := GET_ALLOC W st.mem (FTRP W st.mem (PREV_BLKP W st.mem bp)) ≠ 0
  let next_alloc := GET_ALLOC W st.mem (HDRP W (NEXT_BLKP W st.mem bp)) ≠ 0
  let size := GET_SIZE W st.mem (HDRP W bp)
  if prev_alloc ∧ next_alloc then
    -- Case 1
    (efl_insert W st bp, bp)
  else if prev_alloc ∧ ¬ next_alloc then
    -- Case 2
    let size := wadd W size (GET_SIZE W st.mem (HDRP W (NEXT_BLKP W st.mem bp)))
    let st1 := efl_slice W st (NEXT_BLKP W st.mem bp)
    let m2 := PUT W st1.mem (HDRP W bp) (PACK size 0)
    let m3 := PUT W m2 (FTRP W m2 bp) (PACK size 0)
    (efl_insert W { st1 with mem := m3 } bp, bp)
  else if ¬ prev_alloc ∧ next_alloc then
    -- Case 3
    let size := wadd W size (GET_SIZE W st.mem (HDRP W (PREV_BLKP W st.mem bp)))
    let st1 := efl_slice W st (PREV_BLKP W st.mem bp)
    let bp1 := PREV_BLKP W st1.mem bp
    let m2 := PUT W st1.mem (HDRP W bp1) (PACK size 0)
    let m3 := PUT W m2 (FTRP W m2 bp1) (PACK size 0)
    (efl_insert W { st1 with mem := m3 } bp1, bp1)
  else
    -- Case 4
    let size := wadd W size (wadd W (GET_SIZE W st.mem (HDRP W (PREV_BLKP W st.mem bp)))
      (GET_SIZE W st.mem (FTRP W st.mem (NEXT_BLKP W st.mem bp))))
    let st1 := efl_slice W st (NEXT_BLKP W st.mem bp)
    let st2 := efl_slice W st1 (PREV_BLKP W st1.mem bp)
    let m3 := PUT W st2.mem (HDRP W (PREV_BLKP W st2.mem bp)) (PACK size 0)
    let m4 := PUT W m3 (FTRP W m3 (NEXT_BLKP W m3 bp)) (PACK size 0)
    let bp1 := PREV_BLKP W m4 bp
    (efl_insert W { st2 with mem := m4 } bp1, bp1)

/-- `static void *extend_heap(size_t words)`: extend the heap with a free
block and return the coalesced block, or `NULL` when `mem_sbrk` fails. -/
def extend_heap (W : Nat) (st : State) (words : Nat) : State × Nat :=
  let st0 := { st with extendorfree := 1 }
  let size := if words % 2 ≠ 0 then wmul W (wadd W words 1) (WSIZE W) else wmul W words (WSIZE W)
  let r := mem_sbrk W st0 size
  let bp := r.2
  if bp = WMOD W - 1 then (r.1, NULL)
  else
    let m1 := PUT W r.1.mem (HDRP W bp) (PACK size 0)
    let m2 := PUT W m1 (FTRP W m1 bp) (PACK size 0)
    let m3 := PUT W m2 (HDRP W (NEXT_BLKP W m2 bp)) (PACK 0 1)
    coalesce W { r.1 with mem := m3 } bp

/-- The `for` loop of `find_fit`: walk the successor links from `bp` until
`NULL` or a block of at least `asize` bytes.  `none`: the walk did not end
within `fuel` steps. -/
def find_fit_loop (W : Nat) (m : Mem) (asize : Nat) : Nat → Nat → Option Nat
  | 0, _ => none
  | fuel + 1, bp =>
    if bp = NULL then some NULL
    else if asize ≤ GET_SIZE W m (HDRP W bp) then some bp
    else find_fit_loop W m asize fuel (EFL_SBP W m bp)

/-- `static void *find_fit(size_t asize)`: first fit from the start of the
explicit free list, guarded by the remembered last failed size. -/
def find_fit (W fuel : Nat) (st : State) (asize : Nat) : Option (State × Nat) :=
  if asize = st.lastfailedsize ∧ st.extendorfree = 0 then some (st, NULL)
  else
    match find_fit_loop W st.mem asize fuel st.ef_listp with
    | none => none
    | some bp =>
      if bp ≠ NULL then some (st, bp)
      else some ({ st with lastfailedsize := asize }, NULL)

/-- `static void place(void *bp, size_t asize)`: place a block of `asize`
bytes at the start of the free block `bp`, splitting when the remainder is at
least the minimum block size. -/
def place (W : Nat) (st : State) (bp asize : Nat) : State :=
  let csize := GET_SIZE W st.mem (HDRP W bp)
  if wsub W csize asize ≥ 4 * WSIZE W then
    let m1 := PUT W st.mem (HDRP W bp) (PACK asize 1)
    let m2 := PUT W m1 (FTRP W m1 bp) (PACK asize 1)
    let st1 := efl_slice W { st with mem := m2 } bp
    let bp1 := NEXT_BLKP W st1.mem bp
    let m3 := PUT W st1.mem (HDRP W bp1) (PACK (wsub W csize asize) 0)
    let m4 := PUT W m3 (FTRP W m3 bp1) (PACK (wsub W csize asize) 0)
    efl_insert W { st1 with mem := m4 } bp1
  else
    let m1 := PUT W st.mem (HDRP W bp) (PACK csize 1)
    let m2 := PUT W m1 (FTRP W m1 bp) (PACK csize 1)
    efl_slice W { st with mem := m2 } bp

/-! ## The allocator interface -/

/-- `int mm_init(void)`: returns the new state and `0` on success, `-1`
(here `none` for the `int` result) when the heap could not be grown. -/
def mm_init (W : Nat) (st : State) : State × Option Unit :=
  let st0 := { st with extendorfree := 0, lastfailedsize := 0 }
  let r := mem_sbrk W st0 (3 * WSIZE W)
  if r.2 = WMOD W - 1 then ({ r.1 with heap_listp := r.2 }, none)
  else
    let heap_listp := r.2
    let m1 := PUT W r.1.mem heap_listp (PACK (DSIZE W) 1)
    let m2 := PUT W m1 (wadd W heap_listp (1 * WSIZE W)) (PACK (DSIZE W) 1)
    let m3 := PUT W m2 (wadd W heap_listp (2 * WSIZE W)) (PACK 0 1)
    let heap_listp := wadd W heap_listp (1 * WSIZE W)
    let st1 := { r.1 with mem := m3, heap_listp := heap_listp, ef_listp := NULL }
    let e := extend_heap W st1 (CHUNKSIZE / WSIZE W)
    if e.2 = NULL then (e.1, none) else (e.1, some ())

/-- The adjusted block size of `mm_malloc` (lines 147-151), in `size_t`
arithmetic: `if (size <= WSIZE) asize = 4 * WSIZE;`
`else asize = WSIZE * (((size + WSIZE - 1)) / WSIZE) + DSIZE;`. -/
def malloc_asize (W size : Nat) : Nat :=
  if size ≤ WSIZE W then 4 * WSIZE W
  else wadd W (wmul W (WSIZE W) (wsub W (wadd W size (WSIZE W)) 1 / WSIZE W)) (DSIZE W)

/-- The adjusted block size of `mm_realloc` (lines 244-247), the same
statement repeated in the source. -/
def realloc_asize (W size : Nat) : Nat :=
  if size ≤ WSIZE W then 4 * WSIZE W
  else wadd W (wmul W (WSIZE W) (wsub W (wadd W size (WSIZE W)) 1 / WSIZE W)) (DSIZE W)

/-- `void *mm_malloc(size_t size)`.  `none`: the free-list walk of `find_fit`
did not end within `fuel` steps. -/
def mm_malloc (W fuel : Nat) (st : State) (size : Nat) : Option (State × Nat) :=
  if size = 0 then some (st, NULL)
  else
    let asize := malloc_asize W size
    match find_fit W fuel st asize with
    | none => none
    | some (st1, bp) =>
      if bp ≠ NULL then some (place W st1 bp asize, bp)
      else
        let extendsize := MAX asize CHUNKSIZE
        let e := extend_heap W st1 (extendsize / WSIZE W)
        if e.2 = NULL then some (e.1, NULL)
        else some (place W e.1 e.2 asize, e.2)

/-- `void mm_free(void *bp)`. -/
def mm_free (W : Nat) (st : State) (bp : Nat) : State :=
  let st0 := { st with extendorfree := 1 }
  if bp = NULL then st0
  else
    let size := GET_SIZE W st0.mem (HDRP W bp)
    let m1 := PUT W st0.mem (HDRP W bp) (PACK size 0)
    let m2 := PUT W m1 (FTRP W m1 bp) (PACK size 0)
    (coalesce W { st0 with mem := m2 } bp).1

/-- `memcpy(dst, src, n)` of the C library, for regions that do not overlap. -/
def memcpy (m : Mem) (dst src n : Nat) : Mem :=
  fun a => if dst ≤ a ∧ a < dst + n then m (src + (a - dst)) else m a

/-- `void *mm_realloc(void *ptr, size_t size)`.  `none`: the free-list walk
of `find_fit` did not end within `fuel` steps. -/
def mm_realloc (W fuel : Nat) (st : State) (ptr size : Nat) : Option (State × Nat) :=
  if size = 0 then some (mm_free W st ptr, NULL)
  else if ptr = NULL then mm_malloc W fuel st size
  else
    let oldsize := GET_SIZE W st.mem (HDRP W ptr)
    let asize := realloc_asize W size
    if oldsize > asize then some (st, ptr)
    else
      let nextbp := NEXT_BLKP W st.mem ptr
      let fblk_size := GET_SIZE W st.mem (HDRP W nextbp)
      let newsize := wadd W (GET_SIZE W st.mem (HDRP W ptr)) fblk_size
      if GET_ALLOC W st.mem (HDRP W (NEXT_BLKP W st.mem ptr)) = 0 ∧ newsize > asize then
        let st1 := efl_slice W st nextbp
        let m2 := PUT W st1.mem (HDRP W ptr) (PACK newsize 1)
        let m3 := PUT W m2 (FTRP W m2 ptr) (PACK newsize 1)
        some ({ st1 with mem := m3 }, ptr)
      else
        match mm_malloc W fuel st size with
        | none => none
        | some (st1, newptr) =>
          if newptr = NULL then some (st1, NULL)
          else
            let oldsize := if size < oldsize then size else oldsize
            let m2 := memcpy st1.mem newptr ptr oldsize
            some (mm_free W { st1 with mem := m2 } ptr, newptr)

/-! ## Concrete start states -/

/-- A fresh memlib state: zeroed memory, the break at `start` and room for
`room` bytes of heap. -/
def fresh (start room : Nat) : State :=
  { mem := fun _ => 0, mem_brk := start, mem_max_addr := start + room, sbrk_calls := 0,
    sbrk_fails := 0, heap_listp := 0, ef_listp := 0, extendorfree := 0, lastfailedsize := 0 }

/-! ## Specification-side definitions -/

/-- The adjusted block size in the words of the specification (section 4.2):
`max(4 words, ceil((size + word) / word) * word + 2 * word)`, over the
natural numbers. -/
def spec_adjusted_size (W size : Nat) : Nat :=
  max (4 * W) ((size + W + (W - 1)) / W * W + 2 * W)

/-- The payload rounded up to whole words plus header and footer, at least the
minimum block size: `max(4 words, ceil(size / word) * word + 2 * word)`. -/
def rounded_size (W size : Nat) : Nat :=
  max (4 * W) ((size + (W - 1)) / W * W + 2 * W)

/-! ## Concrete runs -/

/-- A fresh heap starting at address 4096 with room for 1 MiB, after `mm_init`. -/
def heap0 : State := (mm_init 8 (fresh 4096 (2 ^ 20))).1

/-- Run of the wrapped request: `mm_malloc(2^64 - 16)` on `heap0`. -/
def run_wrap : Option (State × Nat) := mm_malloc 8 4 heap0 (2 ^ 64 - 16)

/-- Run `run_wrap` followed by `mm_malloc(16)`. -/
def run_wrap_then_16 : Option (State × Nat) :=
  run_wrap.bind fun r => mm_malloc 8 4 r.1 16

/-- Run `p = mm_malloc(16)` on `heap0`. -/
def run_p : Option (State × Nat) := mm_malloc 8 4 heap0 16

/-- Run `p = mm_malloc(16); q = mm_malloc(16)`. -/
def run_pq : Option (State × Nat) := run_p.bind fun r => mm_malloc 8 4 r.1 16

/-- Run `p = mm_malloc(16); q = mm_malloc(16); mm_realloc(p, 16)` with `p = 4120`. -/
def run_pq_realloc : Option (State × Nat) := run_pq.bind fun r => mm_realloc 8 4 r.1 4120 16

/-- Run `p = mm_malloc(16); q = mm_malloc(16); r = mm_malloc(16); mm_free(q)`
with `q = 4152`. -/
def run_pqr_free : Option State :=
  (run_pq.bind fun r => mm_malloc 8 4 r.1 16).map fun r => mm_free 8 r.1 4152

/-- Run `run_pqr_free` followed by `mm_realloc(p, 48)` with `p = 4120`. -/
def run_pqr_free_realloc : Option (State × Nat) :=
  run_pqr_free.bind fun st => mm_realloc 8 4 st 4120 48

/-- Two byte ranges `[p, p + n)` and `[q, q + k)` share an address. -/
def ranges_overlap (p n q k : Nat) : Prop := p < q + k ∧ q < p + n

instance (p n q k : Nat) : Decidable (ranges_overlap p n q k) := by
  unfold ranges_overlap; infer_instance

/-! ## Heap well-formedness -/

/-- The blocks with sizes and allocation bits `bs` lie back to back from the
header address `a` to the header address `e`: every block has header and
footer `PACK size alloc`, a size that is a multiple of the word size and at
least four words. -/
def Tiles (W : Nat) (m : Mem) : Nat → List (Nat × Nat) → Nat → Prop
  | a, [], e => a = e
  | a, b :: bs, e =>
    GET W m a = PACK b.1 b.2 ∧ GET W m (a + b.1 - W) = PACK b.1 b.2 ∧
    4 * W ≤ b.1 ∧ b.1 % W = 0 ∧ b.2 ≤ 1 ∧ Tiles W m (a + b.1) bs e

/-- Payload address, size and allocation bit of the blocks laid out from the
header address `a`. -/
def blocksFrom (W : Nat) : Nat → List (Nat × Nat) → List (Nat × Nat × Nat)
  | _, [] => []
  | a, b :: bs => (a + W, b.1, b.2) :: blocksFrom W (a + b.1) bs

/-- Payload addresses of the free blocks laid out from the header address `a`,
in address order. -/
def freeBlocks (W : Nat) (a : Nat) (bs : List (Nat × Nat)) : List Nat :=
  ((blocksFrom W a bs).filter (fun b => b.2.2 = 0)).map (fun b => b.1)

/-- The explicit free list: starting at `cur`, whose predecessor link must be
`prev`, the successor links visit exactly the nodes of the list and end in
`NULL`. -/
def FreeChain (W : Nat) (m : Mem) : Nat → Nat → List Nat → Prop
  | _, cur, [] => cur = NULL
  | prev, cur, b :: l =>
    cur = b ∧ b ≠ NULL ∧ EFL_PBP W m b = prev ∧ FreeChain W m b (EFL_SBP W m b) l

/-- No two adjacent blocks of the list are both free. -/
def NoAdjFree : List (Nat × Nat) → Prop
  | [] => True
  | [_] => True
  | b :: c :: bs => ¬ (b.2 = 0 ∧ c.2 = 0) ∧ NoAdjFree (c :: bs)

/-- The heap of `st` is well formed with blocks `bs` (sizes and allocation
bits, in address order) and free list `fl` (in list order): prologue, blocks
tiling the region up to the epilogue header, no two adjacent free blocks, and
a doubly linked free list holding exactly the free blocks. -/
structure HeapLayout (W : Nat) (st : State) (bs : List (Nat × Nat)) (fl : List Nat) : Prop where
  /-- The prologue header lies inside the address space. -/
  base : W ≤ st.heap_listp
  /-- Word alignment of the heap. -/
  aligned : st.heap_listp % W = 0
  /-- Prologue header. -/
  prologue_hdr : GET W st.mem (st.heap_listp - W) = PACK (DSIZE W) 1
  /-- Prologue footer. -/
  prologue_ftr : GET W st.mem st.heap_listp = PACK (DSIZE W) 1
  /-- The blocks tile the region between prologue and epilogue. -/
  tiles : Tiles W st.mem (st.heap_listp + W) bs (st.mem_brk - W)
  /-- Epilogue header, the last word of the heap. -/
  epilogue : GET W st.mem (st.mem_brk - W) = PACK 0 1
  /-- The heap lies below the limit of memlib. -/
  brk_le : st.mem_brk ≤ st.mem_max_addr
  /-- The limit lies inside the address space and below `(void *)-1`. -/
  max_lt : st.mem_max_addr < WMOD W - 1
  /-- The free list is a NULL-terminated doubly linked chain. -/
  chain : FreeChain W st.mem NULL st.ef_listp fl
  /-- The free list holds exactly the free blocks, each once. -/
  perm : fl.Perm (freeBlocks W (st.heap_listp + W) bs)
  /-- No two adjacent blocks are both free. -/
  no_adj : NoAdjFree bs

/-- A well-formed heap. -/
def WellFormed (W : Nat) (st : State) : Prop := ∃ bs fl, HeapLayout W st bs fl

/-- States reachable from a successful `mm_init` by calls of `mm_malloc`,
`mm_free` and `mm_realloc` that return. -/
inductive Reachable (W : Nat) : State → Prop
  | init (st : State) : (mm_init W st).2 = some () → Reachable W (mm_init W st).1
  | malloc (st : State) (fuel size : Nat) (r : State × Nat) :
      Reachable W st → mm_malloc W fuel st size = some r → Reachable W r.1
  | free (st : State) (bp : Nat) : Reachable W st → Reachable W (mm_free W st bp)
  | realloc (st : State) (fuel ptr size : Nat) (r : State × Nat) :
      Reachable W st → mm_realloc W fuel st ptr size = some r → Reachable W r.1

instance Tiles.instDecidable (W : Nat) (m : Mem) :
    ∀ (a : Nat) (bs : List (Nat × Nat)) (e : Nat), Decidable (Tiles W m a bs e)
  | a, [], e => decidable_of_iff (a = e) Iff.rfl
  | a, b :: bs, e =>
    have := Tiles.instDecidable W m (a + b.1) bs e
    decidable_of_iff (GET W m a = PACK b.1 b.2 ∧ GET W m (a + b.1 - W) = PACK b.1 b.2 ∧
      4 * W ≤ b.1 ∧ b.1 % W = 0 ∧ b.2 ≤ 1 ∧ Tiles W m (a + b.1) bs e) Iff.rfl

instance NoAdjFree.instDecidable : ∀ (bs : List (Nat × Nat)), Decidable (NoAdjFree bs)
  | [] => isTrue trivial
  | [_] => isTrue trivial
  | b :: c :: bs =>
    have := NoAdjFree.instDecidable (c :: bs)
    decidable_of_iff (¬ (b.2 = 0 ∧ c.2 = 0) ∧ NoAdjFree (c :: bs)) Iff.rfl

instance FreeChain.instDecidable (W : Nat) (m : Mem) :
    ∀ (prev cur : Nat) (l : List Nat), Decidable (FreeChain W m prev cur l)
  | _, cur, [] => decidable_of_iff (cur = NULL) Iff.rfl
  | prev, cur, b :: l =>
    have := FreeChain.instDecidable W m b (EFL_SBP W m b) l
    decidable_of_iff (cur = b ∧ b ≠ NULL ∧ EFL_PBP W m b = prev ∧
      FreeChain W m b (EFL_SBP W m b) l) Iff.rfl

/-- The state components other than memory and the free-list head agree. -/
structure SameAux (st st' : State) : Prop where
  mem_brk : st'.mem_brk = st.mem_brk
  mem_max_addr : st'.mem_max_addr = st.mem_max_addr
  sbrk_calls : st'.sbrk_calls = st.sbrk_calls
  sbrk_fails : st'.sbrk_fails = st.sbrk_fails
  heap_listp : st'.heap_listp = st.heap_listp
  extendorfree : st'.extendorfree = st.extendorfree
  lastfailedsize : st'.lastfailedsize = st.lastfailedsize

/-- A heap whose memlib limit leaves no room beyond the initial chunk, after
`mm_init`. -/
def heap_full : State := (mm_init 8 (fresh 4096 (24 + 32768))).1

/-- The state after `p = mm_malloc(16)` on `heap_full`. -/
def heap_full_p : State := ((mm_malloc 8 4 heap_full 16).getD (heap_full, 0)).1

/-! ## Footprints -/

/-- The bytes of `m'` agree with those of `m` wherever `P` does not hold. -/
def Frame (P : Nat → Prop) (m m' : Mem) : Prop := ∀ a, ¬ P a → m' a = m a

/-- The byte `a` lies in the two link words of a node of the list. -/
def LinkByte (W : Nat) (fl : List Nat) (a : Nat) : Prop := ∃ y ∈ fl, y ≤ a ∧ a < y + 2 * W

/-- The byte `a` lies in the extent (header to footer) of a free block. -/
def FreeByte (W a0 : Nat) (bs : List (Nat × Nat)) (a : Nat) : Prop :=
  ∃ b ∈ blocksFrom W a0 bs, b.2.2 = 0 ∧ b.1 - W ≤ a ∧ a < b.1 + b.2.1 - W

/-- The byte `a` lies in the header or the footer of a block. -/
def TagByte (W a0 : Nat) (bs : List (Nat × Nat)) (a : Nat) : Prop :=
  ∃ b ∈ blocksFrom W a0 bs,
    (b.1 - W ≤ a ∧ a < b.1) ∨ (b.1 + b.2.1 - 2 * W ≤ a ∧ a < b.1 + b.2.1 - W)

/-! ## Heap consistency checker -/

/-- The error messages printed by `checkblock` and `checkheap`. -/
inductive Report
  /-- `"Error: %p is not 8 bytes aligned"`. -/
  | misaligned
  /-- `"Error: header does not match footer"`. -/
  | tag_mismatch
  /-- `"Error: block is smaller than minimum size"`. -/
  | too_small
  /-- `"One allocated block exists in free list"`. -/
  | alloc_in_list
  /-- `"Bad prologue header"`. -/
  | bad_prologue
  /-- `"Bad epilogue header"`. -/
  | bad_epilogue
  deriving DecidableEq

/-- `static void checkblock(void *bp)`: the error messages it prints. -/
def checkblock (W : Nat) (m : Mem) (bp : Nat) : List Report :=
  (if bp % WSIZE W ≠ 0 then [Report.misaligned] else []) ++
  (if GET W m (HDRP W bp) ≠ GET W m (FTRP W m bp) then [Report.tag_mismatch] else []) ++
  (if GET_SIZE W m (HDRP W bp) < 4 * WSIZE W then [Report.too_small] else [])

/-- The free-list loop of `checkheap`, from the node `bp`.  The argument `pb`
is the error output of `printblock`, which the loop calls for an allocated
node.  `none`: the loop did not end within `fuel` steps, or `printblock` did
not return. -/
def checkheap_list (W : Nat) (m : Mem) (pb : Option (List Report)) : Nat → Nat → Option (List Report)
  | 0, _ => none
  | fuel + 1, bp =>
    if bp = NULL then some []
    else
      let here := if GET_ALLOC W m (HDRP W bp) ≠ 0 then pb.map (fun r => Report.alloc_in_list :: r)
        else some []
      here.bind fun r => (checkheap_list W m pb fuel (EFL_SBP W m bp)).map fun t => r ++ t

/-- The block loop of `checkheap`, from the block `bp`: the error output and
the block at which the loop ended.  `none`: the loop did not end within `fuel`
steps, or `printblock` did not return. -/
def checkheap_blocks (W : Nat) (m : Mem) ( verbose : Bool) (pb : Option (List Report)) :
    Nat → Nat → Option (List Report × Nat)
  | 0, _ => none
  | fuel + 1, bp =>
    if GET_SIZE W m (HDRP W bp) > 0 then
      (if verbose then pb else some []).bind fun r =>
        (checkheap_blocks W m verbose pb fuel (NEXT_BLKP W m bp)).map fun t =>
          (r ++ checkblock W m bp ++ t.1, t.2)
    else some ([], bp)

/-- `void checkheap(bool verbose)`: the error messages it prints, in order.
`printblock(bp)` first calls `checkheap(false)` and prints no error message of
its own, so its error output is that of `checkheap(false)`.  `none`: the
checker did not return within `fuel` nested calls and loop steps. -/
def checkheap (W : Nat) : Nat → State → Bool → Option (List Report)
  | 0, _, _ => none
  | fuel + 1, st, verbose =>
    let pb := checkheap W fuel st false
    (checkheap_list W st.mem pb fuel st.ef_listp).bind fun r1 =>
      let r2 := if GET_SIZE W st.mem (HDRP W st.heap_listp) ≠ DSIZE W ∨
          GET_ALLOC W st.mem (HDRP W st.heap_listp) = 0 then [Report.bad_prologue] else []
      let r3 := checkblock W st.mem st.heap_listp
      (checkheap_blocks W st.mem verbose pb fuel st.heap_listp).bind fun t =>
        (if verbose then pb else some []).map fun r4 =>
          let r5 := if GET_SIZE W st.mem (HDRP W t.2) ≠ 0 ∨ GET_ALLOC W st.mem (HDRP W t.2) = 0
            then [Report.bad_epilogue] else []
          r1 ++ r2 ++ r3 ++ t.1 ++ r4 ++ r5

/-- The blocks met by the heap traversal of `checkheap` (payload address, size
and allocation bit of the header): from `bp` along `NEXT_BLKP` while the header
size is positive, for at most `fuel` blocks. -/
def heap_walk (W : Nat) (m : Mem) : Nat → Nat → List (Nat × Nat × Nat)
  | 0, _ => []
  | fuel + 1, bp =>
    if GET_SIZE W m (HDRP W bp) > 0 then
      (bp, GET_SIZE W m (HDRP W bp), GET_ALLOC W m (HDRP W bp)) ::
        heap_walk W m fuel (NEXT_BLKP W m bp)
    else []

/-- The nodes met by the free-list traversal of `checkheap` and `find_fit`:
from `bp` along the successor links until `NULL`, for at most `fuel` nodes. -/
def list_walk (W : Nat) (m : Mem) : Nat → Nat → List Nat
  | 0, _ => []
  | fuel + 1, bp => if bp = NULL then [] else bp :: list_walk W m fuel (EFL_SBP W m bp)

/-! ## Further concrete runs -/

/-- Run at word size 4: `mm_init` on a fresh heap at 4096, then `mm_malloc(1)`. -/
def run_w4 : Option (State × Nat) := mm_malloc 4 4 (mm_init 4 (fresh 4096 (2 ^ 20))).1 1

/-- Run `mm_malloc(24)` on `heap0`. -/
def run_24 : Option (State × Nat) := mm_malloc 8 4 heap0 24

/-- Run `p = mm_malloc(16); q = mm_malloc(2^64 - 16)`. -/
def run_p_wrap : Option (State × Nat) := run_p.bind fun r => mm_malloc 8 4 r.1 (2 ^ 64 - 16)

/-- Run `run_p_wrap` followed by `r = mm_malloc(16); s = mm_malloc(16)`. -/
def run_p_wrap_rs : Option (State × Nat) :=
  (run_p_wrap.bind fun r => mm_malloc 8 4 r.1 16).bind fun r => mm_malloc 8 4 r.1 16

/-- Run `run_p_wrap_rs` followed by `mm_free(q)` with `q = 4152`. -/
def run_p_wrap_rs_free : Option State := run_p_wrap_rs.map fun r => mm_free 8 r.1 4152

/-- The state after `p1 = mm_malloc(16); p2 = mm_malloc(16)` (`p1 = 4120`,
`p2 = 4152`) once the caller has stored the words `p2 - 8` and `p2 + 8` in the
payload of `p1` and the word `0x1111` in the payload of `p2`. -/
def run_pq_written : Option State :=
  run_pq.map fun r =>
    { r.1 with mem := PUT 8 (PUT 8 (PUT 8 r.1.mem 4120 4144) 4128 4160) 4152 4369 }

/-- Run `run_pq_written` followed by `q1 = mm_realloc(p1, 2^64 - 24)`. -/
def run_realloc_wrap1 : Option (State × Nat) :=
  run_pq_written.bind fun st => mm_realloc 8 4 st 4120 (2 ^ 64 - 24)

/-- Run `run_realloc_wrap1` followed by `q2 = mm_realloc(p2, 2^64 - 24)`. -/
def run_realloc_wrap2 : Option (State × Nat) :=
  run_realloc_wrap1.bind fun r => mm_realloc 8 4 r.1 4152 (2 ^ 64 - 24)

/-- A heap with two adjacent free blocks of which the first is not in the free
list: the state after `p = mm_malloc(16)` on `heap0` with header and footer of
`p = 4120` rewritten to size 32, free. -/
def heap_adjacent_free : Option State :=
  run_p.map fun r => { r.1 with mem := PUT 8 (PUT 8 r.1.mem 4112 (PACK 32 0)) 4136 (PACK 32 0) }

/-! ## The heap before coalescing -/

/-- The heap of `st` as `coalesce` finds it: as in `HeapLayout`, except that
the block of `c` bytes between the blocks `pre` and the blocks `post` has
header and footer marked free, is not in the free list `fl`, and may have free
neighbours. -/
structure FreedLayout (W : Nat) (st : State) (pre : List (Nat × Nat)) (c : Nat)
    (post : List (Nat × Nat)) (fl : List Nat) : Prop where
  /-- The prologue header lies inside the address space. -/
  base : W ≤ st.heap_listp
  /-- Word alignment of the heap. -/
  aligned : st.heap_listp % W = 0
  /-- Prologue header. -/
  prologue_hdr : GET W st.mem (st.heap_listp - W) = PACK (DSIZE W) 1
  /-- Prologue footer. -/
  prologue_ftr : GET W st.mem st.heap_listp = PACK (DSIZE W) 1
  /-- The blocks tile the region; the block of `c` bytes carries free tags. -/
  tiles : Tiles W st.mem (st.heap_listp + W) (pre ++ (c, 0) :: post) (st.mem_brk - W)
  /-- Epilogue header, the last word of the heap. -/
  epilogue : GET W st.mem (st.mem_brk - W) = PACK 0 1
  /-- The heap lies below the limit of memlib. -/
  brk_le : st.mem_brk ≤ st.mem_max_addr
  /-- The limit lies inside the address space and below `(void *)-1`. -/
  max_lt : st.mem_max_addr < WMOD W - 1
  /-- The free list is a NULL-terminated doubly linked chain. -/
  chain : FreeChain W st.mem NULL st.ef_listp fl
  /-- The free list holds exactly the other free blocks, each once. -/
  perm : fl.Perm (freeBlocks W (st.heap_listp + W) (pre ++ (c, 1) :: post))
  /-- Among the other blocks no two adjacent ones are both free. -/
  no_adj : NoAdjFree (pre ++ (c, 1) :: post)

/-- Size of the block before the block under coalescing when that block is
free, and 0 when it is allocated or the prologue. -/
def prev_free_size (pre : List (Nat × Nat)) : Nat :=
  match pre.getLast? with
  | some (s, 0) => s
  | _ => 0

/-- Size of the block after the block under coalescing when that block is
free, and 0 when it is allocated or the epilogue. -/
def next_free_size (post : List (Nat × Nat)) : Nat :=
  match post.head? with
  | some (s, 0) => s
  | _ => 0

/-- Run `p = mm_malloc(16); q = mm_malloc(16); r = mm_malloc(16)`
(`p = 4120`, `q = 4152`, `r = 4184`). -/
def run_pqr : Option (State × Nat) := run_pq.bind fun r => mm_malloc 8 4 r.1 16

/-- A heap as `coalesce` finds it in `mm_free(q)`: after `run_pqr`, `mm_free(p)`
and `mm_free(r)`, header and footer of `q = 4152` are rewritten to size 32,
free.  Both neighbours of `q` are free. -/
def heap_before_coalesce : State :=
  let st := (run_pqr.map fun r => mm_free 8 (mm_free 8 r.1 4120) 4184).getD heap0
  { st with mem := PUT 8 (PUT 8 st.mem 4144 (PACK 32 0)) 4168 (PACK 32 0) }

/-- Runs within the caller contract at word size `W`. `Run W st L` holds when
`st` is reached from a successful `mm_init` (on a memlib state whose break is
8-byte aligned and whose limit lies below `(void *)-1`) by calls of
`mm_malloc`, `mm_free` and `mm_realloc` that return, whose pointer argument
is `NULL` or live, whose size `s` satisfies `s + 4 * W ≤ 2 ^ (8 * W)`, and by
writes of the caller into the payload of a live block; `L` lists the live
pointers. -/
inductive Run (W : Nat) : State → List Nat → Prop
  | init (st : State) : st.mem_brk % 8 = 0 → st.mem_max_addr < WMOD W - 1 →
      (mm_init W st).2 = some () → Run W (mm_init W st).1 []
  | malloc (st : State) (L : List Nat) (fuel size : Nat) (r : State × Nat) :
      Run W st L → size + 4 * W ≤ WMOD W → mm_malloc W fuel st size = some r →
      Run W r.1 (if r.2 = NULL then L else r.2 :: L)
  | free (st : State) (L : List Nat) (bp : Nat) :
      Run W st L → bp ∈ L → Run W (mm_free W st bp) (L.erase bp)
  | free_null (st : State) (L : List Nat) : Run W st L → Run W (mm_free W st NULL) L
  | realloc (st : State) (L : List Nat) (fuel ptr size : Nat) (r : State × Nat) :
      Run W st L → ptr = NULL ∨ ptr ∈ L → size + 4 * W ≤ WMOD W →
      mm_realloc W fuel st ptr size = some r →
      Run W r.1 (if size = 0 then L.erase ptr else if r.2 = NULL then L else r.2 :: L.erase ptr)
  | write (st : State) (L : List Nat) (p : Nat) (m' : Mem) :
      Run W st L → p ∈ L →
      Frame (fun a => p ≤ a ∧ a < p + GET_SIZE W st.mem (HDRP W p) - 2 * W) st.mem m' →
      Run W { st with mem := m' } L

/-- Run of `mm_malloc(2^64 - 25)` on `heap0`: the largest size `s` with
`s + 3 * WSIZE ≤ SIZE_MAX`. -/
def run_corner : Option (State × Nat) := mm_malloc 8 4 heap0 (2 ^ 64 - 25)

/-- The state after `run_corner`. -/
def heap_corner : State := (run_corner.map Prod.fst).getD heap0

/-- State and result of `a = mm_malloc(16)` on `heap0`. -/
def live_a : State × Nat := (mm_malloc 8 4 heap0 16).getD (heap0, 0)

/-- State and result of `b = mm_malloc(16)` after `live_a`. -/
def live_b : State × Nat := (mm_malloc 8 4 live_a.1 16).getD (heap0, 0)

/-- State after `mm_free(a)` with `a = 4120`, after `live_b`. -/
def live_c : State := mm_free 8 live_b.1 4120

/-- State and result of `mm_realloc(b, 48)` with `b = 4152`, after `live_c`. -/
def live_d : State × Nat := (mm_realloc 8 4 live_c 4152 48).getD (heap0, 0)

/-! ## Memory accesses and faults

The map `Mem` is total, so a load or store at any address is defined in the
functions above, where the compiled code faults when the address lies outside
the memory obtained from memlib.  The functions of this section list, for
each routine, the accesses it makes (address and number of bytes) in program
order; a call of the compiled code returns the result computed above exactly
when none of its accesses faults.  Every address that a routine accesses is
in its list; a word that the routine loads again, through a macro that is
expanded a second time, is not always listed a second time, as `Faults`
depends on the addresses only.  The section "Accesses inside the heap" shows
that calls within the caller contract do not fault. -/

/-- An access of `W` bytes at `p`. -/
def word (W p : Nat) : Nat × Nat := (p, W)

/-- The access `a` (address, number of bytes) lies inside the memory obtained
from memlib, which begins at the prologue header and ends at `mem_max_addr`,
and does not go through the null pointer. -/
def InRegion (W : Nat) (st : State) (a : Nat × Nat) : Prop :=
  a.1 ≠ NULL ∧ st.heap_listp - W ≤ a.1 ∧ a.1 + a.2 ≤ st.mem_max_addr

instance (W : Nat) (st : State) (a : Nat × Nat) : Decidable (InRegion W st a) := by
  unfold InRegion; infer_instance

/-- One of the accesses `acc`, made by a call entered in the state `st`, lies
outside the memory obtained from memlib: the compiled code faults. -/
def Faults (W : Nat) (st : State) (acc : List (Nat × Nat)) : Prop :=
  ∃ a ∈ acc, ¬ InRegion W st a

instance (W : Nat) (st : State) (acc : List (Nat × Nat)) : Decidable (Faults W st acc) := by
  unfold Faults; infer_instance

/-- Accesses of the "slice out of list" sequence for the block `b`: the loads
of both links, the store to the successor link of the predecessor and the
store to the predecessor link of the successor. -/
def efl_slice_acc (W : Nat) (st : State) (b : Nat) : List (Nat × Nat) :=
  let pptr := EFL_PBP W st.mem b
  let sptr := EFL_SBP W st.mem b
  [word W b, word W (wadd W b (WSIZE W))] ++
    (if pptr ≠ NULL then [word W (wadd W pptr (WSIZE W))] else []) ++
    (if sptr ≠ NULL then [word W sptr] else [])

/-- Accesses of the "insert into free list" sequence for the block `bp`: the
stores to both links of `bp` and to the predecessor link of the old head. -/
def efl_insert_acc (W : Nat) (st : State) (bp : Nat) : List (Nat × Nat) :=
  [word W bp, word W (wadd W bp (WSIZE W))] ++
    (if st.ef_listp ≠ NULL then [word W st.ef_listp] else [])

/-- Accesses of `coalesce(bp)`. -/
def coalesce_acc (W : Nat) (st : State) (bp : Nat) : List (Nat × Nat) :=
  let prev_alloc := GET_ALLOC W st.mem (FTRP W st.mem (PREV_BLKP W st.mem bp)) ≠ 0
  let next_alloc := GET_ALLOC W st.mem (HDRP W (NEXT_BLKP W st.mem bp)) ≠ 0
  let size := GET_SIZE W st.mem (HDRP W bp)
  -- `GET_ALLOC(FTRP(PREV_BLKP(bp)))`, `GET_ALLOC(HDRP(NEXT_BLKP(bp)))`, `GET_SIZE(HDRP(bp))`
  [word W (wsub W bp (DSIZE W)), word W (HDRP W (PREV_BLKP W st.mem bp)),
    word W (FTRP W st.mem (PREV_BLKP W st.mem bp)),
    word W (HDRP W bp), word W (HDRP W (NEXT_BLKP W st.mem bp)), word W (HDRP W bp)] ++
  if prev_alloc ∧ next_alloc then
    -- Case 1
    efl_insert_acc W st bp
  else if prev_alloc ∧ ¬ next_alloc then
    -- Case 2
    let size := wadd W size (GET_SIZE W st.mem (HDRP W (NEXT_BLKP W st.mem bp)))
    let st1 := efl_slice W st (NEXT_BLKP W st.mem bp)
    let m2 := PUT W st1.mem (HDRP W bp) (PACK size 0)
    let m3 := PUT W m2 (FTRP W m2 bp) (PACK size 0)
    [word W (HDRP W bp), word W (HDRP W (NEXT_BLKP W st.mem bp))] ++
      efl_slice_acc W st (NEXT_BLKP W st.mem bp) ++
      [word W (HDRP W bp), word W (HDRP W bp), word W (FTRP W m2 bp)] ++
      efl_insert_acc W { st1 with mem := m3 } bp
  else if ¬ prev_alloc ∧ next_alloc then
    -- Case 3
    let size := wadd W size (GET_SIZE W st.mem (HDRP W (PREV_BLKP W st.mem bp)))
    let st1 := efl_slice W st (PREV_BLKP W st.mem bp)
    let bp1 := PREV_BLKP W st1.mem bp
    let m2 := PUT W st1.mem (HDRP W bp1) (PACK size 0)
    let m3 := PUT W m2 (FTRP W m2 bp1) (PACK size 0)
    [word W (wsub W bp (DSIZE W)), word W (HDRP W (PREV_BLKP W st.mem bp))] ++
      efl_slice_acc W st (PREV_BLKP W st.mem bp) ++
      [word W (wsub W bp (DSIZE W)), word W (HDRP W bp1), word W (HDRP W bp1),
        word W (FTRP W m2 bp1)] ++
      efl_insert_acc W { st1 with mem := m3 } bp1
  else
    -- Case 4
    let size := wadd W size (wadd W (GET_SIZE W st.mem (HDRP W (PREV_BLKP W st.mem bp)))
      (GET_SIZE W st.mem (FTRP W st.mem (NEXT_BLKP W st.mem bp))))
    let st1 := efl_slice W st (NEXT_BLKP W st.mem bp)
    let st2 := efl_slice W st1 (PREV_BLKP W st1.mem bp)
    let m3 := PUT W st2.mem (HDRP W (PREV_BLKP W st2.mem bp)) (PACK size 0)
    let m4 := PUT W m3 (FTRP W m3 (NEXT_BLKP W m3 bp)) (PACK size 0)
    let bp1 := PREV_BLKP W m4 bp
    [word W (wsub W bp (DSIZE W)), word W (HDRP W (PREV_BLKP W st.mem bp)),
      word W (HDRP W bp), word W (HDRP W (NEXT_BLKP W st.mem bp)),
      word W (FTRP W st.mem (NEXT_BLKP W st.mem bp))] ++
      efl_slice_acc W st (NEXT_BLKP W st.mem bp) ++
      [word W (wsub W bp (DSIZE W))] ++
      efl_slice_acc W st1 (PREV_BLKP W st1.mem bp) ++
      [word W (wsub W bp (DSIZE W)), word W (HDRP W (PREV_BLKP W st2.mem bp)),
        word W (HDRP W bp), word W (HDRP W (NEXT_BLKP W m3 bp)),
        word W (FTRP W m3 (NEXT_BLKP W m3 bp)), word W (wsub W bp (DSIZE W))] ++
      efl_insert_acc W { st2 with mem := m4 } bp1

/-- Accesses of `extend_heap(words)`: none when `mem_sbrk` fails, else the
three tag stores and the accesses of `coalesce`. -/
def extend_heap_acc (W : Nat) (st : State) (words : Nat) : List (Nat × Nat) :=
  let st0 := { st with extendorfree := 1 }
  let size := if words % 2 ≠ 0 then wmul W (wadd W words 1) (WSIZE W) else wmul W words (WSIZE W)
  let r := mem_sbrk W st0 size
  let bp := r.2
  if bp = WMOD W - 1 then []
  else
    let m1 := PUT W r.1.mem (HDRP W bp) (PACK size 0)
    let m2 := PUT W m1 (FTRP W m1 bp) (PACK size 0)
    let m3 := PUT W m2 (HDRP W (NEXT_BLKP W m2 bp)) (PACK 0 1)
    [word W (HDRP W bp), word W (HDRP W bp), word W (FTRP W m1 bp), word W (HDRP W bp),
      word W (HDRP W (NEXT_BLKP W m2 bp))] ++
      coalesce_acc W { r.1 with mem := m3 } bp

/-- Accesses of the `for` loop of `find_fit`: the header of every node
visited and the successor link of every node passed. -/
def find_fit_loop_acc (W : Nat) (m : Mem) (asize : Nat) : Nat → Nat → List (Nat × Nat)
  | 0, _ => []
  | fuel + 1, bp =>
    if bp = NULL then []
    else if asize ≤ GET_SIZE W m (HDRP W bp) then [word W (HDRP W bp)]
    else word W (HDRP W bp) :: word W (wadd W bp (WSIZE W)) ::
      find_fit_loop_acc W m asize fuel (EFL_SBP W m bp)

/-- Accesses of `find_fit(asize)`. -/
def find_fit_acc (W fuel : Nat) (st : State) (asize : Nat) : List (Nat × Nat) :=
  if asize = st.lastfailedsize ∧ st.extendorfree = 0 then []
  else find_fit_loop_acc W st.mem asize fuel st.ef_listp

/-- Accesses of `place(bp, asize)`. -/
def place_acc (W : Nat) (st : State) (bp asize : Nat) : List (Nat × Nat) :=
  let csize := GET_SIZE W st.mem (HDRP W bp)
  word W (HDRP W bp) ::
  if wsub W csize asize ≥ 4 * WSIZE W then
    let m1 := PUT W st.mem (HDRP W bp) (PACK asize 1)
    let m2 := PUT W m1 (FTRP W m1 bp) (PACK asize 1)
    let st1 := efl_slice W { st with mem := m2 } bp
    let bp1 := NEXT_BLKP W st1.mem bp
    let m3 := PUT W st1.mem (HDRP W bp1) (PACK (wsub W csize asize) 0)
    let m4 := PUT W m3 (FTRP W m3 bp1) (PACK (wsub W csize asize) 0)
    [word W (HDRP W bp), word W (HDRP W bp), word W (FTRP W m1 bp)] ++
      efl_slice_acc W { st with mem := m2 } bp ++
      [word W (HDRP W bp), word W (HDRP W bp1), word W (HDRP W bp1), word W (FTRP W m3 bp1)] ++
      efl_insert_acc W { st1 with mem := m4 } bp1
  else
    let m1 := PUT W st.mem (HDRP W bp) (PACK csize 1)
    let m2 := PUT W m1 (FTRP W m1 bp) (PACK csize 1)
    [word W (HDRP W bp), word W (HDRP W bp), word W (FTRP W m1 bp)] ++
      efl_slice_acc W { st with mem := m2 } bp

/-- Accesses of `mm_malloc(size)`. -/
def mm_malloc_acc (W fuel : Nat) (st : State) (size : Nat) : List (Nat × Nat) :=
  if size = 0 then []
  else
    let asize := malloc_asize W size
    find_fit_acc W fuel st asize ++
      match find_fit W fuel st asize with
      | none => []
      | some (st1, bp) =>
        if bp ≠ NULL then place_acc W st1 bp asize
        else
          let extendsize := MAX asize CHUNKSIZE
          let e := extend_heap W st1 (extendsize / WSIZE W)
          extend_heap_acc W st1 (extendsize / WSIZE W) ++
            (if e.2 = NULL then [] else place_acc W e.1 e.2 asize)

/-- Accesses of `mm_free(bp)`. -/
def mm_free_acc (W : Nat) (st : State) (bp : Nat) : List (Nat × Nat) :=
  let st0 := { st with extendorfree := 1 }
  if bp = NULL then []
  else
    let size := GET_SIZE W st0.mem (HDRP W bp)
    let m1 := PUT W st0.mem (HDRP W bp) (PACK size 0)
    let m2 := PUT W m1 (FTRP W m1 bp) (PACK size 0)
    [word W (HDRP W bp), word W (HDRP W bp), word W (HDRP W bp), word W (FTRP W m1 bp)] ++
      coalesce_acc W { st0 with mem := m2 } bp

/-- Accesses of `mm_realloc(ptr, size)`; `memcpy` loads `oldsize` bytes at
`ptr` and stores them at `newptr`. -/
def mm_realloc_acc (W fuel : Nat) (st : State) (ptr size : Nat) : List (Nat × Nat) :=
  if size = 0 then mm_free_acc W st ptr
  else if ptr = NULL then mm_malloc_acc W fuel st size
  else
    let oldsize := GET_SIZE W st.mem (HDRP W ptr)
    let asize := realloc_asize W size
    word W (HDRP W ptr) ::
    if oldsize > asize then []
    else
      let nextbp := NEXT_BLKP W st.mem ptr
      let fblk_size := GET_SIZE W st.mem (HDRP W nextbp)
      let newsize := wadd W (GET_SIZE W st.mem (HDRP W ptr)) fblk_size
      [word W (HDRP W ptr), word W (HDRP W nextbp)] ++
      if GET_ALLOC W st.mem (HDRP W (NEXT_BLKP W st.mem ptr)) = 0 ∧ newsize > asize then
        let st1 := efl_slice W st nextbp
        let m2 := PUT W st1.mem (HDRP W ptr) (PACK newsize 1)
        efl_slice_acc W st nextbp ++
          [word W (HDRP W ptr), word W (HDRP W ptr), word W (FTRP W m2 ptr)]
      else
        mm_malloc_acc W fuel st size ++
          match mm_malloc W fuel st size with
          | none => []
          | some (st1, newptr) =>
            if newptr = NULL then []
            else
              let oldsize := if size < oldsize then size else oldsize
              let m2 := memcpy st1.mem newptr ptr oldsize
              (if oldsize = 0 then [] else [(ptr, oldsize), (newptr, oldsize)]) ++
                mm_free_acc W { st1 with mem := m2 } ptr

/-- State and result of `a = mm_malloc(40)` on `heap0` (`a = 4120`, a block
of 56 bytes). -/
def wild_a : State × Nat := (mm_malloc 8 4 heap0 40).getD (heap0, 0)

/-- State and result of `b = mm_malloc(16)` after `wild_a` (`b = 4176`). -/
def wild_b : State × Nat := (mm_malloc 8 4 wild_a.1 16).getD (heap0, 0)

/-- State after `mm_free(a)`, after `wild_b`: the free list is the block 4120
of 56 bytes followed by the block 4208. -/
def wild_c : State := mm_free 8 wild_b.1 4120

/-- The state after `mm_init` on a memlib state with room for 16 bytes only:
the first `mem_sbrk` fails. -/
def heap_init_failed : State := (mm_init 8 (fresh 4096 16)).1

/-! # Properties -/

/-! ## Word arithmetic -/

theorem WMOD_pos (W : Nat) : 0 < WMOD W := by unfold WMOD; positivity

theorem WMOD_eight : WMOD 8 = 18446744073709551616 := by unfold WMOD; norm_num

theorem wadd_of_lt {W a b : Nat} (h : a + b < WMOD W) : wadd W a b = a + b := by
  unfold wadd; exact Nat.mod_eq_of_lt h

theorem wsub_of_le {W a b : Nat} (hb : b ≤ a) (ha : a < WMOD W) : wsub W a b = a - b := by
  unfold wsub
  have hb2 : b % WMOD W = b := Nat.mod_eq_of_lt (by omega)
  rw [hb2]
  have : a + (WMOD W - b) = (a - b) + WMOD W := by omega
  rw [this, Nat.add_mod_right]
  exact Nat.mod_eq_of_lt (by omega)

theorem wmul_of_lt {W a b : Nat} (h : a * b < WMOD W) : wmul W a b = a * b := by
  unfold wmul; exact Nat.mod_eq_of_lt h

/-! ## Memory: bytes and words -/

theorem putBytes_apply (m : Mem) (p v n a : Nat) :
    putBytes m p v n a = if p ≤ a ∧ a < p + n then v / 256 ^ (a - p) % 256 else m a := by
  induction n generalizing m p v with
  | zero => rw [putBytes, if_neg (by omega)]
  | succ n ih =>
    rw [putBytes, ih]
    by_cases h1 : p + 1 ≤ a ∧ a < p + 1 + n
    · have h2 : p ≤ a ∧ a < p + (n + 1) := by omega
      rw [if_pos h1, if_pos h2, Nat.div_div_eq_div_mul]
      have : a - p = (a - (p + 1)) + 1 := by omega
      rw [this, pow_succ, Nat.mul_comm]
    · rw [if_neg h1]
      by_cases h3 : a = p
      · subst h3
        simp
      · have h2 : ¬ (p ≤ a ∧ a < p + (n + 1)) := by omega
        rw [if_neg h2, if_neg h3]

theorem getBytes_congr (m m' : Mem) (p n : Nat)
    (h : ∀ a, p ≤ a → a < p + n → m a = m' a) : getBytes m p n = getBytes m' p n := by
  induction n generalizing p with
  | zero => rfl
  | succ n ih =>
    rw [getBytes, getBytes, h p (le_refl _) (by omega), ih (p + 1) (fun a h1 h2 => h a (by omega) (by omega))]

theorem getBytes_lt (m : Mem) (p n : Nat) : getBytes m p n < 256 ^ n := by
  induction n generalizing p with
  | zero => simp [getBytes]
  | succ n ih =>
    rw [getBytes, pow_succ]
    have := ih (p + 1)
    have h2 : m p % 256 < 256 := Nat.mod_lt _ (by decide)
    omega

theorem getBytes_digits (m : Mem) (v : Nat) (n p k : Nat)
    (h : ∀ i, i < n → m (p + i) = v / 256 ^ (k + i) % 256) :
    getBytes m p n = v / 256 ^ k % 256 ^ n := by
  induction n generalizing p k with
  | zero => simp [getBytes, Nat.mod_one]
  | succ n ih =>
    rw [getBytes, ih (p + 1) (k + 1) (fun i hi => by
      have := h (i + 1) (by omega)
      rw [show p + 1 + i = p + (i + 1) by omega, show k + 1 + i = k + (i + 1) by omega]
      exact this)]
    have h0 := h 0 (by omega)
    simp only [Nat.add_zero] at h0
    rw [h0, Nat.mod_mod, pow_succ 256 n, Nat.mul_comm (256 ^ n) 256, Nat.mod_mul, pow_succ,
      Nat.div_div_eq_div_mul]

theorem getBytes_putBytes (m : Mem) (p v n : Nat) :
    getBytes (putBytes m p v n) p n = v % 256 ^ n := by
  have := getBytes_digits (putBytes m p v n) v n p 0 (fun i hi => by
    rw [putBytes_apply, if_pos (by omega)]
    simp)
  simpa using this

theorem land_mask8 (x : Nat) (h : x < 2 ^ 64) : x &&& (2 ^ 64 - 1 - 7) = x / 8 * 8 := by
  apply Nat.eq_of_testBit_eq
  intro i
  rw [Nat.testBit_and]
  have e1 : (2:Nat) ^ 64 - 1 - 7 = (2 ^ 61 - 1) <<< 3 := by rw [Nat.shiftLeft_eq]; norm_num
  have e2 : x / 8 * 8 = (x >>> 3) <<< 3 := by
    rw [Nat.shiftLeft_eq, Nat.shiftRight_eq_div_pow]
  rw [e1, e2, Nat.testBit_shiftLeft, Nat.testBit_shiftLeft, Nat.testBit_two_pow_sub_one,
    Nat.testBit_shiftRight]
  by_cases h3 : 3 ≤ i
  · have e3 : 3 + (i - 3) = i := by omega
    rw [e3]
    by_cases h4 : i - 3 < 61
    · simp [h3, h4]
    · have : x.testBit i = false := by
        apply Nat.testBit_lt_two_pow
        calc x < 2 ^ 64 := h
          _ ≤ 2 ^ i := Nat.pow_le_pow_right (by decide) (by omega)
      simp [h3, h4, this]
  · simp [h3]

theorem land_one (x : Nat) : x &&& 1 = x % 2 := Nat.and_one_is_mod x

theorem lor_bit (sz al : Nat) (h : sz % 2 = 0) (hal : al ≤ 1) : sz ||| al = sz + al := by
  have h1 : sz = 2 ^ 1 * (sz / 2) := by omega
  have h2 : al < 2 ^ 1 := by omega
  have := Nat.mul_add_lt_is_or h2 (sz / 2)
  rw [← h1] at this
  exact this.symm

theorem GET_lt (m : Mem) (p : Nat) : GET 8 m p < 2 ^ 64 := by
  have := getBytes_lt m p 8
  unfold GET; norm_num at this ⊢; exact this

theorem GET_PUT_eq (m : Mem) (p v : Nat) (hv : v < 2 ^ 64) : GET 8 (PUT 8 m p v) p = v := by
  unfold GET PUT
  rw [getBytes_putBytes]
  exact Nat.mod_eq_of_lt (by norm_num at hv ⊢; exact hv)

theorem PUT_apply_out (m : Mem) (p v a : Nat) (h : a < p ∨ p + 8 ≤ a) :
    PUT 8 m p v a = m a := by
  unfold PUT
  rw [putBytes_apply, if_neg (by omega)]

theorem GET_congr (m m' : Mem) (p : Nat) (h : ∀ a, p ≤ a → a < p + 8 → m a = m' a) :
    GET 8 m p = GET 8 m' p := getBytes_congr m m' p 8 h

theorem GET_PUT_ne (m : Mem) (p q v : Nat) (h : q + 8 ≤ p ∨ p + 8 ≤ q) :
    GET 8 (PUT 8 m p v) q = GET 8 m q :=
  GET_congr _ _ q (fun a h1 h2 => PUT_apply_out m p v a (by omega))

theorem GET_SIZE_eq (m : Mem) (p : Nat) : GET_SIZE 8 m p = GET 8 m p / 8 * 8 := by
  unfold GET_SIZE WSIZE
  rw [WMOD_eight]
  exact land_mask8 _ (GET_lt m p)

theorem GET_ALLOC_eq (m : Mem) (p : Nat) : GET_ALLOC 8 m p = GET 8 m p % 2 := by
  unfold GET_ALLOC
  exact land_one _

theorem PACK_eq (sz al : Nat) (h : sz % 2 = 0) (hal : al ≤ 1) : PACK sz al = sz + al :=
  lor_bit sz al h hal

/-! ## Adjusted block size -/

theorem malloc_asize_eq_realloc_asize (W size : Nat) :
    malloc_asize W size = realloc_asize W size := rfl

/-- Closed form of the adjusted size when the `size_t` arithmetic does not wrap. -/
theorem malloc_asize_nowrap (W size : Nat) (hW : 0 < W) (h : size + 3 * W ≤ WMOD W - 1) :
    malloc_asize W size =
      if size ≤ W then 4 * W else W * ((size + (W - 1)) / W) + 2 * W := by
  unfold malloc_asize WSIZE DSIZE
  have hM := WMOD_pos W
  split
  · rfl
  · rename_i hs
    have h1 : wadd W size W = size + W := wadd_of_lt (by omega)
    have h2 : wsub W (size + W) 1 = size + W - 1 := wsub_of_le (by omega) (by omega)
    have h3 : W * ((size + W - 1) / W) ≤ size + W - 1 := Nat.mul_div_le _ _
    have h4 : wmul W W ((size + W - 1) / W) = W * ((size + W - 1) / W) :=
      wmul_of_lt (by omega)
    rw [h1, h2, h4, WSIZE, wadd_of_lt (by omega)]
    have : size + W - 1 = size + (W - 1) := by omega
    rw [this]

theorem malloc_asize_rounded (W size : Nat) (hW : 0 < W) (hs : 0 < size)
    (h : size + 3 * W ≤ WMOD W - 1) : malloc_asize W size = rounded_size W size := by
  rw [malloc_asize_nowrap W size hW h]
  unfold rounded_size
  split
  · rename_i hle
    have : (size + (W - 1)) / W = 1 := by
      apply Nat.div_eq_of_lt_le <;> omega
    rw [this]; simp; omega
  · rename_i hgt
    have : 2 ≤ (size + (W - 1)) / W := by
      rw [Nat.le_div_iff_mul_le hW]; omega
    have h2 : 2 * W ≤ (size + (W - 1)) / W * W := Nat.mul_le_mul_right W this
    rw [Nat.mul_comm W]
    rw [max_eq_right (by omega)]

/-- C9, as stated, fails: for a request of 9 bytes with 8-byte words the code
computes a 32-byte block while the formula of the specification,
`max(4*WSIZE, ceil((size + WSIZE) / WSIZE) * WSIZE + 2*WSIZE)`, gives 40. -/
theorem C9_spec_formula_fails :
    malloc_asize 8 9 = 32 ∧ realloc_asize 8 9 = 32 ∧ spec_adjusted_size 8 9 = 40 := by
  decide

/-- C9, amended: for every requested size `> 0` whose adjusted-size arithmetic
does not wrap (`size + 3*WSIZE ≤ SIZE_MAX`), the adjusted block size computed
by `mm_malloc`, and identically by `mm_realloc`, equals
`max(4*WSIZE, ceil(size / WSIZE) * WSIZE + 2*WSIZE)`. -/
theorem C9_adjusted_size (W size : Nat) (hW : 0 < W) (hs : 0 < size)
    (h : size + 3 * W ≤ WMOD W - 1) :
    malloc_asize W size = max (4 * WSIZE W) ((size + (WSIZE W - 1)) / WSIZE W * WSIZE W + 2 * WSIZE W) ∧
    realloc_asize W size = max (4 * WSIZE W) ((size + (WSIZE W - 1)) / WSIZE W * WSIZE W + 2 * WSIZE W) := by
  have := malloc_asize_rounded W size hW hs h
  unfold rounded_size at this
  exact ⟨this, this⟩

theorem C9_adjusted_size_witness :
    malloc_asize 8 9 = max (4 * WSIZE 8) ((9 + (WSIZE 8 - 1)) / WSIZE 8 * WSIZE 8 + 2 * WSIZE 8) ∧
    realloc_asize 8 9 = max (4 * WSIZE 8) ((9 + (WSIZE 8 - 1)) / WSIZE 8 * WSIZE 8 + 2 * WSIZE 8) :=
  C9_adjusted_size 8 9 (by decide) (by decide) (by rw [WMOD_eight]; decide)

/-- The adjusted size is monotone on requests whose arithmetic does not wrap. -/
theorem malloc_asize_mono_nowrap (W s1 s2 : Nat) (hW : 0 < W) (h12 : s1 ≤ s2)
    (h : s2 + 3 * W ≤ WMOD W - 1) : malloc_asize W s1 ≤ malloc_asize W s2 := by
  rw [malloc_asize_nowrap W s1 hW (by omega), malloc_asize_nowrap W s2 hW h]
  have hd : (s1 + (W - 1)) / W ≤ (s2 + (W - 1)) / W := Nat.div_le_div_right (by omega)
  have hm : W * ((s1 + (W - 1)) / W) ≤ W * ((s2 + (W - 1)) / W) := Nat.mul_le_mul_left W hd
  split <;> split
  · exact le_refl _
  · rename_i h1 h2
    have : 2 ≤ (s2 + (W - 1)) / W := by
      rw [Nat.le_div_iff_mul_le hW]; omega
    have h3 : W * 2 ≤ W * ((s2 + (W - 1)) / W) := Nat.mul_le_mul_left W this
    omega
  · omega
  · omega

/-- C10 at its failing input: in `size_t` arithmetic the adjusted size of a
1-byte request is 32 while that of a `2^64 - 1`-byte request wraps to 16, so
`adjusted_size` is not monotone on all `size_t` values. -/
theorem C10_not_monotone :
    (0 < 1 ∧ 1 ≤ 2 ^ 64 - 1 ∧ 2 ^ 64 - 1 < WMOD 8) ∧
    malloc_asize 8 1 = 32 ∧ malloc_asize 8 (2 ^ 64 - 1) = 16 ∧
    ¬ (malloc_asize 8 1 ≤ malloc_asize 8 (2 ^ 64 - 1)) := by
  decide

/-! ## Concrete runs of the allocator -/

/-- C1 at its failing input: after `mm_init`, `p = mm_malloc(2^64 - 16)` and
then `q = mm_malloc(16)` both return the non-NULL address 4120 with neither
block freed, so the payload regions `[p, p + (2^64 - 16))` and `[q, q + 16)`
of two live blocks overlap. -/
theorem C1_live_blocks_overlap :
    (mm_init 8 (fresh 4096 (2 ^ 20))).2 = some () ∧
    run_wrap.map Prod.snd = some 4120 ∧
    run_wrap_then_16.map Prod.snd = some 4120 ∧
    ranges_overlap 4120 (2 ^ 64 - 16) 4120 16 := by
  decide!

/-- C2 at its failing input: after `mm_init`, `mm_malloc(2^64 - 16)` returns
the non-NULL address 4120, whose block header and footer carry size 32768 with
the allocated bit clear, and whose payload capacity 32768 - 16 is smaller than
the requested size. -/
theorem C2_wrapped_request :
    malloc_asize 8 (2 ^ 64 - 16) = 0 ∧
    run_wrap.map (fun r => (r.2, GET 8 r.1.mem (HDRP 8 r.2), GET 8 r.1.mem (FTRP 8 r.1.mem r.2),
      GET_ALLOC 8 r.1.mem (HDRP 8 r.2), GET_SIZE 8 r.1.mem (HDRP 8 r.2) - 2 * WSIZE 8))
      = some (4120, 32768, 32768, 0, 32752) ∧
    32752 < 2 ^ 64 - 16 := by
  decide!

/-- C4 at its failing input: after `p = mm_malloc(16)`, `q = mm_malloc(16)`
the block `p = 4120` is allocated with size 32, the adjusted size of a 16-byte
request is 32, and `mm_realloc(p, 16)` returns the different address 4184. -/
theorem C4_equal_size_moves :
    run_pq.map (fun r => (GET 8 r.1.mem (HDRP 8 4120), GET_SIZE 8 r.1.mem (HDRP 8 4120)))
      = some (33, 32) ∧
    realloc_asize 8 16 = 32 ∧
    run_pq_realloc.map Prod.snd = some 4184 := by
  decide!

/-- C5 at its failing input: after `p, q, r = mm_malloc(16)` and `mm_free(q)`,
the block `p = 4120` has size 32, the following block `q = 4152` is free with
size 32 and heads the free list, the adjusted size of a 48-byte request is
`64 = 32 + 32`, and `mm_realloc(p, 48)` returns the different address 4216. -/
theorem C5_exact_fit_moves :
    run_pqr_free.map (fun st => (GET 8 st.mem (HDRP 8 4120), NEXT_BLKP 8 st.mem 4120,
      GET 8 st.mem (HDRP 8 4152), st.ef_listp)) = some (33, 4152, 32, 4152) ∧
    realloc_asize 8 48 = 64 ∧
    run_pqr_free_realloc.map Prod.snd = some 4216 := by
  decide!

/-! ## Fields outside memory and the free-list head -/

theorem SameAux.same (st : State) : SameAux st st := ⟨rfl, rfl, rfl, rfl, rfl, rfl, rfl⟩

theorem SameAux.chain {a b c : State} (h1 : SameAux a b) (h2 : SameAux b c) : SameAux a c :=
  ⟨h2.1.trans h1.1, h2.2.trans h1.2, h2.3.trans h1.3, h2.4.trans h1.4, h2.5.trans h1.5,
    h2.6.trans h1.6, h2.7.trans h1.7⟩

theorem SameAux.set_mem (st : State) (m : Mem) : SameAux st { st with mem := m } :=
  ⟨rfl, rfl, rfl, rfl, rfl, rfl, rfl⟩

theorem efl_slice_aux (W : Nat) (st : State) (b : Nat) : SameAux st (efl_slice W st b) := by
  unfold efl_slice
  constructor <;> (dsimp only; split_ifs <;> rfl)

theorem efl_insert_aux (W : Nat) (st : State) (bp : Nat) : SameAux st (efl_insert W st bp) :=
  ⟨rfl, rfl, rfl, rfl, rfl, rfl, rfl⟩

theorem place_aux (W : Nat) (st : State) (bp asize : Nat) : SameAux st (place W st bp asize) := by
  unfold place
  dsimp only
  split_ifs
  · exact (SameAux.set_mem st _).chain
      (((efl_slice_aux W _ bp).chain (SameAux.set_mem _ _)).chain (efl_insert_aux W _ _))
  · exact (SameAux.set_mem st _).chain (efl_slice_aux W _ bp)

theorem coalesce_aux (W : Nat) (st : State) (bp : Nat) : SameAux st (coalesce W st bp).1 := by
  unfold coalesce
  dsimp only
  split_ifs
  · exact efl_insert_aux W st bp
  · exact ((efl_slice_aux W st _).chain (SameAux.set_mem _ _)).chain (efl_insert_aux W _ _)
  · exact ((efl_slice_aux W st _).chain (SameAux.set_mem _ _)).chain (efl_insert_aux W _ _)
  · exact (((efl_slice_aux W st _).chain (efl_slice_aux W _ _)).chain
      (SameAux.set_mem _ _)).chain (efl_insert_aux W _ _)

theorem mem_sbrk_extendorfree (W : Nat) (st : State) (incr : Nat) :
    (mem_sbrk W st incr).1.extendorfree = st.extendorfree := by
  unfold mem_sbrk
  split_ifs <;> rfl

theorem extend_heap_extendorfree (W : Nat) (st : State) (words : Nat) :
    (extend_heap W st words).1.extendorfree = 1 := by
  unfold extend_heap
  dsimp only
  split_ifs
  · exact mem_sbrk_extendorfree W _ _
  · rw [(coalesce_aux W _ _).extendorfree]
    exact mem_sbrk_extendorfree W _ _
  · exact mem_sbrk_extendorfree W _ _
  · rw [(coalesce_aux W _ _).extendorfree]
    exact mem_sbrk_extendorfree W _ _

theorem find_fit_extendorfree (W fuel : Nat) (st : State) (asize : Nat) (r : State × Nat)
    (h : find_fit W fuel st asize = some r) : r.1.extendorfree = st.extendorfree := by
  unfold find_fit at h
  split_ifs at h
  · cases h; rfl
  · split at h
    · cases h
    · split_ifs at h <;> cases h <;> rfl

theorem mm_malloc_extendorfree (W fuel : Nat) (st : State) (size : Nat) (r : State × Nat)
    (h : mm_malloc W fuel st size = some r) (h1 : st.extendorfree = 1) :
    r.1.extendorfree = 1 := by
  unfold mm_malloc at h
  split_ifs at h
  · cases h; exact h1
  · dsimp only at h
    split at h
    · cases h
    · rename_i st1 bp hf
      have hf1 := find_fit_extendorfree W fuel st _ _ hf
      split_ifs at h
      · cases h
        rw [(place_aux W _ _ _).extendorfree]; exact hf1.trans h1
      · cases h
        exact extend_heap_extendorfree W _ _
      · cases h
        rw [(place_aux W _ _ _).extendorfree]
        exact extend_heap_extendorfree W _ _

theorem mm_free_extendorfree (W : Nat) (st : State) (bp : Nat) :
    (mm_free W st bp).extendorfree = 1 := by
  unfold mm_free
  dsimp only
  split_ifs
  · rfl
  · rw [(coalesce_aux W _ _).extendorfree]

theorem mm_realloc_extendorfree (W fuel : Nat) (st : State) (ptr size : Nat) (r : State × Nat)
    (h : mm_realloc W fuel st ptr size = some r) (h1 : st.extendorfree = 1) :
    r.1.extendorfree = 1 := by
  unfold mm_realloc at h
  split_ifs at h
  · cases h; exact mm_free_extendorfree W st ptr
  · exact mm_malloc_extendorfree W fuel st size r h h1
  · dsimp only at h
    split_ifs at h
    · cases h; exact h1
    · cases h
      exact (efl_slice_aux W st _).extendorfree.trans h1
    all_goals
      split at h
      · cases h
      · rename_i heq
        have h2 := mm_malloc_extendorfree W fuel st size _ heq h1
        split_ifs at h
        · cases h; exact h2
        · cases h
          exact mm_free_extendorfree W _ ptr

theorem mm_init_extendorfree (W : Nat) (st : State) (h : (mm_init W st).2 = some ()) :
    (mm_init W st).1.extendorfree = 1 := by
  unfold mm_init at h ⊢
  dsimp only at h ⊢
  split_ifs at h ⊢
  · exact extend_heap_extendorfree W _ _

/-- The dirty flag is set in every reachable state. -/
theorem Reachable.extendorfree_eq_one {W : Nat} {st : State} (h : Reachable W st) :
    st.extendorfree = 1 := by
  induction h with
  | init st h => exact mm_init_extendorfree W st h
  | malloc st fuel size r _ h ih => exact mm_malloc_extendorfree W fuel st size r h ih
  | free st bp _ _ => exact mm_free_extendorfree W st bp
  | realloc st fuel ptr size r _ h ih => exact mm_realloc_extendorfree W fuel st ptr size r h ih

/-! ## First fit -/

theorem FreeChain.ne_null {W : Nat} {m : Mem} {l : List Nat} {prev cur b : Nat}
    (h : FreeChain W m prev cur l) (hb : b ∈ l) : b ≠ NULL := by
  induction l generalizing prev cur with
  | nil => cases hb
  | cons x l ih =>
    obtain ⟨_, hx, _, hrest⟩ := h
    rcases List.mem_cons.mp hb with rfl | hb
    · exact hx
    · exact ih hrest hb

/-- The loop of `find_fit` over a well-formed chain ends within `length + 1`
steps, at the first node whose block is large enough, or at `NULL`. -/
theorem find_fit_loop_chain (W : Nat) (m : Mem) (asize : Nat) (l : List Nat) (prev cur fuel : Nat)
    (h : FreeChain W m prev cur l) (hf : l.length < fuel) :
    find_fit_loop W m asize fuel cur =
      some ((l.find? (fun b => decide (asize ≤ GET_SIZE W m (HDRP W b)))).getD NULL) := by
  induction l generalizing prev cur fuel with
  | nil =>
    cases fuel with
    | zero => simp at hf
    | succ fuel =>
      have : cur = NULL := h
      simp [find_fit_loop, this]
  | cons x l ih =>
    cases fuel with
    | zero => simp at hf
    | succ fuel =>
      obtain ⟨hc, hx, _, hrest⟩ := h
      subst hc
      rw [find_fit_loop, if_neg hx]
      by_cases hfit : asize ≤ GET_SIZE W m (HDRP W cur)
      · simp [hfit]
      · rw [if_neg hfit, ih _ _ _ hrest (by simpa using hf)]
        simp [List.find?, hfit]

/-! ## Block layout -/

theorem Tiles_le {m : Mem} {a e : Nat} {bs : List (Nat × Nat)} (h : Tiles 8 m a bs e) : a ≤ e := by
  induction bs generalizing a with
  | nil => exact le_of_eq h
  | cons b bs ih =>
    obtain ⟨_, _, _, _, _, hr⟩ := h
    have := ih hr
    omega

theorem Tiles_mod {m : Mem} {a e : Nat} {bs : List (Nat × Nat)} (h : Tiles 8 m a bs e) :
    e % 8 = a % 8 := by
  induction bs generalizing a with
  | nil => have : a = e := h; rw [this]
  | cons b bs ih =>
    obtain ⟨_, _, _, h8, _, hr⟩ := h
    have := ih hr
    omega

theorem Tiles_append {m : Mem} {a e : Nat} {l1 l2 : List (Nat × Nat)} :
    Tiles 8 m a (l1 ++ l2) e ↔ ∃ c, Tiles 8 m a l1 c ∧ Tiles 8 m c l2 e := by
  induction l1 generalizing a with
  | nil =>
    constructor
    · intro h; exact ⟨a, rfl, h⟩
    · rintro ⟨c, hc, h⟩
      have : a = c := hc
      subst this; exact h
  | cons b l1 ih =>
    constructor
    · rintro ⟨h1, h2, h3, h4, h5, hr⟩
      obtain ⟨c, hc1, hc2⟩ := ih.mp hr
      exact ⟨c, ⟨h1, h2, h3, h4, h5, hc1⟩, hc2⟩
    · rintro ⟨c, ⟨h1, h2, h3, h4, h5, hc1⟩, hc2⟩
      exact ⟨h1, h2, h3, h4, h5, ih.mpr ⟨c, hc1, hc2⟩⟩

/-- The layout between `a` and `e` only depends on the words inside `[a, e)`. -/
theorem Tiles_congr {m m' : Mem} {a e : Nat} {bs : List (Nat × Nat)}
    (hm : ∀ p, a ≤ p → p + 8 ≤ e → GET 8 m' p = GET 8 m p) (h : Tiles 8 m a bs e) :
    Tiles 8 m' a bs e := by
  induction bs generalizing a with
  | nil => exact h
  | cons b bs ih =>
    obtain ⟨h1, h2, h3, h4, h5, hr⟩ := h
    have hle := Tiles_le hr
    refine ⟨?_, ?_, h3, h4, h5, ih (fun p hp1 hp2 => hm p (by omega) hp2) hr⟩
    · rw [hm _ (le_refl _) (by omega)]; exact h1
    · rw [hm _ (by omega) (by omega)]; exact h2

/-- A word written at or after the end of a layout leaves it intact. -/
theorem Tiles_put_above {m : Mem} {a e w v : Nat} {bs : List (Nat × Nat)} (hw : e ≤ w)
    (h : Tiles 8 m a bs e) : Tiles 8 (PUT 8 m w v) a bs e :=
  Tiles_congr (fun p _ hp => GET_PUT_ne m w p v (by omega)) h

/-- A word written before the start of a layout leaves it intact. -/
theorem Tiles_put_below {m : Mem} {a e w v : Nat} {bs : List (Nat × Nat)} (hw : w + 8 ≤ a)
    (h : Tiles 8 m a bs e) : Tiles 8 (PUT 8 m w v) a bs e :=
  Tiles_congr (fun p hp _ => GET_PUT_ne m w p v (by omega)) h

/-- Sum of the block sizes. -/
theorem Tiles_end {m : Mem} {a e : Nat} {bs : List (Nat × Nat)} (h : Tiles 8 m a bs e) :
    e = a + (bs.map Prod.fst).sum := by
  induction bs generalizing a with
  | nil => have : a = e := h; simp [this]
  | cons b bs ih =>
    obtain ⟨_, _, _, _, _, hr⟩ := h
    rw [ih hr]; simp; omega

/-- What the layout says about one block of the list `blocksFrom`. -/
theorem Tiles_block {m : Mem} {a e : Nat} {bs : List (Nat × Nat)} (h : Tiles 8 m a bs e)
    {x s al : Nat} (hb : (x, s, al) ∈ blocksFrom 8 a bs) :
    GET 8 m (x - 8) = PACK s al ∧ GET 8 m (x + s - 16) = PACK s al ∧ 32 ≤ s ∧ s % 8 = 0 ∧
      al ≤ 1 ∧ a + 8 ≤ x ∧ x + s ≤ e + 8 ∧ x % 8 = a % 8 := by
  induction bs generalizing a with
  | nil => cases hb
  | cons b bs ih =>
    obtain ⟨h1, h2, h3, h4, h5, hr⟩ := h
    have hle := Tiles_le hr
    rcases List.mem_cons.mp hb with heq | hb
    · cases heq
      refine ⟨by simpa using h1, ?_, h3, h4, h5, le_refl _, by omega, by omega⟩
      have : a + 8 + b.1 - 16 = a + b.1 - 8 := by omega
      rw [this]; exact h2
    · obtain ⟨g1, g2, g3, g4, g5, g6, g7, g8⟩ := ih hr hb
      exact ⟨g1, g2, g3, g4, g5, by omega, g7, by omega⟩

/-- Two blocks of a layout are the same block or do not overlap. -/
theorem Tiles_disjoint {m : Mem} {a e : Nat} {bs : List (Nat × Nat)} (h : Tiles 8 m a bs e)
    {b c : Nat × Nat × Nat} (hb : b ∈ blocksFrom 8 a bs) (hc : c ∈ blocksFrom 8 a bs) :
    b = c ∨ b.1 + b.2.1 ≤ c.1 ∨ c.1 + c.2.1 ≤ b.1 := by
  induction bs generalizing a with
  | nil => cases hb
  | cons x bs ih =>
    obtain ⟨h1, h2, h3, h4, h5, hr⟩ := h
    rcases List.mem_cons.mp hb with hb | hb <;> rcases List.mem_cons.mp hc with hc | hc
    · left; rw [hb, hc]
    · obtain ⟨cx, cs, cal⟩ := c
      have := Tiles_block hr hc
      right; left; rw [hb]; simp only; omega
    · obtain ⟨bx, bs', bal⟩ := b
      have := Tiles_block hr hb
      right; right; rw [hc]; simp only; omega
    · exact ih hr hb hc

/-! ## Evaluating the macros on tagged blocks -/

theorem PACK_lt {s al : Nat} (h8 : s % 8 = 0) (hal : al ≤ 1) (hs : s < 2 ^ 64) :
    PACK s al < 2 ^ 64 := by
  rw [PACK_eq s al (by omega) hal]
  norm_num at hs ⊢
  omega

theorem GET_SIZE_of_tag {m : Mem} {p s al : Nat} (h : GET 8 m p = PACK s al) (h8 : s % 8 = 0)
    (hal : al ≤ 1) : GET_SIZE 8 m p = s := by
  rw [GET_SIZE_eq, h, PACK_eq s al (by omega) hal]
  omega

theorem GET_ALLOC_of_tag {m : Mem} {p s al : Nat} (h : GET 8 m p = PACK s al) (h8 : s % 8 = 0)
    (hal : al ≤ 1) : GET_ALLOC 8 m p = al := by
  rw [GET_ALLOC_eq, h, PACK_eq s al (by omega) hal]
  omega

theorem wadd8_of_lt {a b : Nat} (h : a + b < 2 ^ 64) : wadd 8 a b = a + b :=
  wadd_of_lt (by rw [WMOD_eight]; norm_num at h; exact h)

theorem wsub8_of_le {a b : Nat} (hb : b ≤ a) (ha : a < 2 ^ 64) : wsub 8 a b = a - b :=
  wsub_of_le hb (by rw [WMOD_eight]; norm_num at ha; exact ha)

theorem HDRP_eq {bp : Nat} (h1 : 8 ≤ bp) (h2 : bp < 2 ^ 64) : HDRP 8 bp = bp - 8 := by
  unfold HDRP WSIZE; exact wsub8_of_le h1 h2

theorem NEXT_BLKP_eq {m : Mem} {bp s al : Nat} (h : GET 8 m (bp - 8) = PACK s al)
    (h8 : s % 8 = 0) (hal : al ≤ 1) (h1 : 8 ≤ bp) (h2 : bp + s < 2 ^ 64) :
    NEXT_BLKP 8 m bp = bp + s := by
  unfold NEXT_BLKP WSIZE
  rw [wsub8_of_le h1 (by omega), GET_SIZE_of_tag h h8 hal, wadd8_of_lt h2]

theorem FTRP_eq {m : Mem} {bp s al : Nat} (h : GET 8 m (bp - 8) = PACK s al)
    (h8 : s % 8 = 0) (hal : al ≤ 1) (h1 : 8 ≤ bp) (h2 : bp + s < 2 ^ 64) (h3 : 16 ≤ bp + s) :
    FTRP 8 m bp = bp + s - 16 := by
  unfold FTRP DSIZE WSIZE
  rw [HDRP_eq h1 (by omega), GET_SIZE_of_tag h h8 hal, wadd8_of_lt h2, wsub8_of_le h3 h2]

theorem PREV_BLKP_eq {m : Mem} {bp s al : Nat} (h : GET 8 m (bp - 16) = PACK s al)
    (h8 : s % 8 = 0) (hal : al ≤ 1) (h1 : 16 ≤ bp) (h2 : bp < 2 ^ 64) (h3 : s ≤ bp) :
    PREV_BLKP 8 m bp = bp - s := by
  unfold PREV_BLKP DSIZE WSIZE
  rw [wsub8_of_le h1 h2, GET_SIZE_of_tag h h8 hal, wsub8_of_le h3 h2]

theorem EFL_SBP_eq {m : Mem} {bp : Nat} (h : bp + 8 < 2 ^ 64) : EFL_SBP 8 m bp = GET 8 m (bp + 8) := by
  unfold EFL_SBP WSIZE; rw [wadd8_of_lt h]

theorem SET_EFL_SBP_eq {m : Mem} {bp v : Nat} (h : bp + 8 < 2 ^ 64) :
    SET_EFL_SBP 8 m bp v = PUT 8 m (bp + 8) v := by
  unfold SET_EFL_SBP WSIZE; rw [wadd8_of_lt h]

/-! ## Free-list chains -/

theorem mem_freeBlocks {a x : Nat} {bs : List (Nat × Nat)} :
    x ∈ freeBlocks 8 a bs ↔ ∃ s, (x, s, 0) ∈ blocksFrom 8 a bs := by
  unfold freeBlocks
  simp only [List.mem_map, List.mem_filter, decide_eq_true_eq]
  constructor
  · rintro ⟨⟨y, s, al⟩, ⟨hmem, hal⟩, hx⟩
    simp only at hal hx
    subst hal; subst hx
    exact ⟨s, hmem⟩
  · rintro ⟨s, hmem⟩
    exact ⟨(x, s, 0), ⟨hmem, rfl⟩, rfl⟩

/-- A chain only depends on the link words of its nodes. -/
theorem FreeChain_congr {m m' : Mem} {l : List Nat} {prev cur : Nat}
    (hm : ∀ x ∈ l, EFL_PBP 8 m' x = EFL_PBP 8 m x ∧ EFL_SBP 8 m' x = EFL_SBP 8 m x)
    (h : FreeChain 8 m prev cur l) : FreeChain 8 m' prev cur l := by
  induction l generalizing prev cur with
  | nil => exact h
  | cons b l ih =>
    obtain ⟨h1, h2, h3, h4⟩ := h
    have hb := hm b (List.mem_cons_self _ _)
    refine ⟨h1, h2, hb.1.trans h3, ?_⟩
    rw [hb.2]
    exact ih (fun x hx => hm x (List.mem_cons_of_mem _ hx)) h4

/-- The successor of a chain node is `NULL` or a chain node. -/
theorem FreeChain.succ_mem {m : Mem} {l : List Nat} {prev cur b : Nat}
    (h : FreeChain 8 m prev cur l) (hb : b ∈ l) : EFL_SBP 8 m b = NULL ∨ EFL_SBP 8 m b ∈ l := by
  induction l generalizing prev cur with
  | nil => cases hb
  | cons x l ih =>
    obtain ⟨_, _, _, hrest⟩ := h
    rcases List.mem_cons.mp hb with rfl | hb
    · cases l with
      | nil => left; exact hrest
      | cons y l => right; rw [hrest.1]; simp
    · rcases ih hrest hb with h | h
      · left; exact h
      · right; exact List.mem_cons_of_mem _ h

/-- The predecessor of a chain node is the predecessor of the head or a chain node. -/
theorem FreeChain.pred_mem {m : Mem} {l : List Nat} {prev cur b : Nat}
    (h : FreeChain 8 m prev cur l) (hb : b ∈ l) : EFL_PBP 8 m b = prev ∨ EFL_PBP 8 m b ∈ l := by
  induction l generalizing prev cur with
  | nil => cases hb
  | cons x l ih =>
    obtain ⟨_, _, hp, hrest⟩ := h
    rcases List.mem_cons.mp hb with rfl | hb
    · left; exact hp
    · rcases ih hrest hb with h | h
      · right; rw [h]; simp
      · right; exact List.mem_cons_of_mem _ h

/-! ## Slicing a node out of the free list -/

/-- Bytes outside the two link words written by the excision are unchanged. -/
theorem efl_slice_mem_out (st : State) (b a : Nat)
    (hp : EFL_PBP 8 st.mem b = NULL ∨
      (EFL_PBP 8 st.mem b + 8 < 2 ^ 64 ∧
        (a < EFL_PBP 8 st.mem b + 8 ∨ EFL_PBP 8 st.mem b + 16 ≤ a)))
    (hs : EFL_SBP 8 st.mem b = NULL ∨ (a < EFL_SBP 8 st.mem b ∨ EFL_SBP 8 st.mem b + 8 ≤ a)) :
    (efl_slice 8 st b).mem a = st.mem a := by
  unfold efl_slice
  dsimp only
  by_cases h1 : EFL_PBP 8 st.mem b = NULL <;> by_cases h2 : EFL_SBP 8 st.mem b = NULL
  · rw [if_neg (not_not.mpr h1), if_neg (not_not.mpr h2)]
  · rw [if_neg (not_not.mpr h1), if_pos h2]
    dsimp only
    unfold SET_EFL_PBP
    rcases hs with hs | hs
    · exact absurd hs h2
    · rw [PUT_apply_out _ _ _ _ (by omega)]
  · rw [if_pos h1, if_neg (not_not.mpr h2)]
    rcases hp with hp | hp
    · exact absurd hp h1
    · dsimp only
      rw [SET_EFL_SBP_eq hp.1, PUT_apply_out _ _ _ _ (by omega)]
  · rw [if_pos h1, if_pos h2]
    rcases hp with hp | hp
    · exact absurd hp h1
    · rcases hs with hs | hs
      · exact absurd hs h2
      · dsimp only
        unfold SET_EFL_PBP
        rw [PUT_apply_out _ _ _ _ (by omega), SET_EFL_SBP_eq hp.1,
          PUT_apply_out _ _ _ _ (by omega)]

/-- In a layout with free list `fl`, the link words of the free-list
neighbours of a node lie inside free blocks, away from every byte `a` that is
not in the first two payload words of a free block. -/
theorem efl_slice_mem_frame {st : State} {a0 e : Nat} {bs : List (Nat × Nat)} {fl : List Nat}
    (ht : Tiles 8 st.mem a0 bs e) (he : e < 2 ^ 64) (hc : FreeChain 8 st.mem NULL st.ef_listp fl)
    (hsub : ∀ x ∈ fl, x ∈ freeBlocks 8 a0 bs) {b : Nat} (hb : b ∈ fl) (a : Nat)
    (ha : ∀ x s, (x, s, 0) ∈ blocksFrom 8 a0 bs → a < x ∨ x + 16 ≤ a) :
    (efl_slice 8 st b).mem a = st.mem a := by
  apply efl_slice_mem_out
  · rcases hc.pred_mem hb with h | h
    · left; exact h
    · right
      obtain ⟨s, hs⟩ := mem_freeBlocks.mp (hsub _ h)
      have hblk := Tiles_block ht hs
      have := ha _ _ hs
      omega
  · rcases hc.succ_mem hb with h | h
    · left; exact h
    · right
      obtain ⟨s, hs⟩ := mem_freeBlocks.mp (hsub _ h)
      have := ha _ _ hs
      omega

/-! ## Heap extension -/

/-- Memory after `extend_heap` has written the header and footer of the new
free block of `sz` bytes at the old break `B` and the new epilogue header. -/
theorem extend_heap_writes (m : Mem) (B sz : Nat) (h8 : sz % 8 = 0) (h16 : 16 ≤ sz)
    (hB : 8 ≤ B) (hlt : B + sz < 2 ^ 64) :
    let m1 := PUT 8 m (HDRP 8 B) (PACK sz 0)
    let m2 := PUT 8 m1 (FTRP 8 m1 B) (PACK sz 0)
    PUT 8 m2 (HDRP 8 (NEXT_BLKP 8 m2 B)) (PACK 0 1) =
      PUT 8 (PUT 8 (PUT 8 m (B - 8) (PACK sz 0)) (B + sz - 16) (PACK sz 0)) (B + sz - 8)
        (PACK 0 1) := by
  intro m1 m2
  have hp : PACK sz 0 < 2 ^ 64 := PACK_lt h8 (by omega) (by omega)
  have e1 : HDRP 8 B = B - 8 := HDRP_eq hB (by omega)
  have g1 : GET 8 (PUT 8 m (B - 8) (PACK sz 0)) (B - 8) = PACK sz 0 := GET_PUT_eq _ _ _ hp
  have e2 : FTRP 8 (PUT 8 m (B - 8) (PACK sz 0)) B = B + sz - 16 :=
    FTRP_eq g1 h8 (by omega) hB hlt (by omega)
  have g2 : GET 8 (PUT 8 (PUT 8 m (B - 8) (PACK sz 0)) (B + sz - 16) (PACK sz 0)) (B - 8)
      = PACK sz 0 := by
    rw [GET_PUT_ne _ _ _ _ (by omega)]; exact g1
  have e3 : NEXT_BLKP 8 (PUT 8 (PUT 8 m (B - 8) (PACK sz 0)) (B + sz - 16) (PACK sz 0)) B
      = B + sz := NEXT_BLKP_eq g2 h8 (by omega) hB hlt
  have e4 : HDRP 8 (B + sz) = B + sz - 8 := HDRP_eq (by omega) hlt
  simp only [m2, m1, e1, e2, e3, e4]

/-- The number of bytes `extend_heap` requests for `words` words, when the
multiplication does not wrap. -/
theorem extend_heap_size (words : Nat) (h : (words + 1) * 8 < 2 ^ 64) :
    (if words % 2 ≠ 0 then wmul 8 (wadd 8 words 1) (WSIZE 8) else wmul 8 words (WSIZE 8)) =
      (words + words % 2) * 8 := by
  have hM := WMOD_eight
  unfold WSIZE
  split
  · rename_i h2
    rw [wadd8_of_lt (by omega), wmul_of_lt (by omega)]
    have : words % 2 = 1 := by omega
    rw [this]
  · rename_i h2
    rw [wmul_of_lt (by omega)]
    have : words % 2 = 0 := by omega
    rw [this]; rfl

/-- When `mem_sbrk` fails `extend_heap` returns `NULL` and only the dirty flag
and the call counters change. -/
theorem extend_heap_fail (st : State) (words : Nat) (h : (words + 1) * 8 < 2 ^ 64)
    (hfail : st.mem_brk + (words + words % 2) * 8 > st.mem_max_addr) :
    extend_heap 8 st words =
      ({ st with extendorfree := 1, sbrk_calls := st.sbrk_calls + 1,
                 sbrk_fails := st.sbrk_fails + 1 }, NULL) := by
  unfold extend_heap
  simp only [extend_heap_size words h]
  unfold mem_sbrk
  simp only [if_pos hfail, if_true]

/-- When `mem_sbrk` succeeds `extend_heap` lays down the new free block and the
new epilogue header and coalesces. -/
theorem extend_heap_ok (st : State) (words : Nat) (h : (words + 1) * 8 < 2 ^ 64)
    (hw : 2 ≤ words) (hB : 8 ≤ st.mem_brk)
    (hok : st.mem_brk + (words + words % 2) * 8 ≤ st.mem_max_addr)
    (hmax : st.mem_max_addr < 2 ^ 64 - 1) :
    extend_heap 8 st words =
      coalesce 8 { st with
        extendorfree := 1, sbrk_calls := st.sbrk_calls + 1,
        mem_brk := st.mem_brk + (words + words % 2) * 8,
        mem := PUT 8 (PUT 8 (PUT 8 st.mem (st.mem_brk - 8) (PACK ((words + words % 2) * 8) 0))
          (st.mem_brk + (words + words % 2) * 8 - 16) (PACK ((words + words % 2) * 8) 0))
          (st.mem_brk + (words + words % 2) * 8 - 8) (PACK 0 1) } st.mem_brk := by
  unfold extend_heap
  simp only [extend_heap_size words h]
  unfold mem_sbrk
  have hne : ¬ st.mem_brk = WMOD 8 - 1 := by rw [WMOD_eight]; omega
  simp only [if_neg (not_lt.mpr hok), if_neg hne]
  rw [extend_heap_writes st.mem st.mem_brk ((words + words % 2) * 8) (by omega) (by omega)
    hB (by omega)]

theorem blocksFrom_append (a : Nat) (l1 l2 : List (Nat × Nat)) :
    blocksFrom 8 a (l1 ++ l2) =
      blocksFrom 8 a l1 ++ blocksFrom 8 (a + (l1.map Prod.fst).sum) l2 := by
  induction l1 generalizing a with
  | nil => simp [blocksFrom]
  | cons b l1 ih =>
    rw [List.cons_append, blocksFrom, ih, blocksFrom, List.map_cons, List.sum_cons,
      Nat.add_assoc]
    rfl

/-- The word just below the epilogue header is the footer of the last block,
or the prologue footer when there is no block. -/
theorem HeapLayout.last_tag {st : State} {bs : List (Nat × Nat)} {fl : List Nat}
    (h : HeapLayout 8 st bs fl) :
    ∃ ps pal, GET 8 st.mem (st.mem_brk - 16) = PACK ps pal ∧
      GET 8 st.mem (st.mem_brk - ps - 8) = PACK ps pal ∧ ps % 8 = 0 ∧ pal ≤ 1 ∧ 16 ≤ ps ∧
      st.heap_listp + ps ≤ st.mem_brk ∧
      (pal = 0 → (st.mem_brk - ps, ps, 0) ∈ blocksFrom 8 (st.heap_listp + 8) bs) := by
  have hle := Tiles_le h.tiles
  have hbase := h.base
  rcases List.eq_nil_or_concat bs with hnil | ⟨pre, b, hcat⟩
  · subst hnil
    have he : st.heap_listp + 8 = st.mem_brk - 8 := h.tiles
    refine ⟨16, 1, ?_, ?_, by decide, le_refl _, le_refl _, by omega, by intro h0; cases h0⟩
    · have : st.mem_brk - 16 = st.heap_listp := by omega
      rw [this]; exact h.prologue_ftr
    · have : st.mem_brk - 16 - 8 = st.heap_listp - 8 := by omega
      rw [this]; exact h.prologue_hdr
  · rw [List.concat_eq_append] at hcat
    subst hcat
    obtain ⟨c, hc1, hc2⟩ := Tiles_append.mp h.tiles
    obtain ⟨g1, g2, g3, g4, g5, g6⟩ := hc2
    have g6' : c + b.1 = st.mem_brk - 8 := g6
    have hc := Tiles_le hc1
    have hend := Tiles_end hc1
    refine ⟨b.1, b.2, ?_, ?_, g4, g5, by omega, by omega, ?_⟩
    · have : st.mem_brk - 16 = c + b.1 - 8 := by omega
      rw [this]; exact g2
    · have : st.mem_brk - b.1 - 8 = c := by omega
      rw [this]; exact g1
    · intro h0
      rw [blocksFrom_append]
      apply List.mem_append_right
      have : st.mem_brk - b.1 = st.heap_listp + 8 + (pre.map Prod.fst).sum + 8 := by omega
      rw [this, ← h0]
      simp [blocksFrom]

theorem HeapLayout.brk_ge {st : State} {bs : List (Nat × Nat)} {fl : List Nat}
    (h : HeapLayout 8 st bs fl) : st.heap_listp + 16 ≤ st.mem_brk := by
  have := Tiles_le h.tiles
  have := h.base
  omega

theorem HeapLayout.max_lt' {st : State} {bs : List (Nat × Nat)} {fl : List Nat}
    (h : HeapLayout 8 st bs fl) : st.mem_max_addr < 2 ^ 64 - 1 := by
  have := h.max_lt
  rw [WMOD_eight] at this
  norm_num; exact this

theorem HeapLayout.mem_fl {st : State} {bs : List (Nat × Nat)} {fl : List Nat}
    (h : HeapLayout 8 st bs fl) {x : Nat} :
    x ∈ fl ↔ ∃ s, (x, s, 0) ∈ blocksFrom 8 (st.heap_listp + 8) bs := by
  rw [h.perm.mem_iff, mem_freeBlocks]

/-- After a successful extension of a well-formed heap, `coalesce` of the new
block returns a non-NULL address: the new block itself or the free block that
preceded it. -/
theorem coalesce_extended_ne_null {st : State} {bs : List (Nat × Nat)} {fl : List Nat}
    (h : HeapLayout 8 st bs fl) (sz : Nat) (h8 : sz % 8 = 0) (h16 : 16 ≤ sz)
    (hok : st.mem_brk + sz ≤ st.mem_max_addr) (st3 : State)
    (hmem : st3.mem = PUT 8 (PUT 8 (PUT 8 st.mem (st.mem_brk - 8) (PACK sz 0))
      (st.mem_brk + sz - 16) (PACK sz 0)) (st.mem_brk + sz - 8) (PACK 0 1))
    (hef : st3.ef_listp = st.ef_listp) :
    (coalesce 8 st3 st.mem_brk).2 ≠ NULL := by
  have hmax := h.max_lt'
  have hbrk := h.brk_ge
  have hbase := h.base
  have hpk : PACK sz 0 < 2 ^ 64 := PACK_lt h8 (by omega) (by omega)
  have hpk1 : PACK 0 1 < 2 ^ 64 := PACK_lt (by decide) (by omega) (by norm_num)
  -- bytes and words below the old epilogue header are unchanged
  have Fb : ∀ a, a < st.mem_brk - 8 → st3.mem a = st.mem a := by
    intro a ha
    rw [hmem, PUT_apply_out _ _ _ _ (by omega), PUT_apply_out _ _ _ _ (by omega),
      PUT_apply_out _ _ _ _ (by omega)]
  have F1 : ∀ q, q + 8 ≤ st.mem_brk - 8 → GET 8 st3.mem q = GET 8 st.mem q :=
    fun q hq => GET_congr _ _ q (fun a _ h2 => Fb a (by omega))
  obtain ⟨ps, pal, t1, t2, p8, pal1, p16, ple, pmem⟩ := h.last_tag
  have g_pf : GET 8 st3.mem (st.mem_brk - 16) = PACK ps pal := by
    rw [F1 _ (by omega)]; exact t1
  have g_ph : GET 8 st3.mem (st.mem_brk - ps - 8) = PACK ps pal := by
    rw [F1 _ (by omega)]; exact t2
  have g_hdr : GET 8 st3.mem (st.mem_brk - 8) = PACK sz 0 := by
    rw [hmem, GET_PUT_ne _ _ _ _ (by omega), GET_PUT_ne _ _ _ _ (by omega), GET_PUT_eq _ _ _ hpk]
  have g_epi : GET 8 st3.mem (st.mem_brk + sz - 8) = PACK 0 1 := by
    rw [hmem, GET_PUT_eq _ _ _ hpk1]
  have ePrev : PREV_BLKP 8 st3.mem st.mem_brk = st.mem_brk - ps :=
    PREV_BLKP_eq g_pf p8 pal1 (by omega) (by omega) (by omega)
  have eFtr : FTRP 8 st3.mem (st.mem_brk - ps) = st.mem_brk - 16 := by
    rw [FTRP_eq g_ph p8 pal1 (by omega) (by omega) (by omega)]; omega
  have eNext : NEXT_BLKP 8 st3.mem st.mem_brk = st.mem_brk + sz :=
    NEXT_BLKP_eq g_hdr h8 (by omega) (by omega) (by omega)
  have eH : HDRP 8 (st.mem_brk + sz) = st.mem_brk + sz - 8 := HDRP_eq (by omega) (by omega)
  have a1 : GET_ALLOC 8 st3.mem (st.mem_brk - 16) = pal := GET_ALLOC_of_tag g_pf p8 pal1
  have a2 : GET_ALLOC 8 st3.mem (st.mem_brk + sz - 8) = 1 :=
    GET_ALLOC_of_tag g_epi (by decide) (by omega)
  have hB0 : st.mem_brk ≠ NULL := by unfold NULL; omega
  unfold coalesce
  dsimp only
  rw [ePrev, eFtr, eNext, eH, a1, a2]
  split_ifs with c1 c2 c3
  · exact hB0
  · exact hB0
  · -- the preceding block is free: it is sliced out of the list
    have hpal : pal = 0 := by
      by_contra hne
      exact c1 ⟨hne, by decide⟩
    have hin := pmem hpal
    have hfl : st.mem_brk - ps ∈ fl := h.mem_fl.mpr ⟨ps, hin⟩
    have ht3 : Tiles 8 st3.mem (st.heap_listp + 8) bs (st.mem_brk - 8) :=
      Tiles_congr (fun p _ hp => F1 p hp) h.tiles
    have hc3 : FreeChain 8 st3.mem NULL st3.ef_listp fl := by
      rw [hef]
      refine FreeChain_congr (fun x hx => ?_) h.chain
      obtain ⟨s, hs⟩ := h.mem_fl.mp hx
      have hb := Tiles_block h.tiles hs
      constructor
      · unfold EFL_PBP; exact F1 _ (by omega)
      · rw [EFL_SBP_eq (by omega), EFL_SBP_eq (by omega)]; exact F1 _ (by omega)
    have hg : GET 8 (efl_slice 8 st3 (st.mem_brk - ps)).mem (st.mem_brk - 16) = PACK ps pal := by
      rw [← g_pf]
      refine GET_congr _ _ _ (fun a ha1 ha2 => ?_)
      refine efl_slice_mem_frame ht3 (by omega) hc3 (fun x hx => h.perm.mem_iff.mp hx) hfl a ?_
      intro x s hxs
      have hb := Tiles_block h.tiles hxs
      omega
    rw [PREV_BLKP_eq hg p8 pal1 (by omega) (by omega) (by omega)]
    unfold NULL; omega
  · exact absurd (by decide : (1 : Nat) ≠ 0) (by
      intro _
      exact c3 ⟨fun hc => c1 ⟨hc, by decide⟩, by decide⟩)

/-! ## `mm_malloc` returning `NULL` -/

theorem HeapLayout.congr {st st' : State} {bs : List (Nat × Nat)} {fl : List Nat}
    (h : HeapLayout 8 st bs fl) (h1 : st'.mem = st.mem) (h2 : st'.mem_brk = st.mem_brk)
    (h3 : st'.mem_max_addr = st.mem_max_addr) (h4 : st'.heap_listp = st.heap_listp)
    (h5 : st'.ef_listp = st.ef_listp) : HeapLayout 8 st' bs fl := by
  constructor
  · rw [h4]; exact h.base
  · rw [h4]; exact h.aligned
  · rw [h1, h4]; exact h.prologue_hdr
  · rw [h1, h4]; exact h.prologue_ftr
  · rw [h1, h2, h4]; exact h.tiles
  · rw [h1, h2]; exact h.epilogue
  · rw [h2, h3]; exact h.brk_le
  · rw [h3]; exact h.max_lt
  · rw [h1, h5]; exact h.chain
  · rw [h4]; exact h.perm
  · exact h.no_adj

/-- A successful extension of a well-formed heap returns a non-NULL block and
counts one more call of `mem_sbrk`, none failed. -/
theorem extend_heap_ok_ne_null {st : State} {bs : List (Nat × Nat)} {fl : List Nat}
    (hwf : HeapLayout 8 st bs fl) (words : Nat) (h : (words + 1) * 8 < 2 ^ 64) (hw : 2 ≤ words)
    (hok : st.mem_brk + (words + words % 2) * 8 ≤ st.mem_max_addr) :
    (extend_heap 8 st words).2 ≠ NULL ∧
      (extend_heap 8 st words).1.sbrk_fails = st.sbrk_fails ∧
      (extend_heap 8 st words).1.sbrk_calls = st.sbrk_calls + 1 := by
  have hmax := hwf.max_lt'
  have hbrk := hwf.brk_ge
  have hbase := hwf.base
  rw [extend_heap_ok st words h hw (by omega) hok hmax]
  refine ⟨?_, ?_, ?_⟩
  · exact coalesce_extended_ne_null hwf ((words + words % 2) * 8) (by omega) (by omega) hok
      _ rfl rfl
  · rw [(coalesce_aux 8 _ _).sbrk_fails]
  · rw [(coalesce_aux 8 _ _).sbrk_calls]

/-- On a chain that ends, `find_fit` returns; it changes at most the
remembered failed size. -/
theorem find_fit_total (st : State) (fl : List Nat) (fuel asize : Nat)
    (hc : FreeChain 8 st.mem NULL st.ef_listp fl) (hfuel : fl.length < fuel) :
    ∃ st1 bp, find_fit 8 fuel st asize = some (st1, bp) ∧
      st1.mem = st.mem ∧ st1.mem_brk = st.mem_brk ∧ st1.mem_max_addr = st.mem_max_addr ∧
      st1.heap_listp = st.heap_listp ∧ st1.ef_listp = st.ef_listp ∧
      st1.sbrk_calls = st.sbrk_calls ∧ st1.sbrk_fails = st.sbrk_fails := by
  unfold find_fit
  split_ifs
  · exact ⟨st, NULL, rfl, rfl, rfl, rfl, rfl, rfl, rfl, rfl⟩
  · rw [find_fit_loop_chain 8 st.mem asize fl NULL st.ef_listp fuel hc hfuel]
    dsimp only
    split_ifs
    · exact ⟨st, _, rfl, rfl, rfl, rfl, rfl, rfl, rfl, rfl⟩
    · exact ⟨_, NULL, rfl, rfl, rfl, rfl, rfl, rfl, rfl, rfl⟩

/-- On a well-formed heap `mm_malloc` returns; it returns `NULL` exactly for
`size = 0` or when `mem_sbrk` was invoked and failed, and then memory, the
free-list head and the extent of the heap are unchanged.  The growth amount
must fit in `size_t`. -/
theorem mm_malloc_null_iff (st : State) (bs : List (Nat × Nat)) (fl : List Nat)
    (fuel size : Nat) (hwf : HeapLayout 8 st bs fl) (hfuel : fl.length < fuel)
    (hgrow : malloc_asize 8 size + 8 < 2 ^ 64) :
    ∃ st' r, mm_malloc 8 fuel st size = some (st', r) ∧
      (r = NULL ↔ size = 0 ∨
        (st'.sbrk_calls = st.sbrk_calls + 1 ∧ st'.sbrk_fails = st.sbrk_fails + 1)) ∧
      (r = NULL → st'.mem = st.mem ∧ st'.ef_listp = st.ef_listp ∧
        st'.mem_brk = st.mem_brk ∧ st'.heap_listp = st.heap_listp) := by
  unfold mm_malloc
  by_cases h0 : size = 0
  · rw [if_pos h0]
    exact ⟨st, NULL, rfl, ⟨fun _ => Or.inl h0, fun _ => rfl⟩, fun _ => ⟨rfl, rfl, rfl, rfl⟩⟩
  · rw [if_neg h0]
    dsimp only
    obtain ⟨st1, bp, hff, e1, e2, e3, e4, e5, e6, e7⟩ :=
      find_fit_total st fl fuel (malloc_asize 8 size) hwf.chain hfuel
    rw [hff]
    dsimp only
    by_cases hbp : bp = NULL
    · rw [if_neg (not_not.mpr hbp)]
      have hwf1 : HeapLayout 8 st1 bs fl := hwf.congr e1 e2 e3 e4 e5
      have hmax := hwf1.max_lt'
      have hbrk := hwf1.brk_ge
      have hbase := hwf1.base
      have hX : 32768 ≤ MAX (malloc_asize 8 size) CHUNKSIZE ∧
          MAX (malloc_asize 8 size) CHUNKSIZE + 8 < 2 ^ 64 := by
        unfold MAX CHUNKSIZE
        split_ifs <;> constructor <;> omega
      have hwsize : WSIZE 8 = 8 := rfl
      rw [hwsize]
      generalize hwords : MAX (malloc_asize 8 size) CHUNKSIZE / 8 = words
      have hw1 : (words + 1) * 8 < 2 ^ 64 := by omega
      have hw2 : 2 ≤ words := by omega
      by_cases hfail : st1.mem_brk + (words + words % 2) * 8 > st1.mem_max_addr
      · rw [extend_heap_fail st1 words hw1 hfail]
        dsimp only
        rw [if_pos rfl]
        refine ⟨_, NULL, rfl, ⟨fun _ => Or.inr ⟨?_, ?_⟩, fun _ => rfl⟩, fun _ => ⟨e1, e5, e2, e4⟩⟩
        · simp only [e6]
        · simp only [e7]
      · obtain ⟨hne, hf1, hc1⟩ := extend_heap_ok_ne_null hwf1 words hw1 hw2 (by omega)
        rw [if_neg hne]
        refine ⟨_, _, rfl, ⟨fun hr => absurd hr hne, ?_⟩, fun hr => absurd hr hne⟩
        rintro (hz | ⟨_, hf⟩)
        · exact absurd hz h0
        · rw [(place_aux 8 _ _ _).sbrk_fails, hf1, e7] at hf
          omega
    · rw [if_pos hbp]
      refine ⟨_, bp, rfl, ⟨fun hr => absurd hr hbp, ?_⟩, fun hr => absurd hr hbp⟩
      rintro (hz | ⟨_, hf⟩)
      · exact absurd hz h0
      · rw [(place_aux 8 _ _ _).sbrk_fails, e7] at hf
        omega

/-! ## Footprints of writes -/

theorem Frame.refl (P : Nat → Prop) (m : Mem) : Frame P m m := fun _ _ => rfl

theorem Frame.trans {P : Nat → Prop} {m1 m2 m3 : Mem} (h1 : Frame P m1 m2) (h2 : Frame P m2 m3) :
    Frame P m1 m3 := fun a ha => (h2 a ha).trans (h1 a ha)

theorem Frame.mono {P Q : Nat → Prop} {m m' : Mem} (h : Frame P m m') (hPQ : ∀ a, P a → Q a) :
    Frame Q m m' := fun a ha => h a (fun hp => ha (hPQ a hp))

theorem Frame.put {P : Nat → Prop} (m : Mem) (w v : Nat) (h : ∀ a, w ≤ a → a < w + 8 → P a) :
    Frame P m (PUT 8 m w v) := by
  intro a ha
  apply PUT_apply_out
  by_contra hc
  exact ha (h a (by omega) (by omega))

/-- A word none of whose bytes is in the footprint is unchanged. -/
theorem Frame.GET {P : Nat → Prop} {m m' : Mem} (h : Frame P m m') (q : Nat)
    (hq : ∀ a, q ≤ a → a < q + 8 → ¬ P a) : GET 8 m' q = GET 8 m q :=
  GET_congr _ _ q (fun a h1 h2 => h a (hq a h1 h2))

/-- Position of a node inside a chain: its links. -/
theorem FreeChain_mid {m : Mem} {l1 l2 : List Nat} {b prev cur : Nat}
    (h : FreeChain 8 m prev cur (l1 ++ b :: l2)) :
    EFL_PBP 8 m b = l1.getLast?.getD prev ∧ EFL_SBP 8 m b = l2.head?.getD NULL := by
  induction l1 generalizing prev cur with
  | nil =>
    obtain ⟨_, _, hp, hrest⟩ := h
    refine ⟨by simpa using hp, ?_⟩
    cases l2 with
    | nil => exact hrest
    | cons y l2 => exact hrest.1
  | cons x l1 ih =>
    obtain ⟨_, _, _, hrest⟩ := h
    have := ih hrest
    refine ⟨?_, this.2⟩
    rw [this.1]
    cases l1 with
    | nil => simp
    | cons y l1 =>
      rw [List.getLast?_cons_cons, List.getLast?_eq_getLast _ (List.cons_ne_nil y l1)]
      rfl

theorem getLast?_getD_mem {l : List Nat} {d : Nat} (h : l ≠ []) : l.getLast?.getD d ∈ l := by
  rw [List.getLast?_eq_getLast _ h]
  exact List.getLast_mem h

theorem head?_getD_mem {l : List Nat} {d : Nat} (h : l ≠ []) : l.head?.getD d ∈ l := by
  cases l with
  | nil => exact absurd rfl h
  | cons x l => simp

/-- Removing the node `b` from a chain: if the new memory redirects the
successor link of the predecessor and the predecessor link of the successor
and keeps the links of all other nodes, the remaining nodes form a chain. -/
theorem FreeChain_remove {m m' : Mem} {l1 l2 : List Nat} {b prev cur : Nat}
    (h : FreeChain 8 m prev cur (l1 ++ b :: l2)) (hnd : (l1 ++ b :: l2).Nodup)
    (hprev : prev ∉ l1 ++ b :: l2)
    (P1 : ∀ z ∈ l1 ++ l2, z ≠ EFL_PBP 8 m b → EFL_SBP 8 m' z = EFL_SBP 8 m z)
    (P2 : ∀ z ∈ l1 ++ l2, z ≠ EFL_SBP 8 m b → EFL_PBP 8 m' z = EFL_PBP 8 m z)
    (P3 : EFL_PBP 8 m b ∈ l1 → EFL_SBP 8 m' (EFL_PBP 8 m b) = EFL_SBP 8 m b)
    (P4 : EFL_SBP 8 m b ∈ l2 → EFL_PBP 8 m' (EFL_SBP 8 m b) = EFL_PBP 8 m b) :
    FreeChain 8 m' prev (if l1 = [] then EFL_SBP 8 m b else cur) (l1 ++ l2) := by
  induction l1 generalizing prev cur with
  | nil =>
    rw [if_pos rfl]
    simp only [List.nil_append] at h hnd hprev P1 P2 ⊢
    obtain ⟨_, _, hp, hrest⟩ := h
    cases l2 with
    | nil => exact hrest
    | cons y l2 =>
      obtain ⟨hy, hy0, _, hrest2⟩ := hrest
      have hyprev : y ≠ prev := by
        intro he; apply hprev; rw [← he]; simp
      have hsy : EFL_SBP 8 m' y = EFL_SBP 8 m y :=
        P1 y (List.mem_cons_self _ _) (by rw [hp]; exact hyprev)
      refine ⟨hy, hy0, ?_, ?_⟩
      · have := P4 (by rw [hy]; exact List.mem_cons_self _ _)
        rw [hy] at this
        rw [this, hp]
      · rw [hsy]
        refine FreeChain_congr (fun z hz => ⟨?_, ?_⟩) hrest2
        · apply P2 z (List.mem_cons_of_mem _ hz)
          rw [hy]
          intro he
          have hnd2 := (List.nodup_cons.mp hnd).2
          exact (List.nodup_cons.mp hnd2).1 (he ▸ hz)
        · apply P1 z (List.mem_cons_of_mem _ hz)
          rw [hp]
          intro he
          apply hprev; rw [← he]
          exact List.mem_cons_of_mem _ (List.mem_cons_of_mem _ hz)
  | cons x l1 ih =>
    rw [if_neg (List.cons_ne_nil _ _)]
    have hmid := FreeChain_mid h
    obtain ⟨hc, hx0, hpx, hrest⟩ := h
    have hnd' : (l1 ++ b :: l2).Nodup := (List.nodup_cons.mp hnd).2
    have hxn : x ∉ l1 ++ b :: l2 := (List.nodup_cons.mp hnd).1
    have hx1 : x ∉ l1 := fun hh => hxn (List.mem_append_left _ hh)
    have hx2 : x ∉ l2 := fun hh => hxn (List.mem_append_right _ (List.mem_cons_of_mem _ hh))
    have hmid' := FreeChain_mid hrest
    have hIH := ih hrest hnd' hxn
      (fun z hz => P1 z (List.mem_cons_of_mem _ hz))
      (fun z hz => P2 z (List.mem_cons_of_mem _ hz))
      (fun hz => P3 (List.mem_cons_of_mem _ hz))
    refine ⟨hc, hx0, ?_, ?_⟩
    · rw [P2 x (List.mem_cons_self _ _) ?_]
      · exact hpx
      · rw [hmid.2]
        cases l2 with
        | nil => simpa using hx0
        | cons y l2 =>
          simp only [List.head?_cons, Option.getD_some]
          intro he; apply hx2; rw [he]; simp
    · by_cases hl : l1 = []
      · subst hl
        rw [if_pos rfl] at hIH
        have hpb : EFL_PBP 8 m b = x := by simpa using hmid'.1
        have := P3 (by rw [hpb]; simp)
        rw [hpb] at this
        rw [this]; exact hIH
      · rw [if_neg hl] at hIH
        rw [P1 x (List.mem_cons_self _ _) ?_]
        · exact hIH
        · rw [hmid'.1]
          intro he
          exact hx1 (he ▸ getLast?_getD_mem hl)

/-- Memory and list head after the excision of `b`. -/
theorem efl_slice_eq (st : State) (b : Nat) (hp : EFL_PBP 8 st.mem b + 8 < 2 ^ 64) :
    (efl_slice 8 st b).mem =
      (if EFL_SBP 8 st.mem b ≠ NULL then
        PUT 8 (if EFL_PBP 8 st.mem b ≠ NULL then
          PUT 8 st.mem (EFL_PBP 8 st.mem b + 8) (EFL_SBP 8 st.mem b) else st.mem)
          (EFL_SBP 8 st.mem b) (EFL_PBP 8 st.mem b)
      else (if EFL_PBP 8 st.mem b ≠ NULL then
          PUT 8 st.mem (EFL_PBP 8 st.mem b + 8) (EFL_SBP 8 st.mem b) else st.mem)) ∧
    (efl_slice 8 st b).ef_listp =
      (if EFL_PBP 8 st.mem b ≠ NULL then st.ef_listp else EFL_SBP 8 st.mem b) := by
  unfold efl_slice
  dsimp only
  rw [SET_EFL_SBP_eq hp]
  unfold SET_EFL_PBP
  constructor <;> split_ifs <;> rfl

/-- Excision of the node `b` from a well-separated chain leaves a chain of the
other nodes and only writes link words of those. -/
theorem efl_slice_chain {st : State} {l1 l2 : List Nat} {b : Nat}
    (hc : FreeChain 8 st.mem NULL st.ef_listp (l1 ++ b :: l2))
    (hnd : (l1 ++ b :: l2).Nodup)
    (hsep : ∀ x ∈ l1 ++ b :: l2, ∀ y ∈ l1 ++ b :: l2, x ≠ y → x + 16 ≤ y ∨ y + 16 ≤ x)
    (hlt : ∀ x ∈ l1 ++ b :: l2, x + 16 < 2 ^ 64) :
    FreeChain 8 (efl_slice 8 st b).mem NULL (efl_slice 8 st b).ef_listp (l1 ++ l2) ∧
      Frame (LinkByte 8 (l1 ++ l2)) st.mem (efl_slice 8 st b).mem := by
  have hmid := FreeChain_mid hc
  have hsub : ∀ z ∈ l1 ++ l2, z ∈ l1 ++ b :: l2 := by
    intro z hz
    rcases List.mem_append.mp hz with h | h
    · exact List.mem_append_left _ h
    · exact List.mem_append_right _ (List.mem_cons_of_mem _ h)
  have hbm : b ∈ l1 ++ b :: l2 := List.mem_append_right _ (List.mem_cons_self _ _)
  have hnull : ∀ z ∈ l1 ++ b :: l2, z ≠ NULL := fun z hz => hc.ne_null hz
  -- the neighbours
  have hP : (l1 = [] ∧ EFL_PBP 8 st.mem b = NULL) ∨
      (l1 ≠ [] ∧ EFL_PBP 8 st.mem b ∈ l1) := by
    by_cases hl : l1 = []
    · left; subst hl; exact ⟨rfl, by simpa using hmid.1⟩
    · right; exact ⟨hl, hmid.1 ▸ getLast?_getD_mem hl⟩
  have hS : (l2 = [] ∧ EFL_SBP 8 st.mem b = NULL) ∨
      (l2 ≠ [] ∧ EFL_SBP 8 st.mem b ∈ l2) := by
    by_cases hl : l2 = []
    · left; subst hl; exact ⟨rfl, by simpa using hmid.2⟩
    · right; exact ⟨hl, hmid.2 ▸ head?_getD_mem hl⟩
  have hPlt : EFL_PBP 8 st.mem b + 8 < 2 ^ 64 := by
    rcases hP with ⟨_, h⟩ | ⟨_, h⟩
    · rw [h]; unfold NULL; norm_num
    · have := hlt _ (List.mem_append_left _ h); omega
  -- the footprint
  have hframe : Frame (LinkByte 8 (l1 ++ l2)) st.mem (efl_slice 8 st b).mem := by
    intro a ha
    apply efl_slice_mem_out
    · rcases hP with ⟨_, h⟩ | ⟨_, h⟩
      · left; exact h
      · right
        refine ⟨hPlt, ?_⟩
        by_contra hcon
        exact ha ⟨_, List.mem_append_left _ h, by omega, by omega⟩
    · rcases hS with ⟨_, h⟩ | ⟨_, h⟩
      · left; exact h
      · right
        by_contra hcon
        exact ha ⟨_, List.mem_append_right _ h, by omega, by omega⟩
  refine ⟨?_, hframe⟩
  obtain ⟨hmem, hef⟩ := efl_slice_eq st b hPlt
  have hfinal := @FreeChain_remove _ (efl_slice 8 st b).mem _ _ _ _ _ hc hnd
    (fun hh => hnull _ hh rfl) ?_ ?_ ?_ ?_
  · rw [hef]
    rcases hP with ⟨hl, h⟩ | ⟨hl, h⟩
    · rw [if_pos hl] at hfinal
      rw [if_neg (not_not.mpr h)]; exact hfinal
    · rw [if_neg hl] at hfinal
      rw [if_pos (hnull _ (List.mem_append_left _ h))]; exact hfinal
  · -- P1
    intro z hz hne
    have hz' := hsub z hz
    have hzlt := hlt z hz'
    rw [EFL_SBP_eq (by omega), EFL_SBP_eq (by omega)]
    refine GET_congr _ _ _ (fun a h1 h2 => ?_)
    apply efl_slice_mem_out
    · rcases hP with ⟨_, h⟩ | ⟨_, h⟩
      · left; exact h
      · right
        refine ⟨hPlt, ?_⟩
        have := hsep z hz' _ (List.mem_append_left _ h) hne
        omega
    · rcases hS with ⟨_, h⟩ | ⟨_, h⟩
      · left; exact h
      · right
        by_cases he : z = EFL_SBP 8 st.mem b
        · omega
        · have := hsep z hz' _ (List.mem_append_right _ (List.mem_cons_of_mem _ h)) he
          omega
  · -- P2
    intro z hz hne
    have hz' := hsub z hz
    show GET 8 (efl_slice 8 st b).mem z = GET 8 st.mem z
    refine GET_congr _ _ _ (fun a h1 h2 => ?_)
    apply efl_slice_mem_out
    · rcases hP with ⟨_, h⟩ | ⟨_, h⟩
      · left; exact h
      · right
        refine ⟨hPlt, ?_⟩
        by_cases he : z = EFL_PBP 8 st.mem b
        · omega
        · have := hsep z hz' _ (List.mem_append_left _ h) he
          omega
    · rcases hS with ⟨_, h⟩ | ⟨_, h⟩
      · left; exact h
      · right
        have := hsep z hz' _ (List.mem_append_right _ (List.mem_cons_of_mem _ h)) hne
        omega
  · -- P3
    intro hin
    have hp0 := hnull _ (List.mem_append_left _ hin)
    have hplt := hlt _ (List.mem_append_left _ hin)
    rw [EFL_SBP_eq (by omega), hmem, if_pos hp0]
    have hslt : EFL_SBP 8 st.mem b < 2 ^ 64 := by unfold EFL_SBP; exact GET_lt _ _
    split_ifs with hs0
    · rcases hS with ⟨_, h⟩ | ⟨_, h⟩
      · exact absurd h hs0
      · have hne : EFL_PBP 8 st.mem b ≠ EFL_SBP 8 st.mem b := by
          intro he
          have hnd1 := List.nodup_append.mp hnd
          exact hnd1.2.2 hin (List.mem_cons_of_mem _ (he ▸ h))
        have := hsep _ (List.mem_append_left _ hin) _
          (List.mem_append_right _ (List.mem_cons_of_mem _ h)) hne
        rw [GET_PUT_ne _ _ _ _ (by omega), GET_PUT_eq _ _ _ hslt]
    · exact GET_PUT_eq _ _ _ hslt
  · -- P4
    intro hin
    have hs0 := hnull _ (List.mem_append_right _ (List.mem_cons_of_mem _ hin))
    show GET 8 (efl_slice 8 st b).mem (EFL_SBP 8 st.mem b) = EFL_PBP 8 st.mem b
    rw [hmem, if_pos hs0]
    exact GET_PUT_eq _ _ _ (GET_lt _ _)

/-- Insertion of the block `n` at the head of a well-separated chain gives the
chain `n :: fl` and writes only the link words of `n` and the predecessor link
of the old head. -/
theorem efl_insert_chain {st : State} {fl : List Nat} {n : Nat}
    (hc : FreeChain 8 st.mem NULL st.ef_listp fl) (hnd : fl.Nodup)
    (hsepfl : ∀ x ∈ fl, ∀ y ∈ fl, x ≠ y → x + 16 ≤ y ∨ y + 16 ≤ x)
    (hlt : ∀ x ∈ fl, x + 16 < 2 ^ 64)
    (hn0 : n ≠ NULL) (hnlt : n + 16 < 2 ^ 64) (hsep : ∀ y ∈ fl, n + 16 ≤ y ∨ y + 16 ≤ n) :
    FreeChain 8 (efl_insert 8 st n).mem NULL (efl_insert 8 st n).ef_listp (n :: fl) ∧
      Frame (LinkByte 8 (n :: fl)) st.mem (efl_insert 8 st n).mem := by
  have hmem : (efl_insert 8 st n).mem =
      (if st.ef_listp ≠ NULL then
        PUT 8 (PUT 8 (PUT 8 st.mem n NULL) (n + 8) st.ef_listp) st.ef_listp n
       else PUT 8 (PUT 8 st.mem n NULL) (n + 8) st.ef_listp) := by
    unfold efl_insert
    dsimp only
    rw [SET_EFL_SBP_eq (by omega)]
    unfold SET_EFL_PBP
    rfl
  have hef : (efl_insert 8 st n).ef_listp = n := rfl
  have hnlt' : n < 2 ^ 64 := by omega
  have hnull0 : NULL < 2 ^ 64 := by unfold NULL; norm_num
  constructor
  · rw [hef]
    cases fl with
    | nil =>
      have hh : st.ef_listp = NULL := hc
      refine ⟨rfl, hn0, ?_, ?_⟩
      · show GET 8 (efl_insert 8 st n).mem n = NULL
        rw [hmem, if_neg (not_not.mpr hh), GET_PUT_ne _ _ _ _ (by omega), GET_PUT_eq _ _ _ hnull0]
      · show EFL_SBP 8 (efl_insert 8 st n).mem n = NULL
        rw [EFL_SBP_eq (by omega), hmem, if_neg (not_not.mpr hh), hh, GET_PUT_eq _ _ _ hnull0]
    | cons y fl =>
      obtain ⟨hy, hy0, hpy, hrest⟩ := hc
      have hsy := hsep y (List.mem_cons_self _ _)
      have hylt := hlt y (List.mem_cons_self _ _)
      have hh : st.ef_listp ≠ NULL := by rw [hy]; exact hy0
      rw [hmem, if_pos hh, hy]
      refine ⟨rfl, hn0, ?_, ?_⟩
      · show GET 8 _ n = NULL
        rw [GET_PUT_ne _ _ _ _ (by omega), GET_PUT_ne _ _ _ _ (by omega), GET_PUT_eq _ _ _ hnull0]
      · rw [EFL_SBP_eq (by omega), GET_PUT_ne _ _ _ _ (by omega),
          GET_PUT_eq _ _ _ (by omega)]
        refine ⟨rfl, hy0, ?_, ?_⟩
        · show GET 8 _ y = n
          rw [GET_PUT_eq _ _ _ hnlt']
        · rw [EFL_SBP_eq (by omega), GET_PUT_ne _ _ _ _ (by omega),
            GET_PUT_ne _ _ _ _ (by omega), GET_PUT_ne _ _ _ _ (by omega),
            ← EFL_SBP_eq (by omega)]
          refine FreeChain_congr (fun z hz => ?_) hrest
          have hzy : z ≠ y := by
            intro he
            exact (List.nodup_cons.mp hnd).1 (he ▸ hz)
          have h1 := hsepfl z (List.mem_cons_of_mem _ hz) y (List.mem_cons_self _ _) hzy
          have h2 := hsep z (List.mem_cons_of_mem _ hz)
          have h3 := hlt z (List.mem_cons_of_mem _ hz)
          constructor
          · show GET 8 _ z = GET 8 _ z
            rw [GET_PUT_ne _ _ _ _ (by omega), GET_PUT_ne _ _ _ _ (by omega),
              GET_PUT_ne _ _ _ _ (by omega)]
          · rw [EFL_SBP_eq (by omega), EFL_SBP_eq (by omega), GET_PUT_ne _ _ _ _ (by omega),
              GET_PUT_ne _ _ _ _ (by omega), GET_PUT_ne _ _ _ _ (by omega)]
  · rw [hmem]
    intro a ha
    have hn : a < n ∨ n + 16 ≤ a := by
      by_contra hcon
      exact ha ⟨n, List.mem_cons_self _ _, by omega, by omega⟩
    split_ifs with hh
    · have hin : st.ef_listp ∈ fl := by
        cases fl with
        | nil => exact absurd hc hh
        | cons y fl => rw [hc.1]; exact List.mem_cons_self _ _
      have hy : a < st.ef_listp ∨ st.ef_listp + 16 ≤ a := by
        by_contra hcon
        exact ha ⟨_, List.mem_cons_of_mem _ hin, by omega, by omega⟩
      rw [PUT_apply_out _ _ _ _ (by omega), PUT_apply_out _ _ _ _ (by omega),
        PUT_apply_out _ _ _ _ (by omega)]
    · rw [PUT_apply_out _ _ _ _ (by omega), PUT_apply_out _ _ _ _ (by omega)]

/-! ## Layout and footprints -/

/-- A layout survives every change of memory that keeps the header and footer
bytes of its blocks. -/
theorem Tiles_frame {P : Nat → Prop} {m m' : Mem} {a0 e : Nat} {bs : List (Nat × Nat)}
    (hf : Frame P m m') (hP : ∀ a, TagByte 8 a0 bs a → ¬ P a) (h : Tiles 8 m a0 bs e) :
    Tiles 8 m' a0 bs e := by
  induction bs generalizing a0 with
  | nil => exact h
  | cons b bs ih =>
    obtain ⟨h1, h2, h3, h4, h5, hr⟩ := h
    have hmem : (a0 + 8, b.1, b.2) ∈ blocksFrom 8 a0 (b :: bs) := List.mem_cons_self _ _
    refine ⟨?_, ?_, h3, h4, h5, ih (fun a ha => hP a ?_) hr⟩
    · rw [hf.GET a0 (fun a ha1 ha2 => hP a ⟨_, hmem, Or.inl ⟨by simp; omega, by simp; omega⟩⟩)]
      exact h1
    · rw [hf.GET _ (fun a ha1 ha2 => hP a ⟨_, hmem, Or.inr ⟨by simp; omega, by simp; omega⟩⟩)]
      exact h2
    · obtain ⟨c, hc, hc2⟩ := ha
      exact ⟨c, List.mem_cons_of_mem _ hc, hc2⟩

/-- A block of the layout splits the list of blocks around it. -/
theorem blocksFrom_split {a0 x s al : Nat} {bs : List (Nat × Nat)}
    (h : (x, s, al) ∈ blocksFrom 8 a0 bs) :
    ∃ pre post, bs = pre ++ (s, al) :: post ∧ x = a0 + (pre.map Prod.fst).sum + 8 := by
  induction bs generalizing a0 with
  | nil => cases h
  | cons b bs ih =>
    rcases List.mem_cons.mp h with heq | h
    · cases heq
      exact ⟨[], bs, rfl, by simp⟩
    · obtain ⟨pre, post, h1, h2⟩ := ih h
      refine ⟨b :: pre, post, by rw [h1]; rfl, ?_⟩
      rw [h2]; simp; omega

/-- The payload bytes of an allocated block are no header, footer or free-block
bytes and lie below the epilogue header. -/
theorem alloc_payload_clear {m : Mem} {a0 e : Nat} {bs : List (Nat × Nat)}
    (ht : Tiles 8 m a0 bs e) {x t a : Nat} (hb : (x, t, 1) ∈ blocksFrom 8 a0 bs)
    (h1 : x ≤ a) (h2 : a < x + t - 16) :
    ¬ TagByte 8 a0 bs a ∧ ¬ FreeByte 8 a0 bs a ∧ a < e := by
  have hx := Tiles_block ht hb
  refine ⟨?_, ?_, by omega⟩
  · rintro ⟨⟨y, u, al⟩, hy, hcase⟩
    have hyb := Tiles_block ht hy
    rcases Tiles_disjoint ht hb hy with heq | hd | hd
    · cases heq; simp only at hcase; omega
    · simp only at hd hcase; omega
    · simp only at hd hcase; omega
  · rintro ⟨⟨y, u, al⟩, hy, hal, hcase⟩
    simp only at hal
    subst hal
    have hyb := Tiles_block ht hy
    rcases Tiles_disjoint ht hb hy with heq | hd | hd
    · cases heq
    · simp only at hd hcase; omega
    · simp only at hd hcase; omega

/-- The link words of free-list nodes lie inside free blocks and contain no
header or footer byte. -/
theorem linkByte_clear {m : Mem} {a0 e : Nat} {bs : List (Nat × Nat)} {fl : List Nat}
    (ht : Tiles 8 m a0 bs e) (hsub : ∀ x ∈ fl, x ∈ freeBlocks 8 a0 bs) {a : Nat}
    (ha : LinkByte 8 fl a) : FreeByte 8 a0 bs a ∧ ¬ TagByte 8 a0 bs a ∧ a + 8 < e := by
  obtain ⟨y, hy, h1, h2⟩ := ha
  obtain ⟨s, hs⟩ := mem_freeBlocks.mp (hsub y hy)
  have hyb := Tiles_block ht hs
  refine ⟨⟨_, hs, rfl, by simp only; omega, by simp only; omega⟩, ?_, by omega⟩
  rintro ⟨⟨z, u, al⟩, hz, hcase⟩
  have hzb := Tiles_block ht hz
  rcases Tiles_disjoint ht hs hz with heq | hd | hd
  · cases heq; simp only at hcase; omega
  · simp only at hd hcase; omega
  · simp only at hd hcase; omega

/-- Free-list nodes of a layout are distinct blocks, at least a minimum block
apart, inside the heap. -/
theorem nodes_separated {m : Mem} {a0 e : Nat} {bs : List (Nat × Nat)} {fl : List Nat}
    (ht : Tiles 8 m a0 bs e) (hsub : ∀ x ∈ fl, x ∈ freeBlocks 8 a0 bs) :
    (∀ x ∈ fl, ∀ y ∈ fl, x ≠ y → x + 16 ≤ y ∨ y + 16 ≤ x) ∧ (∀ x ∈ fl, x + 24 ≤ e) := by
  constructor
  · intro x hx y hy hne
    obtain ⟨s, hs⟩ := mem_freeBlocks.mp (hsub x hx)
    obtain ⟨t, ht'⟩ := mem_freeBlocks.mp (hsub y hy)
    have hxb := Tiles_block ht hs
    have hyb := Tiles_block ht ht'
    rcases Tiles_disjoint ht hs ht' with heq | hd | hd
    · cases heq; exact absurd rfl hne
    · simp only at hd; omega
    · simp only at hd; omega
  · intro x hx
    obtain ⟨s, hs⟩ := mem_freeBlocks.mp (hsub x hx)
    have hxb := Tiles_block ht hs
    omega

theorem tagByte_bounds {m : Mem} {a0 e : Nat} {bs : List (Nat × Nat)} (ht : Tiles 8 m a0 bs e)
    {a : Nat} (h : TagByte 8 a0 bs a) : a0 ≤ a ∧ a < e := by
  obtain ⟨⟨x, s, al⟩, hx, hcase⟩ := h
  have := Tiles_block ht hx
  simp only at hcase
  omega

theorem tagByte_append_left {a0 a : Nat} {l1 l2 : List (Nat × Nat)}
    (h : TagByte 8 a0 l1 a) : TagByte 8 a0 (l1 ++ l2) a := by
  obtain ⟨b, hb, hc⟩ := h
  exact ⟨b, by rw [blocksFrom_append]; exact List.mem_append_left _ hb, hc⟩

theorem tagByte_append_right {a0 a : Nat} {l1 l2 : List (Nat × Nat)}
    (h : TagByte 8 (a0 + (l1.map Prod.fst).sum) l2 a) : TagByte 8 a0 (l1 ++ l2) a := by
  obtain ⟨b, hb, hc⟩ := h
  exact ⟨b, by rw [blocksFrom_append]; exact List.mem_append_right _ hb, hc⟩

/-- Replacing a segment `mid` of a layout by blocks `mid'` covering the same
bytes: the layout before and after the segment survives writes that stay inside
the segment or inside link words of free-list nodes. -/
theorem Tiles_replace {m m' : Mem} {a0 e : Nat} {pre mid mid' post : List (Nat × Nat)}
    {L : List Nat} (h : Tiles 8 m a0 (pre ++ (mid ++ post)) e)
    (hf : Frame (fun a => (a0 + (pre.map Prod.fst).sum ≤ a ∧
        a < a0 + (pre.map Prod.fst).sum + (mid.map Prod.fst).sum) ∨ LinkByte 8 L a) m m')
    (hL : ∀ a, LinkByte 8 L a → ¬ TagByte 8 a0 (pre ++ (mid ++ post)) a)
    (hmid : Tiles 8 m' (a0 + (pre.map Prod.fst).sum) mid'
      (a0 + (pre.map Prod.fst).sum + (mid.map Prod.fst).sum)) :
    Tiles 8 m' a0 (pre ++ (mid' ++ post)) e := by
  obtain ⟨c1, hpre, hrest⟩ := Tiles_append.mp h
  obtain ⟨c2, hmid0, hpost⟩ := Tiles_append.mp hrest
  have e1 := Tiles_end hpre
  have e2 := Tiles_end hmid0
  subst e1; subst e2
  refine Tiles_append.mpr ⟨_, ?_, Tiles_append.mpr ⟨_, hmid, ?_⟩⟩
  · refine Tiles_frame hf (fun a ha => ?_) hpre
    have hb := tagByte_bounds hpre ha
    rintro (hin | hl)
    · omega
    · exact hL a hl (tagByte_append_left ha)
  · refine Tiles_frame hf (fun a ha => ?_) hpost
    have hb := tagByte_bounds hpost ha
    rintro (hin | hl)
    · omega
    · apply hL a hl
      apply tagByte_append_right
      exact tagByte_append_right ha

/-! ## Free blocks and adjacency under changes of the block list -/

theorem freeBlocks_append (a0 : Nat) (l1 l2 : List (Nat × Nat)) :
    freeBlocks 8 a0 (l1 ++ l2) =
      freeBlocks 8 a0 l1 ++ freeBlocks 8 (a0 + (l1.map Prod.fst).sum) l2 := by
  unfold freeBlocks
  rw [blocksFrom_append, List.filter_append, List.map_append]

theorem freeBlocks_cons_free (c s : Nat) (post : List (Nat × Nat)) :
    freeBlocks 8 c ((s, 0) :: post) = (c + 8) :: freeBlocks 8 (c + s) post := by
  simp [freeBlocks, blocksFrom]

theorem freeBlocks_cons_alloc (c s : Nat) (post : List (Nat × Nat)) :
    freeBlocks 8 c ((s, 1) :: post) = freeBlocks 8 (c + s) post := by
  simp [freeBlocks, blocksFrom]

theorem perm_remove_middle {l1 l2 f1 f2 : List Nat} {b : Nat}
    (h : (l1 ++ b :: l2).Perm (f1 ++ b :: f2)) : (l1 ++ l2).Perm (f1 ++ f2) := by
  have h1 : (b :: (l1 ++ l2)).Perm (b :: (f1 ++ f2)) :=
    (List.perm_middle.symm.trans h).trans List.perm_middle
  exact h1.cons_inv

theorem NoAdjFree_tail {b : Nat × Nat} {bs : List (Nat × Nat)} (h : NoAdjFree (b :: bs)) :
    NoAdjFree bs := by
  cases bs with
  | nil => trivial
  | cons c bs => exact h.2

/-- Marking a block allocated keeps the blocks free of adjacent free pairs. -/
theorem NoAdjFree_alloc {pre post : List (Nat × Nat)} {s s' al : Nat}
    (h : NoAdjFree (pre ++ (s, al) :: post)) : NoAdjFree (pre ++ (s', 1) :: post) := by
  induction pre with
  | nil =>
    cases post with
    | nil => trivial
    | cons c post => exact ⟨fun hc => by simp at hc, h.2⟩
  | cons b pre ih =>
    cases pre with
    | nil => exact ⟨fun hc => by simp at hc, ih h.2⟩
    | cons c pre => exact ⟨h.1, ih h.2⟩

/-- Splitting a free block into an allocated block and a free remainder keeps
the blocks free of adjacent free pairs. -/
theorem NoAdjFree_split {pre post : List (Nat × Nat)} {s s1 s2 : Nat}
    (h : NoAdjFree (pre ++ (s, 0) :: post)) : NoAdjFree (pre ++ (s1, 1) :: (s2, 0) :: post) := by
  induction pre with
  | nil =>
    cases post with
    | nil => exact ⟨fun hc => by simp at hc, trivial⟩
    | cons c post =>
      exact ⟨fun hc => by simp at hc, fun hc => h.1 ⟨rfl, hc.2⟩, h.2⟩
  | cons b pre ih =>
    cases pre with
    | nil => exact ⟨fun hc => by simp at hc, ih h.2⟩
    | cons c pre => exact ⟨h.1, ih h.2⟩

/-- Appending a free block after an allocated last block (or to no block). -/
theorem NoAdjFree_append_free {pre : List (Nat × Nat)} {s : Nat} (h : NoAdjFree pre)
    (hlast : ∀ b, pre.getLast? = some b → b.2 ≠ 0) : NoAdjFree (pre ++ [(s, 0)]) := by
  induction pre with
  | nil => trivial
  | cons b pre ih =>
    cases pre with
    | nil => exact ⟨fun hc => hlast b rfl hc.1, trivial⟩
    | cons c pre =>
      refine ⟨h.1, ih h.2 (fun d hd => hlast d ?_)⟩
      rw [List.getLast?_cons_cons]; exact hd

/-- Growing the last block. -/
theorem NoAdjFree_grow_last {pre : List (Nat × Nat)} {s s' al : Nat}
    (h : NoAdjFree (pre ++ [(s, al)])) : NoAdjFree (pre ++ [(s', al)]) := by
  induction pre with
  | nil => trivial
  | cons b pre ih =>
    cases pre with
    | nil => exact ⟨h.1, trivial⟩
    | cons c pre => exact ⟨h.1, ih h.2⟩

theorem freeBlocks_ge {m : Mem} {a0 e : Nat} {bs : List (Nat × Nat)} (ht : Tiles 8 m a0 bs e)
    {x : Nat} (hx : x ∈ freeBlocks 8 a0 bs) : a0 + 8 ≤ x := by
  obtain ⟨s, hs⟩ := mem_freeBlocks.mp hx
  exact (Tiles_block ht hs).2.2.2.2.2.1

theorem freeBlocks_nodup {m : Mem} {a0 e : Nat} {bs : List (Nat × Nat)}
    (ht : Tiles 8 m a0 bs e) : (freeBlocks 8 a0 bs).Nodup := by
  induction bs generalizing a0 with
  | nil => simp [freeBlocks, blocksFrom]
  | cons b bs ih =>
    obtain ⟨h1, h2, h3, h4, h5, hr⟩ := ht
    have htail := ih hr
    obtain ⟨s, al⟩ := b
    have hal : al = 0 ∨ al = 1 := by simp only at h5; omega
    rcases hal with rfl | rfl
    · rw [freeBlocks_cons_free]
      refine List.nodup_cons.mpr ⟨fun hin => ?_, htail⟩
      have := freeBlocks_ge hr hin
      simp only at h3; omega
    · rw [freeBlocks_cons_alloc]; exact htail

/-- Facts about the free-list nodes of a well-formed heap. -/
theorem HeapLayout.nodes {st : State} {bs : List (Nat × Nat)} {fl : List Nat}
    (h : HeapLayout 8 st bs fl) :
    fl.Nodup ∧ (∀ x ∈ fl, x ∈ freeBlocks 8 (st.heap_listp + 8) bs) ∧
      (∀ x ∈ fl, ∀ y ∈ fl, x ≠ y → x + 16 ≤ y ∨ y + 16 ≤ x) ∧
      (∀ x ∈ fl, x + 16 < 2 ^ 64) := by
  have hsub : ∀ x ∈ fl, x ∈ freeBlocks 8 (st.heap_listp + 8) bs :=
    fun x hx => h.perm.mem_iff.mp hx
  have hs := nodes_separated h.tiles hsub
  have hmax := h.max_lt'
  have hbrk := h.brk_le
  refine ⟨h.perm.nodup_iff.mpr (freeBlocks_nodup h.tiles), hsub, hs.1, fun x hx => ?_⟩
  have := hs.2 x hx
  omega

/-- A footprint inside the block area leaves prologue and epilogue intact. -/
theorem frame_sentinels {P : Nat → Prop} {st : State} {m' : Mem} {bs : List (Nat × Nat)}
    {fl : List Nat} (h : HeapLayout 8 st bs fl) (hf : Frame P st.mem m')
    (hP : ∀ a, P a → st.heap_listp + 8 ≤ a ∧ a < st.mem_brk - 8) :
    GET 8 m' (st.heap_listp - 8) = PACK (DSIZE 8) 1 ∧ GET 8 m' st.heap_listp = PACK (DSIZE 8) 1 ∧
      GET 8 m' (st.mem_brk - 8) = PACK 0 1 := by
  have hb := h.base
  refine ⟨?_, ?_, ?_⟩
  · rw [hf.GET _ (fun a h1 h2 hp => by have := hP a hp; omega)]; exact h.prologue_hdr
  · rw [hf.GET _ (fun a h1 h2 hp => by have := hP a hp; omega)]; exact h.prologue_ftr
  · rw [hf.GET _ (fun a h1 h2 hp => by have := hP a hp; omega)]; exact h.epilogue

theorem mem_blocksFrom_mid (a0 : Nat) (pre post : List (Nat × Nat)) (s al : Nat) :
    (a0 + (pre.map Prod.fst).sum + 8, s, al) ∈ blocksFrom 8 a0 (pre ++ (s, al) :: post) := by
  rw [blocksFrom_append]
  exact List.mem_append_right _ (List.mem_cons_self _ _)

/-! ## Placement -/

/-- Rewriting header and footer of a block with a new size `t` and bit `al`:
where the footer goes and which bytes change. -/
theorem retag_block (m : Mem) (bp t al : Nat) (ht8 : t % 8 = 0) (hal : al ≤ 1) (ht : 16 ≤ t)
    (hbp : 8 ≤ bp) (hlt : bp + t < 2 ^ 64) :
    FTRP 8 (PUT 8 m (bp - 8) (PACK t al)) bp = bp + t - 16 ∧
    GET 8 (PUT 8 (PUT 8 m (bp - 8) (PACK t al)) (bp + t - 16) (PACK t al)) (bp - 8) = PACK t al ∧
    GET 8 (PUT 8 (PUT 8 m (bp - 8) (PACK t al)) (bp + t - 16) (PACK t al)) (bp + t - 16)
      = PACK t al ∧
    Frame (fun a => (bp - 8 ≤ a ∧ a < bp) ∨ (bp + t - 16 ≤ a ∧ a < bp + t - 8)) m
      (PUT 8 (PUT 8 m (bp - 8) (PACK t al)) (bp + t - 16) (PACK t al)) := by
  have hp : PACK t al < 2 ^ 64 := PACK_lt ht8 hal (by omega)
  have g1 : GET 8 (PUT 8 m (bp - 8) (PACK t al)) (bp - 8) = PACK t al := GET_PUT_eq _ _ _ hp
  refine ⟨FTRP_eq g1 ht8 hal hbp hlt (by omega), ?_, GET_PUT_eq _ _ _ hp, ?_⟩
  · rw [GET_PUT_ne _ _ _ _ (by omega)]; exact g1
  · exact (Frame.put m _ _ (fun a h1 h2 => Or.inl ⟨h1, by omega⟩)).trans
      (Frame.put _ _ _ (fun a h1 h2 => Or.inr ⟨h1, by omega⟩))

/-- `place` without a split: the block becomes allocated at its full size and
leaves the free list. -/
theorem place_nosplit_layout {st : State} {bs : List (Nat × Nat)} {fl : List Nat}
    {bp c asize : Nat} {pre post : List (Nat × Nat)} {l1 l2 : List Nat}
    (h : HeapLayout 8 st bs fl) (hbs : bs = pre ++ (c, 0) :: post) (hfl : fl = l1 ++ bp :: l2)
    (hbp : bp = st.heap_listp + 8 + (pre.map Prod.fst).sum + 8)
    (hle : asize ≤ c) (hsmall : c - asize < 32) :
    HeapLayout 8 (place 8 st bp asize) (pre ++ (c, 1) :: post) (l1 ++ l2) ∧
      Frame (fun a => (bp - 8 ≤ a ∧ a < bp + c - 8) ∨ LinkByte 8 (l1 ++ l2) a) st.mem
        (place 8 st bp asize).mem := by
  have hmem : (bp, c, 0) ∈ blocksFrom 8 (st.heap_listp + 8) bs := by
    rw [hbs, hbp]; exact mem_blocksFrom_mid _ _ _ _ _
  obtain ⟨t1, t2, c32, c8, _, hge, hend, _⟩ := Tiles_block h.tiles hmem
  obtain ⟨hnd, hsub, hsep, hlt⟩ := h.nodes
  have hmax := h.max_lt'
  have hbrk := h.brk_le
  have hbase := h.base
  have hbpfl : bp ∈ fl := by rw [hfl]; exact List.mem_append_right _ (List.mem_cons_self _ _)
  -- closed form
  have eH : HDRP 8 bp = bp - 8 := HDRP_eq (by omega) (by omega)
  have eC : GET_SIZE 8 st.mem (bp - 8) = c := GET_SIZE_of_tag t1 c8 (by omega)
  have eW : wsub 8 c asize = c - asize := wsub8_of_le hle (by omega)
  obtain ⟨eF, g1, g2, F12⟩ := retag_block st.mem bp c 1 c8 (le_refl _) (by omega) (by omega)
    (by omega)
  have hplace : place 8 st bp asize = efl_slice 8 { st with mem := PUT 8 (PUT 8 st.mem (bp - 8) (PACK c 1)) (bp + c - 16) (PACK c 1) } bp := by
    unfold place
    simp only [eH, eC, eW, WSIZE]
    rw [if_neg (by omega), eF]
  rw [hplace]
  generalize hm2 : PUT 8 (PUT 8 st.mem (bp - 8) (PACK c 1)) (bp + c - 16) (PACK c 1) = m2 at g1 g2 F12 ⊢
  -- the chain before the excision
  have hsubL : ∀ x ∈ l1 ++ l2, x ∈ fl := by
    intro x hx
    rw [hfl]
    rcases List.mem_append.mp hx with hh | hh
    · exact List.mem_append_left _ hh
    · exact List.mem_append_right _ (List.mem_cons_of_mem _ hh)
  have hnotin : bp ∉ l1 ++ l2 := by
    rw [hfl] at hnd
    intro hin
    have hnd' := (List.perm_middle.nodup_iff).mp hnd
    exact (List.nodup_cons.mp hnd').1 hin
  have hLclear : ∀ a, LinkByte 8 fl a → ¬ TagByte 8 (st.heap_listp + 8) bs a :=
    fun a ha => (linkByte_clear h.tiles hsub ha).2.1
  have tagH : ∀ a, bp - 8 ≤ a → a < bp → TagByte 8 (st.heap_listp + 8) bs a :=
    fun a h1 h2 => ⟨_, hmem, Or.inl ⟨h1, h2⟩⟩
  have tagF : ∀ a, bp + c - 16 ≤ a → a < bp + c - 8 → TagByte 8 (st.heap_listp + 8) bs a :=
    fun a h1 h2 => ⟨_, hmem, Or.inr ⟨by simpa using h1, by simpa using h2⟩⟩
  have hchain2 : FreeChain 8 m2
      NULL st.ef_listp (l1 ++ bp :: l2) := by
    rw [← hfl]
    refine FreeChain_congr (fun x hx => ?_) h.chain
    have hxlt := hlt x hx
    have hclr : ∀ a, x ≤ a → a < x + 16 →
        ¬ ((bp - 8 ≤ a ∧ a < bp) ∨ (bp + c - 16 ≤ a ∧ a < bp + c - 8)) := by
      intro a h1 h2 hc
      have hl : LinkByte 8 fl a := ⟨x, hx, h1, h2⟩
      rcases hc with hc | hc
      · exact hLclear a hl (tagH a hc.1 hc.2)
      · exact hLclear a hl (tagF a hc.1 hc.2)
    constructor
    · exact F12.GET x (fun a h1 h2 => hclr a h1 (by omega))
    · rw [EFL_SBP_eq (by omega), EFL_SBP_eq (by omega)]
      exact F12.GET (x + 8) (fun a h1 h2 => hclr a (by omega) (by omega))
  obtain ⟨hchain3, F3⟩ := @efl_slice_chain { st with mem := m2 } _ _ _
    hchain2 (hfl ▸ hnd) (hfl ▸ hsep) (hfl ▸ hlt)
  -- total footprint
  have Ftot : Frame (fun a => (bp - 8 ≤ a ∧ a < bp + c - 8) ∨ LinkByte 8 (l1 ++ l2) a) st.mem
      (efl_slice 8 { st with mem := m2 } bp).mem :=
    (F12.mono (fun a ha => Or.inl (by omega))).trans (F3.mono (fun a ha => Or.inr ha))
  have hLsub : ∀ a, LinkByte 8 (l1 ++ l2) a → LinkByte 8 fl a := by
    rintro a ⟨y, hy, h1, h2⟩
    exact ⟨y, hsubL y hy, h1, h2⟩
  have hsent := frame_sentinels h Ftot (fun a ha => by
    rcases ha with ha | ha
    · omega
    · have := (linkByte_clear h.tiles hsub (hLsub a ha)).1
      obtain ⟨⟨y, u, al⟩, hy, _, hy1, hy2⟩ := this
      have := Tiles_block h.tiles hy
      simp only at hy1 hy2
      omega)
  refine ⟨?_, Ftot⟩
  have haux := efl_slice_aux 8 { st with mem := m2 } bp
  constructor
  · rw [haux.heap_listp]; exact h.base
  · rw [haux.heap_listp]; exact h.aligned
  · rw [haux.heap_listp]; exact hsent.1
  · rw [haux.heap_listp]; exact hsent.2.1
  · rw [haux.heap_listp, haux.mem_brk]
    have hT : Tiles 8 st.mem (st.heap_listp + 8) (pre ++ ([(c, 0)] ++ post)) (st.mem_brk - 8) := by
      have := h.tiles; rw [hbs] at this; exact this
    have := @Tiles_replace _ _ _ _ _ _ [(c, 1)] _ (l1 ++ l2) hT
      (Ftot.mono (fun a ha => by
        rcases ha with ha | ha
        · left; simp; omega
        · right; exact ha))
      (fun a ha => by
        show ¬ TagByte 8 _ (pre ++ (c, 0) :: post) a
        rw [← hbs]; exact hLclear a (hLsub a ha))
      (by
        have hcs : st.heap_listp + 8 + (pre.map Prod.fst).sum = bp - 8 := by omega
        have hFclr : ∀ a, LinkByte 8 (l1 ++ l2) a → ¬ TagByte 8 (st.heap_listp + 8) bs a :=
          fun a ha => hLclear a (hLsub a ha)
        refine ⟨?_, ?_, c32, c8, le_refl _, by show _ = _; simp⟩
        · rw [hcs, F3.GET _ (fun a h1 h2 hl => hFclr a hl (tagH a h1 (by omega)))]
          exact g1
        · simp only [hcs]
          have : bp - 8 + c - 8 = bp + c - 16 := by omega
          rw [this, F3.GET _ (fun a h1 h2 hl => hFclr a hl (tagF a h1 (by omega)))]
          exact g2)
    simpa using this
  · rw [haux.mem_brk]; exact hsent.2.2
  · rw [haux.mem_brk, haux.mem_max_addr]; exact h.brk_le
  · rw [haux.mem_max_addr]; exact h.max_lt
  · exact hchain3
  · rw [haux.heap_listp]
    have hp := h.perm
    rw [hbs, hfl, freeBlocks_append, freeBlocks_cons_free] at hp
    rw [freeBlocks_append, freeBlocks_cons_alloc]
    have hcs : st.heap_listp + 8 + (pre.map Prod.fst).sum + 8 = bp := by omega
    rw [hcs] at hp
    exact perm_remove_middle hp
  · have := h.no_adj
    rw [hbs] at this
    exact NoAdjFree_alloc this

/-- A chain survives every change of memory that keeps the link words of its
nodes. -/
theorem FreeChain_frame {P : Nat → Prop} {m m' : Mem} {fl : List Nat} {prev cur : Nat}
    (hf : Frame P m m') (hP : ∀ x ∈ fl, ∀ a, x ≤ a → a < x + 16 → ¬ P a)
    (hlt : ∀ x ∈ fl, x + 16 < 2 ^ 64) (h : FreeChain 8 m prev cur fl) :
    FreeChain 8 m' prev cur fl := by
  refine FreeChain_congr (fun x hx => ⟨?_, ?_⟩) h
  · exact hf.GET x (fun a h1 h2 => hP x hx a h1 (by omega))
  · have := hlt x hx
    rw [EFL_SBP_eq (by omega), EFL_SBP_eq (by omega)]
    exact hf.GET (x + 8) (fun a h1 h2 => hP x hx a (by omega) (by omega))

/-- Replacing a segment of the blocks of a well-formed heap: if the new state
differs from the old one only inside the segment and in link words of free-list
nodes, the segment is laid out anew, and the free list is a chain of the new
free blocks, then the new state is well formed. -/
theorem HeapLayout.replace {st st' : State} {bs : List (Nat × Nat)} {fl fl' L : List Nat}
    {pre mid mid' post : List (Nat × Nat)}
    (h : HeapLayout 8 st bs fl) (hbs : bs = pre ++ (mid ++ post)) (hL : ∀ x ∈ L, x ∈ fl)
    (h1 : st'.heap_listp = st.heap_listp) (h2 : st'.mem_brk = st.mem_brk)
    (h3 : st'.mem_max_addr = st.mem_max_addr)
    (hf : Frame (fun a => (st.heap_listp + 8 + (pre.map Prod.fst).sum ≤ a ∧
        a < st.heap_listp + 8 + (pre.map Prod.fst).sum + (mid.map Prod.fst).sum) ∨
        LinkByte 8 L a) st.mem st'.mem)
    (hmid : Tiles 8 st'.mem (st.heap_listp + 8 + (pre.map Prod.fst).sum) mid'
      (st.heap_listp + 8 + (pre.map Prod.fst).sum + (mid.map Prod.fst).sum))
    (hchain : FreeChain 8 st'.mem NULL st'.ef_listp fl')
    (hperm : fl'.Perm (freeBlocks 8 (st.heap_listp + 8) (pre ++ (mid' ++ post))))
    (hadj : NoAdjFree (pre ++ (mid' ++ post))) :
    HeapLayout 8 st' (pre ++ (mid' ++ post)) fl' := by
  have hsub := h.nodes.2.1
  have hT : Tiles 8 st.mem (st.heap_listp + 8) (pre ++ (mid ++ post)) (st.mem_brk - 8) := by
    have := h.tiles; rw [hbs] at this; exact this
  have hLclr : ∀ a, LinkByte 8 L a →
      ¬ TagByte 8 (st.heap_listp + 8) (pre ++ (mid ++ post)) a ∧
        st.heap_listp + 8 ≤ a ∧ a < st.mem_brk - 8 := by
    rintro a ⟨y, hy, hy1, hy2⟩
    have hl : LinkByte 8 fl a := ⟨y, hL y hy, hy1, hy2⟩
    have hc := linkByte_clear h.tiles hsub hl
    refine ⟨by rw [← hbs]; exact hc.2.1, ?_, by omega⟩
    obtain ⟨s, hs⟩ := mem_freeBlocks.mp (hsub y (hL y hy))
    have := (Tiles_block h.tiles hs).2.2.2.2.2.1
    omega
  have hseg : st.heap_listp + 8 + (pre.map Prod.fst).sum + (mid.map Prod.fst).sum
      ≤ st.mem_brk - 8 := by
    obtain ⟨c1, hpre, hrest⟩ := Tiles_append.mp hT
    obtain ⟨c2, hmid0, hpost⟩ := Tiles_append.mp hrest
    have e1 := Tiles_end hpre
    have e2 := Tiles_end hmid0
    have := Tiles_le hpost
    omega
  have hsent := frame_sentinels h hf (fun a ha => by
    rcases ha with ha | ha
    · omega
    · exact (hLclr a ha).2)
  constructor
  · rw [h1]; exact h.base
  · rw [h1]; exact h.aligned
  · rw [h1]; exact hsent.1
  · rw [h1]; exact hsent.2.1
  · rw [h1, h2]
    exact Tiles_replace hT hf (fun a ha => (hLclr a ha).1) hmid
  · rw [h2]; exact hsent.2.2
  · rw [h2, h3]; exact h.brk_le
  · rw [h3]; exact h.max_lt
  · exact hchain
  · rw [h1]; exact hperm
  · exact hadj

/-- The split branch of `place`. -/
theorem place_split_unfold (st : State) (bp asize : Nat)
    (h : wsub 8 (GET_SIZE 8 st.mem (HDRP 8 bp)) asize ≥ 4 * WSIZE 8) :
    place 8 st bp asize =
      (let csize := GET_SIZE 8 st.mem (HDRP 8 bp)
       let m1 := PUT 8 st.mem (HDRP 8 bp) (PACK asize 1)
       let m2 := PUT 8 m1 (FTRP 8 m1 bp) (PACK asize 1)
       let st1 := efl_slice 8 { st with mem := m2 } bp
       let bp1 := NEXT_BLKP 8 st1.mem bp
       let m3 := PUT 8 st1.mem (HDRP 8 bp1) (PACK (wsub 8 csize asize) 0)
       let m4 := PUT 8 m3 (FTRP 8 m3 bp1) (PACK (wsub 8 csize asize) 0)
       efl_insert 8 { st1 with mem := m4 } bp1) := by
  unfold place
  exact if_pos h

/-- The split branch of `place` with the addresses evaluated. -/
theorem place_split_eq (st : State) (bp c asize : Nat) (m2 m4 : Mem) (st1 : State)
    (eH : HDRP 8 bp = bp - 8) (eC : GET_SIZE 8 st.mem (bp - 8) = c)
    (eW : wsub 8 c asize = c - asize) (hbig : 32 ≤ c - asize)
    (eF : FTRP 8 (PUT 8 st.mem (bp - 8) (PACK asize 1)) bp = bp + asize - 16)
    (hm2 : m2 = PUT 8 (PUT 8 st.mem (bp - 8) (PACK asize 1)) (bp + asize - 16) (PACK asize 1))
    (hst1 : st1 = efl_slice 8 { st with mem := m2 } bp)
    (eN : NEXT_BLKP 8 st1.mem bp = bp + asize) (eH1 : HDRP 8 (bp + asize) = bp + asize - 8)
    (eF1 : FTRP 8 (PUT 8 st1.mem (bp + asize - 8) (PACK (c - asize) 0)) (bp + asize)
      = bp + c - 16)
    (hm4 : m4 = PUT 8 (PUT 8 st1.mem (bp + asize - 8) (PACK (c - asize) 0)) (bp + c - 16)
      (PACK (c - asize) 0)) :
    place 8 st bp asize = efl_insert 8 { st1 with mem := m4 } (bp + asize) := by
  have hcond : wsub 8 (GET_SIZE 8 st.mem (HDRP 8 bp)) asize ≥ 4 * WSIZE 8 := by
    rw [eH, eC, eW]; exact hbig
  have hplace := place_split_unfold st bp asize hcond
  lift_lets at hplace
  extract_lets csize m1 m2' st1' bp1 m3 m4' at hplace
  have e2 : m2' = m2 := by
    rw [hm2]
    show PUT 8 (PUT 8 st.mem (HDRP 8 bp) (PACK asize 1))
      (FTRP 8 (PUT 8 st.mem (HDRP 8 bp) (PACK asize 1)) bp) (PACK asize 1) = _
    rw [eH, eF]
  have e3 : st1' = st1 := by
    rw [hst1, ← e2]
  have e4 : bp1 = bp + asize := by
    show NEXT_BLKP 8 st1'.mem bp = _
    rw [e3, eN]
  have e5 : m4' = m4 := by
    rw [hm4]
    show PUT 8 (PUT 8 st1'.mem (HDRP 8 bp1) (PACK (wsub 8 (GET_SIZE 8 st.mem (HDRP 8 bp)) asize) 0))
      (FTRP 8 (PUT 8 st1'.mem (HDRP 8 bp1)
        (PACK (wsub 8 (GET_SIZE 8 st.mem (HDRP 8 bp)) asize) 0)) bp1)
      (PACK (wsub 8 (GET_SIZE 8 st.mem (HDRP 8 bp)) asize) 0) = _
    rw [e4, e3, eH, eC, eW, eH1, eF1]
  rw [hplace, e5, e4, e3]

/-- Writing header and footer of a free block of `r` bytes at `bp1` and
inserting it at the head of the free list, as `coalesce` and `place` do: the
chain gains the block, memory changes only inside the block and in link words
of the old nodes, and the new tags are in place. -/
theorem make_free_insert {st1 : State} {L : List Nat} {bp1 r : Nat}
    (hc : FreeChain 8 st1.mem NULL st1.ef_listp L) (hnd : L.Nodup)
    (hsep : ∀ x ∈ L, ∀ y ∈ L, x ≠ y → x + 16 ≤ y ∨ y + 16 ≤ x)
    (hlt : ∀ x ∈ L, x + 16 < 2 ^ 64)
    (hout : ∀ x ∈ L, x + 16 ≤ bp1 - 8 ∨ bp1 + r - 8 ≤ x)
    (hr8 : r % 8 = 0) (hr32 : 32 ≤ r) (hbp : 8 ≤ bp1) (hltb : bp1 + r < 2 ^ 64)
    (m4 : Mem) (hm4 : m4 = PUT 8 (PUT 8 st1.mem (bp1 - 8) (PACK r 0)) (bp1 + r - 16) (PACK r 0))
    (stF : State) (hstF : stF = efl_insert 8 { st1 with mem := m4 } bp1) :
    FreeChain 8 stF.mem NULL stF.ef_listp (bp1 :: L) ∧
      Frame (fun a => (bp1 - 8 ≤ a ∧ a < bp1 + r - 8) ∨ LinkByte 8 L a) st1.mem stF.mem ∧
      Tiles 8 stF.mem (bp1 - 8) [(r, 0)] (bp1 - 8 + r) ∧
      FTRP 8 (PUT 8 st1.mem (bp1 - 8) (PACK r 0)) bp1 = bp1 + r - 16 ∧ SameAux st1 stF := by
  obtain ⟨eF, g3, g4, F34⟩ := retag_block st1.mem bp1 r 0 hr8 (by omega) (by omega) hbp hltb
  rw [← hm4] at g3 g4 F34
  have hchain4 : FreeChain 8 m4 NULL st1.ef_listp L :=
    FreeChain_frame F34 (fun x hx a h1 h2 hP => by have := hout x hx; omega) hlt hc
  obtain ⟨hchain5, F5⟩ := @efl_insert_chain { st1 with mem := m4 } _ bp1
    hchain4 hnd hsep hlt (by unfold NULL; omega) (by omega)
    (fun y hy => by have := hout y hy; omega)
  rw [← hstF] at hchain5 F5
  have F5' : Frame (LinkByte 8 (bp1 :: L)) m4 stF.mem := F5
  have hL5 : ∀ a, LinkByte 8 (bp1 :: L) a → (bp1 ≤ a ∧ a < bp1 + 16) ∨ LinkByte 8 L a := by
    rintro a ⟨y, hy, h1, h2⟩
    rcases List.mem_cons.mp hy with rfl | hy
    · left; omega
    · right; exact ⟨y, hy, h1, h2⟩
  have hLout : ∀ a, LinkByte 8 L a → ¬ (bp1 - 8 ≤ a ∧ a < bp1 + r - 8) := by
    rintro a ⟨y, hy, h1, h2⟩ hcon
    have := hout y hy
    omega
  have e1 : bp1 - 8 + r - 8 = bp1 + r - 16 := by omega
  refine ⟨hchain5, ?_, ⟨?_, ?_, hr32, hr8, Nat.zero_le 1, rfl⟩, eF, ?_⟩
  · refine (F34.mono (fun a ha => Or.inl (by omega))).trans (F5'.mono (fun a ha => ?_))
    rcases hL5 a ha with hh | hh
    · left; omega
    · right; exact hh
  · rw [F5'.GET _ (fun a h1 h2 hl => by
      rcases hL5 a hl with hh | hh
      · omega
      · exact hLout a hh (by omega))]
    exact g3
  · rw [e1, F5'.GET _ (fun a h1 h2 hl => by
      rcases hL5 a hl with hh | hh
      · omega
      · exact hLout a hh (by omega))]
    exact g4
  · rw [hstF]
    exact (SameAux.set_mem st1 m4).chain (efl_insert_aux 8 _ bp1)

/-- A free-list node other than the block `bp` lies outside the extent of `bp`. -/
theorem HeapLayout.node_outside {st : State} {bs : List (Nat × Nat)} {fl : List Nat}
    (h : HeapLayout 8 st bs fl) {bp c al : Nat}
    (hmem : (bp, c, al) ∈ blocksFrom 8 (st.heap_listp + 8) bs) {x : Nat} (hx : x ∈ fl)
    (hne : x ≠ bp) : x + 16 ≤ bp - 8 ∨ bp + c ≤ x := by
  obtain ⟨s, hs⟩ := h.mem_fl.mp hx
  have hxb := Tiles_block h.tiles hs
  have hbb := Tiles_block h.tiles hmem
  rcases Tiles_disjoint h.tiles hs hmem with heq | hd | hd
  · cases heq; exact absurd rfl hne
  · simp only at hd; omega
  · simp only at hd; omega

/-- Removing one node of a duplicate-free list. -/
theorem nodup_remove_middle {l1 l2 : List Nat} {b : Nat} (h : (l1 ++ b :: l2).Nodup) :
    (l1 ++ l2).Nodup ∧ b ∉ l1 ++ l2 ∧ (∀ x ∈ l1 ++ l2, x ∈ l1 ++ b :: l2) := by
  have h' := (List.perm_middle.nodup_iff).mp h
  refine ⟨(List.nodup_cons.mp h').2, (List.nodup_cons.mp h').1, fun x hx => ?_⟩
  rcases List.mem_append.mp hx with hh | hh
  · exact List.mem_append_left _ hh
  · exact List.mem_append_right _ (List.mem_cons_of_mem _ hh)

/-- First half of `place`: the free block `bp` gets header and footer of an
allocated block of `t` bytes and is sliced out of the free list. -/
theorem retag_slice {st : State} {bs : List (Nat × Nat)} {fl : List Nat} {bp c t : Nat}
    {l1 l2 : List Nat} (h : HeapLayout 8 st bs fl)
    (hmem : (bp, c, 0) ∈ blocksFrom 8 (st.heap_listp + 8) bs) (hfl : fl = l1 ++ bp :: l2)
    (ht8 : t % 8 = 0) (ht32 : 32 ≤ t) (htc : t ≤ c)
    (m2 : Mem) (hm2 : m2 = PUT 8 (PUT 8 st.mem (bp - 8) (PACK t 1)) (bp + t - 16) (PACK t 1))
    (st1 : State) (hst1 : st1 = efl_slice 8 { st with mem := m2 } bp) :
    FreeChain 8 st1.mem NULL st1.ef_listp (l1 ++ l2) ∧
      Frame (fun a => (bp - 8 ≤ a ∧ a < bp + c - 8) ∨ LinkByte 8 (l1 ++ l2) a) st.mem st1.mem ∧
      Tiles 8 st1.mem (bp - 8) [(t, 1)] (bp - 8 + t) ∧
      FTRP 8 (PUT 8 st.mem (bp - 8) (PACK t 1)) bp = bp + t - 16 ∧ SameAux st st1 ∧
      (∀ x ∈ l1 ++ l2, x + 16 ≤ bp - 8 ∨ bp + c ≤ x) := by
  obtain ⟨_, _, c32, c8, _, hge, hend, _⟩ := Tiles_block h.tiles hmem
  obtain ⟨hnd, hsub, hsep, hlt⟩ := h.nodes
  have hmax := h.max_lt'
  have hbrk := h.brk_le
  obtain ⟨hndL, hnotin, hsubL⟩ := nodup_remove_middle (hfl ▸ hnd)
  have hout : ∀ x ∈ l1 ++ l2, x + 16 ≤ bp - 8 ∨ bp + c ≤ x := by
    intro x hx
    refine h.node_outside hmem (hfl ▸ hsubL x hx) ?_
    rintro rfl
    exact hnotin hx
  obtain ⟨eF, g1, g2, F12⟩ := retag_block st.mem bp t 1 ht8 (le_refl _) (by omega) (by omega)
    (by omega)
  rw [← hm2] at g1 g2 F12
  have hchain2 : FreeChain 8 m2 NULL st.ef_listp (l1 ++ bp :: l2) := by
    rw [← hfl]
    refine FreeChain_frame F12 (fun x hx a h1 h2 hP => ?_) hlt h.chain
    by_cases hxb : x = bp
    · omega
    · have := h.node_outside hmem hx hxb
      omega
  obtain ⟨hchain3, F3⟩ := @efl_slice_chain { st with mem := m2 } _ _ _
    hchain2 (hfl ▸ hnd) (hfl ▸ hsep) (hfl ▸ hlt)
  rw [← hst1] at hchain3 F3
  have F3' : Frame (LinkByte 8 (l1 ++ l2)) m2 st1.mem := F3
  have hLout : ∀ a, LinkByte 8 (l1 ++ l2) a → ¬ (bp - 8 ≤ a ∧ a < bp + c - 8) := by
    rintro a ⟨y, hy, h1, h2⟩ hcon
    have := hout y hy
    omega
  have e1 : bp - 8 + t - 8 = bp + t - 16 := by omega
  refine ⟨hchain3, ?_, ⟨?_, ?_, ht32, ht8, le_refl 1, rfl⟩, eF, ?_, hout⟩
  · exact (F12.mono (fun a ha => Or.inl (by omega))).trans (F3'.mono (fun a ha => Or.inr ha))
  · rw [F3'.GET _ (fun a h1 h2 hl => hLout a hl (by omega))]; exact g1
  · rw [e1, F3'.GET _ (fun a h1 h2 hl => hLout a hl (by omega))]; exact g2
  · rw [hst1]
    exact (SameAux.set_mem st m2).chain (efl_slice_aux 8 _ bp)

/-- `place` with a split: the block is cut into an allocated block of `asize`
bytes and a free remainder, which replaces it in the free list, at the head. -/
theorem place_split_layout {st : State} {bs : List (Nat × Nat)} {fl : List Nat}
    {bp c asize : Nat} {pre post : List (Nat × Nat)} {l1 l2 : List Nat}
    (h : HeapLayout 8 st bs fl) (hbs : bs = pre ++ (c, 0) :: post) (hfl : fl = l1 ++ bp :: l2)
    (hbp : bp = st.heap_listp + 8 + (pre.map Prod.fst).sum + 8)
    (ha32 : 32 ≤ asize) (ha8 : asize % 8 = 0) (hle : asize ≤ c) (hbig : 32 ≤ c - asize) :
    HeapLayout 8 (place 8 st bp asize) (pre ++ (asize, 1) :: (c - asize, 0) :: post)
        ((bp + asize) :: (l1 ++ l2)) ∧
      Frame (fun a => (bp - 8 ≤ a ∧ a < bp + c - 8) ∨ LinkByte 8 (l1 ++ l2) a) st.mem
        (place 8 st bp asize).mem := by
  have hmem : (bp, c, 0) ∈ blocksFrom 8 (st.heap_listp + 8) bs := by
    rw [hbs, hbp]; exact mem_blocksFrom_mid _ _ _ _ _
  obtain ⟨t1, _, c32, c8, _, hge, hend, _⟩ := Tiles_block h.tiles hmem
  obtain ⟨hnd, hsub, hsep, hlt⟩ := h.nodes
  have hmax := h.max_lt'
  have hbrk := h.brk_le
  obtain ⟨hndL, hnotin, hsubL⟩ := nodup_remove_middle (hfl ▸ hnd)
  have hsubL' : ∀ x ∈ l1 ++ l2, x ∈ fl := fun x hx => hfl ▸ hsubL x hx
  -- the states of the computation
  obtain ⟨m2, hm2⟩ : ∃ m2, m2 = PUT 8 (PUT 8 st.mem (bp - 8) (PACK asize 1)) (bp + asize - 16)
      (PACK asize 1) := ⟨_, rfl⟩
  obtain ⟨st1, hst1⟩ : ∃ st1, st1 = efl_slice 8 { st with mem := m2 } bp := ⟨_, rfl⟩
  obtain ⟨m4, hm4⟩ : ∃ m4, m4 = PUT 8 (PUT 8 st1.mem (bp + asize - 8) (PACK (c - asize) 0))
      (bp + asize + (c - asize) - 16) (PACK (c - asize) 0) := ⟨_, rfl⟩
  obtain ⟨stF, hstF⟩ : ∃ stF, stF = efl_insert 8 { st1 with mem := m4 } (bp + asize) :=
    ⟨_, rfl⟩
  obtain ⟨hchain3, F13, hseg1, eF, haux1, hout⟩ :=
    retag_slice h hmem hfl ha8 ha32 hle m2 hm2 st1 hst1
  obtain ⟨hchain5, F35, hseg2, eF1, haux2⟩ :=
    @make_free_insert _ _ (bp + asize) (c - asize) hchain3 hndL
      (fun x hx y hy => hsep x (hsubL' x hx) y (hsubL' y hy))
      (fun x hx => hlt x (hsubL' x hx))
      (fun x hx => by have := hout x hx; omega)
      (by omega) hbig (by omega) (by omega) m4 hm4 stF hstF
  have hplace : place 8 st bp asize = stF := by
    rw [hstF]
    have e5 : bp + asize + (c - asize) - 16 = bp + c - 16 := by omega
    rw [e5] at hm4 eF1
    exact place_split_eq st bp c asize m2 m4 st1 (HDRP_eq (by omega) (by omega))
      (GET_SIZE_of_tag t1 c8 (by omega)) (wsub8_of_le hle (by omega)) hbig eF hm2 hst1
      (NEXT_BLKP_eq hseg1.1 ha8 (le_refl _) (by omega) (by omega))
      (HDRP_eq (by omega) (by omega)) eF1 hm4
  rw [hplace]
  clear hplace eF eF1 t1 hm2 hm4 hst1 hstF
  have hLout : ∀ a, LinkByte 8 (l1 ++ l2) a → ¬ (bp - 8 ≤ a ∧ a < bp + c - 8) := by
    rintro a ⟨y, hy, h1, h2⟩ hcon
    have := hout y hy
    omega
  have Ftot : Frame (fun a => (bp - 8 ≤ a ∧ a < bp + c - 8) ∨ LinkByte 8 (l1 ++ l2) a) st.mem
      stF.mem :=
    F13.trans (F35.mono (fun a ha => by
      rcases ha with ha | ha
      · left; omega
      · right; exact ha))
  refine ⟨?_, Ftot⟩
  have hcs : st.heap_listp + 8 + (pre.map Prod.fst).sum = bp - 8 := by omega
  -- the two new blocks in the final memory
  have hseg1' : Tiles 8 stF.mem (bp - 8) [(asize, 1)] (bp - 8 + asize) :=
    Tiles_congr (fun p hp1 hp2 => F35.GET p (fun a ha1 ha2 hP => by
      rcases hP with hP | hP
      · omega
      · exact hLout a hP (by omega))) hseg1
  have e7 : bp + asize - 8 = bp - 8 + asize := by omega
  have e8 : bp - 8 + asize + (c - asize) = bp - 8 + c := by omega
  rw [e7, e8] at hseg2
  have hmid : Tiles 8 stF.mem (bp - 8) ([(asize, 1)] ++ [(c - asize, 0)]) (bp - 8 + c) :=
    Tiles_append.mpr ⟨_, hseg1', hseg2⟩
  exact @HeapLayout.replace _ stF _ _ ((bp + asize) :: (l1 ++ l2)) (l1 ++ l2) _ [(c, 0)]
    [(asize, 1), (c - asize, 0)] _
    h hbs hsubL' (haux2.heap_listp.trans haux1.heap_listp)
    (haux2.mem_brk.trans haux1.mem_brk) (haux2.mem_max_addr.trans haux1.mem_max_addr)
    (Ftot.mono (fun a ha => by
      rcases ha with ha | ha
      · left; simp; omega
      · right; exact ha))
    (by rw [hcs]; simpa using hmid)
    hchain5
    (by
      have hp := h.perm
      rw [hbs, hfl, freeBlocks_append, freeBlocks_cons_free] at hp
      show List.Perm _ (freeBlocks 8 _ (pre ++ (asize, 1) :: (c - asize, 0) :: post))
      rw [freeBlocks_append, freeBlocks_cons_alloc, freeBlocks_cons_free]
      have hcs1 : st.heap_listp + 8 + (pre.map Prod.fst).sum + 8 = bp := by omega
      rw [hcs1] at hp
      have hcs2 : st.heap_listp + 8 + (pre.map Prod.fst).sum + asize + 8 = bp + asize := by
        omega
      have hcs3 : st.heap_listp + 8 + (pre.map Prod.fst).sum + asize + (c - asize)
          = st.heap_listp + 8 + (pre.map Prod.fst).sum + c := by omega
      rw [hcs2, hcs3]
      exact ((perm_remove_middle hp).cons (bp + asize)).trans List.perm_middle.symm)
    (by
      have := h.no_adj
      rw [hbs] at this
      exact NoAdjFree_split this)

/-- Blocks outside a replaced segment remain blocks of the new list. -/
theorem blocksFrom_replace_mem {a0 : Nat} {pre mid mid' post : List (Nat × Nat)}
    (hsum : (mid'.map Prod.fst).sum = (mid.map Prod.fst).sum) {b : Nat × Nat × Nat}
    (hb : b ∈ blocksFrom 8 a0 (pre ++ (mid ++ post))) :
    b ∈ blocksFrom 8 a0 (pre ++ (mid' ++ post)) ∨
      b ∈ blocksFrom 8 (a0 + (pre.map Prod.fst).sum) mid := by
  rw [blocksFrom_append, blocksFrom_append] at hb
  rw [blocksFrom_append, blocksFrom_append, hsum]
  rcases List.mem_append.mp hb with h | h
  · left; exact List.mem_append_left _ h
  · rcases List.mem_append.mp h with h | h
    · right; exact h
    · left; exact List.mem_append_right _ (List.mem_append_right _ h)

/-- `place` on a free-list block of a well-formed heap: the heap stays well
formed, the block becomes an allocated block of at least `asize` bytes, the
allocated blocks stay, and only bytes of free blocks change. -/
theorem place_layout {st : State} {bs : List (Nat × Nat)} {fl : List Nat} {bp c asize : Nat}
    (h : HeapLayout 8 st bs fl) (hbp : bp ∈ fl)
    (hmem : (bp, c, 0) ∈ blocksFrom 8 (st.heap_listp + 8) bs)
    (ha32 : 32 ≤ asize) (ha8 : asize % 8 = 0) (hle : asize ≤ c) :
    ∃ bs' fl' t, HeapLayout 8 (place 8 st bp asize) bs' fl' ∧
      (bp, t, 1) ∈ blocksFrom 8 (st.heap_listp + 8) bs' ∧ asize ≤ t ∧
      (∀ b, b ∈ blocksFrom 8 (st.heap_listp + 8) bs → b.2.2 = 1 →
        b ∈ blocksFrom 8 (st.heap_listp + 8) bs') ∧
      Frame (FreeByte 8 (st.heap_listp + 8) bs) st.mem (place 8 st bp asize).mem := by
  obtain ⟨pre, post, hbs, hbpe⟩ := blocksFrom_split hmem
  obtain ⟨l1, l2, hfl⟩ := List.append_of_mem hbp
  have hsub := h.nodes.2.1
  have hframe : ∀ a, ((bp - 8 ≤ a ∧ a < bp + c - 8) ∨ LinkByte 8 (l1 ++ l2) a) →
      FreeByte 8 (st.heap_listp + 8) bs a := by
    rintro a (ha | ⟨y, hy, h1, h2⟩)
    · exact ⟨_, hmem, rfl, ha.1, ha.2⟩
    · refine (linkByte_clear h.tiles hsub ⟨y, ?_, h1, h2⟩).1
      rw [hfl]
      rcases List.mem_append.mp hy with hh | hh
      · exact List.mem_append_left _ hh
      · exact List.mem_append_right _ (List.mem_cons_of_mem _ hh)
  have hkeep : ∀ (mid' : List (Nat × Nat)), (mid'.map Prod.fst).sum = c →
      ∀ b, b ∈ blocksFrom 8 (st.heap_listp + 8) bs → b.2.2 = 1 →
        b ∈ blocksFrom 8 (st.heap_listp + 8) (pre ++ (mid' ++ post)) := by
    intro mid' hs b hb hal
    rw [hbs] at hb
    rcases @blocksFrom_replace_mem _ _ [(c, 0)] mid' _ (by simpa using hs) _ hb
      with h1 | h1
    · exact h1
    · simp [blocksFrom] at h1
      rw [h1] at hal
      simp at hal
  by_cases hbig : 32 ≤ c - asize
  · obtain ⟨hl, hf⟩ := place_split_layout h hbs hfl hbpe ha32 ha8 hle hbig
    refine ⟨_, _, asize, hl, ?_, le_refl _, ?_, hf.mono hframe⟩
    · rw [hbpe]; exact mem_blocksFrom_mid _ _ _ _ _
    · exact hkeep [(asize, 1), (c - asize, 0)] (by simp; omega)
  · obtain ⟨hl, hf⟩ := place_nosplit_layout h hbs hfl hbpe hle (by omega)
    refine ⟨_, _, c, hl, ?_, hle, ?_, hf.mono hframe⟩
    · rw [hbpe]; exact mem_blocksFrom_mid _ _ _ _ _
    · exact hkeep [(c, 1)] (by simp)

/-! ## Concrete runs: alignment, block sizes, wrapped requests, the checker -/

/-- C3 at its failing input: with `p1 = 4120` and `p2 = 4152` live and the
caller's words stored in their payloads, `q1 = mm_realloc(p1, 2^64 - 24)`
returns the non-NULL address 36888 (the break) and leaves `p2` live with its
first payload word `0x1111 = 4369`; then `q2 = mm_realloc(p2, 2^64 - 24)`
returns the non-NULL address 36888 whose first word is 4160, not the word 4369
that was at `p2` before the call, although the old payload holds 16 bytes. -/
theorem C3_realloc_loses_payload :
    run_p.map Prod.snd = some 4120 ∧ run_pq.map Prod.snd = some 4152 ∧
    run_realloc_wrap1.map (fun r => (r.2, r.1.mem_brk, GET 8 r.1.mem 4152,
      GET_SIZE 8 r.1.mem (HDRP 8 4152), GET_ALLOC 8 r.1.mem (HDRP 8 4152)))
      = some (36888, 36888, 4369, 32, 1) ∧
    run_realloc_wrap2.map (fun r => (r.2, GET 8 r.1.mem r.2)) = some (36888, 4160) ∧
    8 ≤ min (32 - 2 * WSIZE 8) (2 ^ 64 - 24) ∧ 4160 ≠ 4369 := by
  decide!

/-- C11 at its failing input: at word size 4, with the heap starting at the
8-byte aligned address 4096, `mm_init` succeeds and `mm_malloc(1)` returns the
non-NULL address 4108, which is not a multiple of 8. -/
theorem C11_misaligned_at_word_size_4 :
    4096 % 8 = 0 ∧ (mm_init 4 (fresh 4096 (2 ^ 20))).2 = some () ∧
    run_w4.map Prod.snd = some 4108 ∧ 4108 ≠ NULL ∧ 4108 % 8 = 4 := by
  decide!

/-- C12 fails as stated: after `mm_init`, `mm_malloc(24)` returns the block
4120 whose header carries the size 40, which is not a multiple of the double
word `2 * WSIZE = 16`. -/
theorem C12_block_size_40 :
    run_24.map (fun r => (r.2, heap_walk 8 r.1.mem 8 r.1.heap_listp))
      = some (4120, [(4104, 16, 1), (4120, 40, 1), (4160, 32728, 0)]) ∧
    40 % (2 * WSIZE 8) ≠ 0 := by
  decide!

/-- C13 at its failing input: after `p = mm_malloc(16)`,
`q = mm_malloc(2^64 - 16)` (which returns 4152), `r = mm_malloc(16)`,
`s = mm_malloc(16)` and `mm_free(q)`, the heap traversal from the prologue
meets the free block 4152 of size 64 immediately followed by the free block
4216, and ends at the epilogue header. -/
theorem C13_adjacent_free_blocks :
    run_p_wrap.map Prod.snd = some 4152 ∧
    run_p_wrap_rs_free.map (fun st => (heap_walk 8 st.mem 8 st.heap_listp,
      NEXT_BLKP 8 st.mem 4152, NEXT_BLKP 8 st.mem 4216, st.mem_brk,
      GET 8 st.mem (HDRP 8 st.mem_brk)))
      = some ([(4104, 16, 1), (4120, 32, 1), (4152, 64, 0), (4216, 32672, 0)],
        4216, 36888, 36888, PACK 0 1) := by
  decide!

/-- C14 at its failing input: after the same calls as for C13 the successor
links from `ef_listp` reach only the block 4152, while the heap traversal
finds the two blocks 4152 and 4216 with a header marked free. -/
theorem C14_free_block_not_listed :
    run_p_wrap_rs.map Prod.snd = some 4184 ∧
    run_p_wrap_rs_free.map (fun st => (list_walk 8 st.mem 8 st.ef_listp,
      ((heap_walk 8 st.mem 8 st.heap_listp).filter (fun b => b.2.2 = 0)).map (fun b => b.1)))
      = some ([4152], [4152, 4216]) := by
  decide!

/-- A block with header size `DSIZE` is reported as too small. -/
theorem checkblock_prologue {m : Mem} {bp : Nat} (h : GET_SIZE 8 m (HDRP 8 bp) = DSIZE 8) :
    checkblock 8 m bp ≠ [] := by
  unfold checkblock
  rw [h]
  simp [DSIZE, WSIZE]

/-- The checker never returns an empty error output. -/
theorem checkheap_ne_nil (fuel : Nat) (st : State) ( verbose : Bool) :
    checkheap 8 fuel st verbose ≠ some [] := by
  cases fuel with
  | zero => simp [checkheap]
  | succ n =>
    intro h
    unfold checkheap at h
    simp only [Option.bind_eq_some, Option.map_eq_some'] at h
    obtain ⟨r1, -, t, -, r4, -, h⟩ := h
    by_cases hp : GET_SIZE 8 st.mem (HDRP 8 st.heap_listp) = DSIZE 8
    · have := checkblock_prologue hp
      simp only [List.append_eq_nil, List.append_assoc] at h
      exact this h.2.2.1
    · rw [if_pos (Or.inl hp)] at h
      simp at h

/-- C15 at its failing input: right after a successful `mm_init` the checker
prints "block is smaller than minimum size" twice, for the prologue block of
size `2 * WSIZE`; and whatever the state, it never returns without an error
message. -/
theorem C15_checkheap_reports_prologue :
    (mm_init 8 (fresh 4096 (2 ^ 20))).2 = some () ∧
    checkheap 8 8 heap0 false = some [Report.too_small, Report.too_small] ∧
    ∀ (fuel : Nat) (st : State) ( verbose : Bool), checkheap 8 fuel st verbose ≠ some [] :=
  ⟨by decide!, by decide!, checkheap_ne_nil⟩

/-! ## The heap before coalescing: nodes and replacement of a segment -/

theorem freeBlocks_mid_free (a0 c : Nat) (pre post : List (Nat × Nat)) :
    freeBlocks 8 a0 (pre ++ (c, 0) :: post) =
      freeBlocks 8 a0 pre ++ (a0 + (pre.map Prod.fst).sum + 8) ::
        freeBlocks 8 (a0 + (pre.map Prod.fst).sum + c) post := by
  rw [freeBlocks_append, freeBlocks_cons_free]

theorem freeBlocks_mid_alloc (a0 c : Nat) (pre post : List (Nat × Nat)) :
    freeBlocks 8 a0 (pre ++ (c, 1) :: post) =
      freeBlocks 8 a0 pre ++ freeBlocks 8 (a0 + (pre.map Prod.fst).sum + c) post := by
  rw [freeBlocks_append, freeBlocks_cons_alloc]

theorem FreedLayout.limit_lt {st : State} {pre post : List (Nat × Nat)} {c : Nat} {fl : List Nat}
    (h : FreedLayout 8 st pre c post fl) : st.mem_max_addr < 2 ^ 64 - 1 := by
  have := h.max_lt
  rw [WMOD_eight] at this
  norm_num; exact this

theorem FreedLayout.block {st : State} {pre post : List (Nat × Nat)} {c : Nat} {fl : List Nat}
    (_ : FreedLayout 8 st pre c post fl) :
    (st.heap_listp + 8 + (pre.map Prod.fst).sum + 8, c, 0) ∈
      blocksFrom 8 (st.heap_listp + 8) (pre ++ (c, 0) :: post) :=
  mem_blocksFrom_mid _ _ _ _ _

/-- Facts about the free-list nodes of a heap before coalescing. -/
theorem FreedLayout.list_nodes {st : State} {pre post : List (Nat × Nat)} {c : Nat} {fl : List Nat}
    (h : FreedLayout 8 st pre c post fl) :
    fl.Nodup ∧ (∀ x ∈ fl, x ∈ freeBlocks 8 (st.heap_listp + 8) (pre ++ (c, 0) :: post)) ∧
      (∀ x ∈ fl, ∀ y ∈ fl, x ≠ y → x + 16 ≤ y ∨ y + 16 ≤ x) ∧
      (∀ x ∈ fl, x + 16 < 2 ^ 64) ∧
      (∀ x ∈ fl, x + 16 ≤ st.heap_listp + 8 + (pre.map Prod.fst).sum ∨
        st.heap_listp + 8 + (pre.map Prod.fst).sum + 8 + c ≤ x) := by
  have hnd0 := freeBlocks_nodup h.tiles
  rw [freeBlocks_mid_free] at hnd0
  obtain ⟨hnd1, hnot, hsub1⟩ := nodup_remove_middle hnd0
  have hsub : ∀ x ∈ fl, x ∈ freeBlocks 8 (st.heap_listp + 8) (pre ++ (c, 0) :: post) := by
    intro x hx
    have := h.perm.mem_iff.mp hx
    rw [freeBlocks_mid_alloc] at this
    rw [freeBlocks_mid_free]
    exact hsub1 x this
  have hs := nodes_separated h.tiles hsub
  have hmax := h.limit_lt
  have hbrk := h.brk_le
  refine ⟨?_, hsub, hs.1, fun x hx => ?_, fun x hx => ?_⟩
  · refine h.perm.nodup_iff.mpr ?_
    rw [freeBlocks_mid_alloc]; exact hnd1
  · have := hs.2 x hx
    omega
  · have hne : x ≠ st.heap_listp + 8 + (pre.map Prod.fst).sum + 8 := by
      rintro rfl
      have := h.perm.mem_iff.mp hx
      rw [freeBlocks_mid_alloc] at this
      exact hnot this
    obtain ⟨s, hs'⟩ := mem_freeBlocks.mp (hsub x hx)
    have hxb := Tiles_block h.tiles hs'
    have hbb := Tiles_block h.tiles h.block
    rcases Tiles_disjoint h.tiles hs' h.block with heq | hd | hd
    · cases heq; exact absurd rfl hne
    · simp only at hd; omega
    · simp only at hd; omega

/-- Replacing a segment `mid` of the blocks before coalescing by blocks `mid'`
of the same total size gives a well-formed heap, when memory changes only
inside the segment and in link words of list nodes. -/
theorem FreedLayout.replace_mid {st st' : State} {pre post : List (Nat × Nat)} {c : Nat}
    {fl fl' L : List Nat} {P M M' Q : List (Nat × Nat)}
    (h : FreedLayout 8 st pre c post fl) (hbs : pre ++ (c, 0) :: post = P ++ (M ++ Q))
    (hL : ∀ x ∈ L, x ∈ fl)
    (h1 : st'.heap_listp = st.heap_listp) (h2 : st'.mem_brk = st.mem_brk)
    (h3 : st'.mem_max_addr = st.mem_max_addr)
    (hf : Frame (fun a => (st.heap_listp + 8 + (P.map Prod.fst).sum ≤ a ∧
        a < st.heap_listp + 8 + (P.map Prod.fst).sum + (M.map Prod.fst).sum) ∨
        LinkByte 8 L a) st.mem st'.mem)
    (hmid : Tiles 8 st'.mem (st.heap_listp + 8 + (P.map Prod.fst).sum) M'
      (st.heap_listp + 8 + (P.map Prod.fst).sum + (M.map Prod.fst).sum))
    (hchain : FreeChain 8 st'.mem NULL st'.ef_listp fl')
    (hperm : fl'.Perm (freeBlocks 8 (st.heap_listp + 8) (P ++ (M' ++ Q))))
    (hadj : NoAdjFree (P ++ (M' ++ Q))) :
    HeapLayout 8 st' (P ++ (M' ++ Q)) fl' := by
  have hsub := h.list_nodes.2.1
  have hT : Tiles 8 st.mem (st.heap_listp + 8) (P ++ (M ++ Q)) (st.mem_brk - 8) := by
    have := h.tiles; rw [hbs] at this; exact this
  have hLclr : ∀ a, LinkByte 8 L a →
      ¬ TagByte 8 (st.heap_listp + 8) (P ++ (M ++ Q)) a ∧
        st.heap_listp + 8 ≤ a ∧ a < st.mem_brk - 8 := by
    rintro a ⟨y, hy, hy1, hy2⟩
    have hl : LinkByte 8 fl a := ⟨y, hL y hy, hy1, hy2⟩
    have hc := linkByte_clear h.tiles hsub hl
    refine ⟨by rw [← hbs]; exact hc.2.1, ?_, by omega⟩
    obtain ⟨s, hs⟩ := mem_freeBlocks.mp (hsub y (hL y hy))
    have := (Tiles_block h.tiles hs).2.2.2.2.2.1
    omega
  have hseg : st.heap_listp + 8 + (P.map Prod.fst).sum + (M.map Prod.fst).sum
      ≤ st.mem_brk - 8 := by
    obtain ⟨c1, hpre, hrest⟩ := Tiles_append.mp hT
    obtain ⟨c2, hmid0, hpost⟩ := Tiles_append.mp hrest
    have e1 := Tiles_end hpre
    have e2 := Tiles_end hmid0
    have := Tiles_le hpost
    omega
  have hb := h.base
  have hP : ∀ a, ((st.heap_listp + 8 + (P.map Prod.fst).sum ≤ a ∧
        a < st.heap_listp + 8 + (P.map Prod.fst).sum + (M.map Prod.fst).sum) ∨
        LinkByte 8 L a) → st.heap_listp + 8 ≤ a ∧ a < st.mem_brk - 8 := by
    intro a ha
    rcases ha with ha | ha
    · omega
    · exact (hLclr a ha).2
  constructor
  · rw [h1]; exact h.base
  · rw [h1]; exact h.aligned
  · rw [h1, hf.GET _ (fun a h1 h2 hp => by have := hP a hp; omega)]; exact h.prologue_hdr
  · rw [h1, hf.GET _ (fun a h1 h2 hp => by have := hP a hp; omega)]; exact h.prologue_ftr
  · rw [h1, h2]
    exact Tiles_replace hT hf (fun a ha => (hLclr a ha).1) hmid
  · rw [h2, hf.GET _ (fun a h1 h2 hp => by have := hP a hp; omega)]; exact h.epilogue
  · rw [h2, h3]; exact h.brk_le
  · rw [h3]; exact h.max_lt
  · exact hchain
  · rw [h1]; exact hperm
  · exact hadj

theorem prev_free_size_nil : prev_free_size [] = 0 := rfl

theorem prev_free_size_concat (pre : List (Nat × Nat)) (s al : Nat) :
    prev_free_size (pre ++ [(s, al)]) = if al = 0 then s else 0 := by
  unfold prev_free_size
  rw [List.getLast?_append_of_ne_nil _ (List.cons_ne_nil _ _)]
  simp only [List.getLast?_singleton]
  cases al with
  | zero => rfl
  | succ n => simp

theorem next_free_size_nil : next_free_size [] = 0 := rfl

theorem next_free_size_cons (post : List (Nat × Nat)) (s al : Nat) :
    next_free_size ((s, al) :: post) = if al = 0 then s else 0 := by
  unfold next_free_size
  simp only [List.head?_cons]
  cases al with
  | zero => rfl
  | succ n => simp

/-- The boundary tags that `coalesce(bp)` reads: the block's own tags, footer
and header of the block before it (the prologue when there is none) and the
header of the block after it (the epilogue header when there is none). -/
theorem FreedLayout.tags {st : State} {pre post : List (Nat × Nat)} {c : Nat} {fl : List Nat}
    (h : FreedLayout 8 st pre c post fl) {bp : Nat}
    (hbp : bp = st.heap_listp + 8 + (pre.map Prod.fst).sum + 8) :
    (GET 8 st.mem (bp - 8) = PACK c 0 ∧ 32 ≤ c ∧ c % 8 = 0 ∧ bp + c ≤ st.mem_brk) ∧
    (∃ ps pal, GET 8 st.mem (bp - 16) = PACK ps pal ∧
      GET 8 st.mem (bp - ps - 8) = PACK ps pal ∧ ps % 8 = 0 ∧ pal ≤ 1 ∧ 16 ≤ ps ∧
      st.heap_listp + ps ≤ bp ∧
      ((pre = [] ∧ pal = 1) ∨ (∃ pre', pre = pre' ++ [(ps, pal)] ∧ 32 ≤ ps))) ∧
    (∃ ns nal, GET 8 st.mem (bp + c - 8) = PACK ns nal ∧ ns % 8 = 0 ∧ nal ≤ 1 ∧
      bp + c + ns ≤ st.mem_brk ∧
      ((post = [] ∧ nal = 1) ∨ (∃ post', post = (ns, nal) :: post' ∧ 32 ≤ ns ∧
        GET 8 st.mem (bp + c + ns - 16) = PACK ns nal))) := by
  have hbase := h.base
  obtain ⟨cp, hpre, g1, g2, g3, g4, g5, hpost⟩ := Tiles_append.mp h.tiles
  have hend := Tiles_end hpre
  have hle := Tiles_le hpost
  have hcp : cp = bp - 8 := by omega
  simp only at g1 g2 g3 g4
  refine ⟨⟨by rw [← hcp]; exact g1, g3, g4, by omega⟩, ?_, ?_⟩
  · rcases List.eq_nil_or_concat pre with hnil | ⟨pre', b, hcat⟩
    · subst hnil
      have e1 : bp - 16 = st.heap_listp := by simp at hbp; omega
      refine ⟨16, 1, ?_, ?_, by decide, le_refl _, le_refl _, by omega, Or.inl ⟨rfl, rfl⟩⟩
      · rw [e1]; exact h.prologue_ftr
      · have : bp - 16 - 8 = st.heap_listp - 8 := by omega
        rw [this]; exact h.prologue_hdr
    · rw [List.concat_eq_append] at hcat
      subst hcat
      obtain ⟨c', hc1, q1, q2, q3, q4, q5, q6⟩ := Tiles_append.mp hpre
      have q6' : c' + b.1 = cp := q6
      have hc' := Tiles_le hc1
      obtain ⟨s, al⟩ := b
      simp only at q1 q2 q3 q4 q5 q6'
      refine ⟨s, al, ?_, ?_, q4, q5, by omega, by omega, Or.inr ⟨pre', rfl, q3⟩⟩
      · have : bp - 16 = c' + s - 8 := by omega
        rw [this]; exact q2
      · have : bp - s - 8 = c' := by omega
        rw [this]; exact q1
  · cases post with
    | nil =>
      have he : cp + c = st.mem_brk - 8 := hpost
      refine ⟨0, 1, ?_, by decide, le_refl _, by omega, Or.inl ⟨rfl, rfl⟩⟩
      have : bp + c - 8 = st.mem_brk - 8 := by omega
      rw [this]; exact h.epilogue
    | cons b post' =>
      obtain ⟨q1, q2, q3, q4, q5, q6⟩ := hpost
      have hq := Tiles_le q6
      obtain ⟨s, al⟩ := b
      simp only at q1 q2 q3 q4 q5 hq
      refine ⟨s, al, ?_, q4, q5, by omega, Or.inr ⟨post', rfl, q3, ?_⟩⟩
      · have : bp + c - 8 = cp + c := by omega
        rw [this]; exact q1
      · have : bp + c + s - 16 = cp + c + s - 8 := by omega
        rw [this]; exact q2

/-! ## The four cases of `coalesce` -/

theorem coalesce_case1_unfold (st : State) (bp : Nat)
    (hp : GET_ALLOC 8 st.mem (FTRP 8 st.mem (PREV_BLKP 8 st.mem bp)) ≠ 0)
    (hn : GET_ALLOC 8 st.mem (HDRP 8 (NEXT_BLKP 8 st.mem bp)) ≠ 0) :
    coalesce 8 st bp = (efl_insert 8 st bp, bp) := by
  unfold coalesce
  exact if_pos ⟨hp, hn⟩

theorem coalesce_case2_unfold (st : State) (bp : Nat)
    (hp : GET_ALLOC 8 st.mem (FTRP 8 st.mem (PREV_BLKP 8 st.mem bp)) ≠ 0)
    (hn : ¬ GET_ALLOC 8 st.mem (HDRP 8 (NEXT_BLKP 8 st.mem bp)) ≠ 0) :
    coalesce 8 st bp =
      (let size := wadd 8 (GET_SIZE 8 st.mem (HDRP 8 bp))
          (GET_SIZE 8 st.mem (HDRP 8 (NEXT_BLKP 8 st.mem bp)))
       let st1 := efl_slice 8 st (NEXT_BLKP 8 st.mem bp)
       let m2 := PUT 8 st1.mem (HDRP 8 bp) (PACK size 0)
       let m3 := PUT 8 m2 (FTRP 8 m2 bp) (PACK size 0)
       (efl_insert 8 { st1 with mem := m3 } bp, bp)) := by
  unfold coalesce
  exact (if_neg (fun h => hn h.2)).trans (if_pos ⟨hp, hn⟩)

theorem coalesce_case3_unfold (st : State) (bp : Nat)
    (hp : ¬ GET_ALLOC 8 st.mem (FTRP 8 st.mem (PREV_BLKP 8 st.mem bp)) ≠ 0)
    (hn : GET_ALLOC 8 st.mem (HDRP 8 (NEXT_BLKP 8 st.mem bp)) ≠ 0) :
    coalesce 8 st bp =
      (let size := wadd 8 (GET_SIZE 8 st.mem (HDRP 8 bp))
          (GET_SIZE 8 st.mem (HDRP 8 (PREV_BLKP 8 st.mem bp)))
       let st1 := efl_slice 8 st (PREV_BLKP 8 st.mem bp)
       let bp1 := PREV_BLKP 8 st1.mem bp
       let m2 := PUT 8 st1.mem (HDRP 8 bp1) (PACK size 0)
       let m3 := PUT 8 m2 (FTRP 8 m2 bp1) (PACK size 0)
       (efl_insert 8 { st1 with mem := m3 } bp1, bp1)) := by
  unfold coalesce
  exact (if_neg (fun h => hp h.1)).trans ((if_neg (fun h => hp h.1)).trans (if_pos ⟨hp, hn⟩))

theorem coalesce_case4_unfold (st : State) (bp : Nat)
    (hp : ¬ GET_ALLOC 8 st.mem (FTRP 8 st.mem (PREV_BLKP 8 st.mem bp)) ≠ 0)
    (hn : ¬ GET_ALLOC 8 st.mem (HDRP 8 (NEXT_BLKP 8 st.mem bp)) ≠ 0) :
    coalesce 8 st bp =
      (let size := wadd 8 (GET_SIZE 8 st.mem (HDRP 8 bp))
          (wadd 8 (GET_SIZE 8 st.mem (HDRP 8 (PREV_BLKP 8 st.mem bp)))
            (GET_SIZE 8 st.mem (FTRP 8 st.mem (NEXT_BLKP 8 st.mem bp))))
       let st1 := efl_slice 8 st (NEXT_BLKP 8 st.mem bp)
       let st2 := efl_slice 8 st1 (PREV_BLKP 8 st1.mem bp)
       let m3 := PUT 8 st2.mem (HDRP 8 (PREV_BLKP 8 st2.mem bp)) (PACK size 0)
       let m4 := PUT 8 m3 (FTRP 8 m3 (NEXT_BLKP 8 m3 bp)) (PACK size 0)
       let bp1 := PREV_BLKP 8 m4 bp
       (efl_insert 8 { st2 with mem := m4 } bp1, bp1)) := by
  unfold coalesce
  exact (if_neg (fun h => hp h.1)).trans ((if_neg (fun h => hp h.1)).trans
    (if_neg (fun h => hn h.2)))

/-- The values of the macros that `coalesce(bp)` evaluates, from the boundary
tags around `bp`. -/
theorem coalesce_reads {m : Mem} {bp c ps pal ns nal : Nat}
    (t0 : GET 8 m (bp - 8) = PACK c 0) (c8 : c % 8 = 0)
    (tp1 : GET 8 m (bp - 16) = PACK ps pal) (tp2 : GET 8 m (bp - ps - 8) = PACK ps pal)
    (ps8 : ps % 8 = 0) (hpal : pal ≤ 1) (hps : 16 ≤ ps) (hpb : ps + 8 ≤ bp)
    (tn : GET 8 m (bp + c - 8) = PACK ns nal) (ns8 : ns % 8 = 0) (hnal : nal ≤ 1)
    (hlt : bp + c + ns < 2 ^ 64) (c32 : 32 ≤ c) :
    HDRP 8 bp = bp - 8 ∧ GET_SIZE 8 m (bp - 8) = c ∧
    PREV_BLKP 8 m bp = bp - ps ∧ HDRP 8 (bp - ps) = bp - ps - 8 ∧
    GET_SIZE 8 m (bp - ps - 8) = ps ∧ FTRP 8 m (bp - ps) = bp - 16 ∧
    GET_ALLOC 8 m (bp - 16) = pal ∧
    NEXT_BLKP 8 m bp = bp + c ∧ HDRP 8 (bp + c) = bp + c - 8 ∧
    GET_SIZE 8 m (bp + c - 8) = ns ∧ GET_ALLOC 8 m (bp + c - 8) = nal := by
  have a1 : 8 ≤ bp := by omega
  have a2 : bp < 2 ^ 64 := by omega
  have a3 : 8 ≤ bp - ps := by omega
  have a4 : bp - ps < 2 ^ 64 := by omega
  have a5 : bp - ps + ps < 2 ^ 64 := by omega
  have a6 : 16 ≤ bp - ps + ps := by omega
  have a7 : bp - ps + ps - 16 = bp - 16 := by omega
  have a8 : 8 ≤ bp + c := by omega
  have a9 : bp + c < 2 ^ 64 := by omega
  have a10 : 16 ≤ bp := by omega
  have a11 : ps ≤ bp := by omega
  refine ⟨HDRP_eq a1 a2, GET_SIZE_of_tag t0 c8 (Nat.zero_le 1), PREV_BLKP_eq tp1 ps8 hpal a10 a2 a11,
    HDRP_eq a3 a4, GET_SIZE_of_tag tp2 ps8 hpal, ?_, GET_ALLOC_of_tag tp1 ps8 hpal,
    NEXT_BLKP_eq t0 c8 (Nat.zero_le 1) a1 a9, HDRP_eq a8 a9, GET_SIZE_of_tag tn ns8 hnal,
    GET_ALLOC_of_tag tn ns8 hnal⟩
  rw [FTRP_eq tp2 ps8 hpal a3 a5 a6, a7]

/-- Case 1 of `coalesce`, evaluated. -/
theorem coalesce_case1_eq {st : State} {bp c ps ns : Nat}
    (t0 : GET 8 st.mem (bp - 8) = PACK c 0) (c8 : c % 8 = 0)
    (tp1 : GET 8 st.mem (bp - 16) = PACK ps 1) (tp2 : GET 8 st.mem (bp - ps - 8) = PACK ps 1)
    (ps8 : ps % 8 = 0) (hps : 16 ≤ ps) (hpb : ps + 8 ≤ bp)
    (tn : GET 8 st.mem (bp + c - 8) = PACK ns 1) (ns8 : ns % 8 = 0)
    (hlt : bp + c + ns < 2 ^ 64) (c32 : 32 ≤ c) :
    coalesce 8 st bp = (efl_insert 8 st bp, bp) := by
  obtain ⟨_, _, r3, _, _, r6, r7, r8, r9, _, r11⟩ :=
    coalesce_reads t0 c8 tp1 tp2 ps8 (le_refl 1) hps hpb tn ns8 (le_refl 1) hlt c32
  refine coalesce_case1_unfold st bp ?_ ?_
  · rw [r3, r6, r7]; decide
  · rw [r8, r9, r11]; decide

/-- Case 2 of `coalesce`, evaluated. -/
theorem coalesce_case2_eq {st : State} {bp c ps ns : Nat}
    (t0 : GET 8 st.mem (bp - 8) = PACK c 0) (c8 : c % 8 = 0)
    (tp1 : GET 8 st.mem (bp - 16) = PACK ps 1) (tp2 : GET 8 st.mem (bp - ps - 8) = PACK ps 1)
    (ps8 : ps % 8 = 0) (hps : 16 ≤ ps) (hpb : ps + 8 ≤ bp)
    (tn : GET 8 st.mem (bp + c - 8) = PACK ns 0) (ns8 : ns % 8 = 0)
    (hlt : bp + c + ns < 2 ^ 64) (c32 : 32 ≤ c)
    (st1 : State) (hst1 : st1 = efl_slice 8 st (bp + c))
    (m4 : Mem) (hm4 : m4 = PUT 8 (PUT 8 st1.mem (bp - 8) (PACK (c + ns) 0)) (bp + (c + ns) - 16)
      (PACK (c + ns) 0)) :
    coalesce 8 st bp = (efl_insert 8 { st1 with mem := m4 } bp, bp) := by
  obtain ⟨r1, r2, r3, _, _, r6, r7, r8, r9, r10, r11⟩ :=
    coalesce_reads t0 c8 tp1 tp2 ps8 (le_refl 1) hps hpb tn ns8 (Nat.zero_le 1) hlt c32
  have hc := coalesce_case2_unfold st bp (by rw [r3, r6, r7]; decide)
    (by rw [r8, r9, r11]; decide)
  have eF := (retag_block st1.mem bp (c + ns) 0 (by omega) (Nat.zero_le 1) (by omega)
    (by omega) (by omega)).1
  clear t0 tp1 tp2 tn
  lift_lets at hc
  extract_lets size st1' m2 m3 at hc
  have e0 : size = c + ns := by
    show wadd 8 (GET_SIZE 8 st.mem (HDRP 8 bp))
      (GET_SIZE 8 st.mem (HDRP 8 (NEXT_BLKP 8 st.mem bp))) = _
    rw [r1, r2, r8, r9, r10, wadd8_of_lt (by omega)]
  have e1 : st1' = st1 := by
    rw [hst1]
    show efl_slice 8 st (NEXT_BLKP 8 st.mem bp) = _
    rw [r8]
  have e3 : m3 = m4 := by
    rw [hm4]
    show PUT 8 (PUT 8 st1'.mem (HDRP 8 bp) (PACK size 0))
      (FTRP 8 (PUT 8 st1'.mem (HDRP 8 bp) (PACK size 0)) bp) (PACK size 0) = _
    rw [e0, e1, r1, eF]
  rw [hc, e3, e1]

/-- Case 3 of `coalesce`, evaluated. -/
theorem coalesce_case3_eq {st : State} {bp c ps ns : Nat}
    (t0 : GET 8 st.mem (bp - 8) = PACK c 0) (c8 : c % 8 = 0)
    (tp1 : GET 8 st.mem (bp - 16) = PACK ps 0) (tp2 : GET 8 st.mem (bp - ps - 8) = PACK ps 0)
    (ps8 : ps % 8 = 0) (hps : 16 ≤ ps) (hpb : ps + 8 ≤ bp)
    (tn : GET 8 st.mem (bp + c - 8) = PACK ns 1) (ns8 : ns % 8 = 0)
    (hlt : bp + c + ns < 2 ^ 64) (c32 : 32 ≤ c)
    (st1 : State) (hst1 : st1 = efl_slice 8 st (bp - ps))
    (tp1' : GET 8 st1.mem (bp - 16) = PACK ps 0)
    (m4 : Mem) (hm4 : m4 = PUT 8 (PUT 8 st1.mem (bp - ps - 8) (PACK (c + ps) 0))
      (bp - ps + (c + ps) - 16) (PACK (c + ps) 0)) :
    coalesce 8 st bp = (efl_insert 8 { st1 with mem := m4 } (bp - ps), bp - ps) := by
  obtain ⟨r1, r2, r3, r4, r5, r6, r7, r8, r9, r10, r11⟩ :=
    coalesce_reads t0 c8 tp1 tp2 ps8 (Nat.zero_le 1) hps hpb tn ns8 (le_refl 1) hlt c32
  have hc := coalesce_case3_unfold st bp (by rw [r3, r6, r7]; decide)
    (by rw [r8, r9, r11]; decide)
  have eF := (retag_block st1.mem (bp - ps) (c + ps) 0 (by omega) (Nat.zero_le 1) (by omega)
    (by omega) (by omega)).1
  have eP : PREV_BLKP 8 st1.mem bp = bp - ps :=
    PREV_BLKP_eq tp1' ps8 (Nat.zero_le 1) (by omega) (by omega) (by omega)
  clear t0 tp1 tp2 tn tp1'
  lift_lets at hc
  extract_lets size st1' bp1 m2 m3 at hc
  have e0 : size = c + ps := by
    show wadd 8 (GET_SIZE 8 st.mem (HDRP 8 bp))
      (GET_SIZE 8 st.mem (HDRP 8 (PREV_BLKP 8 st.mem bp))) = _
    rw [r1, r2, r3, r4, r5, wadd8_of_lt (by omega)]
  have e1 : st1' = st1 := by
    rw [hst1]
    show efl_slice 8 st (PREV_BLKP 8 st.mem bp) = _
    rw [r3]
  have e2 : bp1 = bp - ps := by
    show PREV_BLKP 8 st1'.mem bp = _
    rw [e1, eP]
  have e3 : m3 = m4 := by
    rw [hm4]
    show PUT 8 (PUT 8 st1'.mem (HDRP 8 bp1) (PACK size 0))
      (FTRP 8 (PUT 8 st1'.mem (HDRP 8 bp1) (PACK size 0)) bp1) (PACK size 0) = _
    rw [e0, e1, e2, r4, eF]
  rw [hc, e3, e2, e1]

/-- Case 4 of `coalesce`, evaluated. -/
theorem coalesce_case4_eq {st : State} {bp c ps ns : Nat}
    (t0 : GET 8 st.mem (bp - 8) = PACK c 0) (c8 : c % 8 = 0)
    (tp1 : GET 8 st.mem (bp - 16) = PACK ps 0) (tp2 : GET 8 st.mem (bp - ps - 8) = PACK ps 0)
    (ps8 : ps % 8 = 0) (hps : 16 ≤ ps) (hpb : ps + 8 ≤ bp)
    (tn : GET 8 st.mem (bp + c - 8) = PACK ns 0) (ns8 : ns % 8 = 0)
    (tnf : GET 8 st.mem (bp + c + ns - 16) = PACK ns 0)
    (hlt : bp + c + ns < 2 ^ 64) (c32 : 32 ≤ c)
    (st1 : State) (hst1 : st1 = efl_slice 8 st (bp + c))
    (tp1' : GET 8 st1.mem (bp - 16) = PACK ps 0)
    (st2 : State) (hst2 : st2 = efl_slice 8 st1 (bp - ps))
    (s0 : GET 8 st2.mem (bp - 8) = PACK c 0) (sp : GET 8 st2.mem (bp - 16) = PACK ps 0)
    (sn : GET 8 st2.mem (bp + c - 8) = PACK ns 0)
    (m4 : Mem) (hm4 : m4 = PUT 8 (PUT 8 st2.mem (bp - ps - 8) (PACK (c + (ps + ns)) 0))
      (bp - ps + (c + (ps + ns)) - 16) (PACK (c + (ps + ns)) 0)) :
    coalesce 8 st bp = (efl_insert 8 { st2 with mem := m4 } (bp - ps), bp - ps) := by
  obtain ⟨r1, r2, r3, r4, r5, r6, r7, r8, r9, r10, r11⟩ :=
    coalesce_reads t0 c8 tp1 tp2 ps8 (Nat.zero_le 1) hps hpb tn ns8 (Nat.zero_le 1) hlt c32
  have hc := coalesce_case4_unfold st bp (by rw [r3, r6, r7]; decide)
    (by rw [r8, r9, r11]; decide)
  have rF : FTRP 8 st.mem (bp + c) = bp + c + ns - 16 := by
    have h := tn
    have e : bp + c - 8 = (bp + c) - 8 := rfl
    exact @FTRP_eq _ (bp + c) _ _ tn ns8 (Nat.zero_le 1) (by omega) (by omega) (by omega)
  have rFs : GET_SIZE 8 st.mem (bp + c + ns - 16) = ns := GET_SIZE_of_tag tnf ns8 (Nat.zero_le 1)
  have eP1 : PREV_BLKP 8 st1.mem bp = bp - ps :=
    PREV_BLKP_eq tp1' ps8 (Nat.zero_le 1) (by omega) (by omega) (by omega)
  have eP2 : PREV_BLKP 8 st2.mem bp = bp - ps :=
    PREV_BLKP_eq sp ps8 (Nat.zero_le 1) (by omega) (by omega) (by omega)
  obtain ⟨M3, hM3⟩ : ∃ M3, M3 = PUT 8 st2.mem (bp - ps - 8) (PACK (c + (ps + ns)) 0) := ⟨_, rfl⟩
  have q0 : GET 8 M3 (bp - 8) = PACK c 0 := by
    rw [hM3, GET_PUT_ne _ _ _ _ (by omega)]; exact s0
  have qn : GET 8 M3 (bp + c - 8) = PACK ns 0 := by
    rw [hM3, GET_PUT_ne _ _ _ _ (by omega)]; exact sn
  have eN3 : NEXT_BLKP 8 M3 bp = bp + c :=
    NEXT_BLKP_eq q0 c8 (Nat.zero_le 1) (by omega) (by omega)
  have eF3 : FTRP 8 M3 (bp + c) = bp - ps + (c + (ps + ns)) - 16 := by
    rw [@FTRP_eq _ (bp + c) _ _ qn ns8 (Nat.zero_le 1) (by omega) (by omega) (by omega)]
    omega
  have qp : GET 8 m4 (bp - 16) = PACK ps 0 := by
    rw [hm4, GET_PUT_ne _ _ _ _ (by omega), GET_PUT_ne _ _ _ _ (by omega)]; exact sp
  have eP4 : PREV_BLKP 8 m4 bp = bp - ps :=
    PREV_BLKP_eq qp ps8 (Nat.zero_le 1) (by omega) (by omega) (by omega)
  clear t0 tp1 tp2 tn tp1' tnf s0 sp sn q0 qn qp
  lift_lets at hc
  extract_lets size st1' st2' m3 m4' bp1 at hc
  have e0 : size = c + (ps + ns) := by
    show wadd 8 (GET_SIZE 8 st.mem (HDRP 8 bp))
      (wadd 8 (GET_SIZE 8 st.mem (HDRP 8 (PREV_BLKP 8 st.mem bp)))
        (GET_SIZE 8 st.mem (FTRP 8 st.mem (NEXT_BLKP 8 st.mem bp)))) = _
    rw [r1, r2, r3, r4, r5, r8, rF, rFs, wadd8_of_lt (a := ps) (by omega),
      wadd8_of_lt (by omega)]
  have e1 : st1' = st1 := by
    rw [hst1]
    show efl_slice 8 st (NEXT_BLKP 8 st.mem bp) = _
    rw [r8]
  have e2 : st2' = st2 := by
    rw [hst2]
    show efl_slice 8 st1' (PREV_BLKP 8 st1'.mem bp) = _
    rw [e1, eP1]
  have e3 : m3 = M3 := by
    rw [hM3]
    show PUT 8 st2'.mem (HDRP 8 (PREV_BLKP 8 st2'.mem bp)) (PACK size 0) = _
    rw [e2, eP2, r4, e0]
  have e4 : m4' = m4 := by
    show PUT 8 m3 (FTRP 8 m3 (NEXT_BLKP 8 m3 bp)) (PACK size 0) = _
    rw [e3, eN3, eF3, e0, hm4, hM3]
  have e5 : bp1 = bp - ps := by
    show PREV_BLKP 8 m4' bp = _
    rw [e4, eP4]
  rw [hc, e5, e4, e2]

/-! ## List facts for coalescing -/

theorem filter_ne_middle {l1 l2 : List Nat} {b : Nat} (h : (l1 ++ b :: l2).Nodup) :
    (l1 ++ b :: l2).filter (fun x => decide (x ≠ b)) = l1 ++ l2 := by
  have h' := (List.perm_middle.nodup_iff).mp h
  obtain ⟨hb, _⟩ := List.nodup_cons.mp h'
  have h1 : ∀ x ∈ l1, decide (x ≠ b) = true := fun x hx => by
    simp only [decide_eq_true_eq]
    rintro rfl
    exact hb (List.mem_append_left _ hx)
  have h2 : ∀ x ∈ l2, decide (x ≠ b) = true := fun x hx => by
    simp only [decide_eq_true_eq]
    rintro rfl
    exact hb (List.mem_append_right _ hx)
  rw [List.filter_append, List.filter_cons_of_neg (by simp), List.filter_eq_self.mpr h1,
    List.filter_eq_self.mpr h2]

theorem perm_filter_ne {l A B : List Nat} {b : Nat} (h : l.Perm (A ++ b :: B)) (hnd : l.Nodup) :
    (l.filter (fun x => decide (x ≠ b))).Perm (A ++ B) := by
  have h1 := h.filter (fun x => decide (x ≠ b))
  rw [filter_ne_middle (h.nodup_iff.mp hnd)] at h1
  exact h1

/-- Slicing a node out of the free list: the chain loses the node, and memory
changes only in link words of the remaining nodes. -/
theorem slice_node {st : State} {K : List Nat} {b : Nat}
    (hc : FreeChain 8 st.mem NULL st.ef_listp K) (hnd : K.Nodup)
    (hsep : ∀ x ∈ K, ∀ y ∈ K, x ≠ y → x + 16 ≤ y ∨ y + 16 ≤ x)
    (hlt : ∀ x ∈ K, x + 16 < 2 ^ 64) (hb : b ∈ K) :
    FreeChain 8 (efl_slice 8 st b).mem NULL (efl_slice 8 st b).ef_listp
        (K.filter (fun x => decide (x ≠ b))) ∧
      Frame (LinkByte 8 K) st.mem (efl_slice 8 st b).mem := by
  obtain ⟨l1, l2, rfl⟩ := List.append_of_mem hb
  obtain ⟨h1, h2⟩ := efl_slice_chain hc hnd hsep hlt
  rw [filter_ne_middle hnd]
  refine ⟨h1, h2.mono ?_⟩
  rintro a ⟨y, hy, hy1, hy2⟩
  exact ⟨y, (nodup_remove_middle hnd).2.2 y hy, hy1, hy2⟩

theorem NoAdjFree_append {l1 l2 : List (Nat × Nat)} (h1 : NoAdjFree l1) (h2 : NoAdjFree l2)
    (h : ∀ a b, l1.getLast? = some a → l2.head? = some b → ¬ (a.2 = 0 ∧ b.2 = 0)) :
    NoAdjFree (l1 ++ l2) := by
  induction l1 with
  | nil => exact h2
  | cons x l ih =>
    cases l with
    | nil =>
      cases l2 with
      | nil => trivial
      | cons y l2 => exact ⟨h x y rfl rfl, h2⟩
    | cons z l =>
      refine ⟨h1.1, ih h1.2 (fun a b ha hb => h a b ?_ hb)⟩
      rw [List.getLast?_cons_cons]; exact ha

theorem NoAdjFree_left {l1 l2 : List (Nat × Nat)} (h : NoAdjFree (l1 ++ l2)) : NoAdjFree l1 := by
  induction l1 with
  | nil => trivial
  | cons x l ih =>
    cases l with
    | nil => trivial
    | cons z l => exact ⟨h.1, ih h.2⟩

theorem NoAdjFree_right {l1 l2 : List (Nat × Nat)} (h : NoAdjFree (l1 ++ l2)) :
    NoAdjFree l2 := by
  induction l1 with
  | nil => exact h
  | cons x l ih => exact ih (NoAdjFree_tail h)

theorem NoAdjFree_junction {l1 l2 : List (Nat × Nat)} {a b : Nat × Nat}
    (h : NoAdjFree (l1 ++ a :: b :: l2)) : ¬ (a.2 = 0 ∧ b.2 = 0) :=
  (NoAdjFree_right h).1

/-- Link-word writes leave the boundary tags of every block as they were. -/
theorem frame_link_tags {m m' : Mem} {a0 e : Nat} {bs : List (Nat × Nat)} {K : List Nat}
    (ht : Tiles 8 m a0 bs e) (hsub : ∀ x ∈ K, x ∈ freeBlocks 8 a0 bs)
    (hf : Frame (LinkByte 8 K) m m') {x s al : Nat} (hb : (x, s, al) ∈ blocksFrom 8 a0 bs) :
    GET 8 m' (x - 8) = GET 8 m (x - 8) ∧ GET 8 m' (x + s - 16) = GET 8 m (x + s - 16) := by
  obtain ⟨_, _, s32, _, _, hge, _, _⟩ := Tiles_block ht hb
  constructor
  · refine hf.GET _ (fun a h1 h2 hl => (linkByte_clear ht hsub hl).2.1 ?_)
    exact ⟨_, hb, Or.inl ⟨h1, by simp only; omega⟩⟩
  · refine hf.GET _ (fun a h1 h2 hl => (linkByte_clear ht hsub hl).2.1 ?_)
    exact ⟨_, hb, Or.inr ⟨by simp only; omega, by simp only; omega⟩⟩

/-- Last step of `coalesce`: after the free neighbours have been sliced out
of the list, the merged block `ret` of `T` bytes, covering the blocks `M`, gets
its tags and goes to the head of the list; the heap is then well formed. -/
theorem coalesce_finish {st stk stF : State} {pre post : List (Nat × Nat)} {c : Nat}
    {fl L : List Nat} {P M Q : List (Nat × Nat)} {ret T : Nat} {m4 : Mem}
    (F : FreedLayout 8 st pre c post fl)
    (hbs : pre ++ (c, 0) :: post = P ++ (M ++ Q))
    (hret : ret = st.heap_listp + 8 + (P.map Prod.fst).sum + 8)
    (hT : T = (M.map Prod.fst).sum) (T32 : 32 ≤ T)
    (hLfl : ∀ x ∈ L, x ∈ fl) (hLnd : L.Nodup)
    (hLperm : L.Perm (freeBlocks 8 (st.heap_listp + 8) P ++
      freeBlocks 8 (st.heap_listp + 8 + (P.map Prod.fst).sum + T) Q))
    (hchain : FreeChain 8 stk.mem NULL stk.ef_listp L)
    (hframe : Frame (LinkByte 8 fl) st.mem stk.mem) (haux : SameAux st stk)
    (hm4 : m4 = PUT 8 (PUT 8 stk.mem (ret - 8) (PACK T 0)) (ret + T - 16) (PACK T 0))
    (hstF : stF = efl_insert 8 { stk with mem := m4 } ret)
    (hadj : NoAdjFree (P ++ ([(T, 0)] ++ Q))) :
    HeapLayout 8 stF (P ++ ([(T, 0)] ++ Q)) (ret :: L) ∧ SameAux st stF := by
  obtain ⟨_, hsub, hsep, hlt, _⟩ := F.list_nodes
  have hmax := F.limit_lt
  have hbrk := F.brk_le
  have hbase := F.base
  have hT0 := F.tiles
  rw [hbs] at hT0
  obtain ⟨c1, hP, hrest⟩ := Tiles_append.mp hT0
  obtain ⟨c2, hM, hQ⟩ := Tiles_append.mp hrest
  have e1 := Tiles_end hP
  have e2 := Tiles_end hM
  have hle := Tiles_le hQ
  have hmod := Tiles_mod hM
  have hPb := (nodes_separated hP (fun x hx => hx)).2
  have hout : ∀ x ∈ L, x + 16 ≤ ret - 8 ∨ ret + T - 8 ≤ x := by
    intro x hx
    rcases List.mem_append.mp (hLperm.mem_iff.mp hx) with h1 | h1
    · have := hPb x h1
      omega
    · have := freeBlocks_ge hQ (by rw [e2, e1, ← hT]; exact h1)
      omega
  obtain ⟨g1, g2, g3, _, g5⟩ := make_free_insert hchain hLnd
    (fun x hx y hy => hsep x (hLfl x hx) y (hLfl y hy)) (fun x hx => hlt x (hLfl x hx)) hout
    (by omega) T32 (by omega) (by omega) m4 hm4 stF hstF
  have hfr : Frame (fun a => (st.heap_listp + 8 + (P.map Prod.fst).sum ≤ a ∧
      a < st.heap_listp + 8 + (P.map Prod.fst).sum + (M.map Prod.fst).sum) ∨
      LinkByte 8 fl a) st.mem stF.mem := by
    refine (hframe.mono (fun a ha => Or.inr ha)).trans (g2.mono (fun a ha => ?_))
    rcases ha with ha | ⟨y, hy, hy1, hy2⟩
    · left; omega
    · right; exact ⟨y, hLfl y hy, hy1, hy2⟩
  have hmid : Tiles 8 stF.mem (st.heap_listp + 8 + (P.map Prod.fst).sum) [(T, 0)]
      (st.heap_listp + 8 + (P.map Prod.fst).sum + (M.map Prod.fst).sum) := by
    have ea : ret - 8 = st.heap_listp + 8 + (P.map Prod.fst).sum := by omega
    rw [ea] at g3
    rw [← hT]
    exact g3
  have haux' := haux.chain g5
  refine ⟨F.replace_mid hbs (fun x hx => hx) haux'.heap_listp haux'.mem_brk haux'.mem_max_addr
    hfr hmid g1 ?_ hadj, haux'⟩
  rw [List.singleton_append, freeBlocks_mid_free, ← hret]
  exact (List.Perm.cons ret hLperm).trans List.perm_middle.symm

theorem last_alloc_of_free_next {P R : List (Nat × Nat)} {p : Nat}
    (h : NoAdjFree (P ++ (p, 0) :: R)) : ∀ b, P.getLast? = some b → b.2 ≠ 0 := by
  intro b hb h0
  rcases List.eq_nil_or_concat P with hnil | ⟨P', x, hcat⟩
  · subst hnil; cases hb
  · rw [List.concat_eq_append] at hcat
    subst hcat
    rw [List.getLast?_append_of_ne_nil _ (List.cons_ne_nil _ _), List.getLast?_singleton] at hb
    cases hb
    rw [List.append_assoc] at h
    exact NoAdjFree_junction h ⟨h0, rfl⟩

theorem head_alloc_of_free_prev {R Q : List (Nat × Nat)} {n : Nat}
    (h : NoAdjFree (R ++ (n, 0) :: Q)) : ∀ b, Q.head? = some b → b.2 ≠ 0 := by
  intro b hb h0
  cases Q with
  | nil => cases hb
  | cons y Q =>
    cases hb
    exact NoAdjFree_junction h ⟨rfl, h0⟩

theorem NoAdjFree_insert_free {P Q : List (Nat × Nat)} (T : Nat) (hP : NoAdjFree P)
    (hQ : NoAdjFree Q) (hPl : ∀ b, P.getLast? = some b → b.2 ≠ 0)
    (hQh : ∀ b, Q.head? = some b → b.2 ≠ 0) : NoAdjFree (P ++ ([(T, 0)] ++ Q)) := by
  refine NoAdjFree_append hP ?_ (fun a b ha hb hh => hPl a ha hh.1)
  cases Q with
  | nil => trivial
  | cons y Q => exact ⟨fun hh => hQh y rfl hh.2, hQ⟩

theorem getLast?_concat_alloc {pre' : List (Nat × Nat)} {s : Nat} :
    ∀ b, (pre' ++ [(s, 1)]).getLast? = some b → b.2 ≠ 0 := by
  intro b hb
  rw [List.getLast?_append_of_ne_nil _ (List.cons_ne_nil _ _), List.getLast?_singleton] at hb
  cases hb
  exact Nat.one_ne_zero

/-- The two neighbours of the block under coalescing: each is either
allocated (or a sentinel), or a free block of the heap. -/
theorem FreedLayout.neighbours {st : State} {pre post : List (Nat × Nat)} {c : Nat}
    {fl : List Nat} (h : FreedLayout 8 st pre c post fl) {bp : Nat}
    (hbp : bp = st.heap_listp + 8 + (pre.map Prod.fst).sum + 8) :
    (GET 8 st.mem (bp - 8) = PACK c 0 ∧ 32 ≤ c ∧ c % 8 = 0 ∧ bp + c ≤ st.mem_brk) ∧
    (∃ ps pal, GET 8 st.mem (bp - 16) = PACK ps pal ∧
      GET 8 st.mem (bp - ps - 8) = PACK ps pal ∧ ps % 8 = 0 ∧ 16 ≤ ps ∧
      st.heap_listp + ps ≤ bp ∧
      ((pal = 1 ∧ prev_free_size pre = 0 ∧ ∀ b, pre.getLast? = some b → b.2 ≠ 0) ∨
        (pal = 0 ∧ 32 ≤ ps ∧ prev_free_size pre = ps ∧ ∃ pre', pre = pre' ++ [(ps, 0)]))) ∧
    (∃ ns nal, GET 8 st.mem (bp + c - 8) = PACK ns nal ∧ ns % 8 = 0 ∧
      bp + c + ns ≤ st.mem_brk ∧
      ((nal = 1 ∧ next_free_size post = 0 ∧ ∀ b, post.head? = some b → b.2 ≠ 0) ∨
        (nal = 0 ∧ 32 ≤ ns ∧ next_free_size post = ns ∧
          GET 8 st.mem (bp + c + ns - 16) = PACK ns 0 ∧ ∃ post', post = (ns, 0) :: post'))) := by
  obtain ⟨t0, ⟨ps, pal, tp1, tp2, ps8, hpal, hps, hpb, hprev⟩,
    ⟨ns, nal, tn, ns8, hnal, hnb, hnext⟩⟩ := h.tags hbp
  refine ⟨t0, ⟨ps, pal, tp1, tp2, ps8, hps, hpb, ?_⟩, ⟨ns, nal, tn, ns8, hnb, ?_⟩⟩
  · rcases hprev with ⟨rfl, rfl⟩ | ⟨pre', rfl, h32⟩
    · exact Or.inl ⟨rfl, rfl, fun b hb => by cases hb⟩
    · have hc : pal = 0 ∨ pal = 1 := by omega
      rcases hc with rfl | rfl
      · exact Or.inr ⟨rfl, h32, by rw [prev_free_size_concat, if_pos rfl], pre', rfl⟩
      · exact Or.inl ⟨rfl, by rw [prev_free_size_concat, if_neg Nat.one_ne_zero],
          getLast?_concat_alloc⟩
  · rcases hnext with ⟨rfl, rfl⟩ | ⟨post', rfl, h32, tnf⟩
    · exact Or.inl ⟨rfl, rfl, fun b hb => by cases hb⟩
    · have hc : nal = 0 ∨ nal = 1 := by omega
      rcases hc with rfl | rfl
      · exact Or.inr ⟨rfl, h32, by rw [next_free_size_cons, if_pos rfl], tnf, post', rfl⟩
      · refine Or.inl ⟨rfl, by rw [next_free_size_cons, if_neg Nat.one_ne_zero], fun b hb => ?_⟩
        cases hb
        exact Nat.one_ne_zero

/-- An allocated neighbour after the block is not a node of the free list,
and neither is the block itself. -/
theorem FreedLayout.not_mem {st : State} {pre post : List (Nat × Nat)} {c : Nat}
    {fl : List Nat} (h : FreedLayout 8 st pre c post fl) {bp : Nat}
    (hbp : bp = st.heap_listp + 8 + (pre.map Prod.fst).sum + 8) :
    bp ∉ fl ∧ ∀ ns, GET 8 st.mem (bp + c - 8) = PACK ns 1 → ns % 8 = 0 → bp + c ∉ fl := by
  obtain ⟨_, hsub, _, _, hout⟩ := h.list_nodes
  have c32 := (Tiles_block h.tiles h.block).2.2.1
  refine ⟨fun hin => ?_, fun ns tn ns8 hin => ?_⟩
  · have := hout bp hin
    omega
  · obtain ⟨s, hs⟩ := mem_freeBlocks.mp (hsub _ hin)
    obtain ⟨g1, _, _, s8, _⟩ := Tiles_block h.tiles hs
    have a1 := GET_ALLOC_of_tag g1 s8 (Nat.zero_le 1)
    have a2 := GET_ALLOC_of_tag tn ns8 (le_refl 1)
    rw [a1] at a2
    exact Nat.zero_ne_one a2

theorem linkByte_cons {n a : Nat} {L : List Nat} (h : LinkByte 8 (n :: L) a) :
    (n ≤ a ∧ a < n + 16) ∨ LinkByte 8 L a := by
  obtain ⟨y, hy, h1, h2⟩ := h
  rcases List.mem_cons.mp hy with rfl | hy
  · left; omega
  · right; exact ⟨y, hy, h1, h2⟩

/-- Case 1 of `coalesce` on a heap before coalescing. -/
theorem coalesce_case1_layout {st : State} {pre post : List (Nat × Nat)} {c : Nat}
    {fl : List Nat} {bp : Nat} (F : FreedLayout 8 st pre c post fl)
    (hbp : bp = st.heap_listp + 8 + (pre.map Prod.fst).sum + 8)
    (hPl : ∀ b, pre.getLast? = some b → b.2 ≠ 0) (hQh : ∀ b, post.head? = some b → b.2 ≠ 0) :
    HeapLayout 8 (efl_insert 8 st bp) (pre ++ ([(c, 0)] ++ post)) (bp :: fl) ∧
      SameAux st (efl_insert 8 st bp) := by
  obtain ⟨hnd, hsub, hsep, hlt, hout⟩ := F.list_nodes
  have ⟨c32, c8, hcb⟩ := (F.tags hbp).1.2
  have e1 := Tiles_end (Tiles_append.mp F.tiles).choose_spec.1
  have hmax := F.limit_lt
  have hbrk := F.brk_le
  have hbase := F.base
  obtain ⟨hchain, F5⟩ := @efl_insert_chain st _ bp F.chain hnd hsep hlt
    (by unfold NULL; omega) (by omega) (fun y hy => by have := hout y hy; omega)
  have hL5 : ∀ a, LinkByte 8 (bp :: fl) a → (bp ≤ a ∧ a < bp + 16) ∨ LinkByte 8 fl a :=
    fun a ha => linkByte_cons ha
  have hLout : ∀ a, LinkByte 8 fl a → ¬ (bp - 8 ≤ a ∧ a < bp + c - 8) := by
    rintro a ⟨y, hy, h1, h2⟩ hcon
    have := hout y hy
    omega
  have hfr : Frame (fun a => (st.heap_listp + 8 + (pre.map Prod.fst).sum ≤ a ∧
      a < st.heap_listp + 8 + (pre.map Prod.fst).sum + ([(c, 0)].map Prod.fst).sum) ∨
      LinkByte 8 fl a) st.mem (efl_insert 8 st bp).mem := by
    refine F5.mono (fun a ha => ?_)
    rcases hL5 a ha with hh | hh
    · left; simp; omega
    · right; exact hh
  have k1 : GET 8 (efl_insert 8 st bp).mem (bp - 8) = GET 8 st.mem (bp - 8) :=
    F5.GET _ (fun a h1 h2 hl => by
      rcases hL5 a hl with hh | hh
      · omega
      · exact hLout a hh (by omega))
  have k2 : GET 8 (efl_insert 8 st bp).mem (bp + c - 16) = GET 8 st.mem (bp + c - 16) :=
    F5.GET _ (fun a h1 h2 hl => by
      rcases hL5 a hl with hh | hh
      · omega
      · exact hLout a hh (by omega))
  have ea : st.heap_listp + 8 + (pre.map Prod.fst).sum = bp - 8 := by omega
  have eb : bp - 8 + c - 8 = bp + c - 16 := by omega
  have hmid : Tiles 8 (efl_insert 8 st bp).mem (st.heap_listp + 8 + (pre.map Prod.fst).sum)
      [(c, 0)] (st.heap_listp + 8 + (pre.map Prod.fst).sum + ([(c, 0)].map Prod.fst).sum) := by
    obtain ⟨t0, -⟩ := (F.tags hbp).1
    have t1 := (Tiles_block F.tiles F.block).2.1
    rw [← hbp] at t1
    rw [ea]
    refine ⟨?_, ?_, c32, c8, Nat.zero_le 1, by simp [Tiles]⟩
    · rw [k1]; exact t0
    · show GET 8 _ (bp - 8 + c - 8) = _
      rw [eb, k2]; exact t1
  have haux := efl_insert_aux 8 st bp
  refine ⟨F.replace_mid (P := pre) (M := [(c, 0)]) (Q := post) (by simp) (fun x hx => hx)
    haux.heap_listp haux.mem_brk haux.mem_max_addr hfr hmid hchain ?_ ?_, haux⟩
  · rw [List.singleton_append, freeBlocks_mid_free, ← hbp]
    have hp := F.perm
    rw [freeBlocks_mid_alloc] at hp
    exact (List.Perm.cons bp hp).trans List.perm_middle.symm
  · exact NoAdjFree_insert_free c (NoAdjFree_left F.no_adj)
      (NoAdjFree_tail (NoAdjFree_right F.no_adj)) hPl hQh

theorem sum_concat (pre' : List (Nat × Nat)) (b : Nat × Nat) :
    ((pre' ++ [b]).map Prod.fst).sum = (pre'.map Prod.fst).sum + b.1 := by
  simp

/-- Case 2 of `coalesce` on a heap before coalescing: the next block is free. -/
theorem coalesce_case2_layout {st : State} {pre post' : List (Nat × Nat)} {c ps ns : Nat}
    {fl : List Nat} {bp : Nat} (F : FreedLayout 8 st pre c ((ns, 0) :: post') fl)
    (hbp : bp = st.heap_listp + 8 + (pre.map Prod.fst).sum + 8)
    (t0 : GET 8 st.mem (bp - 8) = PACK c 0)
    (tp1 : GET 8 st.mem (bp - 16) = PACK ps 1) (tp2 : GET 8 st.mem (bp - ps - 8) = PACK ps 1)
    (ps8 : ps % 8 = 0) (hps : 16 ≤ ps) (hpb : st.heap_listp + ps ≤ bp)
    (tn : GET 8 st.mem (bp + c - 8) = PACK ns 0) (ns8 : ns % 8 = 0)
    (hnb : bp + c + ns ≤ st.mem_brk)
    (hPl : ∀ b, pre.getLast? = some b → b.2 ≠ 0) :
    (coalesce 8 st bp).2 = bp ∧
    HeapLayout 8 (coalesce 8 st bp).1 (pre ++ ([(c + ns, 0)] ++ post'))
      (bp :: fl.filter (fun x => decide (x ≠ bp + c))) ∧
    SameAux st (coalesce 8 st bp).1 := by
  have hmax := F.limit_lt
  have hbrk := F.brk_le
  have hbase := F.base
  have ⟨c32, c8, hcb⟩ := (F.tags hbp).1.2
  have heq := coalesce_case2_eq t0 c8 tp1 tp2 ps8 hps (by omega) tn ns8 (by omega) c32 _ rfl _ rfl
  clear t0 tp1 tp2 tn
  obtain ⟨hnd, hsub, hsep, hlt, hout⟩ := F.list_nodes
  have hperm := F.perm
  rw [freeBlocks_mid_alloc, freeBlocks_cons_free] at hperm
  have eN : st.heap_listp + 8 + (pre.map Prod.fst).sum + c + 8 = bp + c := by omega
  rw [eN] at hperm
  have hN : bp + c ∈ fl := hperm.mem_iff.mpr (List.mem_append_right _ (List.mem_cons_self _ _))
  obtain ⟨hc1, hf1⟩ := slice_node F.chain hnd hsep hlt hN
  have hfin := coalesce_finish (P := pre) (M := [(c, 0), (ns, 0)]) (Q := post') (T := c + ns)
    F (by simp) hbp (by simp) (by omega) (fun x hx => List.mem_of_mem_filter hx)
    (hnd.filter _) (by
      have := perm_filter_ne hperm hnd
      have e : st.heap_listp + 8 + (pre.map Prod.fst).sum + (c + ns)
        = st.heap_listp + 8 + (pre.map Prod.fst).sum + c + ns := by omega
      rw [e]; exact this)
    hc1 hf1 (efl_slice_aux 8 st (bp + c)) rfl rfl
    (NoAdjFree_insert_free _ (NoAdjFree_left F.no_adj)
      (NoAdjFree_tail (NoAdjFree_tail (NoAdjFree_right F.no_adj))) hPl
      (head_alloc_of_free_prev (R := pre ++ [(c, 1)]) (by
        have := F.no_adj
        rw [List.append_assoc]; exact this)))
  rw [heq]
  exact ⟨rfl, hfin.1, hfin.2⟩

theorem freeBlocks_nil (a : Nat) : freeBlocks 8 a [] = [] := rfl

/-- Case 3 of `coalesce` on a heap before coalescing: the previous block is
free. -/
theorem coalesce_case3_layout {st : State} {pre' post : List (Nat × Nat)} {c ps ns : Nat}
    {fl : List Nat} {bp : Nat} (F : FreedLayout 8 st (pre' ++ [(ps, 0)]) c post fl)
    (hbp : bp = st.heap_listp + 8 + ((pre' ++ [(ps, 0)]).map Prod.fst).sum + 8)
    (t0 : GET 8 st.mem (bp - 8) = PACK c 0)
    (tp1 : GET 8 st.mem (bp - 16) = PACK ps 0) (tp2 : GET 8 st.mem (bp - ps - 8) = PACK ps 0)
    (ps8 : ps % 8 = 0) (hps : 32 ≤ ps)
    (tn : GET 8 st.mem (bp + c - 8) = PACK ns 1) (ns8 : ns % 8 = 0)
    (hnb : bp + c + ns ≤ st.mem_brk)
    (hQh : ∀ b, post.head? = some b → b.2 ≠ 0) :
    (coalesce 8 st bp).2 = bp - ps ∧
    HeapLayout 8 (coalesce 8 st bp).1 (pre' ++ ([(c + ps, 0)] ++ post))
      ((bp - ps) :: fl.filter (fun x => decide (x ≠ bp - ps))) ∧
    SameAux st (coalesce 8 st bp).1 := by
  have hmax := F.limit_lt
  have hbrk := F.brk_le
  have hbase := F.base
  have ⟨c32, c8, hcb⟩ := (F.tags hbp).1.2
  rw [sum_concat] at hbp
  simp only at hbp
  obtain ⟨hnd, hsub, hsep, hlt, hout⟩ := F.list_nodes
  have hperm := F.perm
  rw [freeBlocks_mid_alloc, freeBlocks_append, freeBlocks_cons_free, List.append_assoc,
    freeBlocks_nil, List.singleton_append] at hperm
  have eP : st.heap_listp + 8 + (pre'.map Prod.fst).sum + 8 = bp - ps := by omega
  rw [eP] at hperm
  have hPv : bp - ps ∈ fl :=
    hperm.mem_iff.mpr (List.mem_append_right _ (List.mem_cons_self _ _))
  obtain ⟨hc1, hf1⟩ := slice_node F.chain hnd hsep hlt hPv
  have hblk : (bp - ps, ps, 0) ∈ blocksFrom 8 (st.heap_listp + 8)
      ((pre' ++ [(ps, 0)]) ++ (c, 0) :: post) := by
    rw [List.append_assoc, ← eP]
    exact mem_blocksFrom_mid _ _ _ _ _
  have tp1' : GET 8 (efl_slice 8 st (bp - ps)).mem (bp - 16) = PACK ps 0 := by
    have := (frame_link_tags F.tiles hsub hf1 hblk).2
    have e : bp - ps + ps - 16 = bp - 16 := by omega
    rw [e] at this
    rw [this]; exact tp1
  have heq := coalesce_case3_eq t0 c8 tp1 tp2 ps8 (by omega) (by omega) tn ns8 (by omega) c32
    _ rfl tp1' _ rfl
  clear t0 tp1 tp2 tn tp1'
  have hfin := @coalesce_finish _ _ _ _ _ _ _ _ pre' [(ps, 0), (c, 0)] post (bp - ps) (c + ps) _ F (by simp) eP.symm (by simp; omega) (by omega)
    (fun x hx => List.mem_of_mem_filter hx) (hnd.filter _) (by
      have := perm_filter_ne hperm hnd
      have e : st.heap_listp + 8 + (pre'.map Prod.fst).sum + (c + ps)
        = st.heap_listp + 8 + ((pre' ++ [(ps, 0)]).map Prod.fst).sum + c := by
        rw [sum_concat]; simp only; omega
      rw [e]; exact this)
    hc1 hf1 (efl_slice_aux 8 st (bp - ps)) rfl rfl
    (NoAdjFree_insert_free _ (NoAdjFree_left (NoAdjFree_left F.no_adj))
      (NoAdjFree_tail (NoAdjFree_right F.no_adj))
      (last_alloc_of_free_next (R := (c, 1) :: post) (by
        have := F.no_adj
        rw [List.append_assoc] at this; exact this)) hQh)
  rw [heq]
  exact ⟨rfl, hfin.1, hfin.2⟩

/-- Case 4 of `coalesce` on a heap before coalescing: both neighbours are
free. -/
theorem coalesce_case4_layout {st : State} {pre' post' : List (Nat × Nat)} {c ps ns : Nat}
    {fl : List Nat} {bp : Nat}
    (F : FreedLayout 8 st (pre' ++ [(ps, 0)]) c ((ns, 0) :: post') fl)
    (hbp : bp = st.heap_listp + 8 + ((pre' ++ [(ps, 0)]).map Prod.fst).sum + 8)
    (t0 : GET 8 st.mem (bp - 8) = PACK c 0)
    (tp1 : GET 8 st.mem (bp - 16) = PACK ps 0) (tp2 : GET 8 st.mem (bp - ps - 8) = PACK ps 0)
    (ps8 : ps % 8 = 0) (hps : 32 ≤ ps)
    (tn : GET 8 st.mem (bp + c - 8) = PACK ns 0) (ns8 : ns % 8 = 0) (hns : 32 ≤ ns)
    (tnf : GET 8 st.mem (bp + c + ns - 16) = PACK ns 0)
    (hnb : bp + c + ns ≤ st.mem_brk) :
    (coalesce 8 st bp).2 = bp - ps ∧
    HeapLayout 8 (coalesce 8 st bp).1 (pre' ++ ([(c + (ps + ns), 0)] ++ post'))
      ((bp - ps) :: (fl.filter (fun x => decide (x ≠ bp + c))).filter
        (fun x => decide (x ≠ bp - ps))) ∧
    SameAux st (coalesce 8 st bp).1 := by
  have hmax := F.limit_lt
  have hbrk := F.brk_le
  have hbase := F.base
  have ⟨c32, c8, hcb⟩ := (F.tags hbp).1.2
  have hblk0 := F.block
  rw [← hbp] at hblk0
  rw [sum_concat] at hbp
  simp only at hbp
  obtain ⟨hnd, hsub, hsep, hlt, hout⟩ := F.list_nodes
  have hperm := F.perm
  rw [freeBlocks_mid_alloc, freeBlocks_append, freeBlocks_cons_free, freeBlocks_nil,
    freeBlocks_cons_free] at hperm
  have eP : st.heap_listp + 8 + (pre'.map Prod.fst).sum + 8 = bp - ps := by omega
  have eN : st.heap_listp + 8 + ((pre' ++ [(ps, 0)]).map Prod.fst).sum + c + 8 = bp + c := by
    rw [sum_concat]; simp only; omega
  rw [eP, eN] at hperm
  have hN : bp + c ∈ fl := hperm.mem_iff.mpr (List.mem_append_right _ (List.mem_cons_self _ _))
  have hPv : bp - ps ∈ fl := hperm.mem_iff.mpr
    (List.mem_append_left _ (List.mem_append_right _ (List.mem_cons_self _ _)))
  obtain ⟨hc1, hf1⟩ := slice_node F.chain hnd hsep hlt hN
  have hK1 : ∀ x ∈ fl.filter (fun x => decide (x ≠ bp + c)), x ∈ fl :=
    fun x hx => List.mem_of_mem_filter hx
  have hPv1 : bp - ps ∈ fl.filter (fun x => decide (x ≠ bp + c)) :=
    List.mem_filter.mpr ⟨hPv, by simp only [decide_eq_true_eq]; omega⟩
  obtain ⟨hc2, hf2⟩ := @slice_node (efl_slice 8 st (bp + c)) _ _ hc1 (hnd.filter _)
    (fun x hx y hy => hsep x (hK1 x hx) y (hK1 y hy)) (fun x hx => hlt x (hK1 x hx)) hPv1
  have hf12 : Frame (LinkByte 8 fl) st.mem
      (efl_slice 8 (efl_slice 8 st (bp + c)) (bp - ps)).mem := by
    refine hf1.trans (hf2.mono ?_)
    rintro a ⟨y, hy, h1, h2⟩
    exact ⟨y, hK1 y hy, h1, h2⟩
  have hblkP : (bp - ps, ps, 0) ∈ blocksFrom 8 (st.heap_listp + 8)
      ((pre' ++ [(ps, 0)]) ++ (c, 0) :: (ns, 0) :: post') := by
    rw [List.append_assoc, ← eP]
    exact mem_blocksFrom_mid _ _ _ _ _
  have hblkN : (bp + c, ns, 0) ∈ blocksFrom 8 (st.heap_listp + 8)
      ((pre' ++ [(ps, 0)]) ++ (c, 0) :: (ns, 0) :: post') := by
    have := mem_blocksFrom_mid (st.heap_listp + 8) ((pre' ++ [(ps, 0)]) ++ [(c, 0)]) post' ns 0
    rw [sum_concat, sum_concat] at this
    simp only [List.append_assoc, List.singleton_append] at this
    have e : st.heap_listp + 8 + ((pre'.map Prod.fst).sum + ps + c) + 8 = bp + c := by omega
    rw [e] at this
    simpa using this
  have e16 : bp - ps + ps - 16 = bp - 16 := by omega
  have e8 : bp + c - 8 = bp + c - 8 := rfl
  have tp1' : GET 8 (efl_slice 8 st (bp + c)).mem (bp - 16) = PACK ps 0 := by
    have := (frame_link_tags F.tiles hsub hf1 hblkP).2
    rw [e16] at this
    rw [this]; exact tp1
  have s0 : GET 8 (efl_slice 8 (efl_slice 8 st (bp + c)) (bp - ps)).mem (bp - 8) = PACK c 0 := by
    rw [(frame_link_tags F.tiles hsub hf12 hblk0).1]; exact t0
  have sp : GET 8 (efl_slice 8 (efl_slice 8 st (bp + c)) (bp - ps)).mem (bp - 16)
      = PACK ps 0 := by
    have := (frame_link_tags F.tiles hsub hf12 hblkP).2
    rw [e16] at this
    rw [this]; exact tp1
  have sn : GET 8 (efl_slice 8 (efl_slice 8 st (bp + c)) (bp - ps)).mem (bp + c - 8)
      = PACK ns 0 := by
    rw [(frame_link_tags F.tiles hsub hf12 hblkN).1]; exact tn
  have heq := coalesce_case4_eq t0 c8 tp1 tp2 ps8 (by omega) (by omega) tn ns8 tnf (by omega)
    c32 _ rfl tp1' _ rfl s0 sp sn _ rfl
  clear t0 tp1 tp2 tn tp1' tnf s0 sp sn
  have hfin := @coalesce_finish _ _ _ _ _ _ _ _ pre' [(ps, 0), (c, 0), (ns, 0)] post' (bp - ps)
    (c + (ps + ns)) _ F (by simp) eP.symm (by simp; omega) (by omega)
    (fun x hx => hK1 x (List.mem_of_mem_filter hx)) ((hnd.filter _).filter _) (by
      have h1 := perm_filter_ne hperm hnd
      rw [List.append_assoc, List.singleton_append] at h1
      have h2 := perm_filter_ne h1 (hnd.filter _)
      have e : st.heap_listp + 8 + (pre'.map Prod.fst).sum + (c + (ps + ns))
        = st.heap_listp + 8 + ((pre' ++ [(ps, 0)]).map Prod.fst).sum + c + ns := by
        rw [sum_concat]; simp only; omega
      rw [e]; exact h2)
    hc2 hf12 ((efl_slice_aux 8 st (bp + c)).chain (efl_slice_aux 8 _ (bp - ps))) rfl rfl
    (NoAdjFree_insert_free _ (NoAdjFree_left (NoAdjFree_left F.no_adj))
      (NoAdjFree_tail (NoAdjFree_tail (NoAdjFree_right F.no_adj)))
      (last_alloc_of_free_next (R := (c, 1) :: (ns, 0) :: post') (by
        have := F.no_adj
        rw [List.append_assoc] at this; exact this))
      (head_alloc_of_free_prev (R := (pre' ++ [(ps, 0)]) ++ [(c, 1)]) (by
        have := F.no_adj
        rw [List.append_assoc]; exact this)))
  rw [heq]
  exact ⟨rfl, hfin.1, hfin.2⟩

/-- `coalesce(bp)` on a heap before coalescing, all four cases: the result is
the block before `bp` when that block is free and `bp` otherwise; it covers
`bp` and its free neighbours, heads the free list, the free neighbours have
left the list, and the heap is well formed. -/
theorem coalesce_layout {st : State} {pre post : List (Nat × Nat)} {c : Nat} {fl : List Nat}
    {bp : Nat} (F : FreedLayout 8 st pre c post fl)
    (hbp : bp = st.heap_listp + 8 + (pre.map Prod.fst).sum + 8) :
    (coalesce 8 st bp).2 = bp - prev_free_size pre ∧
    HeapLayout 8 (coalesce 8 st bp).1
      ((if prev_free_size pre = 0 then pre else pre.dropLast) ++
        ([(c + (prev_free_size pre + next_free_size post), 0)] ++
          (if next_free_size post = 0 then post else post.tail)))
      ((bp - prev_free_size pre) ::
        fl.filter (fun x => decide (x ≠ bp - prev_free_size pre ∧ x ≠ bp + c))) ∧
    SameAux st (coalesce 8 st bp).1 := by
  obtain ⟨⟨t0, c32, c8, hcb⟩, ⟨ps, pal, tp1, tp2, ps8, hps, hpb, hprev⟩,
    ⟨ns, nal, tn, ns8, hnb, hnext⟩⟩ := F.neighbours hbp
  obtain ⟨hbpn, hnn⟩ := F.not_mem hbp
  rcases hprev with ⟨rfl, hpf, hPl⟩ | ⟨rfl, ps32, hpf, pre', rfl⟩
  · rcases hnext with ⟨rfl, hnf, hQh⟩ | ⟨rfl, ns32, hnf, tnf, post', rfl⟩
    · -- Case 1
      have hN := hnn ns tn ns8
      have heq := coalesce_case1_eq t0 c8 tp1 tp2 ps8 hps (by have := F.base; omega) tn ns8
        (by have := F.limit_lt; have := F.brk_le; omega) c32
      clear t0 tp1 tp2 tn
      obtain ⟨h1, h2⟩ := coalesce_case1_layout F hbp hPl hQh
      rw [hpf, hnf, if_pos rfl, if_pos rfl, heq]
      have ef : fl.filter (fun x => decide (x ≠ bp - 0 ∧ x ≠ bp + c)) = fl :=
        List.filter_eq_self.mpr (fun x hx => by
          simp only [decide_eq_true_eq, Nat.sub_zero]
          exact ⟨fun h => hbpn (h ▸ hx), fun h => hN (h ▸ hx)⟩)
      rw [ef]
      exact ⟨rfl, h1, h2⟩
    · -- Case 2
      obtain ⟨h1, h2, h3⟩ := coalesce_case2_layout F hbp t0 tp1 tp2 ps8 hps hpb tn ns8 hnb hPl
      clear t0 tp1 tp2 tn tnf
      rw [hpf, hnf, if_pos rfl, if_neg (by omega), List.tail_cons, Nat.zero_add]
      have ef : fl.filter (fun x => decide (x ≠ bp - 0 ∧ x ≠ bp + c))
          = fl.filter (fun x => decide (x ≠ bp + c)) :=
        List.filter_congr (fun x hx => by
          have : x ≠ bp := fun h => hbpn (h ▸ hx)
          simp [this])
      rw [ef]
      exact ⟨h1, h2, h3⟩
  · rcases hnext with ⟨rfl, hnf, hQh⟩ | ⟨rfl, ns32, hnf, tnf, post', rfl⟩
    · -- Case 3
      have hN := hnn ns tn ns8
      obtain ⟨h1, h2, h3⟩ := coalesce_case3_layout F hbp t0 tp1 tp2 ps8 ps32 tn ns8 hnb hQh
      clear t0 tp1 tp2 tn
      rw [hpf, hnf, if_neg (by omega), if_pos rfl, List.dropLast_concat, Nat.add_zero]
      have ef : fl.filter (fun x => decide (x ≠ bp - ps ∧ x ≠ bp + c))
          = fl.filter (fun x => decide (x ≠ bp - ps)) :=
        List.filter_congr (fun x hx => by
          have : x ≠ bp + c := fun h => hN (h ▸ hx)
          simp [this])
      rw [ef]
      exact ⟨h1, h2, h3⟩
    · -- Case 4
      obtain ⟨h1, h2, h3⟩ := coalesce_case4_layout F hbp t0 tp1 tp2 ps8 ps32 tn ns8 ns32 tnf hnb
      clear t0 tp1 tp2 tn tnf
      rw [hpf, hnf, if_neg (by omega), if_neg (by omega), List.dropLast_concat, List.tail_cons]
      have ef : fl.filter (fun x => decide (x ≠ bp - ps ∧ x ≠ bp + c))
          = (fl.filter (fun x => decide (x ≠ bp + c))).filter
            (fun x => decide (x ≠ bp - ps)) := by
        rw [List.filter_filter]
        exact List.filter_congr (fun x _ => by simp [Bool.decide_and])
      rw [ef]
      exact ⟨h1, h2, h3⟩

/-- The macros of `mm.c` on a block of a tiled region. -/
theorem Tiles_block_macros {m : Mem} {a0 e : Nat} {bs : List (Nat × Nat)}
    (ht : Tiles 8 m a0 bs e) (he : e + 8 < 2 ^ 64) {x s al : Nat}
    (hb : (x, s, al) ∈ blocksFrom 8 a0 bs) :
    GET 8 m (HDRP 8 x) = PACK s al ∧ GET 8 m (FTRP 8 m x) = PACK s al ∧
      NEXT_BLKP 8 m x = x + s ∧ GET_SIZE 8 m (HDRP 8 x) = s ∧ GET_ALLOC 8 m (HDRP 8 x) = al := by
  obtain ⟨g1, g2, s32, s8, hal, hge, hend, _⟩ := Tiles_block ht hb
  have eH : HDRP 8 x = x - 8 := HDRP_eq (by omega) (by omega)
  have eF : FTRP 8 m x = x + s - 16 := FTRP_eq g1 s8 hal (by omega) (by omega) (by omega)
  have eN : NEXT_BLKP 8 m x = x + s := NEXT_BLKP_eq g1 s8 hal (by omega) (by omega)
  rw [eH, eF]
  exact ⟨g1, g2, eN, GET_SIZE_of_tag g1 s8 hal, GET_ALLOC_of_tag g1 s8 hal⟩

theorem HeapLayout.block_macros {st : State} {bs : List (Nat × Nat)} {fl : List Nat}
    (h : HeapLayout 8 st bs fl) {x s al : Nat}
    (hb : (x, s, al) ∈ blocksFrom 8 (st.heap_listp + 8) bs) :
    GET 8 st.mem (HDRP 8 x) = PACK s al ∧ GET 8 st.mem (FTRP 8 st.mem x) = PACK s al ∧
      NEXT_BLKP 8 st.mem x = x + s ∧ GET_SIZE 8 st.mem (HDRP 8 x) = s ∧
      GET_ALLOC 8 st.mem (HDRP 8 x) = al := by
  have h1 := h.max_lt'
  have h2 := h.brk_le
  have h3 := h.brk_ge
  exact Tiles_block_macros h.tiles (by omega) hb

/-- The blocks before the merged block and the size of a free previous
block add up to the blocks before the block under coalescing. -/
theorem prev_free_sum (pre : List (Nat × Nat)) :
    ((if prev_free_size pre = 0 then pre else pre.dropLast).map Prod.fst).sum
      + prev_free_size pre = (pre.map Prod.fst).sum := by
  rcases List.eq_nil_or_concat pre with hnil | ⟨pre', b, hcat⟩
  · subst hnil; rfl
  · rw [List.concat_eq_append] at hcat
    subst hcat
    obtain ⟨s, al⟩ := b
    rw [prev_free_size_concat]
    by_cases hal : al = 0
    · rw [if_pos hal]
      by_cases hs : s = 0
      · rw [if_pos hs, hs, Nat.add_zero]
      · rw [if_neg hs, List.dropLast_concat, sum_concat]
    · rw [if_neg hal, if_pos rfl, Nat.add_zero]

/-- C17 (word size 8): `coalesce(bp)` on a well-formed heap in which the
block `bp` carries free tags and is not yet in the free list (`FreedLayout`).
With `prev_free_size` and `next_free_size` the sizes of the free immediate
neighbours (0 for a neighbour that is not free): the result is the address of
the preceding block when it is free and `bp` otherwise; header and footer of
the result carry the sum of the sizes, free; the result is the list head with
predecessor NULL; the list is the result followed by the old list without the
free neighbours, in the old order; and the heap is well formed. -/
theorem C17_coalesce (st : State) (pre post : List (Nat × Nat)) (c : Nat) (fl : List Nat)
    (bp : Nat) (F : FreedLayout 8 st pre c post fl)
    (hbp : bp = st.heap_listp + 8 + (pre.map Prod.fst).sum + 8) :
    (coalesce 8 st bp).2 = bp - prev_free_size pre ∧
    GET 8 (coalesce 8 st bp).1.mem (HDRP 8 (coalesce 8 st bp).2)
      = PACK (c + (prev_free_size pre + next_free_size post)) 0 ∧
    GET 8 (coalesce 8 st bp).1.mem (FTRP 8 (coalesce 8 st bp).1.mem (coalesce 8 st bp).2)
      = PACK (c + (prev_free_size pre + next_free_size post)) 0 ∧
    (coalesce 8 st bp).1.ef_listp = (coalesce 8 st bp).2 ∧
    EFL_PBP 8 (coalesce 8 st bp).1.mem (coalesce 8 st bp).2 = NULL ∧
    FreeChain 8 (coalesce 8 st bp).1.mem NULL (coalesce 8 st bp).1.ef_listp
      ((coalesce 8 st bp).2 ::
        fl.filter (fun x => decide (x ≠ bp - prev_free_size pre ∧ x ≠ bp + c))) ∧
    HeapLayout 8 (coalesce 8 st bp).1
      ((if prev_free_size pre = 0 then pre else pre.dropLast) ++
        ([(c + (prev_free_size pre + next_free_size post), 0)] ++
          (if next_free_size post = 0 then post else post.tail)))
      ((coalesce 8 st bp).2 ::
        fl.filter (fun x => decide (x ≠ bp - prev_free_size pre ∧ x ≠ bp + c))) := by
  obtain ⟨h1, h2, h3⟩ := coalesce_layout F hbp
  obtain ⟨e1, _, e2, _⟩ := h2.chain
  have hsum := prev_free_sum pre
  have hblk := mem_blocksFrom_mid ((coalesce 8 st bp).1.heap_listp + 8)
    (if prev_free_size pre = 0 then pre else pre.dropLast)
    (if next_free_size post = 0 then post else post.tail)
    (c + (prev_free_size pre + next_free_size post)) 0
  have hret : (coalesce 8 st bp).1.heap_listp + 8 +
      ((if prev_free_size pre = 0 then pre else pre.dropLast).map Prod.fst).sum + 8
      = bp - prev_free_size pre := by
    rw [h3.heap_listp]; omega
  rw [hret] at hblk
  obtain ⟨g1, g2, _⟩ := h2.block_macros hblk
  refine ⟨h1, ?_⟩
  rw [h1]
  exact ⟨g1, g2, e1, e2, h2.chain, h2⟩

theorem C17_coalesce_witness :
    (coalesce 8 heap_before_coalesce 4152).2 = 4152 - prev_free_size [(32, 0)] ∧
    GET 8 (coalesce 8 heap_before_coalesce 4152).1.mem
        (HDRP 8 (coalesce 8 heap_before_coalesce 4152).2)
      = PACK (32 + (prev_free_size [(32, 0)] + next_free_size [(32704, 0)])) 0 ∧
    GET 8 (coalesce 8 heap_before_coalesce 4152).1.mem
        (FTRP 8 (coalesce 8 heap_before_coalesce 4152).1.mem
          (coalesce 8 heap_before_coalesce 4152).2)
      = PACK (32 + (prev_free_size [(32, 0)] + next_free_size [(32704, 0)])) 0 ∧
    (coalesce 8 heap_before_coalesce 4152).1.ef_listp
      = (coalesce 8 heap_before_coalesce 4152).2 ∧
    EFL_PBP 8 (coalesce 8 heap_before_coalesce 4152).1.mem
      (coalesce 8 heap_before_coalesce 4152).2 = NULL ∧
    FreeChain 8 (coalesce 8 heap_before_coalesce 4152).1.mem NULL
      (coalesce 8 heap_before_coalesce 4152).1.ef_listp
      ((coalesce 8 heap_before_coalesce 4152).2 ::
        [4184, 4120].filter
          (fun x => decide (x ≠ 4152 - prev_free_size [(32, 0)] ∧ x ≠ 4152 + 32))) ∧
    HeapLayout 8 (coalesce 8 heap_before_coalesce 4152).1
      ((if prev_free_size [(32, 0)] = 0 then [(32, 0)] else [(32, 0)].dropLast) ++
        ([(32 + (prev_free_size [(32, 0)] + next_free_size [(32704, 0)]), 0)] ++
          (if next_free_size [(32704, 0)] = 0 then [(32704, 0)] else [(32704, 0)].tail)))
      ((coalesce 8 heap_before_coalesce 4152).2 ::
        [4184, 4120].filter
          (fun x => decide (x ≠ 4152 - prev_free_size [(32, 0)] ∧ x ≠ 4152 + 32))) :=
  C17_coalesce heap_before_coalesce [(32, 0)] [(32704, 0)] 32 [4184, 4120] 4152
    (by constructor <;> decide!) (by decide!)

/-- C18 (word size 8): `place(bp, a)` on a well-formed heap, for a free block
`bp` of size `c` in the free list and an adjusted size `a` (a multiple of the
word size) with `4 * WSIZE <= a <= c`.  If `c - a >= 4 * WSIZE` the block at
`bp` becomes allocated with size `a`, the block after it is free with size
`c - a` and heads the free list; otherwise the block becomes allocated with
its full size `c`, which exceeds `a` by at most 3 words.  In both cases the
rest of the list is the old list without `bp`, and the heap stays well
formed. -/
theorem C18_place (st : State) (bs : List (Nat × Nat)) (fl : List Nat) (bp c a : Nat)
    (h : HeapLayout 8 st bs fl) (hbp : bp ∈ fl)
    (hmem : (bp, c, 0) ∈ blocksFrom 8 (st.heap_listp + 8) bs)
    (ha32 : 4 * WSIZE 8 ≤ a) (ha8 : a % WSIZE 8 = 0) (hle : a ≤ c) :
    (4 * WSIZE 8 ≤ c - a →
      GET 8 (place 8 st bp a).mem (HDRP 8 bp) = PACK a 1 ∧
      GET 8 (place 8 st bp a).mem (FTRP 8 (place 8 st bp a).mem bp) = PACK a 1 ∧
      NEXT_BLKP 8 (place 8 st bp a).mem bp = bp + a ∧
      GET 8 (place 8 st bp a).mem (HDRP 8 (bp + a)) = PACK (c - a) 0 ∧
      GET 8 (place 8 st bp a).mem (FTRP 8 (place 8 st bp a).mem (bp + a)) = PACK (c - a) 0 ∧
      (place 8 st bp a).ef_listp = bp + a ∧
      FreeChain 8 (place 8 st bp a).mem NULL (place 8 st bp a).ef_listp
        ((bp + a) :: fl.filter (fun x => decide (x ≠ bp))) ∧
      ∃ bs', HeapLayout 8 (place 8 st bp a) bs' ((bp + a) :: fl.filter (fun x => decide (x ≠ bp)))) ∧
    (c - a < 4 * WSIZE 8 →
      GET 8 (place 8 st bp a).mem (HDRP 8 bp) = PACK c 1 ∧
      GET 8 (place 8 st bp a).mem (FTRP 8 (place 8 st bp a).mem bp) = PACK c 1 ∧
      c - a ≤ 3 * WSIZE 8 ∧
      FreeChain 8 (place 8 st bp a).mem NULL (place 8 st bp a).ef_listp
        (fl.filter (fun x => decide (x ≠ bp))) ∧
      ∃ bs', HeapLayout 8 (place 8 st bp a) bs' (fl.filter (fun x => decide (x ≠ bp)))) := by
  have ha32' : 32 ≤ a := ha32
  have ha8' : a % 8 = 0 := ha8
  obtain ⟨pre, post, hbs, hbpe⟩ := blocksFrom_split hmem
  obtain ⟨l1, l2, hfl⟩ := List.append_of_mem hbp
  have hnd := h.nodes.1
  have hfilt : fl.filter (fun x => decide (x ≠ bp)) = l1 ++ l2 := by
    rw [hfl]; exact filter_ne_middle (hfl ▸ hnd)
  have c8 := (Tiles_block h.tiles hmem).2.2.2.1
  have haux := place_aux 8 st bp a
  rw [hfilt]
  show (32 ≤ c - a → _) ∧ (c - a < 32 → _)
  refine ⟨fun hbig => ?_, fun hsmall => ?_⟩
  · obtain ⟨hl, -⟩ := place_split_layout h hbs hfl hbpe ha32' ha8' hle hbig
    have b1 : (bp, a, 1) ∈ blocksFrom 8 ((place 8 st bp a).heap_listp + 8)
        (pre ++ (a, 1) :: (c - a, 0) :: post) := by
      rw [haux.heap_listp, hbpe]; exact mem_blocksFrom_mid _ _ _ _ _
    have b2 : (bp + a, c - a, 0) ∈ blocksFrom 8 ((place 8 st bp a).heap_listp + 8)
        (pre ++ (a, 1) :: (c - a, 0) :: post) := by
      have := mem_blocksFrom_mid (st.heap_listp + 8) (pre ++ [(a, 1)]) post (c - a) 0
      rw [sum_concat] at this
      simp only [List.append_assoc, List.singleton_append] at this
      have e : st.heap_listp + 8 + ((pre.map Prod.fst).sum + a) + 8 = bp + a := by omega
      rw [e] at this
      rw [haux.heap_listp]; exact this
    obtain ⟨g1, g2, g3, -⟩ := hl.block_macros b1
    obtain ⟨k1, k2, -⟩ := hl.block_macros b2
    exact ⟨g1, g2, g3, k1, k2, hl.chain.1, hl.chain, _, hl⟩
  · obtain ⟨hl, -⟩ := place_nosplit_layout h hbs hfl hbpe hle hsmall
    have b1 : (bp, c, 1) ∈ blocksFrom 8 ((place 8 st bp a).heap_listp + 8)
        (pre ++ (c, 1) :: post) := by
      rw [haux.heap_listp, hbpe]; exact mem_blocksFrom_mid _ _ _ _ _
    obtain ⟨g1, g2, -⟩ := hl.block_macros b1
    refine ⟨g1, g2, ?_, hl.chain, _, hl⟩
    show c - a ≤ 24
    omega

theorem C18_place_witness :
    (4 * WSIZE 8 ≤ 32768 - 32 →
      GET 8 (place 8 heap0 4120 32).mem (HDRP 8 4120) = PACK 32 1 ∧
      GET 8 (place 8 heap0 4120 32).mem (FTRP 8 (place 8 heap0 4120 32).mem 4120) = PACK 32 1 ∧
      NEXT_BLKP 8 (place 8 heap0 4120 32).mem 4120 = 4120 + 32 ∧
      GET 8 (place 8 heap0 4120 32).mem (HDRP 8 (4120 + 32)) = PACK (32768 - 32) 0 ∧
      GET 8 (place 8 heap0 4120 32).mem (FTRP 8 (place 8 heap0 4120 32).mem (4120 + 32))
        = PACK (32768 - 32) 0 ∧
      (place 8 heap0 4120 32).ef_listp = 4120 + 32 ∧
      FreeChain 8 (place 8 heap0 4120 32).mem NULL (place 8 heap0 4120 32).ef_listp
        ((4120 + 32) :: [4120].filter (fun x => decide (x ≠ 4120))) ∧
      ∃ bs', HeapLayout 8 (place 8 heap0 4120 32) bs'
        ((4120 + 32) :: [4120].filter (fun x => decide (x ≠ 4120)))) ∧
    (32768 - 32 < 4 * WSIZE 8 →
      GET 8 (place 8 heap0 4120 32).mem (HDRP 8 4120) = PACK 32768 1 ∧
      GET 8 (place 8 heap0 4120 32).mem (FTRP 8 (place 8 heap0 4120 32).mem 4120)
        = PACK 32768 1 ∧
      32768 - 32 ≤ 3 * WSIZE 8 ∧
      FreeChain 8 (place 8 heap0 4120 32).mem NULL (place 8 heap0 4120 32).ef_listp
        ([4120].filter (fun x => decide (x ≠ 4120))) ∧
      ∃ bs', HeapLayout 8 (place 8 heap0 4120 32) bs'
        ([4120].filter (fun x => decide (x ≠ 4120)))) :=
  C18_place heap0 [(32768, 0)] [4120] 4120 32768 32 (by constructor <;> decide!) (by decide)
    (by decide!) (by decide) (by decide) (by decide)

/-! ## The dirty flag and the search -/

/-- When the loop of `find_fit` ends with NULL it has passed every node of the
chain, and none was large enough. -/
theorem find_fit_loop_null (W : Nat) (m : Mem) (asize : Nat) (l : List Nat)
    (prev cur fuel : Nat) (h : FreeChain W m prev cur l)
    (hn : find_fit_loop W m asize fuel cur = some NULL) :
    ∀ b ∈ l, GET_SIZE W m (HDRP W b) < asize := by
  induction l generalizing prev cur fuel with
  | nil => intro b hb; cases hb
  | cons x l ih =>
    cases fuel with
    | zero => simp [find_fit_loop] at hn
    | succ fuel =>
      obtain ⟨hc, hx, _, hrest⟩ := h
      subst hc
      rw [find_fit_loop, if_neg hx] at hn
      by_cases hfit : asize ≤ GET_SIZE W m (HDRP W cur)
      · rw [if_pos hfit] at hn
        exact absurd (Option.some.inj hn) hx
      · rw [if_neg hfit] at hn
        intro b hb
        rcases List.mem_cons.mp hb with rfl | hb
        · omega
        · exact ih _ _ _ hrest hn b hb

/-- C19: in every state reachable from a successful `mm_init` by calls of
`mm_malloc`, `mm_free` and `mm_realloc` the flag `extendorfree` is 1; so
`find_fit` never takes its early return and is the walk of the free list; and
when `find_fit(asize)` returns NULL, every node of the free list has a size
below `asize` and `lastfailedsize` has been set to `asize`. -/
theorem C19_dirty_flag (W : Nat) (st : State) (h : Reachable W st) :
    st.extendorfree = 1 ∧
    (∀ fuel asize, find_fit W fuel st asize =
      match find_fit_loop W st.mem asize fuel st.ef_listp with
      | none => none
      | some bp =>
        if bp ≠ NULL then some (st, bp)
        else some ({ st with lastfailedsize := asize }, NULL)) ∧
    (∀ (fl : List Nat) (fuel asize : Nat) (st' : State),
      FreeChain W st.mem NULL st.ef_listp fl →
      find_fit W fuel st asize = some (st', NULL) →
      (∀ b ∈ fl, GET_SIZE W st.mem (HDRP W b) < asize) ∧ st'.lastfailedsize = asize) := by
  have hflag := h.extendorfree_eq_one
  have hunf : ∀ fuel asize, find_fit W fuel st asize =
      match find_fit_loop W st.mem asize fuel st.ef_listp with
      | none => none
      | some bp =>
        if bp ≠ NULL then some (st, bp)
        else some ({ st with lastfailedsize := asize }, NULL) := by
    intro fuel asize
    unfold find_fit
    exact if_neg (by rw [hflag]; simp)
  refine ⟨hflag, hunf, ?_⟩
  intro fl fuel asize st' hc hn
  rw [hunf] at hn
  cases hl : find_fit_loop W st.mem asize fuel st.ef_listp with
  | none => rw [hl] at hn; cases hn
  | some bp =>
    rw [hl] at hn
    by_cases hb : bp = NULL
    · subst hb
      simp only [ne_eq, not_true_eq_false, if_false, Option.some.injEq, Prod.mk.injEq,
        and_true] at hn
      exact ⟨find_fit_loop_null W st.mem asize fl NULL st.ef_listp fuel hc hl, by rw [← hn]⟩
    · dsimp only at hn
      rw [if_pos hb] at hn
      exact absurd (Prod.mk.inj (Option.some.inj hn)).2 hb

theorem C19_dirty_flag_witness :
    heap0.extendorfree = 1 ∧
    (∀ fuel asize, find_fit 8 fuel heap0 asize =
      match find_fit_loop 8 heap0.mem asize fuel heap0.ef_listp with
      | none => none
      | some bp =>
        if bp ≠ NULL then some (heap0, bp)
        else some ({ heap0 with lastfailedsize := asize }, NULL)) ∧
    (∀ (fl : List Nat) (fuel asize : Nat) (st' : State),
      FreeChain 8 heap0.mem NULL heap0.ef_listp fl →
      find_fit 8 fuel heap0 asize = some (st', NULL) →
      (∀ b ∈ fl, GET_SIZE 8 heap0.mem (HDRP 8 b) < asize) ∧ st'.lastfailedsize = asize) :=
  C19_dirty_flag 8 heap0 (Reachable.init _ (by decide!))

/-! ## `mm_free` -/

/-- Marking an allocated block of a well-formed heap free, as `mm_free` does
before it calls `coalesce`, gives a heap before coalescing. -/
theorem free_retag_layout {st stR : State} {pre post : List (Nat × Nat)} {c : Nat}
    {fl : List Nat} {bp : Nat} (h : HeapLayout 8 st (pre ++ (c, 1) :: post) fl)
    (hbp : bp = st.heap_listp + 8 + (pre.map Prod.fst).sum + 8)
    (hmem : stR.mem = PUT 8 (PUT 8 st.mem (bp - 8) (PACK c 0)) (bp + c - 16) (PACK c 0))
    (h1 : stR.heap_listp = st.heap_listp) (h2 : stR.mem_brk = st.mem_brk)
    (h3 : stR.mem_max_addr = st.mem_max_addr) (h4 : stR.ef_listp = st.ef_listp) :
    FreedLayout 8 stR pre c post fl := by
  have hblk : (bp, c, 1) ∈ blocksFrom 8 (st.heap_listp + 8) (pre ++ (c, 1) :: post) := by
    rw [hbp]; exact mem_blocksFrom_mid _ _ _ _ _
  obtain ⟨_, _, c32, c8, _, hge, hend, _⟩ := Tiles_block h.tiles hblk
  have hbg := h.brk_ge
  have k1 : st.heap_listp + 16 ≤ bp := by omega
  have k2 : bp + c ≤ st.mem_brk := by omega
  clear hge hend
  have hP : ∀ a, ((bp - 8 ≤ a ∧ a < bp) ∨ (bp + c - 16 ≤ a ∧ a < bp + c - 8)) →
      st.heap_listp + 8 ≤ a ∧ a < st.mem_brk - 8 := fun a ha => by omega
  obtain ⟨hnd, hsub, hsep, hlt⟩ := h.nodes
  have hmax := h.max_lt'
  have hbrk := h.brk_le
  have hbase := h.base
  obtain ⟨eF, g1, g2, F12⟩ := retag_block st.mem bp c 0 c8 (Nat.zero_le 1) (by omega) (by omega)
    (by omega)
  rw [← hmem] at g1 g2 F12
  have hsent := frame_sentinels h F12 hP
  have hout : ∀ x ∈ fl, x + 16 ≤ bp - 8 ∨ bp + c ≤ x := fun x hx =>
    h.node_outside hblk hx (fun e => by
      obtain ⟨s, hs⟩ := h.mem_fl.mp hx
      rw [e] at hs
      have s32 := (Tiles_block h.tiles hs).2.2.1
      rcases Tiles_disjoint h.tiles hs hblk with heq | hd | hd
      · cases heq
      · simp only at hd; omega
      · simp only at hd; omega)
  have ea : st.heap_listp + 8 + (pre.map Prod.fst).sum = bp - 8 := by omega
  have eb : bp - 8 + c - 8 = bp + c - 16 := by omega
  constructor
  · rw [h1]; exact h.base
  · rw [h1]; exact h.aligned
  · rw [h1]; exact hsent.1
  · rw [h1]; exact hsent.2.1
  · rw [h1, h2]
    refine @Tiles_replace _ _ _ _ _ [(c, 1)] [(c, 0)] _ [] h.tiles
      (F12.mono (fun a ha => Or.inl (by simp; omega)))
      (fun a ha => by obtain ⟨y, hy, _⟩ := ha; cases hy) ?_
    rw [ea]
    refine ⟨g1, ?_, c32, c8, Nat.zero_le 1, by simp [Tiles]⟩
    show GET 8 _ (bp - 8 + c - 8) = _
    rw [eb]; exact g2
  · rw [h2]; exact hsent.2.2
  · rw [h2, h3]; exact h.brk_le
  · rw [h3]; exact h.max_lt
  · rw [h4]
    exact FreeChain_frame F12 (fun x hx a h1 h2 hP => by have := hout x hx; omega) hlt h.chain
  · rw [h1]; exact h.perm
  · exact h.no_adj

theorem prev_free_split (pre : List (Nat × Nat)) :
    pre = (if prev_free_size pre = 0 then pre else pre.dropLast) ++
      (if prev_free_size pre = 0 then [] else [(prev_free_size pre, 0)]) := by
  rcases List.eq_nil_or_concat pre with hnil | ⟨pre', b, hcat⟩
  · subst hnil; rfl
  · rw [List.concat_eq_append] at hcat
    subst hcat
    obtain ⟨s, al⟩ := b
    rw [prev_free_size_concat]
    by_cases hal : al = 0
    · rw [if_pos hal]
      by_cases hs : s = 0
      · rw [if_pos hs, if_pos hs, List.append_nil]
      · rw [if_neg hs, if_neg hs, List.dropLast_concat, hal]
    · rw [if_neg hal, if_pos rfl, if_pos rfl, List.append_nil]

theorem next_free_split (post : List (Nat × Nat)) :
    post = (if next_free_size post = 0 then [] else [(next_free_size post, 0)]) ++
      (if next_free_size post = 0 then post else post.tail) := by
  cases post with
  | nil => rfl
  | cons b post' =>
    obtain ⟨s, al⟩ := b
    rw [next_free_size_cons]
    by_cases hal : al = 0
    · rw [if_pos hal]
      by_cases hs : s = 0
      · rw [if_pos hs, if_pos hs, List.nil_append]
      · rw [if_neg hs, if_neg hs, List.tail_cons, hal, List.singleton_append]
    · rw [if_neg hal, if_pos rfl, if_pos rfl, List.nil_append]

/-- Coalescing keeps every allocated block other than the coalesced one. -/
theorem merged_keeps_alloc {a0 c al : Nat} {pre post : List (Nat × Nat)} {b : Nat × Nat × Nat}
    (hb : b ∈ blocksFrom 8 a0 (pre ++ (c, al) :: post)) (h1 : b.2.2 = 1)
    (hne : b.1 ≠ a0 + (pre.map Prod.fst).sum + 8) :
    b ∈ blocksFrom 8 a0 ((if prev_free_size pre = 0 then pre else pre.dropLast) ++
      ([(c + (prev_free_size pre + next_free_size post), 0)] ++
        (if next_free_size post = 0 then post else post.tail))) := by
  have hsum := prev_free_sum pre
  have e : pre ++ (c, al) :: post =
      (if prev_free_size pre = 0 then pre else pre.dropLast) ++
        (((if prev_free_size pre = 0 then [] else [(prev_free_size pre, 0)]) ++ (c, al) ::
          (if next_free_size post = 0 then [] else [(next_free_size post, 0)])) ++
          (if next_free_size post = 0 then post else post.tail)) := by
    conv_lhs => rw [prev_free_split pre, next_free_split post]
    simp only [List.append_assoc, List.cons_append]
  rw [e] at hb
  rcases @blocksFrom_replace_mem _ _ _
    [(c + (prev_free_size pre + next_free_size post), 0)] _ (by
      by_cases hp : prev_free_size pre = 0 <;> by_cases hn : next_free_size post = 0 <;>
        simp [hp, hn] <;> omega) _ hb with h | h
  · exact h
  · exfalso
    by_cases hp : prev_free_size pre = 0 <;> by_cases hn : next_free_size post = 0
    all_goals
      simp only [hp, hn, if_true, if_false, List.nil_append, List.singleton_append, blocksFrom,
        List.mem_cons, List.mem_nil_iff, or_false, List.not_mem_nil] at h hsum
    · rw [h] at hne; simp only at hne; omega
    · rcases h with h | h
      · rw [h] at hne; simp only at hne; omega
      · rw [h] at h1; simp at h1
    · rcases h with h | h
      · rw [h] at h1; simp at h1
      · rw [h] at hne; simp only at hne; omega
    · rcases h with h | h | h
      · rw [h] at h1; simp at h1
      · rw [h] at hne; simp only at hne; omega
      · rw [h] at h1; simp at h1

/-- `mm_free` on a non-NULL pointer, with the addresses evaluated. -/
theorem mm_free_eq (st : State) (bp c : Nat) (hn : bp ≠ NULL) (eH : HDRP 8 bp = bp - 8)
    (eC : GET_SIZE 8 st.mem (bp - 8) = c)
    (eF : FTRP 8 (PUT 8 st.mem (bp - 8) (PACK c 0)) bp = bp + c - 16)
    (m2 : Mem) (hm2 : m2 = PUT 8 (PUT 8 st.mem (bp - 8) (PACK c 0)) (bp + c - 16) (PACK c 0)) :
    mm_free 8 st bp = (coalesce 8 { st with extendorfree := 1, mem := m2 } bp).1 := by
  unfold mm_free
  rw [if_neg hn, hm2, ← eF, ← eC, ← eH]

/-- `mm_free` of an allocated block keeps the heap well formed and keeps every
other allocated block. -/
theorem mm_free_layout {st : State} {bs : List (Nat × Nat)} {fl : List Nat} {bp c : Nat}
    (h : HeapLayout 8 st bs fl) (hlive : (bp, c, 1) ∈ blocksFrom 8 (st.heap_listp + 8) bs) :
    ∃ bs' fl', HeapLayout 8 (mm_free 8 st bp) bs' fl' ∧
      (mm_free 8 st bp).heap_listp = st.heap_listp ∧
      (∀ b ∈ blocksFrom 8 (st.heap_listp + 8) bs, b.2.2 = 1 → b.1 ≠ bp →
        b ∈ blocksFrom 8 (st.heap_listp + 8) bs') := by
  obtain ⟨pre, post, hbs, hbp⟩ := blocksFrom_split hlive
  subst hbs
  obtain ⟨g1, _, c32, c8, _, hge, hend, _⟩ := Tiles_block h.tiles hlive
  have hmax := h.max_lt'
  have hbrk := h.brk_le
  have hbg := h.brk_ge
  have k1 : 16 ≤ bp := by omega
  have k2 : bp + c < 2 ^ 64 := by omega
  clear hge hend
  have eC := GET_SIZE_of_tag g1 c8 (le_refl 1)
  clear g1
  have eF := (retag_block st.mem bp c 0 c8 (Nat.zero_le 1) (by omega) (by omega) k2).1
  obtain ⟨m2, hm2⟩ : ∃ m2, m2 = PUT 8 (PUT 8 st.mem (bp - 8) (PACK c 0)) (bp + c - 16)
    (PACK c 0) := ⟨_, rfl⟩
  have heq := mm_free_eq st bp c (by unfold NULL; omega) (HDRP_eq (by omega) (by omega)) eC eF
    m2 hm2
  have F := @free_retag_layout _ { st with extendorfree := 1, mem := m2 } _ _ _ _ _ h hbp hm2 rfl
    rfl rfl rfl
  obtain ⟨_, hl, haux⟩ := coalesce_layout F hbp
  rw [heq]
  refine ⟨_, _, hl, haux.heap_listp, fun b hb h1 hne => ?_⟩
  exact merged_keeps_alloc hb h1 (by rw [← hbp]; exact hne)

/-! ## `extend_heap` -/

/-- The heap after `extend_heap` has moved the break by `sz` bytes and written
the tags of the new free block and the new epilogue header: a heap before
coalescing, with the new block last. -/
theorem extend_freed {st stE : State} {bs : List (Nat × Nat)} {fl : List Nat} {sz : Nat}
    (h : HeapLayout 8 st bs fl) (h8 : sz % 8 = 0) (h32 : 32 ≤ sz)
    (hok : st.mem_brk + sz ≤ st.mem_max_addr)
    (hmem : stE.mem = PUT 8 (PUT 8 (PUT 8 st.mem (st.mem_brk - 8) (PACK sz 0))
      (st.mem_brk + sz - 16) (PACK sz 0)) (st.mem_brk + sz - 8) (PACK 0 1))
    (h1 : stE.heap_listp = st.heap_listp) (h2 : stE.mem_brk = st.mem_brk + sz)
    (h3 : stE.mem_max_addr = st.mem_max_addr) (h4 : stE.ef_listp = st.ef_listp) :
    FreedLayout 8 stE bs sz [] fl ∧ st.mem_brk = st.heap_listp + 8 + (bs.map Prod.fst).sum + 8 := by
  have hmax := h.max_lt'
  have hbrk := h.brk_ge
  have hbase := h.base
  have hend := Tiles_end h.tiles
  have hpk : PACK sz 0 < 2 ^ 64 := PACK_lt h8 (by omega) (by omega)
  have hpk1 : PACK 0 1 < 2 ^ 64 := PACK_lt (by decide) (by omega) (by norm_num)
  obtain ⟨hnd, hsub, hsep, hlt⟩ := h.nodes
  have hnb := (nodes_separated h.tiles hsub).2
  have Fr : Frame (fun a => st.mem_brk - 8 ≤ a) st.mem stE.mem := by
    rw [hmem]
    exact ((Frame.put _ _ _ (fun a h1 h2 => by omega)).trans
      (Frame.put _ _ _ (fun a h1 h2 => by omega))).trans
      (Frame.put _ _ _ (fun a h1 h2 => by omega))
  have g_hdr : GET 8 stE.mem (st.mem_brk - 8) = PACK sz 0 := by
    rw [hmem, GET_PUT_ne _ _ _ _ (by omega), GET_PUT_ne _ _ _ _ (by omega), GET_PUT_eq _ _ _ hpk]
  have g_ftr : GET 8 stE.mem (st.mem_brk + sz - 16) = PACK sz 0 := by
    rw [hmem, GET_PUT_ne _ _ _ _ (by omega), GET_PUT_eq _ _ _ hpk]
  have g_epi : GET 8 stE.mem (st.mem_brk + sz - 8) = PACK 0 1 := by
    rw [hmem, GET_PUT_eq _ _ _ hpk1]
  have e1 : st.mem_brk - 8 + sz - 8 = st.mem_brk + sz - 16 := by omega
  have e2 : st.mem_brk - 8 + sz = st.mem_brk + sz - 8 := by omega
  refine ⟨?_, by omega⟩
  constructor
  · rw [h1]; exact h.base
  · rw [h1]; exact h.aligned
  · rw [h1, Fr.GET _ (fun a h1 h2 hp => by have hp' : st.mem_brk - 8 ≤ a := hp; omega)]; exact h.prologue_hdr
  · rw [h1, Fr.GET _ (fun a h1 h2 hp => by have hp' : st.mem_brk - 8 ≤ a := hp; omega)]; exact h.prologue_ftr
  · rw [h1, h2]
    refine Tiles_append.mpr ⟨st.mem_brk - 8, ?_, ?_, ?_, h32, h8, Nat.zero_le 1, ?_⟩
    · exact Tiles_frame Fr (fun a ha hp => by
        have := (tagByte_bounds h.tiles ha).2
        have hp' : st.mem_brk - 8 ≤ a := hp
        omega) h.tiles
    · exact g_hdr
    · show GET 8 _ (st.mem_brk - 8 + sz - 8) = _
      rw [e1]; exact g_ftr
    · show st.mem_brk - 8 + sz = st.mem_brk + sz - 8
      exact e2
  · rw [h2]; exact g_epi
  · rw [h2, h3]; exact hok
  · rw [h3]; exact h.max_lt
  · rw [h4]
    exact FreeChain_frame Fr (fun x hx a h1 h2 hP => by
      have := hnb x hx
      have hp' : st.mem_brk - 8 ≤ a := hP
      omega) hlt h.chain
  · rw [h1, freeBlocks_mid_alloc, freeBlocks_nil, List.append_nil]; exact h.perm
  · exact NoAdjFree_append h.no_adj trivial (fun a b _ hb hh => by
      cases hb
      exact absurd hh.2 Nat.one_ne_zero)

/-- A free block before the block under coalescing is a block of the heap. -/
theorem prev_free_block (a0 : Nat) (pre : List (Nat × Nat)) (hp : prev_free_size pre ≠ 0) :
    (a0 + (pre.map Prod.fst).sum + 8 - prev_free_size pre, prev_free_size pre, 0)
      ∈ blocksFrom 8 a0 pre := by
  have hs := prev_free_split pre
  have hsum := prev_free_sum pre
  rw [if_neg hp, if_neg hp] at hs
  rw [if_neg hp] at hsum
  have hm := mem_blocksFrom_mid a0 pre.dropLast [] (prev_free_size pre) 0
  rw [← hs] at hm
  have e : a0 + (pre.map Prod.fst).sum + 8 - prev_free_size pre
      = a0 + (pre.dropLast.map Prod.fst).sum + 8 := by omega
  rw [e]; exact hm

/-- Two blocks of a tiled region with the same address are the same block. -/
theorem block_addr_unique {m : Mem} {a0 e : Nat} {bs : List (Nat × Nat)}
    (ht : Tiles 8 m a0 bs e) {x s al s' al' : Nat} (h1 : (x, s, al) ∈ blocksFrom 8 a0 bs)
    (h2 : (x, s', al') ∈ blocksFrom 8 a0 bs) : s = s' ∧ al = al' := by
  have b1 := (Tiles_block ht h1).2.2.1
  have b2 := (Tiles_block ht h2).2.2.1
  rcases Tiles_disjoint ht h1 h2 with heq | hd | hd
  · cases heq; exact ⟨rfl, rfl⟩
  · simp only at hd; omega
  · simp only at hd; omega

/-- A successful `extend_heap` keeps the heap well formed: the result is a free
block at the head of the free list with room for the requested words, and the
allocated blocks stay. -/
theorem extend_heap_layout {st : State} {bs : List (Nat × Nat)} {fl : List Nat}
    (h : HeapLayout 8 st bs fl) (words : Nat) (hw : (words + 1) * 8 < 2 ^ 64)
    (h4 : 4 ≤ words) (hok : st.mem_brk + (words + words % 2) * 8 ≤ st.mem_max_addr) :
    ∃ bs' fl' T, HeapLayout 8 (extend_heap 8 st words).1 bs' fl' ∧
      (extend_heap 8 st words).1.heap_listp = st.heap_listp ∧
      (extend_heap 8 st words).2 ∈ fl' ∧
      ((extend_heap 8 st words).2, T, 0) ∈ blocksFrom 8 (st.heap_listp + 8) bs' ∧
      words * 8 ≤ T ∧
      (∀ b ∈ blocksFrom 8 (st.heap_listp + 8) bs, b.2.2 = 1 →
        b ∈ blocksFrom 8 (st.heap_listp + 8) bs' ∧ b.1 ≠ (extend_heap 8 st words).2) := by
  have hbg := h.brk_ge
  have hbase := h.base
  have hend := Tiles_end h.tiles
  rw [extend_heap_ok st words hw (by omega) (by omega) hok h.max_lt']
  obtain ⟨F, hbp⟩ := @extend_freed _
    { st with
        extendorfree := 1, sbrk_calls := st.sbrk_calls + 1,
        mem_brk := st.mem_brk + (words + words % 2) * 8,
        mem := PUT 8 (PUT 8 (PUT 8 st.mem (st.mem_brk - 8) (PACK ((words + words % 2) * 8) 0))
          (st.mem_brk + (words + words % 2) * 8 - 16) (PACK ((words + words % 2) * 8) 0))
          (st.mem_brk + (words + words % 2) * 8 - 8) (PACK 0 1) }
    _ _ ((words + words % 2) * 8) h (by omega) (by omega) hok rfl rfl rfl rfl rfl
  obtain ⟨hret, hl, haux⟩ := coalesce_layout F hbp
  have hsum := prev_free_sum bs
  have hblk := mem_blocksFrom_mid (st.heap_listp + 8)
    (if prev_free_size bs = 0 then bs else bs.dropLast)
    (if next_free_size [] = 0 then [] else ([] : List (Nat × Nat)).tail)
    ((words + words % 2) * 8 + (prev_free_size bs + next_free_size [])) 0
  have ea : st.heap_listp + 8 +
      ((if prev_free_size bs = 0 then bs else bs.dropLast).map Prod.fst).sum + 8
      = st.mem_brk - prev_free_size bs := by omega
  rw [ea] at hblk
  rw [hret]
  refine ⟨_, _, _, hl, haux.heap_listp, List.mem_cons_self _ _, hblk, by omega,
    fun b hb h1 => ⟨?_, ?_⟩⟩
  · have hx := (@Tiles_block _ _ _ _ h.tiles b.1 b.2.1 b.2.2 hb)
    refine @merged_keeps_alloc _ _ 0 _ [] _ ?_ h1 (by omega)
    rw [blocksFrom_append]
    exact List.mem_append_left _ hb
  · intro hbe
    have hx := (@Tiles_block _ _ _ _ h.tiles b.1 b.2.1 b.2.2 hb)
    by_cases hp : prev_free_size bs = 0
    · omega
    · have hpb := prev_free_block (st.heap_listp + 8) bs hp
      have e : st.heap_listp + 8 + (bs.map Prod.fst).sum + 8 - prev_free_size bs = b.1 := by
        omega
      rw [e] at hpb
      have := (@block_addr_unique _ _ _ _ h.tiles b.1 b.2.1 b.2.2 _ _ hb hpb).2
      omega

/-! ## `mm_malloc` -/

/-- When the loop of `find_fit` ends at a block, the block is a node of the
chain and large enough. -/
theorem find_fit_loop_some (W : Nat) (m : Mem) (asize : Nat) (l : List Nat)
    (prev cur fuel bp : Nat) (h : FreeChain W m prev cur l)
    (hn : find_fit_loop W m asize fuel cur = some bp) (hbp : bp ≠ NULL) :
    bp ∈ l ∧ asize ≤ GET_SIZE W m (HDRP W bp) := by
  induction l generalizing prev cur fuel with
  | nil =>
    cases fuel with
    | zero => simp [find_fit_loop] at hn
    | succ fuel =>
      have : cur = NULL := h
      rw [find_fit_loop, if_pos this] at hn
      exact absurd (Option.some.inj hn).symm hbp
  | cons x l ih =>
    cases fuel with
    | zero => simp [find_fit_loop] at hn
    | succ fuel =>
      obtain ⟨hc, hx, _, hrest⟩ := h
      subst hc
      rw [find_fit_loop, if_neg hx] at hn
      by_cases hfit : asize ≤ GET_SIZE W m (HDRP W cur)
      · rw [if_pos hfit] at hn
        cases Option.some.inj hn
        exact ⟨List.mem_cons_self _ _, hfit⟩
      · rw [if_neg hfit] at hn
        obtain ⟨h1, h2⟩ := ih _ _ _ hrest hn
        exact ⟨List.mem_cons_of_mem _ h1, h2⟩

/-- A result of `find_fit`: the state changes at most in `lastfailedsize`, and
a block that is returned is a node of the free list and large enough. -/
theorem find_fit_some {st st1 : State} {fl : List Nat} {fuel asize bp : Nat}
    (hc : FreeChain 8 st.mem NULL st.ef_listp fl)
    (hff : find_fit 8 fuel st asize = some (st1, bp)) :
    st1.mem = st.mem ∧ st1.mem_brk = st.mem_brk ∧ st1.mem_max_addr = st.mem_max_addr ∧
      st1.heap_listp = st.heap_listp ∧ st1.ef_listp = st.ef_listp ∧
      (bp ≠ NULL → bp ∈ fl ∧ asize ≤ GET_SIZE 8 st.mem (HDRP 8 bp)) := by
  unfold find_fit at hff
  by_cases h0 : asize = st.lastfailedsize ∧ st.extendorfree = 0
  · rw [if_pos h0] at hff
    cases Option.some.inj hff
    exact ⟨rfl, rfl, rfl, rfl, rfl, fun h => absurd rfl h⟩
  · rw [if_neg h0] at hff
    cases hl : find_fit_loop 8 st.mem asize fuel st.ef_listp with
    | none => rw [hl] at hff; cases hff
    | some b =>
      rw [hl] at hff
      dsimp only at hff
      by_cases hb : b = NULL
      · rw [if_neg (not_not.mpr hb)] at hff
        cases Option.some.inj hff
        exact ⟨rfl, rfl, rfl, rfl, rfl, fun h => absurd rfl h⟩
      · rw [if_pos hb] at hff
        cases Option.some.inj hff
        exact ⟨rfl, rfl, rfl, rfl, rfl, fun _ => find_fit_loop_some 8 _ _ _ _ _ _ _ hc hl hb⟩

/-- The paths of `mm_malloc`. -/
theorem mm_malloc_cases {fuel : Nat} {st st' : State} {size p : Nat}
    (hr : mm_malloc 8 fuel st size = some (st', p)) :
    (size = 0 ∧ st' = st ∧ p = NULL) ∨
    (size ≠ 0 ∧ ∃ st1 bp, find_fit 8 fuel st (malloc_asize 8 size) = some (st1, bp) ∧
      ((bp ≠ NULL ∧ st' = place 8 st1 bp (malloc_asize 8 size) ∧ p = bp) ∨
       (bp = NULL ∧
         (extend_heap 8 st1 (MAX (malloc_asize 8 size) CHUNKSIZE / 8)).2 = NULL ∧
         st' = (extend_heap 8 st1 (MAX (malloc_asize 8 size) CHUNKSIZE / 8)).1 ∧ p = NULL) ∨
       (bp = NULL ∧
         (extend_heap 8 st1 (MAX (malloc_asize 8 size) CHUNKSIZE / 8)).2 ≠ NULL ∧
         st' = place 8 (extend_heap 8 st1 (MAX (malloc_asize 8 size) CHUNKSIZE / 8)).1
           (extend_heap 8 st1 (MAX (malloc_asize 8 size) CHUNKSIZE / 8)).2
           (malloc_asize 8 size) ∧
         p = (extend_heap 8 st1 (MAX (malloc_asize 8 size) CHUNKSIZE / 8)).2))) := by
  unfold mm_malloc at hr
  by_cases h0 : size = 0
  · rw [if_pos h0] at hr
    cases Option.some.inj hr
    exact Or.inl ⟨h0, rfl, rfl⟩
  · rw [if_neg h0] at hr
    dsimp only at hr
    right
    refine ⟨h0, ?_⟩
    cases hff : find_fit 8 fuel st (malloc_asize 8 size) with
    | none => rw [hff] at hr; cases hr
    | some r =>
      obtain ⟨st1, bp⟩ := r
      rw [hff] at hr
      dsimp only at hr
      refine ⟨st1, bp, rfl, ?_⟩
      by_cases hb : bp = NULL
      · rw [if_neg (not_not.mpr hb)] at hr
        have hW : WSIZE 8 = 8 := rfl
        rw [hW] at hr
        by_cases he : (extend_heap 8 st1 (MAX (malloc_asize 8 size) CHUNKSIZE / 8)).2 = NULL
        · rw [if_pos he] at hr
          cases Option.some.inj hr
          exact Or.inr (Or.inl ⟨hb, he, rfl, rfl⟩)
        · rw [if_neg he] at hr
          cases Option.some.inj hr
          exact Or.inr (Or.inr ⟨hb, he, rfl, rfl⟩)
      · rw [if_pos hb] at hr
        cases Option.some.inj hr
        exact Or.inl ⟨hb, rfl, rfl⟩

/-- The adjusted size of a request whose arithmetic does not wrap. -/
theorem asize_facts {size : Nat} (h : size + 32 ≤ 2 ^ 64) :
    32 ≤ malloc_asize 8 size ∧ malloc_asize 8 size % 8 = 0 ∧
      size + 16 ≤ malloc_asize 8 size ∧ malloc_asize 8 size + 8 < 2 ^ 64 := by
  rw [malloc_asize_nowrap 8 size (by decide) (by rw [WMOD_eight]; omega)]
  split <;> omega

/-- Changing only fields other than memory, break, limit, heap start and list
head keeps the heap well formed; stated for the state `find_fit` returns. -/
theorem HeapLayout.of_find_fit {st st1 : State} {bs : List (Nat × Nat)} {fl : List Nat}
    {fuel asize bp : Nat} (h : HeapLayout 8 st bs fl)
    (hff : find_fit 8 fuel st asize = some (st1, bp)) :
    HeapLayout 8 st1 bs fl ∧ st1.heap_listp = st.heap_listp ∧
      (bp ≠ NULL → bp ∈ fl ∧ asize ≤ GET_SIZE 8 st1.mem (HDRP 8 bp)) := by
  obtain ⟨e1, e2, e3, e4, e5, hfit⟩ := find_fit_some h.chain hff
  exact ⟨h.congr e1 e2 e3 e4 e5, e4, fun hb => by rw [e1]; exact hfit hb⟩

theorem MAX_chunk (a : Nat) (h8 : a % 8 = 0) (hlt : a + 8 < 2 ^ 64) :
    a ≤ MAX a CHUNKSIZE / 8 * 8 ∧ 4 ≤ MAX a CHUNKSIZE / 8 ∧
      (MAX a CHUNKSIZE / 8 + 1) * 8 < 2 ^ 64 := by
  unfold MAX CHUNKSIZE
  split_ifs <;> omega

/-- `mm_malloc` keeps the heap well formed, for a request of at most
`2^64 - 32` bytes: the allocated blocks stay, and a non-NULL result is a block
that was not allocated before and has room for the request. -/
theorem mm_malloc_layout {st st' : State} {bs : List (Nat × Nat)} {fl : List Nat}
    {fuel size p : Nat} (h : HeapLayout 8 st bs fl) (hsz : size + 32 ≤ 2 ^ 64)
    (hr : mm_malloc 8 fuel st size = some (st', p)) :
    ∃ bs' fl', HeapLayout 8 st' bs' fl' ∧ st'.heap_listp = st.heap_listp ∧
      (∀ b ∈ blocksFrom 8 (st.heap_listp + 8) bs, b.2.2 = 1 →
        b ∈ blocksFrom 8 (st.heap_listp + 8) bs' ∧ b.1 ≠ p) ∧
      (p ≠ NULL → ∃ t, (p, t, 1) ∈ blocksFrom 8 (st.heap_listp + 8) bs' ∧ size + 16 ≤ t) := by
  have hbase := h.base
  have hnn : ∀ b ∈ blocksFrom 8 (st.heap_listp + 8) bs, b.1 ≠ NULL := fun b hb => by
    have := (@Tiles_block _ _ _ _ h.tiles b.1 b.2.1 b.2.2 hb).2.2.2.2.2.1
    unfold NULL; omega
  rcases mm_malloc_cases hr with ⟨_, rfl, rfl⟩ | ⟨h0, st1, bp, hff, hcase⟩
  · exact ⟨bs, fl, h, rfl, fun b hb _ => ⟨hb, hnn b hb⟩, fun hp => absurd rfl hp⟩
  · obtain ⟨a32, a8, acap, alt⟩ := asize_facts hsz
    obtain ⟨h1, e4, hfit⟩ := h.of_find_fit hff
    rcases hcase with ⟨hb, rfl, rfl⟩ | ⟨hb, he, rfl, rfl⟩ | ⟨hb, he, rfl, rfl⟩
    · -- a fit was found
      obtain ⟨hin, hle⟩ := hfit hb
      obtain ⟨c, hc⟩ := h1.mem_fl.mp hin
      have hcm := (h1.block_macros hc).2.2.2.1
      rw [hcm] at hle
      obtain ⟨bs', fl', t, hl, hblk, hat, hkeep, -⟩ := place_layout h1 hin hc a32 a8 hle
      rw [e4] at hblk hkeep hc
      refine ⟨bs', fl', hl, by rw [(place_aux 8 st1 p _).heap_listp, e4],
        fun b hb h1' => ⟨hkeep b hb h1', fun hbe => ?_⟩, fun _ => ⟨t, hblk, by omega⟩⟩
      have hb' : (p, b.2.1, b.2.2) ∈ blocksFrom 8 (st.heap_listp + 8) bs := by
        rw [← hbe]; exact hb
      have := (block_addr_unique h.tiles hb' hc).2
      omega
    · -- the heap could not be extended
      obtain ⟨m1, m2, m3⟩ := MAX_chunk _ a8 alt
      by_cases hok : st1.mem_brk + (MAX (malloc_asize 8 size) CHUNKSIZE / 8 +
          MAX (malloc_asize 8 size) CHUNKSIZE / 8 % 2) * 8 ≤ st1.mem_max_addr
      · exact absurd he (extend_heap_ok_ne_null h1 _ m3 (by omega) hok).1
      · rw [extend_heap_fail st1 _ m3 (by omega)]
        exact ⟨bs, fl, h1.congr rfl rfl rfl rfl rfl, e4, fun b hb _ => ⟨hb, hnn b hb⟩,
          fun hp => absurd rfl hp⟩
    · -- the heap was extended
      obtain ⟨m1, m2, m3⟩ := MAX_chunk _ a8 alt
      by_cases hok : st1.mem_brk + (MAX (malloc_asize 8 size) CHUNKSIZE / 8 +
          MAX (malloc_asize 8 size) CHUNKSIZE / 8 % 2) * 8 ≤ st1.mem_max_addr
      · obtain ⟨bs1, fl1, T, hl1, ehl, hin, hblk, hT, hkeep1⟩ :=
          extend_heap_layout h1 _ m3 m2 hok
        rw [← ehl] at hblk
        obtain ⟨bs', fl', t, hl, hblk', hat, hkeep, -⟩ :=
          place_layout hl1 hin hblk a32 a8 (by omega)
        rw [ehl, e4] at hblk' hkeep
        rw [e4] at hkeep1
        refine ⟨bs', fl', hl, by rw [(place_aux 8 _ _ _).heap_listp, ehl, e4],
          fun b hb h1' => ⟨hkeep b (hkeep1 b hb h1').1 h1', (hkeep1 b hb h1').2⟩,
          fun _ => ⟨t, hblk', by omega⟩⟩
      · rw [extend_heap_fail st1 _ m3 (by omega)] at he
        exact absurd rfl he

/-! ## Payload writes and `mm_realloc` -/

/-- Writing into the payload of an allocated block keeps the heap well
formed. -/
theorem payload_write_layout {st : State} {bs : List (Nat × Nat)} {fl : List Nat} {x t : Nat}
    {m' : Mem} (h : HeapLayout 8 st bs fl)
    (hb : (x, t, 1) ∈ blocksFrom 8 (st.heap_listp + 8) bs)
    (hf : Frame (fun a => x ≤ a ∧ a < x + t - 16) st.mem m') :
    HeapLayout 8 { st with mem := m' } bs fl := by
  obtain ⟨hnd, hsub, hsep, hlt⟩ := h.nodes
  have hge := (Tiles_block h.tiles hb).2.2.2.2.2.1
  have hclr : ∀ a, (x ≤ a ∧ a < x + t - 16) →
      ¬ TagByte 8 (st.heap_listp + 8) bs a ∧ ¬ FreeByte 8 (st.heap_listp + 8) bs a ∧
        a < st.mem_brk - 8 := fun a ha => alloc_payload_clear h.tiles hb ha.1 ha.2
  have hsent := frame_sentinels h hf (fun a ha => ⟨by omega, (hclr a ha).2.2⟩)
  constructor
  · exact h.base
  · exact h.aligned
  · exact hsent.1
  · exact hsent.2.1
  · exact Tiles_frame hf (fun a ha hp => (hclr a hp).1 ha) h.tiles
  · exact hsent.2.2
  · exact h.brk_le
  · exact h.max_lt
  · exact FreeChain_frame hf (fun y hy a h1 h2 hP =>
      (hclr a hP).2.1 (linkByte_clear h.tiles hsub ⟨y, hy, h1, by omega⟩).1) hlt h.chain
  · exact h.perm
  · exact h.no_adj

theorem memcpy_frame (m : Mem) (dst src n : Nat) :
    Frame (fun a => dst ≤ a ∧ a < dst + n) m (memcpy m dst src n) := by
  intro a ha
  unfold memcpy
  rw [if_neg ha]

/-- In-place growth of `mm_realloc`: the free block after `ptr` is sliced out
of the list and `ptr` gets the tags of an allocated block covering both. -/
theorem realloc_grow_layout {st stG : State} {pre post' : List (Nat × Nat)} {c n : Nat}
    {fl : List Nat} {ptr : Nat} {m3 : Mem}
    (h : HeapLayout 8 st (pre ++ (c, 1) :: (n, 0) :: post') fl)
    (hptr : ptr = st.heap_listp + 8 + (pre.map Prod.fst).sum + 8)
    (hm3 : m3 = PUT 8 (PUT 8 (efl_slice 8 st (ptr + c)).mem (ptr - 8) (PACK (c + n) 1))
      (ptr + (c + n) - 16) (PACK (c + n) 1))
    (hG : stG = { efl_slice 8 st (ptr + c) with mem := m3 }) :
    HeapLayout 8 stG (pre ++ ([(c + n, 1)] ++ post'))
      (fl.filter (fun x => decide (x ≠ ptr + c))) ∧ stG.heap_listp = st.heap_listp := by
  have hmax := h.max_lt'
  have hbrk := h.brk_le
  have hbase := h.base
  obtain ⟨hnd, hsub, hsep, hlt⟩ := h.nodes
  have hb1 : (ptr, c, 1) ∈ blocksFrom 8 (st.heap_listp + 8) (pre ++ (c, 1) :: (n, 0) :: post') := by
    rw [hptr]; exact mem_blocksFrom_mid _ _ _ _ _
  have hb2 : (ptr + c, n, 0) ∈ blocksFrom 8 (st.heap_listp + 8)
      (pre ++ (c, 1) :: (n, 0) :: post') := by
    have := mem_blocksFrom_mid (st.heap_listp + 8) (pre ++ [(c, 1)]) post' n 0
    rw [sum_concat] at this
    simp only [List.append_assoc, List.singleton_append] at this
    have e : st.heap_listp + 8 + ((pre.map Prod.fst).sum + c) + 8 = ptr + c := by omega
    rw [e] at this
    exact this
  have c32 := (Tiles_block h.tiles hb1).2.2.1
  have c8 := (Tiles_block h.tiles hb1).2.2.2.1
  have hge1 := (Tiles_block h.tiles hb1).2.2.2.2.2.1
  have n32 := (Tiles_block h.tiles hb2).2.2.1
  have n8 := (Tiles_block h.tiles hb2).2.2.2.1
  have hend2 := (Tiles_block h.tiles hb2).2.2.2.2.2.2.1
  have hN : ptr + c ∈ fl := h.mem_fl.mpr ⟨n, hb2⟩
  have hP : ptr ∉ fl := fun hin => by
    obtain ⟨s, hs⟩ := h.mem_fl.mp hin
    have := (block_addr_unique h.tiles hs hb1).2
    omega
  obtain ⟨hc1, hf1⟩ := slice_node h.chain hnd hsep hlt hN
  have hK : ∀ x ∈ fl.filter (fun x => decide (x ≠ ptr + c)), x ∈ fl :=
    fun x hx => List.mem_of_mem_filter hx
  have hout : ∀ x ∈ fl.filter (fun x => decide (x ≠ ptr + c)),
      x + 16 ≤ ptr - 8 ∨ ptr + (c + n) ≤ x := by
    intro x hx
    have hx' := List.mem_filter.mp hx
    have hne : x ≠ ptr + c := by simpa using hx'.2
    have o1 := h.node_outside hb1 hx'.1 (fun e => hP (e ▸ hx'.1))
    have o2 := h.node_outside hb2 hx'.1 hne
    omega
  have haux := efl_slice_aux 8 st (ptr + c)
  obtain ⟨s1, hs1⟩ : ∃ s1, s1 = efl_slice 8 st (ptr + c) := ⟨_, rfl⟩
  rw [← hs1] at hm3 hG hc1 hf1 haux
  have q1 : stG.heap_listp = st.heap_listp := by rw [hG]; exact haux.heap_listp
  have q2 : stG.mem_brk = st.mem_brk := by rw [hG]; exact haux.mem_brk
  have q3 : stG.mem_max_addr = st.mem_max_addr := by rw [hG]; exact haux.mem_max_addr
  have q4 : stG.mem = m3 := by rw [hG]
  have q5 : stG.ef_listp = s1.ef_listp := by rw [hG]
  clear hG
  obtain ⟨eF, g1, g2, F12⟩ := retag_block s1.mem ptr (c + n) 1
    (by omega) (le_refl 1) (by omega) (by omega) (by omega)
  rw [← hm3] at g1 g2 F12
  clear hm3
  have ea : st.heap_listp + 8 + (pre.map Prod.fst).sum = ptr - 8 := by omega
  have eb : ptr - 8 + (c + n) - 8 = ptr + (c + n) - 16 := by omega
  have hperm := h.perm
  rw [freeBlocks_mid_alloc, freeBlocks_cons_free] at hperm
  have eN : st.heap_listp + 8 + (pre.map Prod.fst).sum + c + 8 = ptr + c := by omega
  rw [eN] at hperm
  have hfr : Frame (fun a => (st.heap_listp + 8 + (pre.map Prod.fst).sum ≤ a ∧
      a < st.heap_listp + 8 + (pre.map Prod.fst).sum + ([(c, 1), (n, 0)].map Prod.fst).sum) ∨
      LinkByte 8 fl a) st.mem stG.mem := by
    rw [q4]
    refine (hf1.mono (fun a ha => Or.inr ha)).trans (F12.mono (fun a ha => Or.inl ?_))
    simp only [List.map_cons, List.map_nil, List.sum_cons, List.sum_nil]
    omega
  have hmid : Tiles 8 stG.mem (st.heap_listp + 8 + (pre.map Prod.fst).sum) [(c + n, 1)]
      (st.heap_listp + 8 + (pre.map Prod.fst).sum + ([(c, 1), (n, 0)].map Prod.fst).sum) := by
    rw [q4, ea]
    refine ⟨g1, ?_, by omega, by omega, le_refl 1, ?_⟩
    · show GET 8 _ (ptr - 8 + (c + n) - 8) = _
      rw [eb]; exact g2
    · show ptr - 8 + (c + n) = _
      simp only [List.map_cons, List.map_nil, List.sum_cons, List.sum_nil]
      omega
  have hch : FreeChain 8 stG.mem NULL stG.ef_listp
      (fl.filter (fun x => decide (x ≠ ptr + c))) := by
    rw [q4, q5]
    exact FreeChain_frame F12 (fun x hx a h1 h2 hP => by have := hout x hx; omega)
      (fun x hx => hlt x (hK x hx)) hc1
  have hpm : (fl.filter (fun x => decide (x ≠ ptr + c))).Perm
      (freeBlocks 8 (st.heap_listp + 8) (pre ++ ([(c + n, 1)] ++ post'))) := by
    rw [List.singleton_append, freeBlocks_mid_alloc]
    have := perm_filter_ne hperm hnd
    have e : st.heap_listp + 8 + (pre.map Prod.fst).sum + (c + n)
      = st.heap_listp + 8 + (pre.map Prod.fst).sum + c + n := by omega
    rw [e]; exact this
  have hadj : NoAdjFree (pre ++ ([(c + n, 1)] ++ post')) :=
    NoAdjFree_append (NoAdjFree_left h.no_adj)
      (by
        have := NoAdjFree_tail (NoAdjFree_tail (NoAdjFree_right h.no_adj))
        cases post' with
        | nil => trivial
        | cons y ys => exact ⟨fun hh => absurd hh.1 Nat.one_ne_zero, this⟩)
      (fun a b _ hb hh => by
        cases hb
        exact absurd hh.2 Nat.one_ne_zero)
  exact ⟨@HeapLayout.replace _ _ _ _ _ _ _ [(c, 1), (n, 0)] _ _ h (by simp) (fun x hx => hx) q1 q2 q3 hfr hmid hch
    hpm hadj, q1⟩

/-- The paths of `mm_realloc` for a non-NULL pointer and a size other than 0. -/
theorem mm_realloc_cases {fuel : Nat} {st st' : State} {ptr size q : Nat}
    (hs : size ≠ 0) (hp : ptr ≠ NULL)
    (hr : mm_realloc 8 fuel st ptr size = some (st', q)) :
    (GET_SIZE 8 st.mem (HDRP 8 ptr) > realloc_asize 8 size ∧ st' = st ∧ q = ptr) ∨
    (¬ GET_SIZE 8 st.mem (HDRP 8 ptr) > realloc_asize 8 size ∧
      (GET_ALLOC 8 st.mem (HDRP 8 (NEXT_BLKP 8 st.mem ptr)) = 0 ∧
        wadd 8 (GET_SIZE 8 st.mem (HDRP 8 ptr))
          (GET_SIZE 8 st.mem (HDRP 8 (NEXT_BLKP 8 st.mem ptr))) > realloc_asize 8 size) ∧
      q = ptr ∧
      ∃ m3, m3 = PUT 8 (PUT 8 (efl_slice 8 st (NEXT_BLKP 8 st.mem ptr)).mem (HDRP 8 ptr)
            (PACK (wadd 8 (GET_SIZE 8 st.mem (HDRP 8 ptr))
              (GET_SIZE 8 st.mem (HDRP 8 (NEXT_BLKP 8 st.mem ptr)))) 1))
          (FTRP 8 (PUT 8 (efl_slice 8 st (NEXT_BLKP 8 st.mem ptr)).mem (HDRP 8 ptr)
            (PACK (wadd 8 (GET_SIZE 8 st.mem (HDRP 8 ptr))
              (GET_SIZE 8 st.mem (HDRP 8 (NEXT_BLKP 8 st.mem ptr)))) 1)) ptr)
          (PACK (wadd 8 (GET_SIZE 8 st.mem (HDRP 8 ptr))
            (GET_SIZE 8 st.mem (HDRP 8 (NEXT_BLKP 8 st.mem ptr)))) 1) ∧
        st' = { efl_slice 8 st (NEXT_BLKP 8 st.mem ptr) with mem := m3 }) ∨
    (¬ GET_SIZE 8 st.mem (HDRP 8 ptr) > realloc_asize 8 size ∧
      ¬ (GET_ALLOC 8 st.mem (HDRP 8 (NEXT_BLKP 8 st.mem ptr)) = 0 ∧
        wadd 8 (GET_SIZE 8 st.mem (HDRP 8 ptr))
          (GET_SIZE 8 st.mem (HDRP 8 (NEXT_BLKP 8 st.mem ptr))) > realloc_asize 8 size) ∧
      ∃ st1 newptr, mm_malloc 8 fuel st size = some (st1, newptr) ∧
        ((newptr = NULL ∧ st' = st1 ∧ q = NULL) ∨
         (newptr ≠ NULL ∧ q = newptr ∧
           ∃ m2, m2 = memcpy st1.mem newptr ptr
             (if size < GET_SIZE 8 st.mem (HDRP 8 ptr) then size
              else GET_SIZE 8 st.mem (HDRP 8 ptr)) ∧
             st' = mm_free 8 { st1 with mem := m2 } ptr))) := by
  unfold mm_realloc at hr
  rw [if_neg hs, if_neg hp] at hr
  dsimp only at hr
  by_cases h1 : GET_SIZE 8 st.mem (HDRP 8 ptr) > realloc_asize 8 size
  · rw [if_pos h1] at hr
    cases Option.some.inj hr
    exact Or.inl ⟨h1, rfl, rfl⟩
  · rw [if_neg h1] at hr
    by_cases h2 : GET_ALLOC 8 st.mem (HDRP 8 (NEXT_BLKP 8 st.mem ptr)) = 0 ∧
        wadd 8 (GET_SIZE 8 st.mem (HDRP 8 ptr))
          (GET_SIZE 8 st.mem (HDRP 8 (NEXT_BLKP 8 st.mem ptr))) > realloc_asize 8 size
    · rw [if_pos h2] at hr
      cases Option.some.inj hr
      exact Or.inr (Or.inl ⟨h1, h2, rfl, _, rfl, rfl⟩)
    · rw [if_neg h2] at hr
      refine Or.inr (Or.inr ⟨h1, h2, ?_⟩)
      cases hm : mm_malloc 8 fuel st size with
      | none => rw [hm] at hr; cases hr
      | some r =>
        obtain ⟨st1, newptr⟩ := r
        rw [hm] at hr
        dsimp only at hr
        refine ⟨st1, newptr, rfl, ?_⟩
        by_cases hn : newptr = NULL
        · rw [if_pos hn] at hr
          cases Option.some.inj hr
          exact Or.inl ⟨hn, rfl, rfl⟩
        · rw [if_neg hn] at hr
          cases Option.some.inj hr
          exact Or.inr ⟨hn, rfl, _, rfl, rfl⟩

/-- The header after a block of a well-formed heap: the epilogue header, or
the header of the next block. -/
theorem HeapLayout.next_tag {st : State} {pre post : List (Nat × Nat)} {c al : Nat}
    {fl : List Nat} (h : HeapLayout 8 st (pre ++ (c, al) :: post) fl) {ptr : Nat}
    (hptr : ptr = st.heap_listp + 8 + (pre.map Prod.fst).sum + 8) :
    (post = [] ∧ GET 8 st.mem (ptr + c - 8) = PACK 0 1) ∨
    (∃ n al' post', post = (n, al') :: post' ∧ GET 8 st.mem (ptr + c - 8) = PACK n al' ∧
      n % 8 = 0 ∧ al' ≤ 1 ∧ 32 ≤ n ∧ ptr + c + n ≤ st.mem_brk) := by
  obtain ⟨cp, hpre, g1, g2, g3, g4, g5, hpost⟩ := Tiles_append.mp h.tiles
  have hend := Tiles_end hpre
  have hle := Tiles_le hpost
  have hbg := h.brk_ge
  simp only at g3 hpost hle
  clear g1 g2
  cases post with
  | nil =>
    left
    have he : cp + c = st.mem_brk - 8 := hpost
    have : ptr + c - 8 = st.mem_brk - 8 := by omega
    rw [this]
    exact ⟨rfl, h.epilogue⟩
  | cons b post' =>
    right
    obtain ⟨q1, q2, q3, q4, q5, q6⟩ := hpost
    have hq := Tiles_le q6
    obtain ⟨s, al'⟩ := b
    simp only at q1 q3 q4 q5 hq
    clear q2
    have e : ptr + c - 8 = cp + c := by omega
    exact ⟨s, al', post', rfl, by rw [e]; exact q1, q4, q5, q3, by omega⟩

theorem mm_free_null (st : State) : mm_free 8 st NULL = { st with extendorfree := 1 } := by
  unfold mm_free
  rw [if_pos rfl]

/-- `mm_realloc` keeps the heap well formed, for a request of at most
`2^64 - 32` bytes and a pointer that is NULL or an allocated block: the other
allocated blocks stay, a non-NULL result for `size > 0` is an allocated block
with room for the request, and when the result is NULL for `size > 0` the
block `ptr` stays allocated. -/
theorem mm_realloc_layout {st st' : State} {bs : List (Nat × Nat)} {fl : List Nat}
    {fuel ptr size q : Nat} (h : HeapLayout 8 st bs fl) (hsz : size + 32 ≤ 2 ^ 64)
    (hptr : ptr = NULL ∨ ∃ c, (ptr, c, 1) ∈ blocksFrom 8 (st.heap_listp + 8) bs)
    (hr : mm_realloc 8 fuel st ptr size = some (st', q)) :
    ∃ bs' fl', HeapLayout 8 st' bs' fl' ∧ st'.heap_listp = st.heap_listp ∧
      (∀ b ∈ blocksFrom 8 (st.heap_listp + 8) bs, b.2.2 = 1 → b.1 ≠ ptr →
        b ∈ blocksFrom 8 (st.heap_listp + 8) bs' ∧ (size ≠ 0 → b.1 ≠ q)) ∧
      (size ≠ 0 → q ≠ NULL → ∃ t, (q, t, 1) ∈ blocksFrom 8 (st.heap_listp + 8) bs' ∧
        size + 16 ≤ t) ∧
      (size ≠ 0 → q = NULL → ∀ c, (ptr, c, 1) ∈ blocksFrom 8 (st.heap_listp + 8) bs →
        (ptr, c, 1) ∈ blocksFrom 8 (st.heap_listp + 8) bs') := by
  by_cases hs : size = 0
  · -- `size == 0`: free
    unfold mm_realloc at hr
    rw [if_pos hs] at hr
    cases Option.some.inj hr
    rcases hptr with rfl | ⟨c, hc⟩
    · rw [mm_free_null]
      exact ⟨bs, fl, h.congr rfl rfl rfl rfl rfl, rfl, fun b hb _ _ => ⟨hb, fun h0 => absurd hs h0⟩,
        fun h0 => absurd hs h0, fun h0 => absurd hs h0⟩
    · obtain ⟨bs', fl', hl, e1, hkeep⟩ := mm_free_layout h hc
      exact ⟨bs', fl', hl, e1, fun b hb h1 hne => ⟨hkeep b hb h1 hne, fun h0 => absurd hs h0⟩,
        fun h0 => absurd hs h0, fun h0 => absurd hs h0⟩
  · rcases hptr with rfl | ⟨c, hc⟩
    · -- `ptr == NULL`: malloc
      unfold mm_realloc at hr
      rw [if_neg hs, if_pos rfl] at hr
      obtain ⟨bs', fl', hl, e1, hkeep, hq⟩ := mm_malloc_layout h hsz hr
      exact ⟨bs', fl', hl, e1, fun b hb h1 _ => ⟨(hkeep b hb h1).1, fun _ => (hkeep b hb h1).2⟩,
        fun _ => hq, fun _ _ c hc => by
          have := (Tiles_block h.tiles hc).2.2.2.2.2.1
          unfold NULL at this; omega⟩
    · have hpn : ptr ≠ NULL := by
        have := (Tiles_block h.tiles hc).2.2.2.2.2.1
        unfold NULL; omega
      obtain ⟨a32, a8, acap, alt⟩ := asize_facts hsz
      rw [malloc_asize_eq_realloc_asize] at a32 a8 acap alt
      have eN := (h.block_macros hc).2.2.1
      have eC := (h.block_macros hc).2.2.2.1
      have cases' := mm_realloc_cases hs hpn hr
      rw [eC, eN] at cases'
      rcases cases' with ⟨h1, rfl, rfl⟩ | ⟨h1, h2, rfl, m3, hm3, rfl⟩ |
        ⟨h1, h2, st1, newptr, hm, hcase⟩
      · -- the block is large enough
        exact ⟨bs, fl, h, rfl, fun b hb _ hne => ⟨hb, fun _ => hne⟩,
          fun _ _ => ⟨c, hc, by omega⟩, fun _ hq => absurd hq hpn⟩
      · -- growth in place
        obtain ⟨pre, post, hbs, hbp⟩ := blocksFrom_split hc
        subst hbs
        have hmax := h.max_lt'
        have hbrk := h.brk_le
        have hge := (Tiles_block h.tiles hc).2.2.2.2.2.1
        have hend := (Tiles_block h.tiles hc).2.2.2.2.2.2.1
        have hbg := h.brk_ge
        have c8 := (Tiles_block h.tiles hc).2.2.2.1
        rcases h.next_tag hbp with ⟨_, tn⟩ | ⟨n, al', post', rfl, tn, n8, hal, n32, hnb⟩
        · have eH2 : HDRP 8 (q + c) = q + c - 8 := HDRP_eq (by omega) (by omega)
          rw [eH2, GET_ALLOC_of_tag tn (by decide) (le_refl 1)] at h2
          exact absurd h2.1 Nat.one_ne_zero
        · have eH2 : HDRP 8 (q + c) = q + c - 8 := HDRP_eq (by omega) (by omega)
          have eH : HDRP 8 q = q - 8 := HDRP_eq (by omega) (by omega)
          rw [eH2, GET_ALLOC_of_tag tn n8 hal, GET_SIZE_of_tag tn n8 hal,
            wadd8_of_lt (by omega)] at h2
          rw [eH2, GET_SIZE_of_tag tn n8 hal, wadd8_of_lt (by omega), eH] at hm3
          clear tn
          obtain ⟨rfl, hgt⟩ := h2
          have eF := (retag_block (efl_slice 8 st (q + c)).mem q (c + n) 1 (by omega) (le_refl 1)
            (by omega) (by omega) (by omega)).1
          rw [eF] at hm3
          obtain ⟨hl, e1⟩ := realloc_grow_layout h hbp hm3 rfl
          refine ⟨_, _, hl, e1, fun b hb hb1 hne => ⟨?_, fun _ => hne⟩,
            fun _ _ => ⟨c + n, ?_, by omega⟩, fun _ hq => absurd hq hpn⟩
          · rcases @blocksFrom_replace_mem _ pre [(c, 1), (n, 0)]
              [(c + n, 1)] post' (by simp) _ (by simpa using hb) with hh | hh
            · exact hh
            · exfalso
              simp only [blocksFrom, List.mem_cons, List.mem_nil_iff, or_false,
                List.not_mem_nil] at hh
              rcases hh with hh | hh
              · rw [hh] at hne; simp only at hne; omega
              · rw [hh] at hb1; simp at hb1
          · rw [hbp]; exact mem_blocksFrom_mid _ _ _ _ _
      · -- a new block
        obtain ⟨bs1, fl1, hl1, e1, hkeep1, hq1⟩ := mm_malloc_layout h hsz hm
        rcases hcase with ⟨hn, rfl, rfl⟩ | ⟨hn, rfl, m2, hm2, rfl⟩
        · exact ⟨bs1, fl1, hl1, e1, fun b hb hb1 _ => ⟨(hkeep1 b hb hb1).1, fun _ => by
            rw [← hn]; exact (hkeep1 b hb hb1).2⟩, fun _ hq => absurd rfl hq,
            fun _ _ c' hc' => (hkeep1 _ hc' rfl).1⟩
        · obtain ⟨t, ht, hcap⟩ := hq1 hn
          have hc1 := (hkeep1 _ hc rfl).1
          have hne1 : ptr ≠ q := (hkeep1 _ hc rfl).2
          rw [← e1] at ht hc1
          have hfr : Frame (fun a => q ≤ a ∧ a < q + t - 16) st1.mem m2 := by
            rw [hm2]
            refine (memcpy_frame _ _ _ _).mono (fun a ha => ⟨ha.1, ?_⟩)
            have := ha.2
            split_ifs at this <;> omega
          have hl2 := payload_write_layout hl1 ht hfr
          obtain ⟨bs', fl', hl, e2, hkeep⟩ := @mm_free_layout { st1 with mem := m2 } _ _ _ _
            hl2 hc1
          have e2' : (mm_free 8 { st1 with mem := m2 } ptr).heap_listp = st1.heap_listp := e2
          have hkeep' : ∀ b ∈ blocksFrom 8 (st1.heap_listp + 8) bs1, b.2.2 = 1 → b.1 ≠ ptr →
              b ∈ blocksFrom 8 (st1.heap_listp + 8) bs' := hkeep
          rw [e1] at hkeep' ht
          refine ⟨bs', fl', hl, by rw [e2', e1],
            fun b hb hb1 hne => ⟨hkeep' b (hkeep1 b hb hb1).1 hb1 hne, fun _ =>
              (hkeep1 b hb hb1).2⟩,
            fun _ _ => ⟨t, hkeep' _ ht rfl (fun e => hne1 e.symm), hcap⟩,
            fun _ hq => absurd hq hn⟩

/-! ## `mm_init` -/

/-- `mm_init` when the first `mem_sbrk` succeeds: sentinels, then
`extend_heap`. -/
theorem mm_init_eq (st : State) (hok : st.mem_brk + 24 ≤ st.mem_max_addr)
    (hmax : st.mem_max_addr < 2 ^ 64 - 1) (m3 : Mem)
    (hm3 : m3 = PUT 8 (PUT 8 (PUT 8 st.mem st.mem_brk (PACK 16 1)) (st.mem_brk + 8) (PACK 16 1))
      (st.mem_brk + 16) (PACK 0 1))
    (stI : State)
    (hI : stI =
      { st with
        extendorfree := 0, lastfailedsize := 0, mem_brk := st.mem_brk + 24,
        sbrk_calls := st.sbrk_calls + 1, mem := m3, heap_listp := st.mem_brk + 8,
        ef_listp := NULL }) :
    mm_init 8 st = if (extend_heap 8 stI 4096).2 = NULL then ((extend_heap 8 stI 4096).1, none)
      else ((extend_heap 8 stI 4096).1, some ()) := by
  unfold mm_init mem_sbrk
  have h1 : ¬ (st.mem_brk + 3 * WSIZE 8 > st.mem_max_addr) := by
    show ¬ (st.mem_brk + 3 * 8 > st.mem_max_addr)
    omega
  have h2 : ¬ (st.mem_brk = WMOD 8 - 1) := by rw [WMOD_eight]; omega
  have e1 : wadd 8 st.mem_brk (1 * WSIZE 8) = st.mem_brk + 8 := wadd8_of_lt (by
    show st.mem_brk + 1 * 8 < 2 ^ 64
    omega)
  have e2 : wadd 8 st.mem_brk (2 * WSIZE 8) = st.mem_brk + 16 := wadd8_of_lt (by
    show st.mem_brk + 2 * 8 < 2 ^ 64
    omega)
  simp only [if_neg h1, if_neg h2, e1, e2]
  rw [hI, hm3]
  rfl

/-- Preconditions on the state of memlib before `mm_init`: the break is
8-byte aligned and the limit lies below `(void *)-1`. -/
theorem mm_init_layout {st : State} (hal : st.mem_brk % 8 = 0)
    (hmax : st.mem_max_addr < 2 ^ 64 - 1) (hok : (mm_init 8 st).2 = some ()) :
    ∃ bs fl, HeapLayout 8 (mm_init 8 st).1 bs fl := by
  by_cases h1 : st.mem_brk + 24 ≤ st.mem_max_addr
  · obtain ⟨m3, hm3⟩ : ∃ m3, m3 = PUT 8 (PUT 8 (PUT 8 st.mem st.mem_brk (PACK 16 1))
      (st.mem_brk + 8) (PACK 16 1)) (st.mem_brk + 16) (PACK 0 1) := ⟨_, rfl⟩
    obtain ⟨stI, hI⟩ : ∃ stI : State, stI =
      { st with
        extendorfree := 0, lastfailedsize := 0, mem_brk := st.mem_brk + 24,
        sbrk_calls := st.sbrk_calls + 1, mem := m3, heap_listp := st.mem_brk + 8,
        ef_listp := NULL } := ⟨_, rfl⟩
    have heq := mm_init_eq st h1 hmax m3 hm3 stI hI
    have q1 : stI.mem = m3 := by rw [hI]
    have q2 : stI.mem_brk = st.mem_brk + 24 := by rw [hI]
    have q3 : stI.mem_max_addr = st.mem_max_addr := by rw [hI]
    have q4 : stI.heap_listp = st.mem_brk + 8 := by rw [hI]
    have q5 : stI.ef_listp = NULL := by rw [hI]
    clear hI
    have hp16 : PACK 16 1 < 2 ^ 64 := by decide
    have hp0 : PACK 0 1 < 2 ^ 64 := by decide
    have g1 : GET 8 m3 st.mem_brk = PACK 16 1 := by
      rw [hm3, GET_PUT_ne _ _ _ _ (by omega), GET_PUT_ne _ _ _ _ (by omega),
        GET_PUT_eq _ _ _ hp16]
    have g2 : GET 8 m3 (st.mem_brk + 8) = PACK 16 1 := by
      rw [hm3, GET_PUT_ne _ _ _ _ (by omega), GET_PUT_eq _ _ _ hp16]
    have g3 : GET 8 m3 (st.mem_brk + 16) = PACK 0 1 := by
      rw [hm3, GET_PUT_eq _ _ _ hp0]
    clear hm3
    have hlay : HeapLayout 8 stI [] [] := by
      constructor
      · rw [q4]; omega
      · rw [q4]; omega
      · rw [q4, q1]
        have : st.mem_brk + 8 - 8 = st.mem_brk := by omega
        rw [this]; exact g1
      · rw [q4, q1]; exact g2
      · rw [q4, q2]
        show st.mem_brk + 8 + 8 = st.mem_brk + 24 - 8
        omega
      · rw [q2, q1]
        have : st.mem_brk + 24 - 8 = st.mem_brk + 16 := by omega
        rw [this]; exact g3
      · rw [q2, q3]; exact h1
      · rw [q3, WMOD_eight]; omega
      · rw [q5]; rfl
      · exact List.Perm.refl _
      · trivial
    rw [heq]
    by_cases h2 : stI.mem_brk + (4096 + 4096 % 2) * 8 ≤ stI.mem_max_addr
    · obtain ⟨bs', fl', T, hl, _, hin, _⟩ := extend_heap_layout hlay 4096 (by norm_num)
        (by norm_num) h2
      have hne : (extend_heap 8 stI 4096).2 ≠ NULL := hl.chain.ne_null hin
      rw [if_neg hne]
      exact ⟨bs', fl', hl⟩
    · rw [heq, extend_heap_fail stI 4096 (by norm_num) (by omega)] at hok
      simp at hok
  · exfalso
    unfold mm_init mem_sbrk at hok
    have h1' : st.mem_brk + 3 * WSIZE 8 > st.mem_max_addr := by
      show st.mem_brk + 3 * 8 > st.mem_max_addr
      omega
    simp only [if_pos h1'] at hok
    simp at hok

/-! ## Runs within the caller contract -/

/-- The invariant of runs: the heap is well formed, the live pointers are
distinct, and each is the payload address of an allocated block. -/
theorem Run.layout {st : State} {L : List Nat} (h : Run 8 st L) :
    ∃ bs fl, HeapLayout 8 st bs fl ∧ L.Nodup ∧
      ∀ p ∈ L, ∃ s, (p, s, 1) ∈ blocksFrom 8 (st.heap_listp + 8) bs := by
  induction h with
  | init st0 hal hmax hok =>
    rw [WMOD_eight] at hmax
    obtain ⟨bs, fl, hl⟩ := mm_init_layout hal (by omega) hok
    exact ⟨bs, fl, hl, List.nodup_nil, fun p hp => absurd hp (List.not_mem_nil p)⟩
  | malloc st L fuel size r _ hsz hr ih =>
    obtain ⟨bs, fl, hl, hnd, hlive⟩ := ih
    rw [WMOD_eight] at hsz
    obtain ⟨st', p⟩ := r
    obtain ⟨bs', fl', hl', e1, hkeep, hp⟩ := mm_malloc_layout hl (by omega) hr
    refine ⟨bs', fl', hl', ?_, ?_⟩
    · show (if p = NULL then L else p :: L).Nodup
      by_cases h0 : p = NULL
      · rw [if_pos h0]; exact hnd
      · rw [if_neg h0]
        refine List.nodup_cons.mpr ⟨fun hin => ?_, hnd⟩
        obtain ⟨s, hs⟩ := hlive p hin
        exact (hkeep _ hs rfl).2 rfl
    · show ∀ x ∈ (if p = NULL then L else p :: L), ∃ s, (x, s, 1) ∈ blocksFrom 8 (st'.heap_listp + 8) bs'
      rw [e1]
      intro x hx
      by_cases h0 : p = NULL
      · rw [if_pos h0] at hx
        obtain ⟨s, hs⟩ := hlive x hx
        exact ⟨s, (hkeep _ hs rfl).1⟩
      · rw [if_neg h0] at hx
        rcases List.mem_cons.mp hx with rfl | hx
        · obtain ⟨t, ht, _⟩ := hp h0
          exact ⟨t, ht⟩
        · obtain ⟨s, hs⟩ := hlive x hx
          exact ⟨s, (hkeep _ hs rfl).1⟩
  | free st L bp _ hbp ih =>
    obtain ⟨bs, fl, hl, hnd, hlive⟩ := ih
    obtain ⟨c, hc⟩ := hlive bp hbp
    obtain ⟨bs', fl', hl', e1, hkeep⟩ := mm_free_layout hl hc
    refine ⟨bs', fl', hl', hnd.erase bp, ?_⟩
    rw [e1]
    intro x hx
    have hx' := (List.Nodup.mem_erase_iff hnd).mp hx
    obtain ⟨s, hs⟩ := hlive x hx'.2
    exact ⟨s, hkeep _ hs rfl hx'.1⟩
  | free_null st L _ ih =>
    obtain ⟨bs, fl, hl, hnd, hlive⟩ := ih
    rw [mm_free_null]
    exact ⟨bs, fl, hl.congr rfl rfl rfl rfl rfl, hnd, hlive⟩
  | realloc st L fuel ptr size r _ hptr hsz hr ih =>
    obtain ⟨bs, fl, hl, hnd, hlive⟩ := ih
    rw [WMOD_eight] at hsz
    obtain ⟨st', q⟩ := r
    have hptr' : ptr = NULL ∨ ∃ c, (ptr, c, 1) ∈ blocksFrom 8 (st.heap_listp + 8) bs :=
      hptr.imp id (hlive ptr)
    obtain ⟨bs', fl', hl', e1, hkeep, hq, hfail⟩ := mm_realloc_layout hl (by omega) hptr' hr
    have herase : ∀ x ∈ L.erase ptr, ∃ s, (x, s, 1) ∈ blocksFrom 8 (st.heap_listp + 8) bs' ∧
        (size ≠ 0 → x ≠ q) := by
      intro x hx
      have hx' := (List.Nodup.mem_erase_iff hnd).mp hx
      obtain ⟨s, hs⟩ := hlive x hx'.2
      exact ⟨s, hkeep _ hs rfl hx'.1⟩
    have hnull : NULL ∉ L := by
      intro hin
      obtain ⟨s, hs⟩ := hlive NULL hin
      have := (Tiles_block hl.tiles hs).2.2.2.2.2.1
      have e0 : NULL = 0 := rfl
      omega
    refine ⟨bs', fl', hl', ?_, ?_⟩
    · show (if size = 0 then L.erase ptr else if q = NULL then L else q :: L.erase ptr).Nodup
      by_cases hs0 : size = 0
      · rw [if_pos hs0]; exact hnd.erase ptr
      · rw [if_neg hs0]
        by_cases h0 : q = NULL
        · rw [if_pos h0]; exact hnd
        · rw [if_neg h0]
          refine List.nodup_cons.mpr ⟨fun hin => ?_, hnd.erase ptr⟩
          obtain ⟨s, _, hne⟩ := herase q hin
          exact hne hs0 rfl
    · show ∀ x ∈ (if size = 0 then L.erase ptr else if q = NULL then L else q :: L.erase ptr),
        ∃ s, (x, s, 1) ∈ blocksFrom 8 (st'.heap_listp + 8) bs'
      rw [e1]
      intro x hx
      by_cases hs0 : size = 0
      · rw [if_pos hs0] at hx
        obtain ⟨s, hs, _⟩ := herase x hx
        exact ⟨s, hs⟩
      · rw [if_neg hs0] at hx
        by_cases h0 : q = NULL
        · rw [if_pos h0] at hx
          by_cases hxp : x = ptr
          · obtain ⟨c, hc⟩ := hlive x hx
            rw [hxp] at hc ⊢
            exact ⟨c, hfail hs0 h0 c hc⟩
          · obtain ⟨s, hs, _⟩ := herase x ((List.Nodup.mem_erase_iff hnd).mpr ⟨hxp, hx⟩)
            exact ⟨s, hs⟩
        · rw [if_neg h0] at hx
          rcases List.mem_cons.mp hx with rfl | hx
          · obtain ⟨t, ht, _⟩ := hq hs0 h0
            exact ⟨t, ht⟩
          · obtain ⟨s, hs, _⟩ := herase x hx
            exact ⟨s, hs⟩
  | write st L p m' _ hp hf ih =>
    obtain ⟨bs, fl, hl, hnd, hlive⟩ := ih
    obtain ⟨t, ht⟩ := hlive p hp
    have e := (hl.block_macros ht).2.2.2.1
    rw [e] at hf
    exact ⟨bs, fl, payload_write_layout hl ht hf, hnd, hlive⟩

/-! ## The heap traversal on a well-formed heap -/

/-- Along a tiling that ends at the epilogue header, the heap traversal meets
exactly the blocks of the tiling. -/
theorem heap_walk_tiles {m : Mem} {e : Nat} (he : GET 8 m e = PACK 0 1) (hlt : e + 8 < 2 ^ 64) :
    ∀ (bs : List (Nat × Nat)) (a fuel : Nat), Tiles 8 m a bs e → bs.length ≤ fuel →
      heap_walk 8 m fuel (a + 8) = blocksFrom 8 a bs := by
  intro bs
  induction bs with
  | nil =>
    intro a fuel h _
    have ha : a = e := h
    cases fuel with
    | zero => rfl
    | succ f =>
      have eH : HDRP 8 (a + 8) = e := by
        rw [HDRP_eq (by omega) (by omega), ha]; omega
      have e0 : GET_SIZE 8 m e = 0 := GET_SIZE_of_tag he (by decide) (by decide)
      unfold heap_walk
      rw [eH, e0, if_neg (by decide)]
      rfl
  | cons b bs ih =>
    intro a fuel h hf
    cases fuel with
    | zero => exact absurd hf (by simp)
    | succ f =>
      have hb : (a + 8, b.1, b.2) ∈ blocksFrom 8 a (b :: bs) := List.mem_cons_self _ _
      obtain ⟨_, _, e1, e2, e3⟩ := Tiles_block_macros h hlt hb
      have s32 := (Tiles_block h hb).2.2.1
      have hr : Tiles 8 m (a + b.1) bs e := h.2.2.2.2.2
      have hlen : bs.length ≤ f := by
        have : (b :: bs).length = bs.length + 1 := rfl
        omega
      unfold heap_walk
      rw [e2, e3, e1, if_pos (by omega)]
      have e4 : a + 8 + b.1 = a + b.1 + 8 := by omega
      rw [e4, ih (a + b.1) f hr hlen]
      rfl

/-- On a well-formed heap the traversal of `checkheap`, given fuel for every
block, meets the prologue and then exactly the blocks of the layout. -/
theorem HeapLayout.walk_eq {st : State} {bs : List (Nat × Nat)} {fl : List Nat}
    (h : HeapLayout 8 st bs fl) {fuel : Nat} (hf : bs.length < fuel) :
    heap_walk 8 st.mem fuel st.heap_listp =
      (st.heap_listp, 16, 1) :: blocksFrom 8 (st.heap_listp + 8) bs := by
  have h1 := h.max_lt'
  have h2 := h.brk_le
  have h3 := h.brk_ge
  have hb := h.base
  have hp : GET 8 st.mem (st.heap_listp - 8) = PACK 16 1 := h.prologue_hdr
  cases fuel with
  | zero => exact absurd hf (by simp)
  | succ f =>
    have eH : HDRP 8 st.heap_listp = st.heap_listp - 8 := HDRP_eq hb (by omega)
    have e2 : GET_SIZE 8 st.mem (st.heap_listp - 8) = 16 :=
      GET_SIZE_of_tag hp (by decide) (by decide)
    have e3 : GET_ALLOC 8 st.mem (st.heap_listp - 8) = 1 :=
      GET_ALLOC_of_tag hp (by decide) (by decide)
    have e1 : NEXT_BLKP 8 st.mem st.heap_listp = st.heap_listp + 16 :=
      NEXT_BLKP_eq hp (by decide) (by decide) hb (by omega)
    have e4 : st.heap_listp + 16 = st.heap_listp + 8 + 8 := by omega
    unfold MyMalloc.heap_walk
    rw [eH, e2, e3, e1, if_pos (by decide), e4,
      heap_walk_tiles h.epilogue (by omega) bs (st.heap_listp + 8) f h.tiles (by omega)]

theorem blocksFrom_sizes {a0 : Nat} {m : Mem} {e : Nat} {bs : List (Nat × Nat)}
    (h : Tiles 8 m a0 bs e) : ∀ b ∈ blocksFrom 8 a0 bs, b.2.1 % 8 = 0 ∧ 32 ≤ b.2.1 := by
  intro b hb
  obtain ⟨x, s, al⟩ := b
  have := Tiles_block h hb
  exact ⟨this.2.2.2.1, this.2.2.1⟩

theorem some_getD {α : Type} {o : Option α} (d : α) (h : o.isSome = true) :
    o = some (o.getD d) := by
  cases o with
  | none => cases h
  | some x => rfl

/-! ## Claims C12 and C20 -/

/-- C12 (as amended: the unit is the word, not the double word). In every
state of a run within the caller contract, with request sizes of at most
`2^64 - 32` bytes at word size 8, the heap traversal from the prologue, given
fuel for every block, meets the prologue (2 words, allocated) and then blocks
whose size is a multiple of `WSIZE` and at least `4 * WSIZE`. -/
theorem C12_block_sizes (st : State) (L : List Nat) (h : Run 8 st L) :
    ∃ n bs, (∀ fuel, n ≤ fuel →
        heap_walk 8 st.mem fuel st.heap_listp = (st.heap_listp, 2 * WSIZE 8, 1) :: bs) ∧
      ∀ b ∈ bs, b.2.1 % WSIZE 8 = 0 ∧ 4 * WSIZE 8 ≤ b.2.1 := by
  obtain ⟨bs, fl, hl, _, _⟩ := h.layout
  exact ⟨bs.length + 1, blocksFrom 8 (st.heap_listp + 8) bs,
    fun fuel hf => hl.walk_eq (by omega), blocksFrom_sizes hl.tiles⟩

theorem C12_block_sizes_witness :
    ∃ n bs, (∀ fuel, n ≤ fuel →
        heap_walk 8 (run_24.getD (heap0, 0)).1.mem fuel (run_24.getD (heap0, 0)).1.heap_listp
          = ((run_24.getD (heap0, 0)).1.heap_listp, 2 * WSIZE 8, 1) :: bs) ∧
      ∀ b ∈ bs, b.2.1 % WSIZE 8 = 0 ∧ 4 * WSIZE 8 ≤ b.2.1 :=
  C12_block_sizes _ _ (Run.malloc heap0 [] 4 24 (run_24.getD (heap0, 0))
    (Run.init (fresh 4096 (2 ^ 20)) (by decide) (by decide!) (by decide!)) (by decide!)
    (some_getD _ (by decide!)))

/-- C20 fails as stated: the request `s = 2^64 - 25` satisfies
`s + 3 * WSIZE ≤ SIZE_MAX`, and on the heap of a successful `mm_init` the call
`mm_malloc(s)` returns 36888 and leaves a heap that is not well formed (the
header of the block 4120 carries size 32768, its footer the word 1). -/
theorem C20_bound_too_weak :
    (2 ^ 64 - 25) + 3 * WSIZE 8 ≤ 2 ^ 64 - 1 ∧
    (mm_init 8 (fresh 4096 (2 ^ 20))).2 = some () ∧ WellFormed 8 heap0 ∧
    run_corner.map Prod.snd = some 36888 ∧
    ¬ WellFormed 8 heap_corner := by
  refine ⟨by decide!, by decide!, ?_, by decide!, ?_⟩
  · obtain ⟨bs, fl, hl, _⟩ := (Run.init (fresh 4096 (2 ^ 20)) (by decide) (by decide!)
      (by decide!) : Run 8 heap0 []).layout
    exact ⟨bs, fl, hl⟩
  · rintro ⟨bs, fl, h⟩
    have f1 : heap_corner.heap_listp + 8 = 4112 := by decide!
    have f2 : heap_corner.mem_brk - 8 = 36880 := by decide!
    have f3 : GET 8 heap_corner.mem 4112 = 32768 := by decide!
    have f4 : GET 8 heap_corner.mem 36872 = 1 := by decide!
    have t := h.tiles
    rw [f1, f2] at t
    cases bs with
    | nil => exact absurd (show (4112 : Nat) = 36880 from t) (by decide)
    | cons b bs =>
      obtain ⟨g1, g2, _, g4, g5, _⟩ := t
      rw [f3, PACK_eq b.1 b.2 (by omega) g5] at g1
      have hb1 : b.1 = 32768 := by omega
      have hb2 : b.2 = 0 := by omega
      rw [hb1, hb2] at g2
      rw [show 4112 + 32768 - 8 = 36872 from rfl, f4] at g2
      exact absurd g2 (by decide)

/-- C20 (as amended: sizes `s` with `s + 4 * WSIZE ≤ SIZE_MAX + 1`, word size
8). A successful `mm_init` establishes and every `mm_malloc`, `mm_free` and
`mm_realloc` call within the caller contract, as well as every write of the
caller into a live payload, preserves heap well-formedness: in every state of
a run the prologue is allocated with size `2 * WSIZE`, the blocks tile the
region up to the zero-size allocated epilogue header with header equal to
footer and sizes that are multiples of `WSIZE` and at least `4 * WSIZE`, no two
adjacent blocks are free, and the free list is a NULL-terminated doubly linked
chain holding exactly the free blocks, each once. Every live pointer is the
payload address of an allocated block. -/
theorem C20_well_formed (st : State) (L : List Nat) (h : Run 8 st L) :
    ∃ bs fl, HeapLayout 8 st bs fl ∧
      ∀ p ∈ L, ∃ s, (p, s, 1) ∈ blocksFrom 8 (st.heap_listp + 8) bs := by
  obtain ⟨bs, fl, hl, _, hlive⟩ := h.layout
  exact ⟨bs, fl, hl, hlive⟩

theorem C20_well_formed_witness :
    ∃ bs fl, HeapLayout 8 live_d.1 bs fl ∧
      ∀ p ∈ [4152], ∃ s, (p, s, 1) ∈ blocksFrom 8 (live_d.1.heap_listp + 8) bs := by
  have h0 : Run 8 heap0 [] :=
    Run.init (fresh 4096 (2 ^ 20)) (by decide) (by decide!) (by decide!)
  have h1 := Run.malloc heap0 [] 4 16 live_a h0 (by decide!) (some_getD _ (by decide!))
  rw [show (if live_a.2 = NULL then [] else [live_a.2]) = [4120] from by decide!] at h1
  have h2 := Run.malloc live_a.1 [4120] 4 16 live_b h1 (by decide!) (some_getD _ (by decide!))
  rw [show (if live_b.2 = NULL then [4120] else [live_b.2, 4120]) = [4152, 4120]
    from by decide!] at h2
  have h3 := Run.free live_b.1 [4152, 4120] 4120 h2 (by decide)
  rw [show [4152, 4120].erase 4120 = [4152] from by decide] at h3
  have h4 := Run.realloc (mm_free 8 live_b.1 4120) [4152] 4 4152 48 live_d h3
    (Or.inr (by decide)) (by decide!) (some_getD _ (by decide!))
  rw [show (if 48 = 0 then [4152].erase 4152
      else if live_d.2 = NULL then [4152] else live_d.2 :: [4152].erase 4152) = [4152]
    from by decide!] at h4
  exact C20_well_formed live_d.1 [4152] h4

/-! ## Accesses and faults -/

/-- `coalesce` returns the block it was given, or a block whose predecessor
link it has stored to. -/
theorem coalesce_ret_or_acc (W : Nat) (st : State) (bp : Nat) :
    (coalesce W st bp).2 = bp ∨ word W (coalesce W st bp).2 ∈ coalesce_acc W st bp := by
  unfold coalesce coalesce_acc
  dsimp only
  split_ifs
  · left; rfl
  · left; rfl
  · right
    simp only [efl_insert_acc, List.mem_append, List.mem_cons, true_or, or_true]
  · right
    simp only [efl_insert_acc, List.mem_append, List.mem_cons, true_or, or_true]

theorem not_inRegion_null (W : Nat) (st : State) : ¬ InRegion W st (word W NULL) :=
  fun h => h.1 rfl

/-- The accesses of the loop of `find_fit` over a chain of nodes lie at the
headers and successor links of its nodes. -/
theorem find_fit_loop_acc_chain (W : Nat) (m : Mem) (asize : Nat) (l : List Nat)
    (prev cur fuel : Nat) (h : FreeChain W m prev cur l) :
    ∀ a ∈ find_fit_loop_acc W m asize fuel cur,
      ∃ b ∈ l, a = word W (HDRP W b) ∨ a = word W (wadd W b (WSIZE W)) := by
  induction l generalizing prev cur fuel with
  | nil =>
    have : cur = NULL := h
    cases fuel with
    | zero => intro a ha; cases ha
    | succ fuel =>
      intro a ha
      rw [find_fit_loop_acc, if_pos this] at ha
      cases ha
  | cons x l ih =>
    obtain ⟨hc, hx, _, hrest⟩ := h
    subst hc
    cases fuel with
    | zero => intro a ha; cases ha
    | succ fuel =>
      intro a ha
      rw [find_fit_loop_acc, if_neg hx] at ha
      by_cases hfit : asize ≤ GET_SIZE W m (HDRP W cur)
      · rw [if_pos hfit] at ha
        rcases List.mem_singleton.mp ha with rfl
        exact ⟨cur, List.mem_cons_self _ _, Or.inl rfl⟩
      · rw [if_neg hfit] at ha
        rcases List.mem_cons.mp ha with rfl | ha
        · exact ⟨cur, List.mem_cons_self _ _, Or.inl rfl⟩
        · rcases List.mem_cons.mp ha with rfl | ha
          · exact ⟨cur, List.mem_cons_self _ _, Or.inr rfl⟩
          · obtain ⟨b, hb, hab⟩ := ih _ _ _ hrest a ha
            exact ⟨b, List.mem_cons_of_mem _ hb, hab⟩

/-- On a well-formed heap the loads of `find_fit` stay inside the heap. -/
theorem find_fit_acc_inRegion {st : State} {bs : List (Nat × Nat)} {fl : List Nat}
    (hwf : HeapLayout 8 st bs fl) (fuel asize : Nat) :
    ∀ a ∈ find_fit_acc 8 fuel st asize, InRegion 8 st a := by
  intro a ha
  unfold find_fit_acc at ha
  split_ifs at ha
  · cases ha
  · obtain ⟨b, hb, hab⟩ := find_fit_loop_acc_chain 8 st.mem asize fl NULL st.ef_listp fuel
      hwf.chain a ha
    obtain ⟨s, hs⟩ := hwf.mem_fl.mp hb
    have hblk := Tiles_block hwf.tiles hs
    have k1 : st.heap_listp + 16 ≤ b := hblk.2.2.2.2.2.1
    have k2 : b + s ≤ st.mem_brk - 8 + 8 := hblk.2.2.2.2.2.2.1
    have k3 : 32 ≤ s := hblk.2.2.1
    clear hblk
    have hbrk := hwf.brk_le
    have hmax := hwf.max_lt'
    have hbg := hwf.brk_ge
    have e1 : HDRP 8 b = b - 8 := HDRP_eq (by omega) (by omega)
    have e2 : wadd 8 b (WSIZE 8) = b + 8 := wadd8_of_lt (by
      show b + 8 < 2 ^ 64
      omega)
    have e0 : NULL = 0 := rfl
    rcases hab with rfl | rfl
    · rw [e1]
      refine ⟨?_, ?_, ?_⟩
      · show b - 8 ≠ NULL
        omega
      · show st.heap_listp - 8 ≤ b - 8
        omega
      · show b - 8 + 8 ≤ st.mem_max_addr
        omega
    · rw [e2]
      refine ⟨?_, ?_, ?_⟩
      · show b + 8 ≠ NULL
        omega
      · show st.heap_listp - 8 ≤ b + 8
        omega
      · show b + 8 + 8 ≤ st.mem_max_addr
        omega

/-- The two outcomes of `extend_heap`: `mem_sbrk` fails and nothing is
accessed, or it succeeds and `coalesce` runs on the block at the old break. -/
theorem extend_heap_cases (st : State) (words : Nat) (hbrk : st.mem_brk ≠ WMOD 8 - 1) :
    ((extend_heap 8 st words).2 = NULL ∧ (extend_heap 8 st words).1.mem = st.mem ∧
      (extend_heap 8 st words).1.ef_listp = st.ef_listp ∧
      (extend_heap 8 st words).1.mem_brk = st.mem_brk ∧
      (extend_heap 8 st words).1.heap_listp = st.heap_listp ∧
      (extend_heap 8 st words).1.sbrk_calls = st.sbrk_calls + 1 ∧
      (extend_heap 8 st words).1.sbrk_fails = st.sbrk_fails + 1 ∧
      extend_heap_acc 8 st words = []) ∨
    ((extend_heap 8 st words).1.sbrk_fails = st.sbrk_fails ∧
      ((extend_heap 8 st words).2 = st.mem_brk ∨
        word 8 (extend_heap 8 st words).2 ∈ extend_heap_acc 8 st words)) := by
  unfold extend_heap extend_heap_acc mem_sbrk
  dsimp only
  generalize (if words % 2 ≠ 0 then wmul 8 (wadd 8 words 1) (WSIZE 8)
    else wmul 8 words (WSIZE 8)) = sz
  by_cases hfail : st.mem_brk + sz > st.mem_max_addr
  · left
    simp [if_pos hfail]
  · right
    simp only [if_neg hfail, if_neg hbrk]
    refine ⟨?_, ?_⟩
    · rw [(coalesce_aux 8 _ _).sbrk_fails]
    · rcases coalesce_ret_or_acc 8 { st with
          extendorfree := 1, mem_brk := st.mem_brk + sz, sbrk_calls := st.sbrk_calls + 1,
          mem := PUT 8 (PUT 8 (PUT 8 st.mem (HDRP 8 st.mem_brk) (PACK sz 0))
            (FTRP 8 (PUT 8 st.mem (HDRP 8 st.mem_brk) (PACK sz 0)) st.mem_brk) (PACK sz 0))
            (HDRP 8 (NEXT_BLKP 8 (PUT 8 (PUT 8 st.mem (HDRP 8 st.mem_brk) (PACK sz 0))
              (FTRP 8 (PUT 8 st.mem (HDRP 8 st.mem_brk) (PACK sz 0)) st.mem_brk) (PACK sz 0))
              st.mem_brk)) (PACK 0 1) } st.mem_brk with h | h
      · left; exact h
      · right
        exact List.mem_append_right _ h

theorem not_faults_nil (W : Nat) (st : State) : ¬ Faults W st [] := by
  rintro ⟨a, ha, _⟩
  cases ha

/-- On a well-formed heap `mm_malloc` returns in the embedding.  When none of
its accesses faults, the result is `NULL` exactly for `size = 0` or a failed
`mem_sbrk`, and then memory, the free-list head and the extent of the heap
are unchanged.  For `size = 0` and after a failed `mem_sbrk` the result is
`NULL` and no access faults. -/
theorem mm_malloc_null_checked (st : State) (bs : List (Nat × Nat)) (fl : List Nat)
    (fuel size : Nat) (hwf : HeapLayout 8 st bs fl) (hfuel : fl.length < fuel) :
    ∃ st' r, mm_malloc 8 fuel st size = some (st', r) ∧
      (¬ Faults 8 st (mm_malloc_acc 8 fuel st size) →
        (r = NULL ↔ size = 0 ∨
          (st'.sbrk_calls = st.sbrk_calls + 1 ∧ st'.sbrk_fails = st.sbrk_fails + 1)) ∧
        (r = NULL → st'.mem = st.mem ∧ st'.ef_listp = st.ef_listp ∧
          st'.mem_brk = st.mem_brk ∧ st'.heap_listp = st.heap_listp)) ∧
      (size = 0 ∨ (st'.sbrk_calls = st.sbrk_calls + 1 ∧ st'.sbrk_fails = st.sbrk_fails + 1) →
        r = NULL ∧ ¬ Faults 8 st (mm_malloc_acc 8 fuel st size)) := by
  by_cases h0 : size = 0
  · have hrun : mm_malloc 8 fuel st size = some (st, NULL) := by
      unfold mm_malloc; rw [if_pos h0]
    have hacc : mm_malloc_acc 8 fuel st size = [] := by
      unfold mm_malloc_acc; rw [if_pos h0]
    rw [hacc]
    exact ⟨st, NULL, hrun, fun _ => ⟨⟨fun _ => Or.inl h0, fun _ => rfl⟩,
      fun _ => ⟨rfl, rfl, rfl, rfl⟩⟩, fun _ => ⟨rfl, not_faults_nil 8 st⟩⟩
  · obtain ⟨st1, bp, hff, e1, e2, e3, e4, e5, e6, e7⟩ :=
      find_fit_total st fl fuel (malloc_asize 8 size) hwf.chain hfuel
    have hfacc := find_fit_acc_inRegion hwf fuel (malloc_asize 8 size)
    have hmax := hwf.max_lt'
    have hbrk := hwf.brk_le
    have hbg := hwf.brk_ge
    have hbrk1 : st1.mem_brk ≠ WMOD 8 - 1 := by
      rw [e2, WMOD_eight]; omega
    obtain ⟨words, hwords⟩ : ∃ words, words = MAX (malloc_asize 8 size) CHUNKSIZE / WSIZE 8 :=
      ⟨_, rfl⟩
    have hrun : mm_malloc 8 fuel st size =
        if bp ≠ NULL then some (place 8 st1 bp (malloc_asize 8 size), bp)
        else if (extend_heap 8 st1 words).2 = NULL then some ((extend_heap 8 st1 words).1, NULL)
        else some (place 8 (extend_heap 8 st1 words).1 (extend_heap 8 st1 words).2
          (malloc_asize 8 size), (extend_heap 8 st1 words).2) := by
      unfold mm_malloc
      rw [if_neg h0]
      dsimp only
      rw [hff, hwords]
    have hacc : mm_malloc_acc 8 fuel st size =
        find_fit_acc 8 fuel st (malloc_asize 8 size) ++
          (if bp ≠ NULL then place_acc 8 st1 bp (malloc_asize 8 size)
          else extend_heap_acc 8 st1 words ++
            (if (extend_heap 8 st1 words).2 = NULL then []
             else place_acc 8 (extend_heap 8 st1 words).1 (extend_heap 8 st1 words).2
              (malloc_asize 8 size))) := by
      unfold mm_malloc_acc
      rw [if_neg h0]
      dsimp only
      rw [hff, hwords]
    rw [hacc, hrun]
    clear hacc hrun hff
    -- a result other than `NULL` without a failed `mem_sbrk`
    have key : ∀ (st' : State) (r : Nat) (acc : List (Nat × Nat)), r ≠ NULL →
        st'.sbrk_fails = st.sbrk_fails →
        (¬ Faults 8 st acc →
          (r = NULL ↔ size = 0 ∨
            (st'.sbrk_calls = st.sbrk_calls + 1 ∧ st'.sbrk_fails = st.sbrk_fails + 1)) ∧
          (r = NULL → st'.mem = st.mem ∧ st'.ef_listp = st.ef_listp ∧
            st'.mem_brk = st.mem_brk ∧ st'.heap_listp = st.heap_listp)) ∧
        (size = 0 ∨ (st'.sbrk_calls = st.sbrk_calls + 1 ∧ st'.sbrk_fails = st.sbrk_fails + 1) →
          r = NULL ∧ ¬ Faults 8 st acc) := by
      intro st' r acc hr hf
      have hnot : ¬ (size = 0 ∨
          (st'.sbrk_calls = st.sbrk_calls + 1 ∧ st'.sbrk_fails = st.sbrk_fails + 1)) := by
        rintro (hz | ⟨_, hf'⟩)
        · exact h0 hz
        · omega
      exact ⟨fun _ => ⟨⟨fun h => absurd h hr, fun h => absurd h hnot⟩, fun h => absurd h hr⟩,
        fun h => absurd h hnot⟩
    by_cases hbp : bp = NULL
    · rw [if_neg (not_not.mpr hbp), if_neg (not_not.mpr hbp)]
      rcases extend_heap_cases st1 words hbrk1 with ⟨hn, m1, m2, m3, m4, m5, m6, m7⟩ | ⟨hf, hr⟩
      · rw [if_pos hn, if_pos hn, m7]
        refine ⟨_, NULL, rfl, fun _ => ⟨⟨fun _ => Or.inr ⟨?_, ?_⟩, fun _ => rfl⟩,
          fun _ => ⟨m1.trans e1, m2.trans e5, m3.trans e2, m4.trans e4⟩⟩, fun _ => ⟨rfl, ?_⟩⟩
        · rw [m5, e6]
        · rw [m6, e7]
        · rintro ⟨a, ha, hna⟩
          simp only [List.append_nil] at ha
          exact hna (hfacc a ha)
      · by_cases hr2 : (extend_heap 8 st1 words).2 = NULL
        · rw [if_pos hr2, if_pos hr2]
          have hflt : Faults 8 st (find_fit_acc 8 fuel st (malloc_asize 8 size) ++
              (extend_heap_acc 8 st1 words ++ [])) := by
            rcases hr with hr | hr
            · rw [hr2, e2] at hr
              have e0 : NULL = 0 := rfl
              omega
            · rw [hr2] at hr
              exact ⟨word 8 NULL, List.mem_append_right _ (List.mem_append_left _ hr),
                not_inRegion_null 8 st⟩
          have hnot : ¬ (size = 0 ∨
              ((extend_heap 8 st1 words).1.sbrk_calls = st.sbrk_calls + 1 ∧
                (extend_heap 8 st1 words).1.sbrk_fails = st.sbrk_fails + 1)) := by
            rintro (hz | ⟨_, hf'⟩)
            · exact h0 hz
            · rw [hf, e7] at hf'
              omega
          exact ⟨_, NULL, rfl, fun h => absurd hflt h, fun h => absurd h hnot⟩
        · rw [if_neg hr2, if_neg hr2]
          exact ⟨_, _, rfl, key _ _ _ hr2 (by rw [(place_aux 8 _ _ _).sbrk_fails, hf, e7])⟩
    · rw [if_pos hbp, if_pos hbp]
      exact ⟨_, _, rfl, key _ _ _ hbp (by rw [(place_aux 8 _ _ _).sbrk_fails, e7])⟩

/-- A `NULL` result of `mm_realloc` for a block and a size other than 0 is the
`NULL` result of its fallback `mm_malloc`, whose accesses are accesses of the
call. -/
theorem mm_realloc_null_path {st st' : State} {fuel ptr size : Nat} (hs : size ≠ 0)
    (hp : ptr ≠ NULL) (hr : mm_realloc 8 fuel st ptr size = some (st', NULL)) :
    mm_malloc 8 fuel st size = some (st', NULL) ∧
      ∀ a ∈ mm_malloc_acc 8 fuel st size, a ∈ mm_realloc_acc 8 fuel st ptr size := by
  unfold mm_realloc at hr
  unfold mm_realloc_acc
  rw [if_neg hs, if_neg hp] at hr ⊢
  dsimp only at hr ⊢
  by_cases c1 : GET_SIZE 8 st.mem (HDRP 8 ptr) > realloc_asize 8 size
  · rw [if_pos c1] at hr
    exact absurd (Prod.mk.inj (Option.some.inj hr)).2 hp
  · rw [if_neg c1] at hr ⊢
    by_cases c2 : GET_ALLOC 8 st.mem (HDRP 8 (NEXT_BLKP 8 st.mem ptr)) = 0 ∧
        wadd 8 (GET_SIZE 8 st.mem (HDRP 8 ptr))
          (GET_SIZE 8 st.mem (HDRP 8 (NEXT_BLKP 8 st.mem ptr))) > realloc_asize 8 size
    · rw [if_pos c2] at hr
      exact absurd (Prod.mk.inj (Option.some.inj hr)).2 hp
    · rw [if_neg c2] at hr ⊢
      cases hmm : mm_malloc 8 fuel st size with
      | none => rw [hmm] at hr; cases hr
      | some r =>
        obtain ⟨st1, newptr⟩ := r
        rw [hmm] at hr
        dsimp only at hr
        by_cases c3 : newptr = NULL
        · rw [if_pos c3] at hr
          have := Prod.mk.inj (Option.some.inj hr)
          rw [c3, this.1]
          refine ⟨rfl, fun a ha => ?_⟩
          exact List.mem_cons_of_mem _ (List.mem_append_right _ (List.mem_append_left _ ha))
        · rw [if_neg c3] at hr
          exact absurd (Prod.mk.inj (Option.some.inj hr)).2 c3

/-! ## Claim C19: the state after a failed `mm_init` -/

/-- C19 fails as stated: when the first `mem_sbrk` of `mm_init` fails,
`mm_init` returns -1 with `extendorfree = 0` and `lastfailedsize = 0`.  A
following `mm_malloc(2^64 - 16)` has adjusted size 0 and calls `find_fit(0)`,
which takes the early return: it returns `NULL` for every amount of fuel, also
for none, without walking the free list. -/
theorem C19_flag_zero_after_failed_init :
    (mm_init 8 (fresh 4096 16)).2 = none ∧
    heap_init_failed.extendorfree = 0 ∧ heap_init_failed.lastfailedsize = 0 ∧
    malloc_asize 8 (2 ^ 64 - 16) = 0 ∧
    ∀ fuel, find_fit 8 fuel heap_init_failed (malloc_asize 8 (2 ^ 64 - 16))
      = some (heap_init_failed, NULL) := by
  refine ⟨by decide!, by decide!, by decide!, by decide!, fun fuel => ?_⟩
  unfold find_fit
  exact if_pos ⟨by decide!, by decide!⟩

/-! ## Claim C16: what `checkheap` checks -/

/-- The checker has no test for adjacent free blocks and none for free blocks
missing from the free list: on `heap_adjacent_free`, where the free block 4120
is followed by the free block 4152 and is missing from the list, its error
output is the one it prints for the well-formed `heap0`. -/
theorem checkheap_adjacent_free :
    heap_adjacent_free.map (fun st => (heap_walk 8 st.mem 8 st.heap_listp,
      list_walk 8 st.mem 8 st.ef_listp, checkheap 8 8 st false))
      = some ([(4104, 16, 1), (4120, 32, 0), (4152, 32736, 0)], [4152],
        some [Report.too_small, Report.too_small]) ∧
    checkheap 8 8 heap0 false = some [Report.too_small, Report.too_small] := by
  exact ⟨by decide!, by decide!⟩

/-- C8 at its failing input.  After `a = mm_malloc(40)`, `b = mm_malloc(16)`
and `mm_free(a)`, a run within the caller contract, the heap is well formed
and its free list is the block 4120 of 56 bytes followed by the block 4208.
The request `2^64 - 1` has adjusted size 16, so the first block of the list
that is large enough is 4120.  `place(4120, 16)` stores the tag 17 into the
header and, as the footer of a block of 16 bytes lies at the payload address,
over the predecessor link of the block; the excision then takes 17 for the
predecessor and stores the successor 4208 through it, at address 25, outside
the memory obtained from memlib (which begins at 4096): the compiled code
faults.  The embedding records the store at address 25 and returns 4120, a block
whose header carries the size 16. -/
theorem C8_wild_store :
    Run 8 wild_c [4176] ∧
    HeapLayout 8 wild_c [(56, 0), (32, 1), (32680, 0)] [4120, 4208] ∧
    malloc_asize 8 (2 ^ 64 - 1) = 16 ∧
    [4120, 4208].find? (fun b => decide (malloc_asize 8 (2 ^ 64 - 1) ≤
      GET_SIZE 8 wild_c.mem (HDRP 8 b))) = some 4120 ∧
    word 8 25 ∈ mm_malloc_acc 8 4 wild_c (2 ^ 64 - 1) ∧ ¬ InRegion 8 wild_c (word 8 25) ∧
    Faults 8 wild_c (mm_malloc_acc 8 4 wild_c (2 ^ 64 - 1)) ∧
    GET 8 wild_c.mem 25 = 0 ∧
    (mm_malloc 8 4 wild_c (2 ^ 64 - 1)).map (fun r => (r.2, GET 8 r.1.mem 25,
      GET 8 r.1.mem (HDRP 8 4120))) = some (4120, 4208, PACK 16 1) := by
  refine ⟨?_, by constructor <;> decide!, by decide!, by decide!, by decide!, by decide!,
    by decide!, by decide!, by decide!⟩
  have h0 : Run 8 heap0 [] :=
    Run.init (fresh 4096 (2 ^ 20)) (by decide) (by decide!) (by decide!)
  have h1 := Run.malloc heap0 [] 4 40 wild_a h0 (by decide!) (some_getD _ (by decide!))
  rw [show (if wild_a.2 = NULL then [] else [wild_a.2]) = [4120] from by decide!] at h1
  have h2 := Run.malloc wild_a.1 [4120] 4 16 wild_b h1 (by decide!) (some_getD _ (by decide!))
  rw [show (if wild_b.2 = NULL then [4120] else [wild_b.2, 4120]) = [4176, 4120]
    from by decide!] at h2
  have h3 := Run.free wild_b.1 [4176, 4120] 4120 h2 (by decide)
  rw [show [4176, 4120].erase 4120 = [4176] from by decide] at h3
  exact h3

/-- For a request of at most `2^64 - 32` bytes on a well-formed reachable
heap whose free list holds a block of at least the adjusted size, `mm_malloc`
returns the first such block of the list and does not invoke `mem_sbrk`. -/
theorem first_fit_bounded (st : State) (bs : List (Nat × Nat)) (fl : List Nat) (fuel size : Nat)
    (hR : Reachable 8 st) (hwf : HeapLayout 8 st bs fl) (hs : 0 < size)
    (_ : size + 32 ≤ 2 ^ 64) (hfuel : fl.length < fuel)
    (hfit : ∃ b ∈ fl, malloc_asize 8 size ≤ GET_SIZE 8 st.mem (HDRP 8 b)) :
    ∃ st' bp, mm_malloc 8 fuel st size = some (st', bp) ∧
      fl.find? (fun b => decide (malloc_asize 8 size ≤ GET_SIZE 8 st.mem (HDRP 8 b))) = some bp ∧
      bp ≠ NULL ∧ st'.sbrk_calls = st.sbrk_calls := by
  have hloop := find_fit_loop_chain 8 st.mem (malloc_asize 8 size) fl NULL st.ef_listp fuel
    hwf.chain hfuel
  obtain ⟨b, hb, hbfit⟩ := hfit
  have hsome : (fl.find? (fun b => decide (malloc_asize 8 size ≤ GET_SIZE 8 st.mem (HDRP 8 b)))).isSome := by
    rw [List.find?_isSome]
    exact ⟨b, hb, by simpa using hbfit⟩
  obtain ⟨bp, hbp⟩ := Option.isSome_iff_exists.mp hsome
  have hmem : bp ∈ fl := List.mem_of_find?_eq_some hbp
  have hne : bp ≠ NULL := hwf.chain.ne_null hmem
  rw [hbp] at hloop
  simp only [Option.getD_some] at hloop
  have hflag := hR.extendorfree_eq_one
  refine ⟨place 8 st bp (malloc_asize 8 size), bp, ?_, hbp, hne, (place_aux 8 st bp _).sbrk_calls⟩
  unfold mm_malloc
  rw [if_neg (by omega)]
  dsimp only
  unfold find_fit
  rw [if_neg (by omega), hloop]
  simp [hne]

/-! ## `checkheap` on a free list with an allocated block -/

/-- The free-list loop of `checkheap` does not return when the list holds an
allocated block and `printblock` does not return. -/
theorem checkheap_list_alloc (m : Mem) :
    ∀ (fuel bp n : Nat), (∃ b ∈ list_walk 8 m n bp, GET_ALLOC 8 m (HDRP 8 b) ≠ 0) →
      checkheap_list 8 m none fuel bp = none := by
  intro fuel
  induction fuel with
  | zero => intro bp n _; rfl
  | succ f ih =>
    intro bp n hb
    obtain ⟨b, hb, hal⟩ := hb
    cases n with
    | zero => cases hb
    | succ n =>
      by_cases hbp : bp = NULL
      · rw [list_walk, if_pos hbp] at hb
        cases hb
      · rw [list_walk, if_neg hbp] at hb
        rw [checkheap_list, if_neg hbp]
        dsimp only
        by_cases ha : GET_ALLOC 8 m (HDRP 8 bp) ≠ 0
        · rw [if_pos ha]
          rfl
        · rw [if_neg ha]
          rcases List.mem_cons.mp hb with rfl | hb
          · exact absurd hal ha
          · rw [ih (EFL_SBP 8 m bp) n ⟨b, hb, hal⟩]
            rfl

/-- When the free list holds an allocated block, `checkheap` does not return:
after printing "One allocated block exists in free list" it calls
`printblock`, which calls `checkheap` again. -/
theorem checkheap_alloc_in_list (st : State) (n : Nat)
    (h : ∃ b ∈ list_walk 8 st.mem n st.ef_listp, GET_ALLOC 8 st.mem (HDRP 8 b) ≠ 0) :
    ∀ (fuel : Nat) ( verbose : Bool), checkheap 8 fuel st verbose = none := by
  intro fuel
  induction fuel with
  | zero => intro verbose; rfl
  | succ f ih =>
    intro verbose
    rw [checkheap]
    dsimp only
    rw [ih false, checkheap_list_alloc st.mem f st.ef_listp n h]
    rfl

/-! ## Accesses inside the heap

On a well-formed heap that does not begin at address 0 the accesses of
`find_fit`, `place`, `coalesce`, `extend_heap`, `mm_malloc`, `mm_free` and
`mm_realloc` stay inside the memory obtained from memlib, for live pointers
and sizes of at most `2^64 - 32` bytes. -/

theorem inRegion_word {st : State} {a : Nat} (h0 : a ≠ 0) (h1 : st.heap_listp ≤ a + 8)
    (h2 : a + 8 ≤ st.mem_max_addr) : InRegion 8 st (word 8 a) :=
  ⟨h0, by show st.heap_listp - 8 ≤ a; omega, h2⟩

theorem InRegion.of_same_region {st st' : State} {a : Nat × Nat} (h : InRegion 8 st a)
    (h1 : st'.heap_listp = st.heap_listp) (h2 : st'.mem_max_addr = st.mem_max_addr) :
    InRegion 8 st' a := by
  unfold InRegion at h ⊢
  rw [h1, h2]
  exact h

/-- The head of a chain is `NULL` or a node of the chain. -/
theorem FreeChain.head_mem {m : Mem} {l : List Nat} {prev cur : Nat}
    (h : FreeChain 8 m prev cur l) : cur = NULL ∨ cur ∈ l := by
  cases l with
  | nil => left; exact h
  | cons x l => right; rw [h.1]; exact List.mem_cons_self _ _

/-- The accesses of an excision go to the links of the block, to the
successor link of its predecessor and to the predecessor link of its
successor. -/
theorem efl_slice_acc_links {st : State} {K : List Nat} {b : Nat} (hb : b ∈ K)
    (hp : EFL_PBP 8 st.mem b = NULL ∨ EFL_PBP 8 st.mem b ∈ K)
    (hs : EFL_SBP 8 st.mem b = NULL ∨ EFL_SBP 8 st.mem b ∈ K) :
    ∀ a ∈ efl_slice_acc 8 st b, ∃ x ∈ K, a = word 8 x ∨ a = word 8 (wadd 8 x (WSIZE 8)) := by
  intro a ha
  unfold efl_slice_acc at ha
  dsimp only at ha
  rcases List.mem_append.mp ha with ha | ha
  · rcases List.mem_append.mp ha with ha | ha
    · rcases List.mem_cons.mp ha with rfl | ha
      · exact ⟨b, hb, Or.inl rfl⟩
      · rcases List.mem_singleton.mp ha with rfl
        exact ⟨b, hb, Or.inr rfl⟩
    · by_cases h0 : EFL_PBP 8 st.mem b ≠ NULL
      · rw [if_pos h0] at ha
        rcases List.mem_singleton.mp ha with rfl
        exact ⟨_, hp.resolve_left h0, Or.inr rfl⟩
      · rw [if_neg h0] at ha
        cases ha
  · by_cases h0 : EFL_SBP 8 st.mem b ≠ NULL
    · rw [if_pos h0] at ha
      rcases List.mem_singleton.mp ha with rfl
      exact ⟨_, hs.resolve_left h0, Or.inl rfl⟩
    · rw [if_neg h0] at ha
      cases ha

/-- The accesses of an insertion go to the links of the block and to the
predecessor link of the old head. -/
theorem efl_insert_acc_links (st : State) (bp : Nat) :
    ∀ a ∈ efl_insert_acc 8 st bp, a = word 8 bp ∨ a = word 8 (wadd 8 bp (WSIZE 8)) ∨
      (st.ef_listp ≠ NULL ∧ a = word 8 st.ef_listp) := by
  intro a ha
  unfold efl_insert_acc at ha
  rcases List.mem_append.mp ha with ha | ha
  · rcases List.mem_cons.mp ha with rfl | ha
    · exact Or.inl rfl
    · rcases List.mem_singleton.mp ha with rfl
      exact Or.inr (Or.inl rfl)
  · by_cases h0 : st.ef_listp ≠ NULL
    · rw [if_pos h0] at ha
      rcases List.mem_singleton.mp ha with rfl
      exact Or.inr (Or.inr ⟨h0, rfl⟩)
    · rw [if_neg h0] at ha
      cases ha

/-- Both link words of a block that lies inside the heap. -/
theorem links_inRegion {st : State} {x : Nat} (h1 : st.heap_listp + 16 ≤ x)
    (h2 : x + 16 ≤ st.mem_max_addr) (hmax : st.mem_max_addr < 2 ^ 64 - 1) :
    InRegion 8 st (word 8 x) ∧ InRegion 8 st (word 8 (wadd 8 x (WSIZE 8))) := by
  have e : wadd 8 x (WSIZE 8) = x + 8 := wadd8_of_lt (by
    show x + 8 < 2 ^ 64
    omega)
  rw [e]
  exact ⟨inRegion_word (by omega) (by omega) (by omega),
    inRegion_word (by omega) (by omega) (by omega)⟩

/-- A free-list node of a well-formed heap lies inside the heap. -/
theorem HeapLayout.node_bounds {st : State} {bs : List (Nat × Nat)} {fl : List Nat}
    (h : HeapLayout 8 st bs fl) {x : Nat} (hx : x ∈ fl) :
    st.heap_listp + 16 ≤ x ∧ x + 16 ≤ st.mem_max_addr := by
  obtain ⟨s, hs⟩ := h.mem_fl.mp hx
  have hblk := Tiles_block h.tiles hs
  have k1 : st.heap_listp + 8 + 8 ≤ x := hblk.2.2.2.2.2.1
  have k2 : x + s ≤ st.mem_brk - 8 + 8 := hblk.2.2.2.2.2.2.1
  have k3 : 32 ≤ s := hblk.2.2.1
  clear hblk
  have hbrk := h.brk_le
  have hbg := h.brk_ge
  omega

/-- On a well-formed heap the accesses of `place(bp, asize)` for a free block
`bp` of at least `asize` bytes stay inside the heap. -/
theorem place_acc_inRegion {st : State} {bs : List (Nat × Nat)} {fl : List Nat}
    {bp c asize : Nat} (h : HeapLayout 8 st bs fl)
    (hmem : (bp, c, 0) ∈ blocksFrom 8 (st.heap_listp + 8) bs)
    (ha32 : 32 ≤ asize) (ha8 : asize % 8 = 0) (hle : asize ≤ c) :
    ∀ a ∈ place_acc 8 st bp asize, InRegion 8 st a := by
  have hbpfl : bp ∈ fl := h.mem_fl.mpr ⟨c, hmem⟩
  obtain ⟨l1, l2, hfl⟩ := List.append_of_mem hbpfl
  obtain ⟨t1, _, c32, c8, _, hge, hend, _⟩ := Tiles_block h.tiles hmem
  have hmax := h.max_lt'
  have hbrk := h.brk_le
  have hbase := h.base
  have hbg := h.brk_ge
  have k1 : st.heap_listp + 16 ≤ bp := by omega
  have k2 : bp + c ≤ st.mem_brk := by omega
  have eH : HDRP 8 bp = bp - 8 := HDRP_eq (by omega) (by omega)
  have eC : GET_SIZE 8 st.mem (bp - 8) = c := GET_SIZE_of_tag t1 c8 (by omega)
  have eW : wsub 8 c asize = c - asize := wsub8_of_le hle (by omega)
  clear t1 hge hend
  have hnode : ∀ x ∈ fl, InRegion 8 st (word 8 x) ∧ InRegion 8 st (word 8 (wadd 8 x (WSIZE 8))) :=
    fun x hx => links_inRegion (h.node_bounds hx).1 (h.node_bounds hx).2 hmax
  have hpm := h.chain.pred_mem hbpfl
  have hsm := h.chain.succ_mem hbpfl
  -- the first half, for the tag size `t`
  have first : ∀ t, 32 ≤ t → t % 8 = 0 → t ≤ c → ∀ m2 : Mem,
      m2 = PUT 8 (PUT 8 st.mem (bp - 8) (PACK t 1)) (bp + t - 16) (PACK t 1) →
      FTRP 8 (PUT 8 st.mem (bp - 8) (PACK t 1)) bp = bp + t - 16 ∧
      ∀ a ∈ efl_slice_acc 8 { st with mem := m2 } bp, InRegion 8 st a := by
    intro t ht32 ht8 htc m2 hm2
    obtain ⟨eF, _, _, F12⟩ := retag_block st.mem bp t 1 ht8 (le_refl _) (by omega) (by omega)
      (by omega)
    rw [← hm2] at F12
    refine ⟨eF, ?_⟩
    have g1 : EFL_PBP 8 m2 bp = EFL_PBP 8 st.mem bp :=
      F12.GET bp (fun a h1 h2 hP => by omega)
    have g2 : EFL_SBP 8 m2 bp = EFL_SBP 8 st.mem bp := by
      rw [EFL_SBP_eq (by omega), EFL_SBP_eq (by omega)]
      exact F12.GET (bp + 8) (fun a h1 h2 hP => by omega)
    intro a ha
    obtain ⟨x, hx, hax⟩ := @efl_slice_acc_links { st with mem := m2 } fl bp hbpfl
      (by rw [show ({ st with mem := m2 } : State).mem = m2 from rfl, g1]; exact hpm)
      (by rw [show ({ st with mem := m2 } : State).mem = m2 from rfl, g2]; exact hsm) a ha
    rcases hax with rfl | rfl
    · exact (hnode x hx).1
    · exact (hnode x hx).2
  by_cases hbig : 32 ≤ c - asize
  · -- splitting
    obtain ⟨m2, hm2⟩ : ∃ m2, m2 = PUT 8 (PUT 8 st.mem (bp - 8) (PACK asize 1)) (bp + asize - 16)
        (PACK asize 1) := ⟨_, rfl⟩
    obtain ⟨st1, hst1⟩ : ∃ st1, st1 = efl_slice 8 { st with mem := m2 } bp := ⟨_, rfl⟩
    obtain ⟨eF, hsl⟩ := first asize ha32 ha8 hle m2 hm2
    obtain ⟨hchain3, _, hseg1, _, haux1, _⟩ :=
      retag_slice h hmem hfl ha8 ha32 hle m2 hm2 st1 hst1
    have eN : NEXT_BLKP 8 st1.mem bp = bp + asize :=
      NEXT_BLKP_eq hseg1.1 ha8 (le_refl _) (by omega) (by omega)
    clear hseg1
    have eH1 : HDRP 8 (bp + asize) = bp + asize - 8 := HDRP_eq (by omega) (by omega)
    have eF1 : FTRP 8 (PUT 8 st1.mem (bp + asize - 8) (PACK (c - asize) 0)) (bp + asize)
        = bp + asize + (c - asize) - 16 :=
      (retag_block st1.mem (bp + asize) (c - asize) 0 (by omega) (Nat.zero_le 1) (by omega)
        (by omega) (by omega)).1
    have hhead : st1.ef_listp = NULL ∨ st1.ef_listp ∈ fl := by
      rcases hchain3.head_mem with h0 | h0
      · exact Or.inl h0
      · right
        rw [hfl]
        rcases List.mem_append.mp h0 with hh | hh
        · exact List.mem_append_left _ hh
        · exact List.mem_append_right _ (List.mem_cons_of_mem _ hh)
    have hacc : place_acc 8 st bp asize =
        word 8 (bp - 8) :: ([word 8 (bp - 8), word 8 (bp - 8), word 8 (bp + asize - 16)] ++
          efl_slice_acc 8 { st with mem := m2 } bp ++
          [word 8 (bp - 8), word 8 (bp + asize - 8), word 8 (bp + asize - 8),
            word 8 (bp + asize + (c - asize) - 16)] ++
          efl_insert_acc 8 { st1 with
            mem := PUT 8 (PUT 8 st1.mem (bp + asize - 8) (PACK (c - asize) 0))
              (bp + asize + (c - asize) - 16) (PACK (c - asize) 0) } (bp + asize)) := by
      unfold place_acc
      simp only [eH, eC, eW]
      rw [if_pos (show c - asize ≥ 4 * WSIZE 8 from hbig)]
      simp only [eF, ← hm2, ← hst1, eN, eH1, eF1]
    rw [hacc]
    clear hacc eH eC eW eF eN eH1 eF1 hpm hsm first hchain3 haux1
    intro a ha
    rcases List.mem_cons.mp ha with rfl | ha
    · exact inRegion_word (by omega) (by omega) (by omega)
    rcases List.mem_append.mp ha with ha | ha
    · rcases List.mem_append.mp ha with ha | ha
      · rcases List.mem_append.mp ha with ha | ha
        · simp only [List.mem_cons, List.mem_singleton, List.not_mem_nil, or_false] at ha
          rcases ha with rfl | rfl | rfl
          all_goals exact inRegion_word (by omega) (by omega) (by omega)
        · exact hsl a ha
      · simp only [List.mem_cons, List.mem_singleton, List.not_mem_nil, or_false] at ha
        rcases ha with rfl | rfl | rfl | rfl
        all_goals exact inRegion_word (by omega) (by omega) (by omega)
    · rcases efl_insert_acc_links _ _ a ha with rfl | rfl | ⟨h0, rfl⟩
      · exact (links_inRegion (x := bp + asize) (by omega) (by omega) hmax).1
      · exact (links_inRegion (x := bp + asize) (by omega) (by omega) hmax).2
      · exact (hnode _ (hhead.resolve_left h0)).1
  · -- no splitting
    obtain ⟨m2, hm2⟩ : ∃ m2, m2 = PUT 8 (PUT 8 st.mem (bp - 8) (PACK c 1)) (bp + c - 16)
        (PACK c 1) := ⟨_, rfl⟩
    obtain ⟨eF, hsl⟩ := first c c32 c8 (le_refl _) m2 hm2
    have hacc : place_acc 8 st bp asize =
        word 8 (bp - 8) :: ([word 8 (bp - 8), word 8 (bp - 8), word 8 (bp + c - 16)] ++
          efl_slice_acc 8 { st with mem := m2 } bp) := by
      unfold place_acc
      simp only [eH, eC, eW]
      rw [if_neg (show ¬ c - asize ≥ 4 * WSIZE 8 from fun hc => hbig hc)]
      simp only [eF, ← hm2]
    rw [hacc]
    clear hacc eH eC eW eF hpm hsm first
    intro a ha
    rcases List.mem_cons.mp ha with rfl | ha
    · exact inRegion_word (by omega) (by omega) (by omega)
    rcases List.mem_append.mp ha with ha | ha
    · simp only [List.mem_cons, List.mem_singleton, List.not_mem_nil, or_false] at ha
      rcases ha with rfl | rfl | rfl
      all_goals exact inRegion_word (by omega) (by omega) (by omega)
    · exact hsl a ha

/-- A free-list node of a heap before coalescing lies inside the heap. -/
theorem FreedLayout.list_node_bounds {st : State} {pre post : List (Nat × Nat)} {c : Nat}
    {fl : List Nat} (h : FreedLayout 8 st pre c post fl) {x : Nat} (hx : x ∈ fl) :
    st.heap_listp + 16 ≤ x ∧ x + 16 ≤ st.mem_max_addr := by
  obtain ⟨_, hsub, _, _, _⟩ := h.list_nodes
  obtain ⟨s, hs⟩ := mem_freeBlocks.mp (hsub x hx)
  have hblk := Tiles_block h.tiles hs
  have k1 : st.heap_listp + 8 + 8 ≤ x := hblk.2.2.2.2.2.1
  have k2 : x + s ≤ st.mem_brk - 8 + 8 := hblk.2.2.2.2.2.2.1
  have k3 : 32 ≤ s := hblk.2.2.1
  clear hblk
  have hbrk := h.brk_le
  omega

/-- Both link words of a free-list node of a heap before coalescing lie inside
the heap. -/
theorem FreedLayout.node_links {st : State} {pre post : List (Nat × Nat)} {c : Nat}
    {fl : List Nat} (h : FreedLayout 8 st pre c post fl) {x : Nat} (hx : x ∈ fl) :
    InRegion 8 st (word 8 x) ∧ InRegion 8 st (word 8 (wadd 8 x (WSIZE 8))) :=
  links_inRegion (h.list_node_bounds hx).1 (h.list_node_bounds hx).2 h.limit_lt

/-- The accesses of an excision of a list node of a heap before coalescing
stay inside the heap. -/
theorem FreedLayout.slice_acc {st : State} {pre post : List (Nat × Nat)} {c : Nat}
    {fl : List Nat} (h : FreedLayout 8 st pre c post fl) {b : Nat} (hb : b ∈ fl) :
    ∀ a ∈ efl_slice_acc 8 st b, InRegion 8 st a := by
  intro a ha
  obtain ⟨x, hx, hax⟩ := efl_slice_acc_links hb (h.chain.pred_mem hb) (h.chain.succ_mem hb) a ha
  rcases hax with rfl | rfl
  · exact (h.node_links hx).1
  · exact (h.node_links hx).2

theorem wsub8_dsize {bp : Nat} (h1 : 16 ≤ bp) (h2 : bp < 2 ^ 64) :
    wsub 8 bp (DSIZE 8) = bp - 16 := wsub8_of_le (b := 16) h1 h2

/-- Case 1 of `coalesce`: the accesses stay inside the heap. -/
theorem coalesce_acc_case1 {st : State} {pre post : List (Nat × Nat)} {c : Nat}
    {fl : List Nat} {bp ps ns : Nat} (F : FreedLayout 8 st pre c post fl)
    (hbp : bp = st.heap_listp + 8 + (pre.map Prod.fst).sum + 8) (h8 : 8 < st.heap_listp)
    (t0 : GET 8 st.mem (bp - 8) = PACK c 0)
    (tp1 : GET 8 st.mem (bp - 16) = PACK ps 1) (tp2 : GET 8 st.mem (bp - ps - 8) = PACK ps 1)
    (ps8 : ps % 8 = 0) (hps : 16 ≤ ps) (hpb : st.heap_listp + ps ≤ bp)
    (tn : GET 8 st.mem (bp + c - 8) = PACK ns 1) (ns8 : ns % 8 = 0)
    (hnb : bp + c + ns ≤ st.mem_brk) :
    ∀ a ∈ coalesce_acc 8 st bp, InRegion 8 st a := by
  have hmax := F.limit_lt
  have hbrk := F.brk_le
  have hbase := F.base
  have ⟨c32, c8, hcb⟩ := (F.tags hbp).1.2
  obtain ⟨r1, r2, r3, r4, r5, r6, r7, r8, r9, r10, r11⟩ :=
    coalesce_reads t0 c8 tp1 tp2 ps8 (le_refl 1) hps (by omega) tn ns8 (le_refl 1) (by omega) c32
  have eD : wsub 8 bp (DSIZE 8) = bp - 16 := wsub8_dsize (by omega) (by omega)
  have hhead : st.ef_listp = NULL ∨ st.ef_listp ∈ fl := F.chain.head_mem
  have hnode := fun x (hx : x ∈ fl) => F.node_links hx
  have hacc : coalesce_acc 8 st bp =
      [word 8 (bp - 16), word 8 (bp - ps - 8), word 8 (bp - 16), word 8 (bp - 8),
        word 8 (bp + c - 8), word 8 (bp - 8)] ++ efl_insert_acc 8 st bp := by
    unfold coalesce_acc
    simp only [r3, r4, r6, r7, r1, r8, r9, r11, eD]
    rw [if_pos (by decide)]
  rw [hacc]
  clear hacc t0 tp1 tp2 tn r1 r2 r3 r4 r5 r6 r7 r8 r9 r10 r11 eD
  intro a ha
  rcases List.mem_append.mp ha with ha | ha
  · simp only [List.mem_cons, List.mem_singleton, List.not_mem_nil, or_false] at ha
    rcases ha with rfl | rfl | rfl | rfl | rfl | rfl
    all_goals exact inRegion_word (by omega) (by omega) (by omega)
  · rcases efl_insert_acc_links _ _ a ha with rfl | rfl | ⟨h0, rfl⟩
    · exact (links_inRegion (x := bp) (by omega) (by omega) hmax).1
    · exact (links_inRegion (x := bp) (by omega) (by omega) hmax).2
    · exact (hnode _ (hhead.resolve_left h0)).1

/-- Case 2 of `coalesce`: the accesses stay inside the heap. -/
theorem coalesce_acc_case2 {st : State} {pre post' : List (Nat × Nat)} {c ps ns : Nat}
    {fl : List Nat} {bp : Nat} (F : FreedLayout 8 st pre c ((ns, 0) :: post') fl)
    (hbp : bp = st.heap_listp + 8 + (pre.map Prod.fst).sum + 8) (h8 : 8 < st.heap_listp)
    (t0 : GET 8 st.mem (bp - 8) = PACK c 0)
    (tp1 : GET 8 st.mem (bp - 16) = PACK ps 1) (tp2 : GET 8 st.mem (bp - ps - 8) = PACK ps 1)
    (ps8 : ps % 8 = 0) (hps : 16 ≤ ps) (hpb : st.heap_listp + ps ≤ bp)
    (tn : GET 8 st.mem (bp + c - 8) = PACK ns 0) (ns8 : ns % 8 = 0)
    (hnb : bp + c + ns ≤ st.mem_brk) :
    ∀ a ∈ coalesce_acc 8 st bp, InRegion 8 st a := by
  have hmax := F.limit_lt
  have hbrk := F.brk_le
  have hbase := F.base
  have ⟨c32, c8, hcb⟩ := (F.tags hbp).1.2
  obtain ⟨r1, r2, r3, r4, r5, r6, r7, r8, r9, r10, r11⟩ :=
    coalesce_reads t0 c8 tp1 tp2 ps8 (le_refl 1) hps (by omega) tn ns8 (Nat.zero_le 1)
      (by omega) c32
  have eD : wsub 8 bp (DSIZE 8) = bp - 16 := wsub8_dsize (by omega) (by omega)
  have eS : wadd 8 c ns = c + ns := wadd8_of_lt (by omega)
  obtain ⟨st1, hst1⟩ : ∃ st1, st1 = efl_slice 8 st (bp + c) := ⟨_, rfl⟩
  have eF := (retag_block st1.mem bp (c + ns) 0 (by omega)
    (Nat.zero_le 1) (by omega) (by omega) (by omega)).1
  obtain ⟨hnd, hsub, hsep, hlt, hout⟩ := F.list_nodes
  have hperm := F.perm
  rw [freeBlocks_mid_alloc, freeBlocks_cons_free] at hperm
  have eN : st.heap_listp + 8 + (pre.map Prod.fst).sum + c + 8 = bp + c := by omega
  rw [eN] at hperm
  have hN : bp + c ∈ fl := hperm.mem_iff.mpr (List.mem_append_right _ (List.mem_cons_self _ _))
  obtain ⟨hc1, hf1⟩ := slice_node F.chain hnd hsep hlt hN
  rw [← hst1] at hc1
  have hhead : st1.ef_listp = NULL ∨ st1.ef_listp ∈ fl :=
    hc1.head_mem.imp id (fun h => List.mem_of_mem_filter h)
  have hnode := fun x (hx : x ∈ fl) => F.node_links hx
  have hsl := F.slice_acc hN
  have hacc : coalesce_acc 8 st bp =
      [word 8 (bp - 16), word 8 (bp - ps - 8), word 8 (bp - 16), word 8 (bp - 8),
        word 8 (bp + c - 8), word 8 (bp - 8)] ++
      ([word 8 (bp - 8), word 8 (bp + c - 8)] ++ efl_slice_acc 8 st (bp + c) ++
        [word 8 (bp - 8), word 8 (bp - 8), word 8 (bp + (c + ns) - 16)] ++
        efl_insert_acc 8 { st1 with
          mem := PUT 8 (PUT 8 st1.mem (bp - 8) (PACK (c + ns) 0))
            (bp + (c + ns) - 16) (PACK (c + ns) 0) } bp) := by
    unfold coalesce_acc
    simp only [r3, r4, r6, r7, r1, r2, r8, r9, r10, r11, eD, eS]
    rw [if_neg (by decide), if_pos (by decide)]
    simp only [← hst1, eF]
  rw [hacc]
  clear hacc t0 tp1 tp2 tn r1 r2 r3 r4 r5 r6 r7 r8 r9 r10 r11 eD eS eF hc1 hf1 hperm hsep hlt hout hst1
  intro a ha
  rcases List.mem_append.mp ha with ha | ha
  · simp only [List.mem_cons, List.mem_singleton, List.not_mem_nil, or_false] at ha
    rcases ha with rfl | rfl | rfl | rfl | rfl | rfl
    all_goals exact inRegion_word (by omega) (by omega) (by omega)
  rcases List.mem_append.mp ha with ha | ha
  · rcases List.mem_append.mp ha with ha | ha
    · rcases List.mem_append.mp ha with ha | ha
      · simp only [List.mem_cons, List.mem_singleton, List.not_mem_nil, or_false] at ha
        rcases ha with rfl | rfl
        all_goals exact inRegion_word (by omega) (by omega) (by omega)
      · exact hsl a ha
    · simp only [List.mem_cons, List.mem_singleton, List.not_mem_nil, or_false] at ha
      rcases ha with rfl | rfl | rfl
      all_goals exact inRegion_word (by omega) (by omega) (by omega)
  · rcases efl_insert_acc_links _ _ a ha with rfl | rfl | ⟨h0, rfl⟩
    · exact (links_inRegion (x := bp) (by omega) (by omega) hmax).1
    · exact (links_inRegion (x := bp) (by omega) (by omega) hmax).2
    · exact (hnode _ (hhead.resolve_left h0)).1

/-- Case 3 of `coalesce`: the accesses stay inside the heap. -/
theorem coalesce_acc_case3 {st : State} {pre' post : List (Nat × Nat)} {c ps ns : Nat}
    {fl : List Nat} {bp : Nat} (F : FreedLayout 8 st (pre' ++ [(ps, 0)]) c post fl)
    (hbp : bp = st.heap_listp + 8 + ((pre' ++ [(ps, 0)]).map Prod.fst).sum + 8)
    (h8 : 8 < st.heap_listp)
    (t0 : GET 8 st.mem (bp - 8) = PACK c 0)
    (tp1 : GET 8 st.mem (bp - 16) = PACK ps 0) (tp2 : GET 8 st.mem (bp - ps - 8) = PACK ps 0)
    (ps8 : ps % 8 = 0) (hps : 32 ≤ ps)
    (tn : GET 8 st.mem (bp + c - 8) = PACK ns 1) (ns8 : ns % 8 = 0)
    (hnb : bp + c + ns ≤ st.mem_brk) :
    ∀ a ∈ coalesce_acc 8 st bp, InRegion 8 st a := by
  have hmax := F.limit_lt
  have hbrk := F.brk_le
  have hbase := F.base
  have ⟨c32, c8, hcb⟩ := (F.tags hbp).1.2
  rw [sum_concat] at hbp
  simp only at hbp
  obtain ⟨r1, r2, r3, r4, r5, r6, r7, r8, r9, r10, r11⟩ :=
    coalesce_reads t0 c8 tp1 tp2 ps8 (Nat.zero_le 1) (by omega) (by omega) tn ns8 (le_refl 1)
      (by omega) c32
  have eD : wsub 8 bp (DSIZE 8) = bp - 16 := wsub8_dsize (by omega) (by omega)
  have eS : wadd 8 c ps = c + ps := wadd8_of_lt (by omega)
  obtain ⟨hnd, hsub, hsep, hlt, hout⟩ := F.list_nodes
  have hperm := F.perm
  rw [freeBlocks_mid_alloc, freeBlocks_append, freeBlocks_cons_free, List.append_assoc,
    freeBlocks_nil, List.singleton_append] at hperm
  have eP : st.heap_listp + 8 + (pre'.map Prod.fst).sum + 8 = bp - ps := by omega
  rw [eP] at hperm
  have hPv : bp - ps ∈ fl :=
    hperm.mem_iff.mpr (List.mem_append_right _ (List.mem_cons_self _ _))
  obtain ⟨hc1, hf1⟩ := slice_node F.chain hnd hsep hlt hPv
  have hblk : (bp - ps, ps, 0) ∈ blocksFrom 8 (st.heap_listp + 8)
      ((pre' ++ [(ps, 0)]) ++ (c, 0) :: post) := by
    rw [List.append_assoc, ← eP]
    exact mem_blocksFrom_mid _ _ _ _ _
  have tp1' : GET 8 (efl_slice 8 st (bp - ps)).mem (bp - 16) = PACK ps 0 := by
    have := (frame_link_tags F.tiles hsub hf1 hblk).2
    have e : bp - ps + ps - 16 = bp - 16 := by omega
    rw [e] at this
    rw [this]; exact tp1
  obtain ⟨st1, hst1⟩ : ∃ st1, st1 = efl_slice 8 st (bp - ps) := ⟨_, rfl⟩
  rw [← hst1] at hc1 tp1'
  have ePv : PREV_BLKP 8 st1.mem bp = bp - ps :=
    PREV_BLKP_eq tp1' ps8 (Nat.zero_le 1) (by omega) (by omega) (by omega)
  have eF := (retag_block st1.mem (bp - ps) (c + ps) 0 (by omega) (Nat.zero_le 1) (by omega)
    (by omega) (by omega)).1
  have hhead : st1.ef_listp = NULL ∨ st1.ef_listp ∈ fl :=
    hc1.head_mem.imp id (fun h => List.mem_of_mem_filter h)
  have hnode := fun x (hx : x ∈ fl) => F.node_links hx
  have hsl := F.slice_acc hPv
  have hacc : coalesce_acc 8 st bp =
      [word 8 (bp - 16), word 8 (bp - ps - 8), word 8 (bp - 16), word 8 (bp - 8),
        word 8 (bp + c - 8), word 8 (bp - 8)] ++
      ([word 8 (bp - 16), word 8 (bp - ps - 8)] ++ efl_slice_acc 8 st (bp - ps) ++
        [word 8 (bp - 16), word 8 (bp - ps - 8), word 8 (bp - ps - 8),
          word 8 (bp - ps + (c + ps) - 16)] ++
        efl_insert_acc 8 { st1 with
          mem := PUT 8 (PUT 8 st1.mem (bp - ps - 8) (PACK (c + ps) 0))
            (bp - ps + (c + ps) - 16) (PACK (c + ps) 0) } (bp - ps)) := by
    unfold coalesce_acc
    simp only [r3, r4, r5, r6, r7, r1, r2, r8, r9, r10, r11, eD, eS]
    rw [if_neg (by decide), if_neg (by decide), if_pos (by decide)]
    simp only [← hst1, ePv, r4, eF]
  rw [hacc]
  clear hacc t0 tp1 tp2 tn r1 r2 r3 r4 r5 r6 r7 r8 r9 r10 r11 eD eS eF hc1 hf1 hperm hsep hlt hout
    hst1 tp1' ePv hblk eP hPv hnd hsub hcb
  intro a ha
  rcases List.mem_append.mp ha with ha | ha
  · simp only [List.mem_cons, List.mem_singleton, List.not_mem_nil, or_false] at ha
    rcases ha with rfl | rfl | rfl | rfl | rfl | rfl
    all_goals exact inRegion_word (by omega) (by omega) (by omega)
  rcases List.mem_append.mp ha with ha | ha
  · rcases List.mem_append.mp ha with ha | ha
    · rcases List.mem_append.mp ha with ha | ha
      · simp only [List.mem_cons, List.mem_singleton, List.not_mem_nil, or_false] at ha
        rcases ha with rfl | rfl
        all_goals exact inRegion_word (by omega) (by omega) (by omega)
      · exact hsl a ha
    · simp only [List.mem_cons, List.mem_singleton, List.not_mem_nil, or_false] at ha
      rcases ha with rfl | rfl | rfl | rfl
      all_goals exact inRegion_word (by omega) (by omega) (by omega)
  · rcases efl_insert_acc_links _ _ a ha with rfl | rfl | ⟨h0, rfl⟩
    · exact (links_inRegion (x := bp - ps) (by omega) (by omega) hmax).1
    · exact (links_inRegion (x := bp - ps) (by omega) (by omega) hmax).2
    · exact (hnode _ (hhead.resolve_left h0)).1

theorem coalesce_acc_case4_unfold (st : State) (bp : Nat)
    (hp : ¬ GET_ALLOC 8 st.mem (FTRP 8 st.mem (PREV_BLKP 8 st.mem bp)) ≠ 0)
    (hn : ¬ GET_ALLOC 8 st.mem (HDRP 8 (NEXT_BLKP 8 st.mem bp)) ≠ 0) :
    coalesce_acc 8 st bp =
      (let size := wadd 8 (GET_SIZE 8 st.mem (HDRP 8 bp))
          (wadd 8 (GET_SIZE 8 st.mem (HDRP 8 (PREV_BLKP 8 st.mem bp)))
            (GET_SIZE 8 st.mem (FTRP 8 st.mem (NEXT_BLKP 8 st.mem bp))))
       let st1 := efl_slice 8 st (NEXT_BLKP 8 st.mem bp)
       let st2 := efl_slice 8 st1 (PREV_BLKP 8 st1.mem bp)
       let m3 := PUT 8 st2.mem (HDRP 8 (PREV_BLKP 8 st2.mem bp)) (PACK size 0)
       let m4 := PUT 8 m3 (FTRP 8 m3 (NEXT_BLKP 8 m3 bp)) (PACK size 0)
       let bp1 := PREV_BLKP 8 m4 bp
       [word 8 (wsub 8 bp (DSIZE 8)), word 8 (HDRP 8 (PREV_BLKP 8 st.mem bp)),
         word 8 (FTRP 8 st.mem (PREV_BLKP 8 st.mem bp)),
         word 8 (HDRP 8 bp), word 8 (HDRP 8 (NEXT_BLKP 8 st.mem bp)), word 8 (HDRP 8 bp)] ++
       ([word 8 (wsub 8 bp (DSIZE 8)), word 8 (HDRP 8 (PREV_BLKP 8 st.mem bp)),
          word 8 (HDRP 8 bp), word 8 (HDRP 8 (NEXT_BLKP 8 st.mem bp)),
          word 8 (FTRP 8 st.mem (NEXT_BLKP 8 st.mem bp))] ++
        efl_slice_acc 8 st (NEXT_BLKP 8 st.mem bp) ++
        [word 8 (wsub 8 bp (DSIZE 8))] ++
        efl_slice_acc 8 st1 (PREV_BLKP 8 st1.mem bp) ++
        [word 8 (wsub 8 bp (DSIZE 8)), word 8 (HDRP 8 (PREV_BLKP 8 st2.mem bp)),
          word 8 (HDRP 8 bp), word 8 (HDRP 8 (NEXT_BLKP 8 m3 bp)),
          word 8 (FTRP 8 m3 (NEXT_BLKP 8 m3 bp)), word 8 (wsub 8 bp (DSIZE 8))] ++
        efl_insert_acc 8 { st2 with mem := m4 } bp1)) := by
  unfold coalesce_acc
  refine congrArg (HAppend.hAppend _) ?_
  exact (if_neg (fun h => hp h.1)).trans ((if_neg (fun h => hp h.1)).trans
    (if_neg (fun h => hn h.2)))

/-- Case 4 of `coalesce`, from the boundary tags around `bp` and the two
excisions: the accesses stay inside the heap. -/
theorem coalesce_acc_case4_core {st : State} {bp c ps ns : Nat}
    (t0 : GET 8 st.mem (bp - 8) = PACK c 0) (c8 : c % 8 = 0) (c32 : 32 ≤ c)
    (tp1 : GET 8 st.mem (bp - 16) = PACK ps 0) (tp2 : GET 8 st.mem (bp - ps - 8) = PACK ps 0)
    (ps8 : ps % 8 = 0) (hps : 32 ≤ ps) (hpb : st.heap_listp + 16 + ps ≤ bp)
    (tn : GET 8 st.mem (bp + c - 8) = PACK ns 0) (ns8 : ns % 8 = 0) (hns : 32 ≤ ns)
    (tnf : GET 8 st.mem (bp + c + ns - 16) = PACK ns 0)
    (h8 : 8 < st.heap_listp) (hnb : bp + c + ns ≤ st.mem_brk)
    (hbrk : st.mem_brk ≤ st.mem_max_addr) (hmax : st.mem_max_addr < 2 ^ 64 - 1)
    (st1 : State) (hst1 : st1 = efl_slice 8 st (bp + c))
    (tp1' : GET 8 st1.mem (bp - 16) = PACK ps 0)
    (st2 : State) (hst2 : st2 = efl_slice 8 st1 (bp - ps))
    (s0 : GET 8 st2.mem (bp - 8) = PACK c 0) (sp : GET 8 st2.mem (bp - 16) = PACK ps 0)
    (sn : GET 8 st2.mem (bp + c - 8) = PACK ns 0)
    (hsl1 : ∀ a ∈ efl_slice_acc 8 st (bp + c), InRegion 8 st a)
    (hsl2 : ∀ a ∈ efl_slice_acc 8 st1 (bp - ps), InRegion 8 st a)
    (hhead : st2.ef_listp ≠ NULL → InRegion 8 st (word 8 st2.ef_listp)) :
    ∀ a ∈ coalesce_acc 8 st bp, InRegion 8 st a := by
  obtain ⟨r1, r2, r3, r4, r5, r6, r7, r8, r9, r10, r11⟩ :=
    coalesce_reads t0 c8 tp1 tp2 ps8 (Nat.zero_le 1) (by omega) (by omega) tn ns8
      (Nat.zero_le 1) (by omega) c32
  have eD : wsub 8 bp (DSIZE 8) = bp - 16 := wsub8_dsize (by omega) (by omega)
  have eS1 : wadd 8 ps ns = ps + ns := wadd8_of_lt (by omega)
  have eS : wadd 8 c (ps + ns) = c + (ps + ns) := wadd8_of_lt (by omega)
  have rF : FTRP 8 st.mem (bp + c) = bp + c + ns - 16 :=
    @FTRP_eq _ (bp + c) _ _ tn ns8 (Nat.zero_le 1) (by omega) (by omega) (by omega)
  have rFs : GET_SIZE 8 st.mem (bp + c + ns - 16) = ns := GET_SIZE_of_tag tnf ns8 (Nat.zero_le 1)
  have eP1 : PREV_BLKP 8 st1.mem bp = bp - ps :=
    PREV_BLKP_eq tp1' ps8 (Nat.zero_le 1) (by omega) (by omega) (by omega)
  have eP2 : PREV_BLKP 8 st2.mem bp = bp - ps :=
    PREV_BLKP_eq sp ps8 (Nat.zero_le 1) (by omega) (by omega) (by omega)
  obtain ⟨M3, hM3⟩ : ∃ M3, M3 = PUT 8 st2.mem (bp - ps - 8) (PACK (c + (ps + ns)) 0) := ⟨_, rfl⟩
  have q0 : GET 8 M3 (bp - 8) = PACK c 0 := by
    rw [hM3, GET_PUT_ne _ _ _ _ (by omega)]; exact s0
  have qn : GET 8 M3 (bp + c - 8) = PACK ns 0 := by
    rw [hM3, GET_PUT_ne _ _ _ _ (by omega)]; exact sn
  have eN3 : NEXT_BLKP 8 M3 bp = bp + c :=
    NEXT_BLKP_eq q0 c8 (Nat.zero_le 1) (by omega) (by omega)
  have eF3 : FTRP 8 M3 (bp + c) = bp - ps + (c + (ps + ns)) - 16 := by
    rw [@FTRP_eq _ (bp + c) _ _ qn ns8 (Nat.zero_le 1) (by omega) (by omega) (by omega)]
    omega
  obtain ⟨M4, hM4⟩ : ∃ M4, M4 = PUT 8 M3 (bp - ps + (c + (ps + ns)) - 16)
    (PACK (c + (ps + ns)) 0) := ⟨_, rfl⟩
  have qp : GET 8 M4 (bp - 16) = PACK ps 0 := by
    rw [hM4, hM3, GET_PUT_ne _ _ _ _ (by omega), GET_PUT_ne _ _ _ _ (by omega)]; exact sp
  have eP4 : PREV_BLKP 8 M4 bp = bp - ps :=
    PREV_BLKP_eq qp ps8 (Nat.zero_le 1) (by omega) (by omega) (by omega)
  have hacc : coalesce_acc 8 st bp =
      [word 8 (bp - 16), word 8 (bp - ps - 8), word 8 (bp - 16), word 8 (bp - 8),
        word 8 (bp + c - 8), word 8 (bp - 8)] ++
      ([word 8 (bp - 16), word 8 (bp - ps - 8), word 8 (bp - 8), word 8 (bp + c - 8),
          word 8 (bp + c + ns - 16)] ++ efl_slice_acc 8 st (bp + c) ++
        [word 8 (bp - 16)] ++ efl_slice_acc 8 st1 (bp - ps) ++
        [word 8 (bp - 16), word 8 (bp - ps - 8), word 8 (bp - 8), word 8 (bp + c - 8),
          word 8 (bp - ps + (c + (ps + ns)) - 16), word 8 (bp - 16)] ++
        efl_insert_acc 8 { st2 with mem := M4 } (bp - ps)) := by
    have hc := coalesce_acc_case4_unfold st bp (by rw [r3, r6, r7]; decide)
      (by rw [r8, r9, r11]; decide)
    lift_lets at hc
    extract_lets size st1' st2' m3 m4' bp1 at hc
    have e0 : size = c + (ps + ns) := by
      show wadd 8 (GET_SIZE 8 st.mem (HDRP 8 bp))
        (wadd 8 (GET_SIZE 8 st.mem (HDRP 8 (PREV_BLKP 8 st.mem bp)))
          (GET_SIZE 8 st.mem (FTRP 8 st.mem (NEXT_BLKP 8 st.mem bp)))) = _
      rw [r1, r2, r3, r4, r5, r8, rF, rFs, eS1, eS]
    have e1 : st1' = st1 := by
      rw [hst1]
      show efl_slice 8 st (NEXT_BLKP 8 st.mem bp) = _
      rw [r8]
    have e2 : st2' = st2 := by
      rw [hst2]
      show efl_slice 8 st1' (PREV_BLKP 8 st1'.mem bp) = _
      rw [e1, eP1]
    have e3 : m3 = M3 := by
      rw [hM3]
      show PUT 8 st2'.mem (HDRP 8 (PREV_BLKP 8 st2'.mem bp)) (PACK size 0) = _
      rw [e2, eP2, r4, e0]
    have e4 : m4' = M4 := by
      show PUT 8 m3 (FTRP 8 m3 (NEXT_BLKP 8 m3 bp)) (PACK size 0) = _
      rw [e3, eN3, eF3, e0, hM4]
    have e5 : bp1 = bp - ps := by
      show PREV_BLKP 8 m4' bp = _
      rw [e4, eP4]
    rw [hc, e5, e4, e3, e2, e1, eN3, eF3, eP2, eP1, r3, r4, r6, r1, r8, r9, rF, eD]
  rw [hacc]
  clear hacc t0 tp1 tp2 tn tnf r1 r2 r3 r4 r5 r6 r7 r8 r9 r10 r11 eD eS eS1 rF rFs
    hst1 hst2 tp1' s0 sp sn eP1 eP2 hM3 hM4 q0 qn eN3 eF3 qp eP4
  intro a ha
  rcases List.mem_append.mp ha with ha | ha
  · simp only [List.mem_cons, List.mem_singleton, List.not_mem_nil, or_false] at ha
    rcases ha with rfl | rfl | rfl | rfl | rfl | rfl
    all_goals exact inRegion_word (by omega) (by omega) (by omega)
  rcases List.mem_append.mp ha with ha | ha
  · rcases List.mem_append.mp ha with ha | ha
    · rcases List.mem_append.mp ha with ha | ha
      · rcases List.mem_append.mp ha with ha | ha
        · rcases List.mem_append.mp ha with ha | ha
          · simp only [List.mem_cons, List.mem_singleton, List.not_mem_nil, or_false] at ha
            rcases ha with rfl | rfl | rfl | rfl | rfl
            all_goals exact inRegion_word (by omega) (by omega) (by omega)
          · exact hsl1 a ha
        · simp only [List.mem_cons, List.mem_singleton, List.not_mem_nil, or_false] at ha
          rcases ha with rfl
          exact inRegion_word (by omega) (by omega) (by omega)
      · exact hsl2 a ha
    · simp only [List.mem_cons, List.mem_singleton, List.not_mem_nil, or_false] at ha
      rcases ha with rfl | rfl | rfl | rfl | rfl | rfl
      all_goals exact inRegion_word (by omega) (by omega) (by omega)
  · rcases efl_insert_acc_links _ _ a ha with rfl | rfl | ⟨h0, rfl⟩
    · exact (links_inRegion (x := bp - ps) (by omega) (by omega) hmax).1
    · exact (links_inRegion (x := bp - ps) (by omega) (by omega) hmax).2
    · exact hhead h0

/-- Case 4 of `coalesce`: the accesses stay inside the heap. -/
theorem coalesce_acc_case4 {st : State} {pre' post' : List (Nat × Nat)} {c ps ns : Nat}
    {fl : List Nat} {bp : Nat}
    (F : FreedLayout 8 st (pre' ++ [(ps, 0)]) c ((ns, 0) :: post') fl)
    (hbp : bp = st.heap_listp + 8 + ((pre' ++ [(ps, 0)]).map Prod.fst).sum + 8)
    (h8 : 8 < st.heap_listp)
    (t0 : GET 8 st.mem (bp - 8) = PACK c 0)
    (tp1 : GET 8 st.mem (bp - 16) = PACK ps 0) (tp2 : GET 8 st.mem (bp - ps - 8) = PACK ps 0)
    (ps8 : ps % 8 = 0) (hps : 32 ≤ ps)
    (tn : GET 8 st.mem (bp + c - 8) = PACK ns 0) (ns8 : ns % 8 = 0) (hns : 32 ≤ ns)
    (tnf : GET 8 st.mem (bp + c + ns - 16) = PACK ns 0)
    (hnb : bp + c + ns ≤ st.mem_brk) :
    ∀ a ∈ coalesce_acc 8 st bp, InRegion 8 st a := by
  have hmax := F.limit_lt
  have hbrk := F.brk_le
  have hbase := F.base
  have ⟨c32, c8, hcb⟩ := (F.tags hbp).1.2
  have hblk0 := F.block
  rw [← hbp] at hblk0
  rw [sum_concat] at hbp
  simp only at hbp
  obtain ⟨hnd, hsub, hsep, hlt, hout⟩ := F.list_nodes
  have hperm := F.perm
  rw [freeBlocks_mid_alloc, freeBlocks_append, freeBlocks_cons_free, freeBlocks_nil,
    freeBlocks_cons_free] at hperm
  have eP : st.heap_listp + 8 + (pre'.map Prod.fst).sum + 8 = bp - ps := by omega
  have eN : st.heap_listp + 8 + ((pre' ++ [(ps, 0)]).map Prod.fst).sum + c + 8 = bp + c := by
    rw [sum_concat]; simp only; omega
  rw [eP, eN] at hperm
  have hN : bp + c ∈ fl := hperm.mem_iff.mpr (List.mem_append_right _ (List.mem_cons_self _ _))
  have hPv : bp - ps ∈ fl := hperm.mem_iff.mpr
    (List.mem_append_left _ (List.mem_append_right _ (List.mem_cons_self _ _)))
  obtain ⟨hc1, hf1⟩ := slice_node F.chain hnd hsep hlt hN
  have hK1 : ∀ x ∈ fl.filter (fun x => decide (x ≠ bp + c)), x ∈ fl :=
    fun x hx => List.mem_of_mem_filter hx
  have hPv1 : bp - ps ∈ fl.filter (fun x => decide (x ≠ bp + c)) :=
    List.mem_filter.mpr ⟨hPv, by simp only [decide_eq_true_eq]; omega⟩
  obtain ⟨hc2, hf2⟩ := @slice_node (efl_slice 8 st (bp + c)) _ _ hc1 (hnd.filter _)
    (fun x hx y hy => hsep x (hK1 x hx) y (hK1 y hy)) (fun x hx => hlt x (hK1 x hx)) hPv1
  have hf12 : Frame (LinkByte 8 fl) st.mem
      (efl_slice 8 (efl_slice 8 st (bp + c)) (bp - ps)).mem := by
    refine hf1.trans (hf2.mono ?_)
    rintro a ⟨y, hy, h1, h2⟩
    exact ⟨y, hK1 y hy, h1, h2⟩
  have hblkP : (bp - ps, ps, 0) ∈ blocksFrom 8 (st.heap_listp + 8)
      ((pre' ++ [(ps, 0)]) ++ (c, 0) :: (ns, 0) :: post') := by
    rw [List.append_assoc, ← eP]
    exact mem_blocksFrom_mid _ _ _ _ _
  have hblkN : (bp + c, ns, 0) ∈ blocksFrom 8 (st.heap_listp + 8)
      ((pre' ++ [(ps, 0)]) ++ (c, 0) :: (ns, 0) :: post') := by
    have := mem_blocksFrom_mid (st.heap_listp + 8) ((pre' ++ [(ps, 0)]) ++ [(c, 0)]) post' ns 0
    rw [sum_concat, sum_concat] at this
    simp only [List.append_assoc, List.singleton_append] at this
    have e : st.heap_listp + 8 + ((pre'.map Prod.fst).sum + ps + c) + 8 = bp + c := by omega
    rw [e] at this
    simpa using this
  have e16 : bp - ps + ps - 16 = bp - 16 := by omega
  have tp1' : GET 8 (efl_slice 8 st (bp + c)).mem (bp - 16) = PACK ps 0 := by
    have := (frame_link_tags F.tiles hsub hf1 hblkP).2
    rw [e16] at this
    rw [this]; exact tp1
  have s0 : GET 8 (efl_slice 8 (efl_slice 8 st (bp + c)) (bp - ps)).mem (bp - 8) = PACK c 0 := by
    rw [(frame_link_tags F.tiles hsub hf12 hblk0).1]; exact t0
  have sp : GET 8 (efl_slice 8 (efl_slice 8 st (bp + c)) (bp - ps)).mem (bp - 16)
      = PACK ps 0 := by
    have := (frame_link_tags F.tiles hsub hf12 hblkP).2
    rw [e16] at this
    rw [this]; exact tp1
  have sn : GET 8 (efl_slice 8 (efl_slice 8 st (bp + c)) (bp - ps)).mem (bp + c - 8)
      = PACK ns 0 := by
    rw [(frame_link_tags F.tiles hsub hf12 hblkN).1]; exact tn
  have hsl2 : ∀ a ∈ efl_slice_acc 8 (efl_slice 8 st (bp + c)) (bp - ps), InRegion 8 st a := by
    intro a ha
    obtain ⟨x, hx, hax⟩ := @efl_slice_acc_links (efl_slice 8 st (bp + c)) _ _ hPv1
      (hc1.pred_mem hPv1) (hc1.succ_mem hPv1) a ha
    rcases hax with rfl | rfl
    · exact (F.node_links (hK1 x hx)).1
    · exact (F.node_links (hK1 x hx)).2
  exact coalesce_acc_case4_core t0 c8 c32 tp1 tp2 ps8 hps (by omega) tn ns8 hns tnf h8 hnb hbrk
    hmax _ rfl tp1' _ rfl s0 sp sn (F.slice_acc hN) hsl2
    (fun h0 => (F.node_links (hK1 _ (List.mem_of_mem_filter (hc2.head_mem.resolve_left h0)))).1)

/-- On a heap before coalescing, whose prologue header does not lie at address
0, the accesses of `coalesce(bp)` stay inside the heap, in each of the four
cases. -/
theorem coalesce_acc_inRegion {st : State} {pre post : List (Nat × Nat)} {c : Nat}
    {fl : List Nat} {bp : Nat} (F : FreedLayout 8 st pre c post fl)
    (hbp : bp = st.heap_listp + 8 + (pre.map Prod.fst).sum + 8) (h8 : 8 < st.heap_listp) :
    ∀ a ∈ coalesce_acc 8 st bp, InRegion 8 st a := by
  obtain ⟨⟨t0, c32, c8, hcb⟩, ⟨ps, pal, tp1, tp2, ps8, hps, hpb, hprev⟩,
    ⟨ns, nal, tn, ns8, hnb, hnext⟩⟩ := F.neighbours hbp
  rcases hprev with ⟨rfl, hpf, hPl⟩ | ⟨rfl, ps32, hpf, pre', rfl⟩
  · rcases hnext with ⟨rfl, hnf, hQh⟩ | ⟨rfl, ns32, hnf, tnf, post', rfl⟩
    · exact coalesce_acc_case1 F hbp h8 t0 tp1 tp2 ps8 hps hpb tn ns8 hnb
    · exact coalesce_acc_case2 F hbp h8 t0 tp1 tp2 ps8 hps hpb tn ns8 hnb
  · rcases hnext with ⟨rfl, hnf, hQh⟩ | ⟨rfl, ns32, hnf, tnf, post', rfl⟩
    · exact coalesce_acc_case3 F hbp h8 t0 tp1 tp2 ps8 ps32 tn ns8 hnb
    · exact coalesce_acc_case4 F hbp h8 t0 tp1 tp2 ps8 ps32 tn ns8 ns32 tnf hnb

/-- When `mem_sbrk` fails `extend_heap` accesses no memory. -/
theorem extend_heap_acc_fail (st : State) (words : Nat) (h : (words + 1) * 8 < 2 ^ 64)
    (hfail : st.mem_brk + (words + words % 2) * 8 > st.mem_max_addr) :
    extend_heap_acc 8 st words = [] := by
  unfold extend_heap_acc
  simp only [extend_heap_size words h]
  unfold mem_sbrk
  simp only [if_pos hfail, if_true]

/-- When `mem_sbrk` succeeds `extend_heap` accesses the tags of the new block,
the new epilogue header and what `coalesce` accesses. -/
theorem extend_heap_acc_ok (st : State) (words : Nat) (h : (words + 1) * 8 < 2 ^ 64)
    (hw : 2 ≤ words) (hB : 8 ≤ st.mem_brk)
    (hok : st.mem_brk + (words + words % 2) * 8 ≤ st.mem_max_addr)
    (hmax : st.mem_max_addr < 2 ^ 64 - 1) :
    extend_heap_acc 8 st words =
      [word 8 (st.mem_brk - 8), word 8 (st.mem_brk - 8),
        word 8 (st.mem_brk + (words + words % 2) * 8 - 16), word 8 (st.mem_brk - 8),
        word 8 (st.mem_brk + (words + words % 2) * 8 - 8)] ++
      coalesce_acc 8 { st with
        extendorfree := 1, sbrk_calls := st.sbrk_calls + 1,
        mem_brk := st.mem_brk + (words + words % 2) * 8,
        mem := PUT 8 (PUT 8 (PUT 8 st.mem (st.mem_brk - 8) (PACK ((words + words % 2) * 8) 0))
          (st.mem_brk + (words + words % 2) * 8 - 16) (PACK ((words + words % 2) * 8) 0))
          (st.mem_brk + (words + words % 2) * 8 - 8) (PACK 0 1) } st.mem_brk := by
  obtain ⟨sz, hsz⟩ : ∃ sz, sz = (words + words % 2) * 8 := ⟨_, rfl⟩
  have h8 : sz % 8 = 0 := by omega
  have h16 : 16 ≤ sz := by omega
  have hlt : st.mem_brk + sz < 2 ^ 64 := by omega
  have hp : PACK sz 0 < 2 ^ 64 := PACK_lt h8 (by omega) (by omega)
  have e1 : HDRP 8 st.mem_brk = st.mem_brk - 8 := HDRP_eq hB (by omega)
  have g1 : GET 8 (PUT 8 st.mem (st.mem_brk - 8) (PACK sz 0)) (st.mem_brk - 8) = PACK sz 0 :=
    GET_PUT_eq _ _ _ hp
  have e2 : FTRP 8 (PUT 8 st.mem (st.mem_brk - 8) (PACK sz 0)) st.mem_brk
      = st.mem_brk + sz - 16 := FTRP_eq g1 h8 (by omega) hB hlt (by omega)
  have g2 : GET 8 (PUT 8 (PUT 8 st.mem (st.mem_brk - 8) (PACK sz 0)) (st.mem_brk + sz - 16)
      (PACK sz 0)) (st.mem_brk - 8) = PACK sz 0 := by
    rw [GET_PUT_ne _ _ _ _ (by omega)]; exact g1
  have e3 : NEXT_BLKP 8 (PUT 8 (PUT 8 st.mem (st.mem_brk - 8) (PACK sz 0))
      (st.mem_brk + sz - 16) (PACK sz 0)) st.mem_brk = st.mem_brk + sz :=
    NEXT_BLKP_eq g2 h8 (by omega) hB hlt
  have e4 : HDRP 8 (st.mem_brk + sz) = st.mem_brk + sz - 8 := HDRP_eq (by omega) hlt
  have hne : ¬ st.mem_brk = WMOD 8 - 1 := by rw [WMOD_eight]; omega
  have hok' : ¬ st.mem_brk + sz > st.mem_max_addr := by omega
  clear g1 g2
  unfold extend_heap_acc
  simp only [extend_heap_size words h]
  unfold mem_sbrk
  rw [← hsz]
  simp only [if_neg hok', if_neg hne, e1, e2, e3, e4]

/-- On a well-formed heap whose prologue header does not lie at address 0 the
accesses of `extend_heap(words)` stay inside the heap. -/
theorem extend_heap_acc_inRegion {st : State} {bs : List (Nat × Nat)} {fl : List Nat}
    (h : HeapLayout 8 st bs fl) (h8 : 8 < st.heap_listp) (words : Nat)
    (hw : (words + 1) * 8 < 2 ^ 64) (h4 : 4 ≤ words) :
    ∀ a ∈ extend_heap_acc 8 st words, InRegion 8 st a := by
  have hbg := h.brk_ge
  have hbase := h.base
  have hmax := h.max_lt'
  by_cases hok : st.mem_brk + (words + words % 2) * 8 ≤ st.mem_max_addr
  · rw [extend_heap_acc_ok st words hw (by omega) (by omega) hok hmax]
    obtain ⟨F, hbp⟩ := @extend_freed _
      { st with
          extendorfree := 1, sbrk_calls := st.sbrk_calls + 1,
          mem_brk := st.mem_brk + (words + words % 2) * 8,
          mem := PUT 8 (PUT 8 (PUT 8 st.mem (st.mem_brk - 8) (PACK ((words + words % 2) * 8) 0))
            (st.mem_brk + (words + words % 2) * 8 - 16) (PACK ((words + words % 2) * 8) 0))
            (st.mem_brk + (words + words % 2) * 8 - 8) (PACK 0 1) }
      _ _ ((words + words % 2) * 8) h (by omega) (by omega) hok rfl rfl rfl rfl rfl
    have hco := coalesce_acc_inRegion F hbp h8
    clear F hbp
    intro a ha
    rcases List.mem_append.mp ha with ha | ha
    · simp only [List.mem_cons, List.mem_singleton, List.not_mem_nil, or_false] at ha
      rcases ha with rfl | rfl | rfl | rfl | rfl
      all_goals exact inRegion_word (by omega) (by omega) (by omega)
    · exact (hco a ha).of_same_region rfl rfl
  · rw [extend_heap_acc_fail st words hw (by omega)]
    intro a ha
    cases ha

theorem extend_heap_max_addr (st : State) (words : Nat) :
    (extend_heap 8 st words).1.mem_max_addr = st.mem_max_addr := by
  unfold extend_heap mem_sbrk
  dsimp only
  generalize (if words % 2 ≠ 0 then wmul 8 (wadd 8 words 1) (WSIZE 8)
    else wmul 8 words (WSIZE 8)) = sz
  by_cases hfail : st.mem_brk + sz > st.mem_max_addr
  · simp [if_pos hfail]
  · simp only [if_neg hfail]
    split_ifs
    · rfl
    · rw [(coalesce_aux 8 _ _).mem_max_addr]

/-- On a well-formed heap whose prologue header does not lie at address 0, no
access of `mm_malloc(size)` faults, for every request of at most `2^64 - 32`
bytes and whatever the outcome of `mem_sbrk`. -/
theorem mm_malloc_no_fault {st : State} {bs : List (Nat × Nat)} {fl : List Nat}
    (h : HeapLayout 8 st bs fl) (h8 : 8 < st.heap_listp) (fuel size : Nat)
    (hsz : size + 32 ≤ 2 ^ 64) : ¬ Faults 8 st (mm_malloc_acc 8 fuel st size) := by
  rintro ⟨a, ha, hna⟩
  refine hna ?_
  clear hna
  unfold mm_malloc_acc at ha
  by_cases h0 : size = 0
  · rw [if_pos h0] at ha
    cases ha
  rw [if_neg h0] at ha
  dsimp only at ha
  rcases List.mem_append.mp ha with ha | ha
  · exact find_fit_acc_inRegion h fuel _ a ha
  obtain ⟨a32, a8, acap, alt⟩ := asize_facts hsz
  cases hff : find_fit 8 fuel st (malloc_asize 8 size) with
  | none =>
    rw [hff] at ha
    cases ha
  | some r =>
    obtain ⟨st1, bp⟩ := r
    rw [hff] at ha
    dsimp only at ha
    obtain ⟨e1, e2, e3, e4, e5, hfit⟩ := find_fit_some h.chain hff
    have h1 : HeapLayout 8 st1 bs fl := h.congr e1 e2 e3 e4 e5
    have h81 : 8 < st1.heap_listp := by rw [e4]; exact h8
    by_cases hb : bp = NULL
    · rw [if_neg (not_not.mpr hb)] at ha
      have hW : WSIZE 8 = 8 := rfl
      rw [hW] at ha
      obtain ⟨m1, m2, m3⟩ := MAX_chunk _ a8 alt
      rcases List.mem_append.mp ha with ha | ha
      · exact (extend_heap_acc_inRegion h1 h81 _ m3 m2 a ha).of_same_region e4.symm e3.symm
      · by_cases he : (extend_heap 8 st1 (MAX (malloc_asize 8 size) CHUNKSIZE / 8)).2 = NULL
        · rw [if_pos he] at ha
          cases ha
        · rw [if_neg he] at ha
          by_cases hok : st1.mem_brk + (MAX (malloc_asize 8 size) CHUNKSIZE / 8 +
              MAX (malloc_asize 8 size) CHUNKSIZE / 8 % 2) * 8 ≤ st1.mem_max_addr
          · obtain ⟨bs1, fl1, T, hl1, ehl, hin, hblk, hT, hkeep1⟩ :=
              extend_heap_layout h1 _ m3 m2 hok
            rw [← ehl] at hblk
            exact (place_acc_inRegion hl1 hblk a32 a8 (by omega) a ha).of_same_region
              (by rw [ehl, e4]) (by rw [extend_heap_max_addr, e3])
          · rw [extend_heap_fail st1 _ m3 (by omega)] at he
            exact absurd rfl he
    · rw [if_pos hb] at ha
      obtain ⟨hin, hle⟩ := hfit hb
      obtain ⟨c, hc⟩ := h1.mem_fl.mp hin
      have hcm := (h1.block_macros hc).2.2.2.1
      rw [← e1, hcm] at hle
      exact (place_acc_inRegion h1 hc a32 a8 hle a ha).of_same_region e4.symm e3.symm

/-- On a well-formed heap whose prologue header does not lie at address 0, no
access of `mm_free(bp)` for a live block `bp` faults. -/
theorem mm_free_no_fault {st : State} {bs : List (Nat × Nat)} {fl : List Nat} {bp c : Nat}
    (h : HeapLayout 8 st bs fl) (h8 : 8 < st.heap_listp)
    (hlive : (bp, c, 1) ∈ blocksFrom 8 (st.heap_listp + 8) bs) :
    ¬ Faults 8 st (mm_free_acc 8 st bp) := by
  obtain ⟨pre, post, hbs, hbp⟩ := blocksFrom_split hlive
  subst hbs
  obtain ⟨g1, _, c32, c8, _, hge, hend, _⟩ := Tiles_block h.tiles hlive
  have hmax := h.max_lt'
  have hbrk := h.brk_le
  have hbg := h.brk_ge
  have k1 : 16 ≤ bp := by omega
  have k2 : bp + c < 2 ^ 64 := by omega
  have k3 : st.heap_listp + 16 ≤ bp := by omega
  have k4 : bp + c ≤ st.mem_max_addr := by omega
  clear hge hend
  have eC := GET_SIZE_of_tag g1 c8 (le_refl 1)
  clear g1
  have eF := (retag_block st.mem bp c 0 c8 (Nat.zero_le 1) (by omega) (by omega) k2).1
  have eH : HDRP 8 bp = bp - 8 := HDRP_eq (by omega) (by omega)
  obtain ⟨m2, hm2⟩ : ∃ m2, m2 = PUT 8 (PUT 8 st.mem (bp - 8) (PACK c 0)) (bp + c - 16)
    (PACK c 0) := ⟨_, rfl⟩
  have hn : bp ≠ NULL := by unfold NULL; omega
  have hacc : mm_free_acc 8 st bp =
      [word 8 (bp - 8), word 8 (bp - 8), word 8 (bp - 8), word 8 (bp + c - 16)] ++
        coalesce_acc 8 { st with extendorfree := 1, mem := m2 } bp := by
    unfold mm_free_acc
    rw [if_neg hn, hm2, ← eF, ← eC, ← eH]
  have F := @free_retag_layout _ { st with extendorfree := 1, mem := m2 } _ _ _ _ _ h hbp hm2 rfl
    rfl rfl rfl
  have hco := coalesce_acc_inRegion F hbp h8
  rw [hacc]
  clear hacc F hbp eC eF eH hm2
  rintro ⟨a, ha, hna⟩
  refine hna ?_
  rcases List.mem_append.mp ha with ha | ha
  · simp only [List.mem_cons, List.mem_singleton, List.not_mem_nil, or_false] at ha
    rcases ha with rfl | rfl | rfl | rfl
    all_goals exact inRegion_word (by omega) (by omega) (by omega)
  · exact (hco a ha).of_same_region rfl rfl

/-- The limit of memlib is not changed by `mm_malloc`. -/
theorem mm_malloc_max_addr {fuel : Nat} {st st' : State} {size p : Nat}
    (hr : mm_malloc 8 fuel st size = some (st', p)) : st'.mem_max_addr = st.mem_max_addr := by
  rcases mm_malloc_cases hr with ⟨_, rfl, _⟩ | ⟨_, st1, bp, hff, hcase⟩
  · rfl
  · have e3 : st1.mem_max_addr = st.mem_max_addr := by
      unfold find_fit at hff
      split_ifs at hff
      · cases Option.some.inj hff
        rfl
      · cases hl : find_fit_loop 8 st.mem (malloc_asize 8 size) fuel st.ef_listp with
        | none => rw [hl] at hff; cases hff
        | some b =>
          rw [hl] at hff
          dsimp only at hff
          split_ifs at hff <;> cases Option.some.inj hff <;> rfl
    rcases hcase with ⟨_, rfl, _⟩ | ⟨_, _, rfl, _⟩ | ⟨_, _, rfl, _⟩
    · rw [(place_aux 8 _ _ _).mem_max_addr, e3]
    · rw [extend_heap_max_addr, e3]
    · rw [(place_aux 8 _ _ _).mem_max_addr, extend_heap_max_addr, e3]

/-- On a well-formed heap whose prologue header does not lie at address 0, no
access of `mm_realloc(ptr, size)` faults, for a live block `ptr` and every
request of at most `2^64 - 32` bytes; the copy to a new block reads the old
block up to the header of the block after it. -/
theorem mm_realloc_no_fault {st : State} {bs : List (Nat × Nat)} {fl : List Nat}
    {fuel ptr size c : Nat} (h : HeapLayout 8 st bs fl) (h8 : 8 < st.heap_listp)
    (hc : (ptr, c, 1) ∈ blocksFrom 8 (st.heap_listp + 8) bs) (hsz : size + 32 ≤ 2 ^ 64) :
    ¬ Faults 8 st (mm_realloc_acc 8 fuel st ptr size) := by
  by_cases hs : size = 0
  · unfold mm_realloc_acc
    rw [if_pos hs]
    exact mm_free_no_fault h h8 hc
  obtain ⟨_, _, c32, c8, _, hge, hend, _⟩ := Tiles_block h.tiles hc
  have hmax := h.max_lt'
  have hbrk := h.brk_le
  have hbg := h.brk_ge
  have k1 : st.heap_listp + 16 ≤ ptr := by omega
  have k2 : ptr + c ≤ st.mem_brk := by omega
  clear hge hend
  have hpn : ptr ≠ NULL := by unfold NULL; omega
  have eN := (h.block_macros hc).2.2.1
  have eC := (h.block_macros hc).2.2.2.1
  have eH : HDRP 8 ptr = ptr - 8 := HDRP_eq (by omega) (by omega)
  have eH2 : HDRP 8 (ptr + c) = ptr + c - 8 := HDRP_eq (by omega) (by omega)
  obtain ⟨a32, a8, acap, alt⟩ := asize_facts hsz
  rw [malloc_asize_eq_realloc_asize] at a32 a8 acap alt
  rintro ⟨a, ha, hna⟩
  refine hna ?_
  clear hna
  unfold mm_realloc_acc at ha
  rw [if_neg hs, if_neg hpn] at ha
  dsimp only at ha
  rw [eN, eH2] at ha
  rcases List.mem_cons.mp ha with rfl | ha
  · rw [eH]
    exact inRegion_word (by omega) (by omega) (by omega)
  by_cases h1 : GET_SIZE 8 st.mem (HDRP 8 ptr) > realloc_asize 8 size
  · rw [if_pos h1] at ha
    cases ha
  rw [if_neg h1] at ha
  rcases List.mem_append.mp ha with ha | ha
  · simp only [List.mem_cons, List.mem_singleton, List.not_mem_nil, or_false] at ha
    rcases ha with rfl | rfl
    · rw [eH]
      exact inRegion_word (by omega) (by omega) (by omega)
    · exact inRegion_word (by omega) (by omega) (by omega)
  by_cases h2 : GET_ALLOC 8 st.mem (ptr + c - 8) = 0 ∧
      wadd 8 (GET_SIZE 8 st.mem (HDRP 8 ptr)) (GET_SIZE 8 st.mem (ptr + c - 8)) >
        realloc_asize 8 size
  · -- growth in place
    rw [if_pos h2] at ha
    obtain ⟨pre, post, hbs, hbp⟩ := blocksFrom_split hc
    subst hbs
    rcases h.next_tag hbp with ⟨_, tn⟩ | ⟨n, al', post', rfl, tn, n8, hal, n32, hnb⟩
    · rw [GET_ALLOC_of_tag tn (by decide) (le_refl 1)] at h2
      exact absurd h2.1 Nat.one_ne_zero
    · rw [GET_ALLOC_of_tag tn n8 hal] at h2
      rw [eC, GET_SIZE_of_tag tn n8 hal, wadd8_of_lt (by omega), eH] at ha
      obtain ⟨rfl, _⟩ := h2
      clear tn eC
      have hb2 : (ptr + c, n, 0) ∈ blocksFrom 8 (st.heap_listp + 8)
          (pre ++ (c, 1) :: (n, 0) :: post') := by
        have := mem_blocksFrom_mid (st.heap_listp + 8) (pre ++ [(c, 1)]) post' n 0
        rw [sum_concat] at this
        simp only [List.append_assoc, List.singleton_append] at this
        have e : st.heap_listp + 8 + ((pre.map Prod.fst).sum + c) + 8 = ptr + c := by omega
        rw [e] at this
        exact this
      have hN : ptr + c ∈ fl := h.mem_fl.mpr ⟨n, hb2⟩
      have eF := (retag_block (efl_slice 8 st (ptr + c)).mem ptr (c + n) 1 (by omega)
        (le_refl 1) (by omega) (by omega) (by omega)).1
      rw [eF] at ha
      clear eF hb2 hbp
      rcases List.mem_append.mp ha with ha | ha
      · obtain ⟨x, hx, hax⟩ := efl_slice_acc_links hN (h.chain.pred_mem hN)
          (h.chain.succ_mem hN) a ha
        rcases hax with rfl | rfl
        · exact (links_inRegion (h.node_bounds hx).1 (h.node_bounds hx).2 hmax).1
        · exact (links_inRegion (h.node_bounds hx).1 (h.node_bounds hx).2 hmax).2
      · simp only [List.mem_cons, List.mem_singleton, List.not_mem_nil, or_false] at ha
        rcases ha with rfl | rfl | rfl
        all_goals exact inRegion_word (by omega) (by omega) (by omega)
  · -- a new block
    rw [if_neg h2] at ha
    rcases List.mem_append.mp ha with ha | ha
    · by_contra hcon
      exact mm_malloc_no_fault h h8 fuel size hsz ⟨a, ha, hcon⟩
    cases hm : mm_malloc 8 fuel st size with
    | none =>
      rw [hm] at ha
      cases ha
    | some r =>
      obtain ⟨st1, newptr⟩ := r
      rw [hm] at ha
      dsimp only at ha
      by_cases hn : newptr = NULL
      · rw [if_pos hn] at ha
        cases ha
      · rw [if_neg hn] at ha
        obtain ⟨bs1, fl1, hl1, e1, hkeep1, hq1⟩ := mm_malloc_layout h hsz hm
        have e3 := mm_malloc_max_addr hm
        obtain ⟨t, ht, hcap⟩ := hq1 hn
        have hc1 := (hkeep1 _ hc rfl).1
        rw [← e1] at ht hc1
        obtain ⟨_, _, _, _, _, tge, tend, _⟩ := Tiles_block hl1.tiles ht
        have hbrk1 := hl1.brk_le
        have hbg1 := hl1.brk_ge
        have j1 : st.heap_listp + 16 ≤ newptr := by omega
        have j2 : newptr + t ≤ st.mem_max_addr := by omega
        clear tge tend
        rw [eC] at ha
        rcases List.mem_append.mp ha with ha | ha
        · clear eC eN hl1 ht hc1 hkeep1 hq1 hm
          have hlen : (if size < c then size else c) ≤ c ∧ (if size < c then size else c) ≤ size := by
            split_ifs <;> omega
          generalize (if size < c then size else c) = len at ha hlen
          by_cases hz : len = 0
          · rw [if_pos hz] at ha
            cases ha
          · rw [if_neg hz] at ha
            simp only [List.mem_cons, List.mem_singleton, List.not_mem_nil, or_false] at ha
            rcases ha with rfl | rfl
            · exact ⟨hpn, by show st.heap_listp - 8 ≤ ptr; omega,
                by show ptr + len ≤ st.mem_max_addr; omega⟩
            · exact ⟨hn, by show st.heap_listp - 8 ≤ newptr; omega,
                by show newptr + len ≤ st.mem_max_addr; omega⟩
        · have hfr : Frame (fun a => newptr ≤ a ∧ a < newptr + t - 16) st1.mem
              (memcpy st1.mem newptr ptr (if size < c then size else c)) := by
            refine (memcpy_frame _ _ _ _).mono (fun a ha => ⟨ha.1, ?_⟩)
            have := ha.2
            split_ifs at this <;> omega
          have hl2 := payload_write_layout hl1 ht hfr
          have h81 : 8 < st1.heap_listp := by rw [e1]; exact h8
          by_contra hcon
          exact @mm_free_no_fault { st1 with
              mem := memcpy st1.mem newptr ptr (if size < c then size else c) } _ _ _ _
            hl2 h81 hc1 ⟨a, ha, fun hin => hcon (hin.of_same_region e1.symm e3.symm)⟩

/-- Runs within the caller contract do not fault: in a state reached by such a
run, on a heap that does not begin at address 0, no access of the next call of
`mm_malloc` or `mm_realloc` with a size of at most `2^64 - 32` bytes, or of
`mm_free`, with a pointer that is `NULL` or live, lies outside the memory
obtained from memlib.  On these calls the total memory of the embedding gives
the results of the compiled code. -/
theorem Run.no_fault {st : State} {L : List Nat} (h : Run 8 st L) (h8 : 8 < st.heap_listp) :
    (∀ fuel size, size + 32 ≤ 2 ^ 64 → ¬ Faults 8 st (mm_malloc_acc 8 fuel st size)) ∧
    (∀ bp, bp = NULL ∨ bp ∈ L → ¬ Faults 8 st (mm_free_acc 8 st bp)) ∧
    (∀ fuel ptr size, ptr = NULL ∨ ptr ∈ L → size + 32 ≤ 2 ^ 64 →
      ¬ Faults 8 st (mm_realloc_acc 8 fuel st ptr size)) := by
  obtain ⟨bs, fl, hl, _, hlive⟩ := h.layout
  have hfree : ∀ bp, bp = NULL ∨ bp ∈ L → ¬ Faults 8 st (mm_free_acc 8 st bp) := by
    rintro bp (rfl | hbp)
    · unfold mm_free_acc
      rw [if_pos rfl]
      exact not_faults_nil 8 st
    · obtain ⟨s, hs⟩ := hlive bp hbp
      exact mm_free_no_fault hl h8 hs
  refine ⟨fun fuel size hsz => mm_malloc_no_fault hl h8 fuel size hsz, hfree, ?_⟩
  rintro fuel ptr size (rfl | hp) hsz
  · unfold mm_realloc_acc
    by_cases hs : size = 0
    · rw [if_pos hs]
      exact hfree NULL (Or.inl rfl)
    · rw [if_neg hs, if_pos rfl]
      exact mm_malloc_no_fault hl h8 fuel size hsz
  · obtain ⟨s, hs⟩ := hlive ptr hp
    exact mm_realloc_no_fault hl h8 hs hsz

/-! ## `NULL` results of `mm_malloc` and `mm_realloc` -/

/-- C7: on a well-formed heap `mm_malloc(size)` returns in the embedding, for
every size and with fuel for the walk of the free list.  Whenever the call of
the compiled code returns, that is, none of its accesses faults, it returns
`NULL` if and only if `size = 0` or `mem_sbrk` was invoked by this call and
reported failure, and whenever it returns `NULL`, memory (every block header,
footer and payload and the free-list links), the free-list head and the extent
of the heap are as before the call.  For `size = 0` and after a failed
`mem_sbrk` the call returns `NULL` and none of its accesses faults.  For every
size of at most `2^64 - 32` bytes, on a heap that does not begin at address 0,
none of the accesses of the call faults, so that the equivalence holds as the
claim states it. -/
theorem C7_malloc_null_iff (st : State) (bs : List (Nat × Nat)) (fl : List Nat)
    (fuel size : Nat) (hwf : HeapLayout 8 st bs fl) (hfuel : fl.length < fuel) :
    ∃ st' r, mm_malloc 8 fuel st size = some (st', r) ∧
      (¬ Faults 8 st (mm_malloc_acc 8 fuel st size) →
        (r = NULL ↔ size = 0 ∨
          (st'.sbrk_calls = st.sbrk_calls + 1 ∧ st'.sbrk_fails = st.sbrk_fails + 1)) ∧
        (r = NULL → st'.mem = st.mem ∧ st'.ef_listp = st.ef_listp ∧
          st'.mem_brk = st.mem_brk ∧ st'.heap_listp = st.heap_listp)) ∧
      (size = 0 ∨ (st'.sbrk_calls = st.sbrk_calls + 1 ∧ st'.sbrk_fails = st.sbrk_fails + 1) →
        r = NULL ∧ ¬ Faults 8 st (mm_malloc_acc 8 fuel st size)) ∧
      (size + 32 ≤ 2 ^ 64 → 8 < st.heap_listp →
        ¬ Faults 8 st (mm_malloc_acc 8 fuel st size)) := by
  obtain ⟨st', r, h1, h2, h3⟩ := mm_malloc_null_checked st bs fl fuel size hwf hfuel
  exact ⟨st', r, h1, h2, h3, fun hsz h8 => mm_malloc_no_fault hwf h8 fuel size hsz⟩

theorem C7_malloc_null_iff_witness :
    ∃ st' r, mm_malloc 8 4 heap_full_p 40000 = some (st', r) ∧
      (¬ Faults 8 heap_full_p (mm_malloc_acc 8 4 heap_full_p 40000) →
        (r = NULL ↔ 40000 = 0 ∨
          (st'.sbrk_calls = heap_full_p.sbrk_calls + 1 ∧
            st'.sbrk_fails = heap_full_p.sbrk_fails + 1)) ∧
        (r = NULL → st'.mem = heap_full_p.mem ∧ st'.ef_listp = heap_full_p.ef_listp ∧
          st'.mem_brk = heap_full_p.mem_brk ∧ st'.heap_listp = heap_full_p.heap_listp)) ∧
      (40000 = 0 ∨ (st'.sbrk_calls = heap_full_p.sbrk_calls + 1 ∧
          st'.sbrk_fails = heap_full_p.sbrk_fails + 1) →
        r = NULL ∧ ¬ Faults 8 heap_full_p (mm_malloc_acc 8 4 heap_full_p 40000)) ∧
      (40000 + 32 ≤ 2 ^ 64 → 8 < heap_full_p.heap_listp →
        ¬ Faults 8 heap_full_p (mm_malloc_acc 8 4 heap_full_p 40000)) :=
  C7_malloc_null_iff heap_full_p [(32, 1), (32736, 0)] [4152] 4 40000
    (by constructor <;> decide!) (by decide)

/-- C6: for every live block `ptr` of a well-formed heap and every size `> 0`
(with fuel for the walk of the free list), if the result of
`mm_realloc(ptr, size)` is `NULL`, then, whenever the call of the compiled
code returns, that is, none of its accesses faults, memory is unchanged, so
the payload bytes of the block are unchanged and its header and footer still
encode the same size with the allocated bit set, and the free list is the
same list, of which `ptr` is not a member.  For every size of at most
`2^64 - 32` bytes, on a heap that does not begin at address 0, none of the
accesses of the call faults, so that the claim holds as stated. -/
theorem C6_realloc_null_keeps_block (st : State) (bs : List (Nat × Nat)) (fl : List Nat)
    (fuel ptr size s : Nat) (hwf : HeapLayout 8 st bs fl)
    (hfuel : fl.length < fuel)
    (hlive : (ptr, s, 1) ∈ blocksFrom 8 (st.heap_listp + 8) bs) (hs : 0 < size)
    (hnull : (mm_realloc 8 fuel st ptr size).map Prod.snd = some NULL) :
    ∃ st', mm_realloc 8 fuel st ptr size = some (st', NULL) ∧
      (¬ Faults 8 st (mm_realloc_acc 8 fuel st ptr size) →
        (∀ a, st'.mem a = st.mem a) ∧
        GET 8 st'.mem (HDRP 8 ptr) = PACK s 1 ∧
        GET 8 st'.mem (FTRP 8 st'.mem ptr) = PACK s 1 ∧
        FreeChain 8 st'.mem NULL st'.ef_listp fl ∧ ptr ∉ fl) ∧
      (size + 32 ≤ 2 ^ 64 → 8 < st.heap_listp →
        ¬ Faults 8 st (mm_realloc_acc 8 fuel st ptr size)) := by
  have hblk := Tiles_block hwf.tiles hlive
  have hmax := hwf.max_lt'
  have hbrk := hwf.brk_le
  have hptr : ptr ≠ NULL := by unfold NULL; omega
  have hnotfl : ptr ∉ fl := by
    intro hin
    obtain ⟨s', hs'⟩ := hwf.mem_fl.mp hin
    rcases Tiles_disjoint hwf.tiles hlive hs' with heq | hd | hd
    · cases heq
    · dsimp only at hd; omega
    · have := Tiles_block hwf.tiles hs'
      dsimp only at hd; omega
  obtain ⟨r, hr, hr2⟩ := Option.map_eq_some'.mp hnull
  obtain ⟨st', p⟩ := r
  simp only at hr2
  subst hr2
  refine ⟨st', hr, fun hok => ?_,
    fun hsz h8 => mm_realloc_no_fault hwf h8 hlive hsz⟩
  obtain ⟨hm, hsub⟩ := mm_realloc_null_path (by omega) hptr hr
  obtain ⟨st1, r1, hm1, hchk, _⟩ := mm_malloc_null_checked st bs fl fuel size hwf hfuel
  rw [hm] at hm1
  obtain ⟨rfl, rfl⟩ := Prod.mk.inj (Option.some.inj hm1)
  have hok1 : ¬ Faults 8 st (mm_malloc_acc 8 fuel st size) := by
    rintro ⟨a, ha, hna⟩
    exact hok ⟨a, hsub a ha, hna⟩
  obtain ⟨q1, q2, _, _⟩ := (hchk hok1).2 rfl
  have e1 : HDRP 8 ptr = ptr - 8 := HDRP_eq (by omega) (by omega)
  have e2 : FTRP 8 st.mem ptr = ptr + s - 16 :=
    FTRP_eq hblk.1 hblk.2.2.2.1 hblk.2.2.2.2.1 (by omega) (by omega) (by omega)
  rw [q1, q2, e1, e2]
  exact ⟨fun _ => rfl, hblk.1, hblk.2.1, hwf.chain, hnotfl⟩

theorem C6_realloc_null_keeps_block_witness :
    ∃ st', mm_realloc 8 4 heap_full_p 4120 40000 = some (st', NULL) ∧
      (¬ Faults 8 heap_full_p (mm_realloc_acc 8 4 heap_full_p 4120 40000) →
        (∀ a, st'.mem a = heap_full_p.mem a) ∧
        GET 8 st'.mem (HDRP 8 4120) = PACK 32 1 ∧
        GET 8 st'.mem (FTRP 8 st'.mem 4120) = PACK 32 1 ∧
        FreeChain 8 st'.mem NULL st'.ef_listp [4152] ∧ 4120 ∉ [4152]) ∧
      (40000 + 32 ≤ 2 ^ 64 → 8 < heap_full_p.heap_listp →
        ¬ Faults 8 heap_full_p (mm_realloc_acc 8 4 heap_full_p 4120 40000)) :=
  C6_realloc_null_keeps_block heap_full_p [(32, 1), (32736, 0)] [4152] 4 4120 40000 32
    (by constructor <;> decide!) (by decide) (by decide!) (by decide) (by decide!)

end MyMalloc
